import Mathlib

/-!
# ODQ: a shallow embedding of the engine in `ODQ2.c`

The development follows the C source function by function (`ODQ.c` holds the same
code for the functions embedded here).

* A C string is the list of its bytes before the terminating NUL, each byte a
  natural number (`unsigned char`); string literals of the source are written
  `cstr "..."`.
* A pointer that may be `NULL` is an `Option`, or the `null` constructor of the
  tree type.  A function that would dereference `NULL` returns `none`.
* `int` values are integers; where the width matters they are wrapped to 32 bits
  explicitly (`wrap32`).  Sizes and byte order are those of x86-64 Linux:
  `sizeof(int) = 4`, `sizeof(bool) = 1`, little endian.
* The functions of the C library (`strcmp`, `strtok`, `sscanf`, `atoi`, `printf`, ...)
  are modelled from the C standard for the calls the source makes.
* The fixed buffers of the source are not bounded in the model; the theorems that
  depend on it carry the bound as a hypothesis.

The definitions come first, the theorems after them.
-/

namespace ODQ

/-! ## C strings -/

/-- The bytes of a string literal of the source. -/
def cstr (s : String) : List Nat := s.toList.map Char.toNat

/-- Model of `strcmp` of the C library: the bytes are compared as `unsigned char`
up to the first difference, the end of a string counting as smaller than any byte.
The C standard fixes the sign of the result only; the source tests the sign only. -/
def strcmp : List Nat → List Nat → Int
  | [], [] => 0
  | [], _ :: _ => -1
  | _ :: _, [] => 1
  | a :: as, b :: bs => if a < b then -1 else if b < a then 1 else strcmp as bs

/-- Model of `strncpy(dst, src, n)` for what it leaves in the first `n` bytes of
`dst`: the bytes of `src` up to `n`, then NUL padding up to `n`. -/
def strncpy (src : List Nat) (n : Nat) : List Nat :=
  src.take n ++ List.replicate (n - src.length) 0

/-- Helper of `strstr`: is `needle` a prefix of `hay`. -/
def isPrefixAt : List Nat → List Nat → Bool
  | [], _ => true
  | _ :: _, [] => false
  | n :: ns, h :: hs => n == h && isPrefixAt ns hs

/-- Model of `strstr(hay, needle)`: the first suffix of `hay` that starts with
`needle`, `none` for `NULL`. -/
def strstr : List Nat → List Nat → Option (List Nat)
  | [], needle => if needle = [] then some [] else none
  | h :: hs, needle =>
    if isPrefixAt needle (h :: hs) then some (h :: hs) else strstr hs needle

/-- `isspace` of the C locale: space, `\t`, `\n`, `\v`, `\f`, `\r`. -/
def isspace (c : Nat) : Bool := c == 32 || (9 ≤ c && c ≤ 13)

/-- `isdigit`. -/
def isdigit (c : Nat) : Bool := 48 ≤ c && c ≤ 57

/-- `tolower` on a byte of the C locale. -/
def tolower (c : Nat) : Nat := if 65 ≤ c ∧ c ≤ 90 then c + 32 else c

/-- Model of `strcasecmp`: `strcmp` of the lower-cased strings. -/
def strcasecmp (a b : List Nat) : Int := strcmp (a.map tolower) (b.map tolower)

/-- Model of `strncmp(a, b, n)`: `strcmp` of the first `n` bytes. -/
def strncmp (a b : List Nat) (n : Nat) : Int := strcmp (a.take n) (b.take n)

/-- Model of `strchr(s, c)` for `c` not NUL: the suffix of `s` from the first `c` on,
`none` for `NULL`. -/
def strchr : List Nat → Nat → Option (List Nat)
  | [], _ => none
  | x :: xs, c => if x = c then some (x :: xs) else strchr xs c

/-- Model of `strtok`: `strtok s delims` is the call on the string `s` (the first call
with the string, a later call with `NULL` and the saved pointer `s`).  Leading
delimiters are skipped; `none` (`NULL`) when nothing is left; else the token up to the
next delimiter, which is overwritten by NUL.  The second component is the pointer
`strtok` saves for the next call. -/
def strtok (s delims : List Nat) : Option (List Nat) × List Nat :=
  let s1 := s.dropWhile fun c => decide (c ∈ delims)
  if s1 = [] then (none, [])
  else (some (s1.takeWhile fun c => !decide (c ∈ delims)),
        ((s1.dropWhile fun c => !decide (c ∈ delims)).drop 1))

/-- The conversion `%s` of `sscanf`: white space is skipped, then the bytes up to the
next white space are stored; `none` when the input ends before a byte is found.  The
second component is the input that remains. -/
def scan_word (s : List Nat) : Option (List Nat × List Nat) :=
  let s1 := s.dropWhile isspace
  if s1 = [] then none
  else some (s1.takeWhile fun c => !isspace c, s1.dropWhile fun c => !isspace c)

/-- `sscanf(s, "%s %s", a, b) == 2`: the two words, `none` when fewer than two
conversions succeed. -/
def sscanf_s_s (s : List Nat) : Option (List Nat × List Nat) :=
  match scan_word s with
  | none => none
  | some (a, rest) =>
    match scan_word rest with
    | none => none
    | some (b, _) => some (a, b)

/-- Wrap an integer to the range of a 32-bit `int` (two's complement). -/
def wrap32 (x : Int) : Int := (x + 2147483648) % 4294967296 - 2147483648

/-- The value of the leading decimal digits of `s` on top of `acc`, and the rest of
the input. -/
def scan_digits : List Nat → Nat → Nat × List Nat
  | [], acc => (acc, [])
  | c :: cs, acc => if isdigit c then scan_digits cs (acc * 10 + (c - 48)) else (acc, c :: cs)

/-- The optional sign in front of a number: whether it is `-`, and the input after
the sign. -/
def scan_sign : List Nat → Bool × List Nat
  | 45 :: r => (true, r)
  | 43 :: r => (false, r)
  | r => (false, r)

/-- The conversion `%d` (and the work of `strtol` in base 10): white space is skipped,
an optional sign is read, then decimal digits; `none` when there is no digit.  The
value is returned before any reduction to the width of `int`. -/
def scan_int (s : List Nat) : Option (Int × List Nat) :=
  let signed := scan_sign (s.dropWhile isspace)
  match signed.2 with
  | [] => none
  | c :: cs =>
    if isdigit c then
      let vr := scan_digits (c :: cs) 0
      some (if signed.1 then -(vr.1 : Int) else (vr.1 : Int), vr.2)
    else none

/-- Model of `atoi`: the leading integer of the string, 0 when there is none.  A value
outside the range of `int` is undefined in C; it is wrapped here. -/
def atoi (s : List Nat) : Int :=
  match scan_int s with
  | some (v, _) => wrap32 v
  | none => 0

/-- `sscanf(s, "(%d)", &n) == 1`: the integer read, `none` when the conversion fails
(then `n` keeps its value).  A value outside the range of `int` is wrapped. -/
def sscanf_paren_d (s : List Nat) : Option Int :=
  match s with
  | 40 :: rest => (scan_int rest).map fun vr => wrap32 vr.1
  | _ => none

/-- The decimal digits of `n`, produced from the least significant digit on, in front
of `ds`; `fuel` bounds the number of digits. -/
def utoa_core : Nat → Nat → List Nat → List Nat
  | 0, _, ds => ds
  | fuel + 1, n, ds =>
    if n / 10 = 0 then (48 + n % 10) :: ds
    else utoa_core fuel (n / 10) ((48 + n % 10) :: ds)

/-- The decimal digits of `n` (what `%u` prints). -/
def utoa (n : Nat) : List Nat := utoa_core (n + 1) n []

/-- What `printf("%d", v)` prints. -/
def printf_d (v : Int) : List Nat :=
  if v < 0 then 45 :: utoa (-v).toNat else utoa v.toNat

/-- The C string that starts a buffer: the bytes before the first NUL. -/
def c_str (buf : List Nat) : List Nat := buf.takeWhile fun c => c != 0

/-- The object representation of an `int` (4 bytes, little endian, two's
complement), as `memcpy(dst, &value, sizeof(int))` copies it. -/
def int_bytes (v : Int) : List Nat :=
  let u := (v % 4294967296).toNat
  [u % 256, u / 256 % 256, u / 65536 % 256, u / 16777216 % 256]

/-- The `int` whose object representation starts the buffer, as
`memcpy(&value, src, sizeof(int))` reads it (missing bytes count as 0). -/
def bytes_int (bs : List Nat) : Int :=
  wrap32 ((bs.getD 0 0 : Nat) + 256 * (bs.getD 1 0 : Nat) + 65536 * (bs.getD 2 0 : Nat)
    + 16777216 * (bs.getD 3 0 : Nat) : Nat)

/-- The buffer after `bytes` have been written at `offset`. -/
def write_at (buf : List Nat) (offset : Nat) (bytes : List Nat) : List Nat :=
  buf.take offset ++ bytes ++ buf.drop (offset + bytes.length)

/-! ## The AVL index tree (`ODQ2.c` lines 27-33, 153-236) -/

/-- The `AVLNode` struct; `null` is the `NULL` pointer.  `key` holds the bytes of
`char key[256]` before the first NUL. -/
inductive AVLNode where
  | null : AVLNode
  | node (key : List Nat) (file_position : Int) (left right : AVLNode) (height : Int) : AVLNode
deriving DecidableEq, Repr

/-- `height(node)`: `node ? node->height : 0`. -/
def height : AVLNode → Int
  | .null => 0
  | .node _ _ _ _ h => h

/-- `newAVLNode`: `strncpy(node->key, key, sizeof(node->key))` keeps at most 256
bytes of the key (a key of 256 bytes or more is stored without terminator). -/
def newAVLNode (key : List Nat) (position : Int) : AVLNode :=
  .node (key.take 256) position .null .null 1

/-- `rightRotate(y)`; `none` when `y` or `y->left` is `NULL`. -/
def rightRotate : AVLNode → Option AVLNode
  | .node yk yp (.node xk xp xl T2 _) yr _ =>
    let y := AVLNode.node yk yp T2 yr (max (height T2) (height yr) + 1)
    some (.node xk xp xl y (max (height xl) (height y) + 1))
  | _ => none

/-- `leftRotate(x)`; `none` when `x` or `x->right` is `NULL`. -/
def leftRotate : AVLNode → Option AVLNode
  | .node xk xp xl (.node yk yp T2 yr _) _ =>
    let x := AVLNode.node xk xp xl T2 (max (height xl) (height T2) + 1)
    some (.node yk yp x yr (max (height x) (height yr) + 1))
  | _ => none

/-- `getBalance(node)`. -/
def getBalance : AVLNode → Int
  | .null => 0
  | .node _ _ l r _ => height l - height r

/-- Lines 203-218 of `insertAVL`: the height of `node` is recomputed and the four
rotation cases are tried.  `balance > 1` and `balance < -1` exclude each other, so the
two tests on `node->left->key` are grouped, and so are the two on `node->right->key`;
within a group the order of the source is kept. -/
def insertAVL_rebalance (node : AVLNode) (key : List Nat) : Option AVLNode :=
  match node with
  | .null => none
  | .node k pos l r _ =>
    let node := AVLNode.node k pos l r (1 + max (height l) (height r))
    let balance := getBalance node
    if 1 < balance then
      match l with
      | .null => none
      | .node lk _ _ _ _ =>
        if strcmp key lk < 0 then rightRotate node
        else if 0 < strcmp key lk then
          (leftRotate l).bind fun l2 =>
            rightRotate (.node k pos l2 r (1 + max (height l) (height r)))
        else some node
    else if balance < -1 then
      match r with
      | .null => none
      | .node rk _ _ _ _ =>
        if 0 < strcmp key rk then leftRotate node
        else if strcmp key rk < 0 then
          (rightRotate r).bind fun r2 =>
            leftRotate (.node k pos l r2 (1 + max (height l) (height r)))
        else some node
    else some node

/-- `insertAVL(node, key, position)`. -/
def insertAVL : AVLNode → List Nat → Int → Option AVLNode
  | .null, key, position => some (newAVLNode key position)
  | .node k pos l r h, key, position =>
    if strcmp key k < 0 then
      (insertAVL l key position).bind fun l2 => insertAVL_rebalance (.node k pos l2 r h) key
    else if 0 < strcmp key k then
      (insertAVL r key position).bind fun r2 => insertAVL_rebalance (.node k pos l r2 h) key
    else some (.node k pos l r h)

/-- `searchAVL(root, key)`: the node found, `null` for `NULL`. -/
def searchAVL : AVLNode → List Nat → AVLNode
  | .null, _ => .null
  | .node k pos l r h, key =>
    if strcmp k key = 0 then .node k pos l r h
    else if strcmp key k < 0 then searchAVL l key
    else searchAVL r key

/-- `searchTextInAVL(root, search_text, &results, &count)`: the array `results` (of
`count` elements) after the call. -/
def searchTextInAVL : AVLNode → List Nat → List Int → List Int
  | .null, _, results => results
  | .node k pos l r _, search_text, results =>
    let results := if (strstr k search_text).isSome then results ++ [pos] else results
    let results := searchTextInAVL l search_text results
    searchTextInAVL r search_text results

/-- A sequence of calls `root = insertAVL(root, key, position)`, as the index
maintenance of `load_table` and `insert_into_table` performs them. -/
def insertAll (root : AVLNode) : List (List Nat × Int) → Option AVLNode
  | [] => some root
  | kp :: rest => (insertAVL root kp.1 kp.2).bind fun t => insertAll t rest

/-! ## Tables (`ODQ2.c` lines 10-59, 238-297) -/

/-- `MAX_FIELDS`. -/
def MAX_FIELDS : Nat := 20

/-- `MAX_RECORD_SIZE`. -/
def MAX_RECORD_SIZE : Nat := 4096

/-- `MAX_QUERY_LENGTH`. -/
def MAX_QUERY_LENGTH : Nat := 1024

/-- `MAX_FIELD_NAME`. -/
def MAX_FIELD_NAME : Nat := 30

/-- `TABLE_PREFIX`. -/
def TABLE_PREFIX : List Nat := cstr "ODQ"

/-- The enum `FieldType`. -/
inductive FieldType where
  | FIELD_INT
  | FIELD_TEXT
  | FIELD_BOOL
deriving DecidableEq, Repr

/-- The struct `Field`. -/
structure Field where
  name : List Nat
  type : FieldType
  size : Int
deriving DecidableEq, Repr

/-- The struct `Table`.  `fields` holds the entries `fields[0 .. field_count - 1]`;
`data_file` is a handle of the running process and is not part of the model. -/
structure Table where
  name : List Nat
  filename : List Nat
  fields : List Field
  field_count : Nat
  record_size : Int
  indexes : List AVLNode
  auto_increment : Int
deriving DecidableEq, Repr

/-- A table file: the `Table` struct that `fwrite(&table, sizeof(Table), 1, file)` put
at offset 0 (`none` when the file is shorter than the header), and the bytes after the
header. -/
structure TableFile where
  header : Option Table
  data : List Nat
deriving DecidableEq, Repr

/-- The directory of table files: the file of each name, if it exists, and the names
that cannot be opened for writing. -/
structure FileSystem where
  files : List Nat → Option TableFile
  denied : List Nat → Bool

/-- The file system after the file `filename` has got the content `file`. -/
def FileSystem.put (fs : FileSystem) (filename : List Nat) (file : TableFile) : FileSystem :=
  { fs with files := fun n => if n = filename then some file else fs.files n }

/-- `fopen(filename, "wb")`: the file is created, or truncated to length zero; `none`
when it cannot be opened. -/
def fopen_wb (fs : FileSystem) (filename : List Nat) : Option FileSystem :=
  if fs.denied filename then none
  else some (fs.put filename { header := none, data := [] })

/-- `snprintf(filename, sizeof(filename), "%s_%s.bin", TABLE_PREFIX, table_name)` with
`char filename[100]`. -/
def table_filename (table_name : List Nat) : List Nat :=
  (TABLE_PREFIX ++ cstr "_" ++ table_name ++ cstr ".bin").take 99

/-- How a call of `create_table` ends, by the message it prints. -/
inductive CreateResult where
  | created (table : Table)
  | unknownFieldType (field_type : List Nat)
  | errorCreating
deriving DecidableEq, Repr

/-- The field that lines 268-286 of `create_table` build from the two words of a
definition; `token` is the definition, in which the bracket of `text(N)` is looked
for.  `none` is the branch `Unknown field type`. -/
def parse_field (token field_name field_type : List Nat) : Option Field :=
  if strcmp field_type (cstr "int") = 0 then
    some { name := field_name, type := .FIELD_INT, size := 4 }
  else if strncmp field_type (cstr "text") 4 = 0 then
    let size : Int :=
      match strchr token 40 with
      | none => 255
      | some bracket =>
        match sscanf_paren_d bracket with
        | some n => n
        | none => 255
    some { name := field_name, type := .FIELD_TEXT, size := size }
  else if strcmp field_type (cstr "bool") = 0 then
    some { name := field_name, type := .FIELD_BOOL, size := 1 }
  else none

/-- The loop of `create_table` (lines 262-292): `token` is the current token, `saved`
the pointer that `strtok` keeps.  Every round consumes a token, so `fuel` rounds are
enough when `fuel` exceeds the length of the text; the outer `none` is the end of the
fuel.  The result is the table after the loop, or the type word of the branch
`Unknown field type`.  `record_size += field.size` is computed in 32 bits. -/
def create_table_loop : Nat → Option (List Nat) → List Nat → Table →
    Option (Except (List Nat) Table)
  | 0, _, _, _ => none
  | _ + 1, none, _, table => some (.ok table)
  | fuel + 1, some token, saved, table =>
    if table.field_count < MAX_FIELDS then
      let token := token.dropWhile fun c => c == 32
      let next := strtok saved (cstr ",")
      match sscanf_s_s token with
      | some (field_name, field_type) =>
        match parse_field token field_name field_type with
        | some field =>
          create_table_loop fuel next.1 next.2
            { table with
              record_size := wrap32 (table.record_size + field.size)
              fields := table.fields ++ [field]
              field_count := table.field_count + 1 }
        | none => some (.error field_type)
      | none => create_table_loop fuel next.1 next.2 table
    else some (.ok table)

/-- `create_table(table_name, field_definitions)`: the file system after the call and
the way the call ended; `none` when the fuel of the loop ran out (it never does, see
`create_table_returns`).  The model covers the calls whose strings fit the fixed
buffers of the source (`def_copy[1024]`, `field_name[30]`, `field_type[20]`,
`name[50]`); beyond them the C program has no defined behaviour. -/
def create_table (fs : FileSystem) (table_name field_definitions : List Nat) :
    Option (FileSystem × CreateResult) :=
  let filename := table_filename table_name
  match fopen_wb fs filename with
  | none => some (fs, .errorCreating)
  | some fs1 =>
    let table : Table :=
      { name := table_name, filename := filename, fields := [], field_count := 0,
        record_size := 0, indexes := List.replicate MAX_FIELDS .null, auto_increment := 1 }
    let first := strtok field_definitions (cstr ",")
    match create_table_loop (field_definitions.length + 1) first.1 first.2 table with
    | none => none
    | some (.error field_type) => some (fs1, .unknownFieldType field_type)
    | some (.ok table) =>
      some (fs1.put filename { header := some table, data := [] }, .created table)

/-- A directory without files in which every name can be created. -/
def FileSystem.empty : FileSystem := { files := fun _ => none, denied := fun _ => false }

/-- The sum of the byte sizes of the fields of a schema. -/
def sum_sizes (fields : List Field) : Int := (fields.map fun f => f.size).sum

/-- A table `t` with one `int` field and one stored record, for the examples. -/
def example_table : Table :=
  { name := cstr "t", filename := table_filename (cstr "t"),
    fields := [{ name := cstr "id", type := .FIELD_INT, size := 4 }], field_count := 1,
    record_size := 4, indexes := List.replicate MAX_FIELDS .null, auto_increment := 1 }

/-- A directory that holds the file of `example_table` with the record `(7)`. -/
def example_fs : FileSystem :=
  FileSystem.empty.put (table_filename (cstr "t"))
    { header := some example_table, data := [7, 0, 0, 0] }

/-! ## The record codec (`ODQ2.c` lines 379-410 and 458-489) -/

/-- The test `*token == ' ' || *token == '\''` of lines 387 and 389. -/
def is_space_or_quote (c : Nat) : Bool := c == 32 || c == 39

/-- Lines 387-389 of `insert_into_table`: leading spaces and quotes of the token are
skipped, trailing spaces and quotes are overwritten by NUL, the first byte excepted
(`end > token`). -/
def trim_value (token : List Nat) : List Nat :=
  match token.dropWhile is_space_or_quote with
  | [] => []
  | c :: cs => c :: (cs.reverse.dropWhile is_space_or_quote).reverse

/-- Lines 393-407 of `insert_into_table`: the bytes written at `record + offset` for
the token of a field.  `atoi` and `memcpy` of an `int`, `strncpy` of `field.size`
bytes, `memcpy` of a `bool`. -/
def encode_field (field : Field) (token : List Nat) : List Nat :=
  match field.type with
  | .FIELD_INT => int_bytes (atoi token)
  | .FIELD_TEXT => strncpy token field.size.toNat
  | .FIELD_BOOL =>
    [if strcasecmp token (cstr "true") = 0 ∨ strcmp token (cstr "1") = 0 then 1 else 0]

/-- The loop of `insert_into_table` (lines 386-410) over the fields that are left:
`token` is the current token, `saved` the pointer that `strtok` keeps, `offset` the
running sum of the sizes. -/
def build_record_loop : List Field → Option (List Nat) → List Nat → List Nat → Int → List Nat
  | [], _, _, record, _ => record
  | _ :: _, none, _, record, _ => record
  | field :: rest, some token, saved, record, offset =>
    let token := trim_value token
    let record := write_at record offset.toNat (encode_field field token)
    let next := strtok saved (cstr ",")
    build_record_loop rest next.1 next.2 record (offset + field.size)

/-- Lines 379-410 of `insert_into_table`: the buffer `record[MAX_RECORD_SIZE]` after
the values have been encoded.  The model covers values that fit `values_copy` and
records that fit `record`. -/
def build_record (fields : List Field) (values : List Nat) : List Nat :=
  let first := strtok values (cstr ",")
  build_record_loop fields first.1 first.2 (List.replicate MAX_RECORD_SIZE 0) 0

/-- The bytes that `fwrite(record, current_table.record_size, 1, file)` appends to the
file, for a schema whose `record_size` is the sum of its field sizes. -/
def stored_record (fields : List Field) (values : List Nat) : List Nat :=
  (build_record fields values).take (sum_sizes fields).toNat

/-- A decoded field value: what `select_all` holds before it prints the field. -/
inductive Value where
  | int (v : Int)
  | text (s : List Nat)
  | bool (b : Bool)
deriving DecidableEq, Repr

/-- Lines 463-483 of `select_all`: the value of the field at `record + offset`. -/
def decode_field (record : List Nat) (offset : Int) (field : Field) : Value :=
  let src := record.drop offset.toNat
  match field.type with
  | .FIELD_INT => .int (bytes_int src)
  | .FIELD_TEXT => .text (c_str (strncpy (c_str src) field.size.toNat ++ [0]))
  | .FIELD_BOOL => .bool (src.headD 0 != 0)

/-- The loop over the fields in `select_all` (lines 460-486), from `offset` on. -/
def decode_record_loop : List Field → List Nat → Int → List Value
  | [], _, _ => []
  | field :: rest, record, offset =>
    decode_field record offset field :: decode_record_loop rest record (offset + field.size)

/-- The values that `select_all` decodes from a record. -/
def decode_record (fields : List Field) (record : List Nat) : List Value :=
  decode_record_loop fields record 0

/-! ### Literals of the dialect -/

/-- The literal of a value in a `VALUES` list: decimal for Int32, single-quoted for
Text, `true` or `false` for Bool. -/
def Value.literal : Value → List Nat
  | .int v => printf_d v
  | .text s => 39 :: (s ++ [39])
  | .bool b => if b then cstr "true" else cstr "false"

/-- The text after the first literal of a list: each further literal follows a comma
and `sp` spaces. -/
def values_tail (sp : Nat) : List Value → List Nat
  | [] => []
  | v :: vs => 44 :: (List.replicate sp 32 ++ v.literal ++ values_tail sp vs)

/-- The comma-separated list of the literals of `vs`, with `sp` spaces after each
comma. -/
def values_text (sp : Nat) : List Value → List Nat
  | [] => []
  | v :: vs => v.literal ++ values_tail sp vs

/-- A value that is valid for a field: an Int32 in 32-bit range for an `int` field of
4 bytes, a Bool for a `bool` field of 1 byte, a Text (a C string, without NUL) no
longer than the capacity for a `text` field. -/
def Value.validFor (v : Value) (f : Field) : Bool :=
  match v, f.type with
  | .int x, .FIELD_INT => f.size == 4 && decide (-2147483648 ≤ x) && decide (x < 2147483648)
  | .text s, .FIELD_TEXT => decide ((s.length : Int) ≤ f.size) && s.all fun c => c != 0
  | .bool _, .FIELD_BOOL => f.size == 1
  | _, _ => false

/-- A value whose literal the tokenizer of `insert_into_table` reads back whole: a
Text has no comma and neither begins nor ends with a space or a single quote. -/
def Value.plain : Value → Bool
  | .text s =>
    s.all (fun c => c != 44) &&
      (match s.head? with
        | some c => !is_space_or_quote c
        | none => true) &&
      (match s.getLast? with
        | some c => !is_space_or_quote c
        | none => true)
  | _ => true

/-- A value that is valid for a field but for the length of a Text, which may exceed
the capacity. -/
def Value.typedFor (v : Value) (f : Field) : Bool :=
  match v, f.type with
  | .int x, .FIELD_INT => f.size == 4 && decide (-2147483648 ≤ x) && decide (x < 2147483648)
  | .text s, .FIELD_TEXT => decide (0 ≤ f.size) && s.all fun c => c != 0
  | .bool _, .FIELD_BOOL => f.size == 1
  | _, _ => false

/-- A value of the type of the field whose literal the tokenizer reads back whole. -/
def Value.encodable (v : Value) (f : Field) : Bool := v.typedFor f && v.plain

/-- One value per field, each satisfying `ok` for its field. -/
def tuple_for (ok : Value → Field → Bool) : List Field → List Value → Bool
  | [], [] => true
  | f :: fs, v :: vs => ok v f && tuple_for ok fs vs
  | _, _ => false

/-- The bytes of a field that holds the value: the object representation of the
`int` or `bool`, the first `size` bytes of the text padded with NUL. -/
def field_bytes (f : Field) : Value → List Nat
  | .int x => int_bytes x
  | .text s => s.take f.size.toNat ++ List.replicate (f.size.toNat - s.length) 0
  | .bool b => [if b then 1 else 0]

/-- The bytes of a record that holds one value per field. -/
def record_bytes : List Field → List Value → List Nat
  | f :: fs, v :: vs => field_bytes f v ++ record_bytes fs vs
  | _, _ => []

/-- The value cut to the capacity of the field: a Text keeps its first `size`
bytes. -/
def truncated (f : Field) : Value → Value
  | .text s => .text (s.take f.size.toNat)
  | v => v

/-! ### The field definitions of the dialect -/

/-- The type part of a definition `name type`: `int`, `text`, `text(N)` or `bool`. -/
inductive TypeKeyword where
  | int
  | text
  | textN (n : Nat)
  | bool
deriving DecidableEq, Repr

/-- A definition `name type` of the list passed to `create_table`. -/
structure FieldDefinition where
  name : List Nat
  keyword : TypeKeyword
deriving DecidableEq, Repr

/-- The text of a type keyword. -/
def TypeKeyword.render : TypeKeyword → List Nat
  | .int => cstr "int"
  | .text => cstr "text"
  | .textN n => cstr "text(" ++ utoa n ++ cstr ")"
  | .bool => cstr "bool"

/-- The text of a definition: the name, a space, the type. -/
def FieldDefinition.render (d : FieldDefinition) : List Nat :=
  d.name ++ 32 :: d.keyword.render

/-- The field that the data model gives a definition: `int` is an Int32 of 4 bytes,
`text` a Text of 255 bytes, `text(N)` a Text of N bytes, `bool` a Bool of 1 byte. -/
def FieldDefinition.field (d : FieldDefinition) : Field :=
  match d.keyword with
  | .int => { name := d.name, type := .FIELD_INT, size := 4 }
  | .text => { name := d.name, type := .FIELD_TEXT, size := 255 }
  | .textN n => { name := d.name, type := .FIELD_TEXT, size := n }
  | .bool => { name := d.name, type := .FIELD_BOOL, size := 1 }

/-- A definition that `create_table` can hold: the name is not empty, fits
`field_name[MAX_FIELD_NAME]`, has no white space, comma or opening bracket, and the
capacity of `text(N)` is in the range of `int`. -/
def FieldDefinition.wellFormed (d : FieldDefinition) : Bool :=
  d.name != [] && decide (d.name.length < MAX_FIELD_NAME) &&
    d.name.all (fun c => !isspace c && c != 44 && c != 40) &&
    (match d.keyword with
      | .textN n => decide (n < 2147483648)
      | _ => true)

/-- The text after the first definition of a list: each further definition follows a
comma and `sp` spaces. -/
def tail_text (sp : Nat) : List FieldDefinition → List Nat
  | [] => []
  | d :: ds => 44 :: (List.replicate sp 32 ++ d.render ++ tail_text sp ds)

/-- The comma-separated list of the definitions `ds`, with `sp` spaces after each
comma. -/
def definitions_text (sp : Nat) : List FieldDefinition → List Nat
  | [] => []
  | d :: ds => d.render ++ tail_text sp ds

/-- The schema of the table `t (id int, name text(10), active bool)`. -/
def example_fields : List Field :=
  [{ name := cstr "id", type := .FIELD_INT, size := 4 },
   { name := cstr "name", type := .FIELD_TEXT, size := 10 },
   { name := cstr "active", type := .FIELD_BOOL, size := 1 }]

/-- A schema of two short text fields, `a text(2), b text(3)`. -/
def example_text_fields : List Field :=
  [{ name := cstr "a", type := .FIELD_TEXT, size := 2 },
   { name := cstr "b", type := .FIELD_TEXT, size := 3 }]

/-! ### Predicates on trees -/

/-- The AVL condition at every node, on the stored heights as `height` reads them. -/
def AVLInvariant : AVLNode → Prop
  | .null => True
  | .node _ _ l r h =>
    AVLInvariant l ∧ AVLInvariant r ∧ |height l - height r| ≤ 1 ∧
      h = 1 + max (height l) (height r)

/-- The number of nodes on the longest path from the root to a leaf. -/
def depth : AVLNode → Nat
  | .null => 0
  | .node _ _ l r _ => 1 + max (depth l) (depth r)

/-- In-order traversal: the (key, position) pairs, left subtree first. -/
def inorder : AVLNode → List (List Nat × Int)
  | .null => []
  | .node k pos l r _ => inorder l ++ (k, pos) :: inorder r

/-- Pre-order traversal: the node, then its left subtree, then its right subtree. -/
def preorder : AVLNode → List (List Nat × Int)
  | .null => []
  | .node k pos l r _ => (k, pos) :: (preorder l ++ preorder r)

/-- What `insertAVL` leaves at the root of a subtree that it made higher: a fresh
leaf, or a node whose heavier side is the side the key went to. -/
def Grew (key : List Nat) : AVLNode → Prop
  | .null => False
  | .node k _ l r h =>
    h = 1 ∨ (strcmp key k < 0 ∧ height r < height l) ∨ (0 < strcmp key k ∧ height l < height r)

/-- The AVL condition at every node, on the real heights: the subtrees differ by at
most one level and the stored height is the real height of the node. -/
def AVLShape : AVLNode → Prop
  | .null => True
  | .node _ _ l r h =>
    AVLShape l ∧ AVLShape r ∧ |(depth l : Int) - (depth r : Int)| ≤ 1 ∧
      h = 1 + max (depth l : Int) (depth r : Int)

/-- The binary-search-tree order: the keys of the in-order traversal increase
strictly under `strcmp`. -/
def BSTOrdered (t : AVLNode) : Prop :=
  (inorder t).Pairwise fun a b => strcmp a.1 b.1 < 0

/-- Insertion of a (key, position) pair into a list kept in `strcmp` order; a key
already in the list keeps its pair. -/
def insertSorted (key : List Nat) (pos : Int) : List (List Nat × Int) → List (List Nat × Int)
  | [] => [(key, pos)]
  | kp :: rest =>
    if strcmp key kp.1 < 0 then (key, pos) :: kp :: rest
    else if 0 < strcmp key kp.1 then kp :: insertSorted key pos rest
    else kp :: rest

/-- The pair of the first insertion of `key` in a sequence of insertions. -/
def firstInsertion (ops : List (List Nat × Int)) (key : List Nat) : Option (List Nat × Int) :=
  ops.find? fun kp => decide (kp.1 = key)

/-- The positions of the pairs whose key contains `needle` as a substring, in the
order of the list. -/
def matchingPositions (needle : List Nat) (pairs : List (List Nat × Int)) : List Int :=
  (pairs.filter fun kp => decide (needle <:+: kp.1)).map Prod.snd

/-! ## The active table (`ODQ2.c` lines 61-63, 299-446) -/

/-- `MAX_TABLE_NAME`. -/
def MAX_TABLE_NAME : Nat := 50

/-- `sizeof(Table)`, the size of the header of a table file: 1136 bytes with the
layout of x86-64 Linux (`name` 50, `filename` 100, 2 bytes of padding, 20 fields of 40
bytes, two `int`, 20 pointers, an `int`, 4 bytes of padding, a pointer). -/
def sizeof_Table : Nat := 1136

/-- The globals `current_table` and `table_loaded`.  `data_file` is the name of the
file on which the handle `current_table.data_file` is open, `none` for `NULL`. -/
structure Session where
  current_table : Table
  table_loaded : Bool
  data_file : Option (List Nat)

/-- The state of the process: the directory of table files and the globals. -/
structure State where
  fs : FileSystem
  session : Session

/-- The globals when the process starts: zero-initialised. -/
def Session.initial : Session :=
  { current_table :=
      { name := [], filename := [], fields := [], field_count := 0, record_size := 0,
        indexes := List.replicate MAX_FIELDS .null, auto_increment := 0 },
    table_loaded := false, data_file := none }

/-- The length of a file in bytes. -/
def TableFile.length (file : TableFile) : Nat :=
  (if file.header.isSome then sizeof_Table else 0) + file.data.length

/-- `fopen(filename, "rb+")`: the file, `none` when it does not exist or cannot be
opened for writing. -/
def fopen_rb_plus (fs : FileSystem) (filename : List Nat) : Option TableFile :=
  if fs.denied filename then none else fs.files filename

/-- The text of the field at `record + offset`, as lines 327-344 of `load_table`,
422-439 of `insert_into_table` and 660-677 of `check_single_condition` put it into a
zeroed buffer of 256 bytes: `%d` of the `int`, the string of the text field cut at its
capacity, `true` or `false`.  The model does not bound the buffer: a text capacity
above 255 overflows it in the source. -/
def field_text (record : List Nat) (offset : Int) (field : Field) : List Nat :=
  match decode_field record offset field with
  | .int v => printf_d v
  | .text s => s
  | .bool b => if b then cstr "true" else cstr "false"

/-- The loop over the fields in `load_table` (lines 323-348) and `insert_into_table`
(lines 418-443), from field `i` on: the key of each field of the record is inserted
into the tree of the field with the position of the record.  `none` when `insertAVL`
dereferences `NULL`. -/
def index_record : List Field → Nat → List AVLNode → List Nat → Int → Int →
    Option (List AVLNode)
  | [], _, indexes, _, _, _ => some indexes
  | field :: rest, i, indexes, record, offset, position =>
    match insertAVL (indexes.getD i .null) (field_text record offset field) position with
    | none => none
    | some tree =>
      index_record rest (i + 1) (indexes.set i tree) record (offset + field.size) position

/-- The scan of `load_table` (lines 321-350): `data` are the bytes of the file from the
read position on, `position` is `ftell(file)`.  `fread(record, record_size, 1, file)`
succeeds when `record_size` is positive and that many bytes are left.  Every round
consumes a byte at least, so `fuel` rounds are enough when `fuel` exceeds the length
of the data; the outer `none` is the end of the fuel or a `NULL` dereference. -/
def load_table_loop : Nat → Table → List Nat → Int → Option Table
  | 0, _, _, _ => none
  | fuel + 1, table, data, position =>
    if 0 < table.record_size ∧ table.record_size.toNat ≤ data.length then
      let record := data.take table.record_size.toNat
      match index_record (table.fields.take table.field_count) 0 table.indexes record 0
          position with
      | none => none
      | some indexes =>
        load_table_loop fuel { table with indexes := indexes }
          (data.drop table.record_size.toNat) (position + table.record_size)
    else some table

/-- `load_table(table_name)`: the state after the call, what it prints and what it
returns.  `none` is outside the model: a non-empty file without a whole header (the
bytes that `fread` copies over `current_table` are not modelled; the engine itself
leaves such a file only with length zero), or a `NULL` dereference in `insertAVL`. -/
def load_table (st : State) (table_name : List Nat) : Option (State × List Nat × Bool) :=
  let filename := table_filename table_name
  match fopen_rb_plus st.fs filename with
  | none => some (st, cstr "Table '" ++ table_name ++ cstr "' not found\n", false)
  | some file =>
    match file.header with
    | none =>
      if file.data = [] then some (st, cstr "Error reading table\n", false) else none
    | some header =>
      match load_table_loop (file.data.length + 1) header file.data sizeof_Table with
      | none => none
      | some table =>
        some ({ st with session :=
                { current_table := table, table_loaded := true, data_file := some filename } },
              cstr "Table '" ++ table_name ++ cstr "' loaded with indexes\n", true)

/-- The file after `bytes` have been written at its end. -/
def TableFile.append (file : TableFile) (bytes : List Nat) : TableFile :=
  { file with data := file.data ++ bytes }

/-- `insert_into_table(values)`: the state after the call and what it prints.  The
record is built, written at the end of the file (`ftell` after `fseek(.., SEEK_END)`
is the position), and indexed.  `none` is outside the model: no file behind the
handle, or a `NULL` dereference in `insertAVL`.  The model covers records that fit
`record[MAX_RECORD_SIZE]`. -/
def insert_into_table (st : State) (values : List Nat) : Option (State × List Nat) :=
  if !st.session.table_loaded then some (st, cstr "No table selected\n")
  else
    let table := st.session.current_table
    let fields := table.fields.take table.field_count
    let record := build_record fields values
    match st.session.data_file with
    | none => none
    | some filename =>
      match st.fs.files filename with
      | none => none
      | some file =>
        let position : Int := file.length
        let written := file.append (record.take table.record_size.toNat)
        match index_record fields 0 table.indexes record 0 position with
        | none => none
        | some indexes =>
          some ({ fs := st.fs.put filename written,
                  session := { st.session with
                    current_table := { table with indexes := indexes } } },
                cstr "1 row inserted\n")

/-! ## Conditions (`ODQ2.c` lines 46-51, 552-579, 641-698) -/

/-- The struct `WhereCondition`. -/
structure WhereCondition where
  field_name : List Nat
  operator : List Nat
  value : List Nat
  is_and : Bool
deriving DecidableEq, Repr

/-- `compare_values(field_value, operator, compare_value, field_type)`. -/
def compare_values (field_value operator compare_value : List Nat) (field_type : FieldType) :
    Bool :=
  if strcmp operator (cstr "=") = 0 ∨ strcmp operator (cstr "==") = 0 then
    decide (strcmp field_value compare_value = 0)
  else if strcmp operator (cstr "!=") = 0 then
    decide (strcmp field_value compare_value ≠ 0)
  else if field_type = .FIELD_INT ∨ field_type = .FIELD_BOOL then
    let field_val := atoi field_value
    let cmp_val := atoi compare_value
    if strcmp operator (cstr ">") = 0 then decide (field_val > cmp_val)
    else if strcmp operator (cstr "<") = 0 then decide (field_val < cmp_val)
    else if strcmp operator (cstr ">=") = 0 then decide (field_val ≥ cmp_val)
    else if strcmp operator (cstr "<=") = 0 then decide (field_val ≤ cmp_val)
    else false
  else false

/-- The search for a field by name (lines 642-648, and the same loop elsewhere): the
index of the first field of that name, counted from `i`; `none` for `-1`. -/
def field_index : List Field → List Nat → Nat → Option Nat
  | [], _, _ => none
  | f :: fs, name, i => if strcmp f.name name = 0 then some i else field_index fs name (i + 1)

/-- The offset of the field of index `field_index`: the sum of the sizes of the
fields before it (lines 652-655). -/
def field_offset (fields : List Field) (field_index : Nat) : Int :=
  sum_sizes (fields.take field_index)

/-- `check_single_condition(record, condition)` on the fields of `current_table`. -/
def check_single_condition (table : Table) (record : List Nat) (condition : WhereCondition) :
    Bool :=
  let fields := table.fields.take table.field_count
  match field_index fields condition.field_name 0 with
  | none => false
  | some field_index =>
    match fields.get? field_index with
    | none => false
    | some field =>
      let offset := field_offset fields field_index
      compare_values (field_text record offset field) condition.operator condition.value
        field.type

/-- The loop of `check_complex_conditions` (lines 687-695) over the conditions after
the first. -/
def check_complex_loop (table : Table) (record : List Nat) :
    List WhereCondition → Bool → Bool
  | [], result => result
  | c :: cs, result =>
    let current_result := check_single_condition table record c
    check_complex_loop table record cs
      (if c.is_and then result && current_result else result || current_result)

/-- `check_complex_conditions(record, conditions, condition_count)`. -/
def check_complex_conditions (table : Table) (record : List Nat)
    (conditions : List WhereCondition) : Bool :=
  match conditions with
  | [] => true
  | c :: cs => check_complex_loop table record cs (check_single_condition table record c)

/-- `parse_where_conditions`, the loop of lines 607-613 that joins the tokens of a
quoted value: `value` is the buffer, `token` the current token, `saved` the pointer of
`strtok`.  `none` when `value[strlen(value) - 1]` is read with `value` empty (a read in
front of the buffer), or at the end of the fuel. -/
def collect_quoted : Nat → List Nat → Option (List Nat) → List Nat →
    Option (List Nat × Option (List Nat) × List Nat)
  | 0, _, _, _ => none
  | _ + 1, value, none, saved => some (value, none, saved)
  | fuel + 1, value, some token, saved =>
    match value.getLast? with
    | none => none
    | some c =>
      if c ≠ 39 then
        let next := strtok saved (cstr " ")
        let value :=
          match next.1 with
          | some t => value ++ cstr " " ++ t
          | none => value
        collect_quoted fuel value next.1 next.2
      else some (value, some token, saved)

/-- The loop of `parse_where_conditions` (lines 594-636): `state` is the position in
`field operator value connector`, `current` the condition being filled, `conditions`
the conditions stored so far.  `none` as in `collect_quoted`. -/
def parse_where_loop : Nat → Option (List Nat) → List Nat → Nat → WhereCondition →
    List WhereCondition → Option (List WhereCondition)
  | 0, _, _, _, _, _ => none
  | _ + 1, none, _, _, _, conditions => some conditions
  | fuel + 1, some token, saved, state, current, conditions =>
    if conditions.length < 10 then
      if state = 0 then
        let next := strtok saved (cstr " ")
        parse_where_loop fuel next.1 next.2 1 { current with field_name := token } conditions
      else if state = 1 then
        let next := strtok saved (cstr " ")
        parse_where_loop fuel next.1 next.2 2 { current with operator := token } conditions
      else if state = 2 then
        if token.head? = some 39 then
          match collect_quoted fuel (token.drop 1) (some token) saved with
          | none => none
          | some (value, _, saved) =>
            let value := if value.getLast? = some 39 then value.dropLast else value
            let next := strtok saved (cstr " ")
            parse_where_loop fuel next.1 next.2 3
              { field_name := [], operator := [], value := [], is_and := false }
              (conditions ++ [{ current with value := value }])
        else
          let next := strtok saved (cstr " ")
          parse_where_loop fuel next.1 next.2 3
            { field_name := [], operator := [], value := [], is_and := false }
            (conditions ++ [{ current with value := token }])
      else
        let next := strtok saved (cstr " ")
        let current :=
          if strcasecmp token (cstr "AND") = 0 then { current with is_and := true }
          else if strcasecmp token (cstr "OR") = 0 then { current with is_and := false }
          else current
        parse_where_loop fuel next.1 next.2 0 current conditions
    else some conditions

/-- `parse_where_conditions(where_clause, &condition_count)`: the conditions stored.
The model covers clauses and tokens that fit the buffers of the source. -/
def parse_where_conditions (where_clause : List Nat) : Option (List WhereCondition) :=
  let first := strtok where_clause (cstr " ")
  parse_where_loop (where_clause.length + 1) first.1 first.2 0
    { field_name := [], operator := [], value := [], is_and := false } []

/-! ## Queries (`ODQ2.c` lines 796-992) -/

/-- The records that the loop `while (fread(record, record_size, 1, file))` reads from
`data`, the bytes of the file after the header.  `fread` succeeds when `record_size`
is positive and that many bytes are left; `fuel` bounds the number of records. -/
def fread_records : Nat → Int → List Nat → List (List Nat)
  | 0, _, _ => []
  | fuel + 1, record_size, data =>
    if 0 < record_size ∧ record_size.toNat ≤ data.length then
      data.take record_size.toNat ::
        fread_records fuel record_size (data.drop record_size.toNat)
    else []

/-- The bytes of a file from the offset `sizeof(Table)` on, where the scans start
(`fseek(file, sizeof(Table), SEEK_SET)`). -/
def TableFile.records (file : TableFile) : List Nat :=
  if file.header.isSome then file.data else file.data.drop sizeof_Table

/-- The records that a scan of the file behind the handle of the session reads. -/
def scan_records (st : State) : List (List Nat) :=
  match st.session.data_file with
  | none => []
  | some filename =>
    match st.fs.files filename with
    | none => []
    | some file =>
      fread_records (file.records.length + 1) st.session.current_table.record_size
        file.records

/-- What lines 855-874 print for a field: `name: value`, a text in single quotes. -/
def print_field (record : List Nat) (offset : Int) (field : Field) : List Nat :=
  field.name ++ cstr ": " ++
    match decode_field record offset field with
    | .int v => printf_d v
    | .text s => cstr "'" ++ s ++ cstr "'"
    | .bool b => if b then cstr "true" else cstr "false"

/-- Lines 846-879 of `select_columns`: the row printed for a record, the selected
columns separated by ` | `. -/
def print_columns (fields : List Field) (record : List Nat) : List Nat → List Nat
  | [] => cstr "\n"
  | field_idx :: rest =>
    (match fields.get? field_idx with
      | some field => print_field record (field_offset fields field_idx) field
      | none => []) ++
    (if rest = [] then [] else cstr " | ") ++ print_columns fields record rest

/-- Lines 816-830 of `select_columns`: the indexes of the columns named in the list,
in the order of the list; a name that is no field is skipped, at most `MAX_FIELDS`
columns are kept.  The outer `none` is the end of the fuel. -/
def select_columns_loop : Nat → List Field → Option (List Nat) → List Nat → List Nat →
    Option (List Nat)
  | 0, _, _, _, _ => none
  | _ + 1, _, none, _, selected => some selected
  | fuel + 1, fields, some token, saved, selected =>
    if selected.length < MAX_FIELDS then
      let token := token.dropWhile fun c => c == 32
      let token :=
        match token with
        | [] => []
        | c :: cs => c :: (cs.reverse.dropWhile fun c => c == 32).reverse
      let next := strtok saved (cstr ",")
      match field_index fields token 0 with
      | some i => select_columns_loop fuel fields next.1 next.2 (selected ++ [i])
      | none => select_columns_loop fuel fields next.1 next.2 selected
    else some selected

/-- The decimal number and the text that end the output of a scan. -/
def count_line (count : Nat) (text : List Nat) : List Nat :=
  printf_d count ++ text

/-- `select_columns(columns, where_clause)`: what it prints.  The call writes neither
a file nor a global.  `none` as in `parse_where_conditions`. -/
def select_columns (st : State) (columns where_clause : List Nat) : Option (List Nat) :=
  if !st.session.table_loaded then some (cstr "No table selected\n")
  else
    let table := st.session.current_table
    let fields := table.fields.take table.field_count
    let selected : Option (List Nat) :=
      if strcmp columns (cstr "*") = 0 then some (List.range table.field_count)
      else
        let first := strtok columns (cstr ",")
        select_columns_loop (columns.length + 1) fields first.1 first.2 []
    let conditions : Option (Option (List WhereCondition)) :=
      if where_clause = [] then some none
      else (parse_where_conditions where_clause).map some
    match selected, conditions with
    | some selected, some conditions =>
      let rows := (scan_records st).filter fun record =>
        match conditions with
        | none => true
        | some cs => check_complex_conditions table record cs
      some ((rows.map fun record => print_columns fields record selected).flatten ++
        count_line rows.length (cstr " rows returned\n"))
    | _, _ => none

/-- `select_count(where_clause)`: what it prints. -/
def select_count (st : State) (where_clause : List Nat) : Option (List Nat) :=
  if !st.session.table_loaded then some (cstr "No table selected\n")
  else
    let table := st.session.current_table
    let conditions : Option (Option (List WhereCondition)) :=
      if where_clause = [] then some none
      else (parse_where_conditions where_clause).map some
    match conditions with
    | some conditions =>
      let rows := (scan_records st).filter fun record =>
        match conditions with
        | none => true
        | some cs => check_complex_conditions table record cs
      some (cstr "COUNT: " ++ count_line rows.length (cstr "\n"))
    | none => none

/-- Lines 937-951 of `find_text`: whether a text field of the record, from `offset`
on, contains the search text. -/
def find_in_record (record search_text : List Nat) : List Field → Int → Bool
  | [], _ => false
  | field :: rest, offset =>
    if field.type = .FIELD_TEXT ∧
        (strstr (c_str (strncpy (c_str (record.drop offset.toNat)) field.size.toNat ++ [0]))
          search_text).isSome then true
    else find_in_record record search_text rest (offset + field.size)

/-- Lines 955-982 of `find_text`: the row printed for a record, every field, separated
by ` | `. -/
def print_record (record : List Nat) : List Field → Int → List Nat
  | [], _ => cstr "\n"
  | field :: rest, offset =>
    print_field record offset field ++ (if rest = [] then [] else cstr " | ") ++
      print_record record rest (offset + field.size)

/-- `find_text(search_text)`: what it prints. -/
def find_text (st : State) (search_text : List Nat) : List Nat :=
  if !st.session.table_loaded then cstr "No table selected\n"
  else
    let table := st.session.current_table
    let fields := table.fields.take table.field_count
    let rows := (scan_records st).filter fun record => find_in_record record search_text fields 0
    cstr "Searching for text: '" ++ search_text ++ cstr "'\n" ++
      (rows.map fun record => print_record record fields 0).flatten ++
      (if rows.length = 0 then
        cstr "No records found with text: '" ++ search_text ++ cstr "'\n"
      else count_line rows.length (cstr " records found\n"))

/-! ## Statements (`ODQ2.c` lines 1216-1378) -/

/-- `toupper` on a byte of the C locale. -/
def toupper (c : Nat) : Nat := if 97 ≤ c ∧ c ≤ 122 then c - 32 else c

/-- Lines 1217-1220 of `process_command`: `sscanf(command, "%19s %[^\n]", cmd, rest)`
and the conversion of `cmd` to upper case.  `none` when the command holds no word
(`cmd` is then not set). -/
def command_split (command : List Nat) : Option (List Nat × List Nat) :=
  let s1 := command.dropWhile isspace
  if s1 = [] then none
  else
    let cmd := (s1.takeWhile fun c => !isspace c).take 19
    let after := (s1.drop cmd.length).dropWhile isspace
    some (cmd.map toupper, after.takeWhile fun c => c != 10)

/-- The input after the literal bytes `lit` of a `sscanf` format, `none` when the
input does not start with them. -/
def match_literal : List Nat → List Nat → Option (List Nat)
  | [], s => some s
  | _ :: _, [] => none
  | l :: ls, c :: cs => if l = c then match_literal ls cs else none

/-- `sscanf(rest, "TABLE %s (%[^)]", table_name, fields) == 2` (line 1224): the table
name and the text between the opening bracket and the first closing bracket; `none`
when fewer than two conversions succeed. -/
def sscanf_create (rest : List Nat) : Option (List Nat × List Nat) :=
  match match_literal (cstr "TABLE") rest with
  | none => none
  | some r1 =>
    match scan_word r1 with
    | none => none
    | some (table_name, r2) =>
      match match_literal (cstr "(") (r2.dropWhile isspace) with
      | none => none
      | some r3 =>
        let fields := r3.takeWhile fun c => c != 41
        if fields = [] then none else some (table_name, fields)

/-- The branch `CREATE` of `process_command` (lines 1222-1229): the file system after
it and the way `create_table` ended, `none` in its place for the message `Syntax:`.
The outer `none` as in `create_table`. -/
def process_create (fs : FileSystem) (rest : List Nat) :
    Option (FileSystem × Option CreateResult) :=
  match sscanf_create rest with
  | some (table_name, fields) =>
    (create_table fs table_name fields).map fun r => (r.1, some r.2)
  | none => some (fs, none)

/-- The struct `JoinInfo`. -/
structure JoinInfo where
  table1 : List Nat
  table2 : List Nat
  field1 : List Nat
  field2 : List Nat
  join_type : List Nat
deriving DecidableEq, Repr

/-- A statement after `process_command` has taken it apart: the engine function it
calls and the arguments. -/
inductive Statement where
  | create (table_name field_definitions : List Nat)
  | use (table_name : List Nat)
  | insert (values : List Nat)
  | select (columns where_clause : List Nat)
  | count (where_clause : List Nat)
  | find (search_text : List Nat)
  | join (join_info : JoinInfo)
deriving DecidableEq, Repr

/-- The state after a statement.  `select_columns`, `select_count`, `find_text` and
`perform_join` write neither a file nor a global: they print, and they move the read
position of a file handle, which every scan and every `INSERT` sets anew.  `none` is
outside the model, as in `load_table` and `insert_into_table`. -/
def run_statement (st : State) : Statement → Option State
  | .create table_name field_definitions =>
    (create_table st.fs table_name field_definitions).map fun r => { st with fs := r.1 }
  | .use table_name => (load_table st table_name).map fun r => r.1
  | .insert values => (insert_into_table st values).map fun r => r.1
  | .select _ _ => some st
  | .count _ => some st
  | .find _ => some st
  | .join _ => some st

/-- The state after a sequence of statements. -/
def run_statements : State → List Statement → Option State
  | st, [] => some st
  | st, s :: rest =>
    match run_statement st s with
    | none => none
    | some st2 => run_statements st2 rest

/-- The state after a sequence of `INSERT` statements, given by their value lists. -/
def insert_all : State → List (List Nat) → Option State
  | st, [] => some st
  | st, values :: rest =>
    match insert_into_table st values with
    | none => none
    | some r => insert_all r.1 rest

/-! ## Joins (`ODQ2.c` lines 357-371 and 995-1187) -/

/-- `load_table_from_file(filename, &table)`: the header of the file, the inner `none`
for the result `false` (no file, or a file shorter than a header).  The outer `none`
is outside the model: a file of the length of a header or more whose header the model
does not hold. -/
def load_table_from_file (fs : FileSystem) (filename : List Nat) : Option (Option Table) :=
  match fs.files filename with
  | none => some none
  | some file =>
    match file.header with
    | some header => some (some header)
    | none => if file.data.length < sizeof_Table then some none else none

/-- Lines 1040-1047 and 1057-1064 of `inner_join`: the text of the join field at
`record + offset` in a zeroed buffer of 256 bytes: `%d` of an `int`; for every other
type the bytes of the field up to its size or the first NUL (`strncpy`).  A Bool is
not rendered as `true` or `false` here: its text is its one byte, empty for `false`. -/
def join_value (record : List Nat) (offset : Int) (field : Field) : List Nat :=
  if field.type = .FIELD_INT then printf_d (bytes_int (record.drop offset.toNat))
  else c_str (strncpy (c_str (record.drop offset.toNat)) field.size.toNat ++ [0])

/-- Lines 1074-1095 and 1104-1125 of `inner_join`: the value of a field as it is
printed in a joined row, a text in single quotes. -/
def print_join_value (record : List Nat) (offset : Int) (field : Field) : List Nat :=
  match decode_field record offset field with
  | .int v => printf_d v
  | .text s => cstr "'" ++ s ++ cstr "'"
  | .bool b => if b then cstr "true" else cstr "false"

/-- The two loops over the fields in `inner_join` (lines 1071-1098 and 1101-1128):
every field as `table.field: value`; ` | ` follows every field when `trailing` is set
(the fields of the first table), and every field but the last otherwise. -/
def print_join_fields (table_name record : List Nat) (trailing : Bool) :
    List Field → Int → List Nat
  | [], _ => []
  | field :: rest, offset =>
    table_name ++ cstr "." ++ field.name ++ cstr ": " ++
      print_join_value record offset field ++
      (if trailing = true ∨ rest ≠ [] then cstr " | " else []) ++
      print_join_fields table_name record trailing rest (offset + field.size)

/-- Lines 1066-1129 of `inner_join`: what is printed for a pair of records that
match, `join_count` being the count after the increment. -/
def inner_join_row (table1 table2 : Table) (record1 record2 : List Nat) (join_count : Nat) :
    List Nat :=
  cstr "Joined record " ++ printf_d join_count ++ cstr ":\n" ++
    print_join_fields table1.name record1 true
      (table1.fields.take table1.field_count) 0 ++
    print_join_fields table2.name record2 false
      (table2.fields.take table2.field_count) 0 ++
    cstr "\n---\n"

/-- The inner loop of `inner_join` (lines 1052-1131) over the records of the second
file, for one record of the first: what is printed, and `join_count` after the loop. -/
def inner_join_scan2 (table1 table2 : Table) (field1 field2 : Field) (offset1 offset2 : Int)
    (record1 : List Nat) : List (List Nat) → Nat → List Nat × Nat
  | [], join_count => ([], join_count)
  | record2 :: rest, join_count =>
    if strcmp (join_value record1 offset1 field1) (join_value record2 offset2 field2) = 0 then
      let r := inner_join_scan2 table1 table2 field1 field2 offset1 offset2 record1 rest
        (join_count + 1)
      (inner_join_row table1 table2 record1 record2 (join_count + 1) ++ r.1, r.2)
    else
      inner_join_scan2 table1 table2 field1 field2 offset1 offset2 record1 rest join_count

/-- The outer loop of `inner_join` (lines 1035-1132) over the records of the first
file; the second file is read from the offset `sizeof(Table)` anew for each of them. -/
def inner_join_scan1 (table1 table2 : Table) (field1 field2 : Field) (offset1 offset2 : Int)
    (records2 : List (List Nat)) : List (List Nat) → Nat → List Nat × Nat
  | [], join_count => ([], join_count)
  | record1 :: rest, join_count =>
    let r := inner_join_scan2 table1 table2 field1 field2 offset1 offset2 record1 records2
      join_count
    let r2 := inner_join_scan1 table1 table2 field1 field2 offset1 offset2 records2 rest r.2
    (r.1 ++ r2.1, r2.2)

/-- The records that a scan of `file` with records of `record_size` bytes reads, from
the offset `sizeof(Table)` on. -/
def file_records (file : TableFile) (record_size : Int) : List (List Nat) :=
  fread_records (file.records.length + 1) record_size file.records

/-- `inner_join(table1, table2, field1, field2)`: what it prints.  The files are
opened by the names in the two headers.  `join_count` is not reduced to 32 bits. -/
def inner_join (fs : FileSystem) (table1 table2 : Table) (field1 field2 : List Nat) :
    List Nat :=
  let head := cstr "Performing INNER JOIN on " ++ table1.name ++ cstr "." ++ field1 ++
    cstr " = " ++ table2.name ++ cstr "." ++ field2 ++ cstr "\n"
  let fields1 := table1.fields.take table1.field_count
  let fields2 := table2.fields.take table2.field_count
  match field_index fields1 field1 0, field_index fields2 field2 0 with
  | some field_idx1, some field_idx2 =>
    match fs.files table1.filename, fs.files table2.filename with
    | some file1, some file2 =>
      match fields1.get? field_idx1, fields2.get? field_idx2 with
      | some f1, some f2 =>
        let r := inner_join_scan1 table1 table2 f1 f2 (field_offset fields1 field_idx1)
          (field_offset fields2 field_idx2) (file_records file2 table2.record_size)
          (file_records file1 table1.record_size) 0
        head ++ r.1 ++ cstr "INNER JOIN completed. " ++ printf_d r.2 ++
          cstr " records joined.\n"
      | _, _ => head
    | _, _ => head ++ cstr "Error opening table files\n"
  | _, _ => head ++ cstr "Join fields not found\n"

/-- `left_join`. -/
def left_join (fs : FileSystem) (table1 table2 : Table) (field1 field2 : List Nat) :
    List Nat :=
  cstr "LEFT JOIN not fully implemented yet\n" ++ inner_join fs table1 table2 field1 field2

/-- `right_join`. -/
def right_join (fs : FileSystem) (table1 table2 : Table) (field1 field2 : List Nat) :
    List Nat :=
  cstr "RIGHT JOIN not fully implemented yet\n" ++ inner_join fs table1 table2 field1 field2

/-- `full_join`. -/
def full_join (fs : FileSystem) (table1 table2 : Table) (field1 field2 : List Nat) :
    List Nat :=
  cstr "FULL JOIN not fully implemented yet\n" ++ inner_join fs table1 table2 field1 field2

/-- `perform_join(join_info)`: what it prints; `none` as in `load_table_from_file`. -/
def perform_join (fs : FileSystem) (join_info : JoinInfo) : Option (List Nat) :=
  match load_table_from_file fs (table_filename join_info.table1) with
  | none => none
  | some none => some (cstr "Table " ++ join_info.table1 ++ cstr " not found\n")
  | some (some table1) =>
    match load_table_from_file fs (table_filename join_info.table2) with
    | none => none
    | some none => some (cstr "Table " ++ join_info.table2 ++ cstr " not found\n")
    | some (some table2) =>
      if strcasecmp join_info.join_type (cstr "INNER") = 0 then
        some (inner_join fs table1 table2 join_info.field1 join_info.field2)
      else if strcasecmp join_info.join_type (cstr "LEFT") = 0 then
        some (left_join fs table1 table2 join_info.field1 join_info.field2)
      else if strcasecmp join_info.join_type (cstr "RIGHT") = 0 then
        some (right_join fs table1 table2 join_info.field1 join_info.field2)
      else if strcasecmp join_info.join_type (cstr "FULL") = 0 then
        some (full_join fs table1 table2 join_info.field1 join_info.field2)
      else some (cstr "Unknown JOIN type: " ++ join_info.join_type ++ cstr "\n")

/-! ## The command interpreter (`ODQ2.c` lines 1216-1361) -/

/-- `sscanf(rest, "%s", table_name) == 1` (line 1232): the word, `none` when there is
none. -/
def sscanf_use (rest : List Nat) : Option (List Nat) :=
  (scan_word rest).map Prod.fst

/-- `sscanf(rest, "INTO %*s VALUES (%[^)]", values) == 1` (line 1240): the text between
the opening bracket and the first closing bracket; the word after `INTO` is read and
dropped.  `none` when the conversion does not succeed. -/
def sscanf_insert (rest : List Nat) : Option (List Nat) :=
  match match_literal (cstr "INTO") rest with
  | none => none
  | some r1 =>
    match scan_word r1 with
    | none => none
    | some (_, r2) =>
      match match_literal (cstr "VALUES") (r2.dropWhile isspace) with
      | none => none
      | some r3 =>
        match match_literal (cstr "(") (r3.dropWhile isspace) with
        | none => none
        | some r4 =>
          let values := r4.takeWhile fun c => c != 41
          if values = [] then none else some values

/-- `sscanf(rest, "TEXT '%[^']", text) == 1` (line 1343): the text between the first
two single quotes, `none` when the conversion does not succeed. -/
def sscanf_find (rest : List Nat) : Option (List Nat) :=
  match match_literal (cstr "TEXT") rest with
  | none => none
  | some r1 =>
    match match_literal (cstr "'") (r1.dropWhile isspace) with
    | none => none
    | some r2 =>
      let text := r2.takeWhile fun c => c != 39
      if text = [] then none else some text

/-- The C string at index `i` of a buffer whose bytes after the end are zero. -/
def string_at (buf : List Nat) (i : Nat) : List Nat := c_str (buf.drop i)

/-- The loop `while (*p == ' ') p++` from index `i` of a buffer. -/
def skip_spaces (buf : List Nat) (i : Nat) : Nat :=
  i + ((buf.drop i).takeWhile fun c => c == 32).length

/-- `strchr` on the C string at index `i` of a buffer, for a byte that is not NUL: the
index of its first occurrence, `none` for `NULL`. -/
def strchr_at (buf : List Nat) (i c : Nat) : Option Nat :=
  if c ∈ string_at buf i then some (i + (string_at buf i).indexOf c) else none

/-- Lines 1260-1301 of `process_command`: the `JoinInfo` that the statement is taken
apart into, in the buffer `rest`; `*p = '\0'` is `set p 0`.  `none` when `JOIN`, `ON`,
a dot, the equals sign or the second dot is not found: nothing is printed then. -/
def parse_join (rest : List Nat) : Option JoinInfo :=
  match strstr rest (cstr "JOIN") with
  | none => none
  | some join_pos =>
    match strstr join_pos (cstr "ON") with
    | none => none
    | some on_pos =>
      let join_idx := rest.length - join_pos.length
      let on_idx := rest.length - on_pos.length
      let buf1 := rest.set on_idx 0
      let table2_start := skip_spaces buf1 (join_idx + 5)
      let table2_end :=
        table2_start + ((string_at buf1 table2_start).takeWhile fun c => c != 32).length
      let buf2 := buf1.set table2_end 0
      let table2 := string_at buf2 table2_start
      let on_clause := on_idx + 3
      match strchr_at buf2 on_clause 46 with
      | none => none
      | some dot_pos =>
        let buf3 := buf2.set dot_pos 0
        let field1 := string_at buf3 on_clause
        match strchr_at buf3 (dot_pos + 1) 61 with
        | none => none
        | some equal_pos =>
          let buf4 := buf3.set equal_pos 0
          let table2_field := skip_spaces buf4 (equal_pos + 1)
          match strchr_at buf4 table2_field 46 with
          | none => none
          | some dot2_pos =>
            let buf5 := buf4.set dot2_pos 0
            let table1 := string_at buf5 table2_field
            let field2 := string_at buf5 (dot2_pos + 1)
            let join_type :=
              if (strstr (string_at buf5 0) (cstr "INNER")).isSome then cstr "INNER"
              else if (strstr (string_at buf5 0) (cstr "LEFT")).isSome then cstr "LEFT"
              else if (strstr (string_at buf5 0) (cstr "RIGHT")).isSome then cstr "RIGHT"
              else if (strstr (string_at buf5 0) (cstr "FULL")).isSome then cstr "FULL"
              else cstr "INNER"
            some { table1 := table1, table2 := table2, field1 := field1, field2 := field2,
                   join_type := join_type }

/-- Lines 1330-1333 of `process_command`: the column list without the spaces in front
and at its end (the first byte is kept). -/
def trim_columns (columns : List Nat) : List Nat :=
  match columns.dropWhile fun c => c == 32 with
  | [] => []
  | c :: cs => c :: (cs.reverse.dropWhile fun c => c == 32).reverse

/-- The text after `WHERE` and one more byte (`where_pos + 6`), empty without `WHERE`. -/
def where_part (s : List Nat) : List Nat :=
  match strstr s (cstr "WHERE") with
  | some where_pos => where_pos.drop 6
  | none => []

/-- The branch `SELECT` of `process_command` (lines 1246-1339): what is printed.  The
three forms are told apart by the texts `COUNT(*)` and `JOIN` anywhere in the
statement.  `none` as in `select_columns` and `perform_join`. -/
def process_select (st : State) (rest : List Nat) : Option (List Nat) :=
  if (strstr rest (cstr "COUNT(*)")).isSome then
    select_count st (where_part rest)
  else if (strstr rest (cstr "JOIN")).isSome then
    match parse_join rest with
    | some join_info => perform_join st.fs join_info
    | none => some []
  else
    match strstr rest (cstr "FROM") with
    | some from_pos =>
      select_columns st (trim_columns (rest.take (rest.length - from_pos.length)))
        (where_part from_pos)
    | none => some (cstr "Syntax error: missing FROM clause\n")

/-- What `create_table` prints. -/
def CreateResult.message (table_name : List Nat) : CreateResult → List Nat
  | .created _ => cstr "Table '" ++ table_name ++ cstr "' created\n"
  | .unknownFieldType field_type => cstr "Unknown field type: " ++ field_type ++ cstr "\n"
  | .errorCreating => cstr "Error creating table\n"

/-- What the command `HELP` prints (lines 1359-1370). -/
def help_text : List Nat :=
  cstr "Available commands:\n" ++
  cstr "  CREATE TABLE name (field1 type, field2 type, ...)\n" ++
  cstr "  USE tablename\n" ++
  cstr "  INSERT INTO tablename VALUES (value1, value2, ...)\n" ++
  cstr "  SELECT * FROM tablename\n" ++
  cstr "  SELECT col1, col2 FROM tablename\n" ++
  cstr "  SELECT * FROM tablename WHERE condition\n" ++
  cstr "  SELECT COUNT(*) FROM tablename [WHERE condition]\n" ++
  cstr "  SELECT * FROM table1 JOIN table2 ON table1.col = table2.col\n" ++
  cstr "  FIND TEXT 'searchtext'\n" ++
  cstr "  LOAD filename\n" ++
  cstr "  EXIT\n"

/-- `process_command(command)`: the state after the command and what it prints.  The
history of commands is not part of the model.  `none` is outside the model: a command
without a word (`cmd` is read uninitialised), the commands `LOAD` (macro files) and
`EXIT` (the end of the process), and `none` of the function that is called. -/
def process_command (st : State) (command : List Nat) : Option (State × List Nat) :=
  match command_split command with
  | none => none
  | some (cmd, rest) =>
    if strcmp cmd (cstr "CREATE") = 0 then
      match sscanf_create rest with
      | some (table_name, fields) =>
        (create_table st.fs table_name fields).map fun r =>
          ({ st with fs := r.1 }, r.2.message table_name)
      | none =>
        some (st, cstr "Syntax: CREATE TABLE name (field1 type, field2 type, ...)\n")
    else if strcmp cmd (cstr "USE") = 0 then
      match sscanf_use rest with
      | some table_name => (load_table st table_name).map fun r => (r.1, r.2.1)
      | none => some (st, cstr "Syntax: USE tablename\n")
    else if strcmp cmd (cstr "INSERT") = 0 then
      match sscanf_insert rest with
      | some values => insert_into_table st values
      | none =>
        some (st, cstr "Syntax: INSERT INTO tablename VALUES (value1, value2, ...)\n")
    else if strcmp cmd (cstr "SELECT") = 0 then
      (process_select st rest).map fun out => (st, out)
    else if strcmp cmd (cstr "FIND") = 0 then
      match sscanf_find rest with
      | some text => some (st, find_text st text)
      | none => some (st, cstr "Syntax: FIND TEXT 'searchtext'\n")
    else if strcmp cmd (cstr "LOAD") = 0 then none
    else if strcmp cmd (cstr "EXIT") = 0 then none
    else if strcmp cmd (cstr "HELP") = 0 then some (st, help_text)
    else some (st, cstr "Unknown command: " ++ cmd ++ cstr "\n")

/-- The state after a sequence of commands, and what each of them prints. -/
def process_commands : State → List (List Nat) → Option (State × List (List Nat))
  | st, [] => some (st, [])
  | st, command :: rest =>
    match process_command st command with
    | none => none
    | some (st2, out) =>
      (process_commands st2 rest).map fun r => (r.1, out :: r.2)

/-! ### Properties of tables and sessions -/

/-- A schema within the bounds that the engine assumes: at most `MAX_FIELDS` fields, an
`int` of 4 bytes, a `bool` of 1 byte, a text of 0 to 255 bytes (its string and the
terminator fit the 256-byte key), a `record_size` equal to the sum of the field sizes
and no larger than `MAX_RECORD_SIZE`. -/
def Table.bounded (t : Table) : Bool :=
  decide (t.field_count = t.fields.length) && decide (t.fields.length ≤ MAX_FIELDS) &&
    t.fields.all (fun f =>
      match f.type with
      | .FIELD_INT => f.size == 4
      | .FIELD_BOOL => f.size == 1
      | .FIELD_TEXT => decide (0 ≤ f.size) && decide (f.size ≤ 255)) &&
    decide (t.record_size = sum_sizes t.fields) &&
    decide (t.record_size ≤ MAX_RECORD_SIZE) &&
    decide (t.indexes.length = MAX_FIELDS)

/-- A header as `create_table` writes it, within the bounds of the engine: a bounded
schema without index trees. -/
def Table.wellFormed (t : Table) : Bool :=
  t.bounded && decide (t.indexes = List.replicate MAX_FIELDS .null)

/-- The first `n` records of `size` bytes of `data`. -/
def records_of (size : Nat) : Nat → List Nat → List (List Nat)
  | 0, _ => []
  | n + 1, data => data.take size :: records_of size n (data.drop size)

/-- The complete records of the data of a table file. -/
def complete_records (record_size : Int) (data : List Nat) : List (List Nat) :=
  records_of record_size.toNat (data.length / record_size.toNat) data

/-- The (key, position) pairs of field `i` over a list of records, the first of which
is at `position`: the rendered value of the field and the file position of the
record. -/
def field_keys (fields : List Field) (i : Nat) (record_size : Int) :
    List (List Nat) → Int → List (List Nat × Int)
  | [], _ => []
  | record :: rest, position =>
    (match fields.get? i with
      | some field => field_text record (field_offset fields i) field
      | none => [], position) ::
      field_keys fields i record_size rest (position + record_size)

/-- The index trees after the records of a list have been indexed one after the
other, the first at `position`, each `record_size` bytes after the one before. -/
def index_records (fields : List Field) (record_size : Int) :
    List AVLNode → List (List Nat) → Int → Option (List AVLNode)
  | indexes, [], _ => some indexes
  | indexes, record :: rest, position =>
    match index_record fields 0 indexes record 0 position with
    | none => none
    | some indexes2 => index_records fields record_size indexes2 rest (position + record_size)

/-- A session that is attached to the file `file` of name `filename`: a table is
loaded, its handle is open on the file, the file has a header, the schema is within
the bounds of the engine and the index trees are balanced. -/
def Attached (st : State) (filename : List Nat) (file : TableFile) : Prop :=
  st.session.table_loaded = true ∧ st.session.data_file = some filename ∧
    st.fs.files filename = some file ∧ file.header.isSome = true ∧
    st.session.current_table.bounded = true ∧
    ∀ t ∈ st.session.current_table.indexes, AVLInvariant t

/-- A directory that holds the file of `example_table` with the record `(7)` and two
more bytes. -/
def example_fs_partial : FileSystem :=
  FileSystem.empty.put (table_filename (cstr "t"))
    { header := some example_table, data := [7, 0, 0, 0] ++ [9, 0] }

/-- The session that `USE t` leaves on `example_fs`: the record `(7)` is indexed at
the offset `sizeof(Table)`. -/
def example_state : State :=
  { fs := example_fs,
    session :=
      { current_table :=
          { example_table with
            indexes := (List.replicate MAX_FIELDS AVLNode.null).set 0
              (.node (cstr "7") 1136 .null .null 1) },
        table_loaded := true, data_file := some (table_filename (cstr "t")) } }

/-- A directory as the engine leaves it: a file without a header is empty (a `CREATE`
that stopped at an unknown field type), the header of any other file is within the
bounds of the engine and its data are whole records. -/
def FileSystem.sound (fs : FileSystem) : Prop :=
  ∀ filename file, fs.files filename = some file →
    match file.header with
    | none => file.data = []
    | some header =>
      header.wellFormed = true ∧ ∃ n : Nat, file.data.length = n * header.record_size.toNat

/-- Every pair (key, position) of the index trees of `table` refers to a record of
`data`, the bytes of the file after the header: the position is the offset
`sizeof(Table) + k * record_size` of a record that `data` holds completely, and the key
is the rendered value of the field of the tree in that record. -/
def IndexSound (table : Table) (data : List Nat) : Prop :=
  ∀ i field, table.fields.get? i = some field →
    ∀ x ∈ inorder (table.indexes.getD i .null),
      ∃ k : Nat, x.2 = (sizeof_Table : Int) + k * table.record_size ∧
        (k + 1) * table.record_size.toNat ≤ data.length ∧
        x.1 = field_text
          ((data.drop (k * table.record_size.toNat)).take table.record_size.toNat)
          (field_offset table.fields i) field

/-- The invariant of the engine on directories within its bounds: the directory is
sound; without a loaded table the session is the initial one; with a loaded table the
handle is open on a file whose header has the schema of `current_table`, the index
trees are balanced search trees whose pairs refer to records of that file, and the
trees beyond the fields are empty. -/
def State.consistent (st : State) : Prop :=
  st.fs.sound ∧
  (st.session.table_loaded = false → st.session = Session.initial) ∧
  (st.session.table_loaded = true →
    ∃ filename file header, st.session.data_file = some filename ∧
      st.fs.files filename = some file ∧ file.header = some header ∧
      header.fields = st.session.current_table.fields ∧
      header.record_size = st.session.current_table.record_size ∧
      st.session.current_table.bounded = true ∧
      (∀ t ∈ st.session.current_table.indexes, AVLInvariant t ∧ BSTOrdered t) ∧
      IndexSound st.session.current_table file.data ∧
      ∀ i, st.session.current_table.fields.length ≤ i →
        st.session.current_table.indexes.getD i .null = .null)

/-- Whether a statement keeps to the bounds of the engine in the state in which it is
run: a `CREATE` does not name the file of the active table, and the schema that it
writes is within the bounds (`Table.wellFormed`). -/
def Statement.admissible (st : State) : Statement → Bool
  | .create table_name field_definitions =>
    (st.session.data_file != some (table_filename table_name)) &&
      (match create_table st.fs table_name field_definitions with
        | some (_, .created t) => t.wellFormed
        | _ => true)
  | _ => true

/-- Whether every statement of a sequence is admissible in the state in which it is
run. -/
def admissible : State → List Statement → Bool
  | _, [] => true
  | st, s :: rest =>
    s.admissible st &&
      match run_statement st s with
      | none => true
      | some st2 => admissible st2 rest

/-- The chain of conditions in the words of the specification: the first condition is
evaluated on its own, every later condition is combined with the running result from
left to right, by AND when its flag is set and by OR otherwise; the empty chain is
true.  `eval` evaluates one condition. -/
def evaluate_chain (eval : WhereCondition → Bool) : List WhereCondition → Bool
  | [] => true
  | c :: cs =>
    cs.foldl (fun acc d => if d.is_and then acc && eval d else acc || eval d) (eval c)

/-! ### Rows and records in the words of the specification -/

/-- The records of the file of the active table: the complete records after the
header, in the order of the file. -/
def stored_records (st : State) : List (List Nat) :=
  match st.session.data_file with
  | none => []
  | some filename =>
    match st.fs.files filename with
    | none => []
    | some file => complete_records st.session.current_table.record_size file.records

/-- A column of a row: `name: value` for the field of index `i`, the value decimal for
Int32, in single quotes for Text, `true` or `false` for Bool. -/
def column_text (fields : List Field) (record : List Nat) (i : Nat) : List Nat :=
  match fields.get? i with
  | some field =>
    field.name ++ cstr ": " ++ (decode_field record (field_offset fields i) field).literal
  | none => []

/-- A row: the columns of the indexes `selected`, joined by ` | `, and a newline. -/
def row_text (fields : List Field) (record : List Nat) (selected : List Nat) : List Nat :=
  List.intercalate (cstr " | ") (selected.map (column_text fields record)) ++ cstr "\n"

/-- Whether a Text field of the record has a decoded value that contains `needle` as a
substring. -/
def text_fields_contain (fields : List Field) (record needle : List Nat) : Bool :=
  (List.range fields.length).any fun i =>
    match fields.get? i with
    | some field =>
      (match decode_field record (field_offset fields i) field with
        | .text s => decide (needle <:+: s)
        | _ => false)
    | none => false

/-- The state after `CREATE TABLE t (id int, name text(10))`, `USE t` and the
`INSERT`s of `(1, 'Alice')` and `(2, 'Bob')`, for the examples. -/
def example_people : State :=
  ((process_commands { fs := FileSystem.empty, session := Session.initial }
      [cstr "CREATE TABLE t (id int, name text(10))", cstr "USE t",
       cstr "INSERT INTO t VALUES (1, 'Alice')",
       cstr "INSERT INTO t VALUES (2, 'Bob')"]).map Prod.fst).getD
    { fs := FileSystem.empty, session := Session.initial }

/-- The result of a `SELECT` in the words of the specification: one row for each of
the `records`, in their order, for which the chain of conditions is true (for every
record when there is no WHERE clause, `conditions = none`), each row with the columns
`selected`, and then the count line with the number of rows. -/
def select_output (table : Table) (records : List (List Nat)) (selected : List Nat)
    (conditions : Option (List WhereCondition)) : List Nat :=
  let rows := records.filter fun record =>
    match conditions with
    | none => true
    | some cs => evaluate_chain (check_single_condition table record) cs
  (rows.map fun record =>
      row_text (table.fields.take table.field_count) record selected).flatten ++
    printf_d (rows.length : Nat) ++ cstr " rows returned\n"

/-! ### Joined rows in the words of the specification -/

/-- The pairs of a nested-loop join in left-major order: for every record `l` of the
left table, in order, the records `r` of the right table, in order, that `accept l r`
takes. -/
def join_pairs (accept : List Nat → List Nat → Bool) (left right : List (List Nat)) :
    List (List Nat × List Nat) :=
  (left.map fun l => (right.filter (accept l)).map fun r => (l, r)).flatten

/-- A column of a joined row: `table.field: value` for the field of index `i`. -/
def join_column (table_name : List Nat) (fields : List Field) (record : List Nat) (i : Nat) :
    List Nat :=
  match fields.get? i with
  | some field =>
    table_name ++ cstr "." ++ field.name ++ cstr ": " ++
      (decode_field record (field_offset fields i) field).literal
  | none => []

/-- The `n`-th joined row: its headline, every field of the left record followed by
` | `, the fields of the right record joined by ` | `, and the closing line. -/
def joined_row_text (table1 table2 : Table) (l r : List Nat) (n : Nat) : List Nat :=
  cstr "Joined record " ++ printf_d (n : Nat) ++ cstr ":\n" ++
    ((List.range (table1.fields.take table1.field_count).length).map fun i =>
      join_column table1.name (table1.fields.take table1.field_count) l i ++
        cstr " | ").flatten ++
    List.intercalate (cstr " | ")
      ((List.range (table2.fields.take table2.field_count).length).map
        (join_column table2.name (table2.fields.take table2.field_count) r)) ++
    cstr "\n---\n"

/-- The joined rows of a list of pairs, numbered from `n + 1` on. -/
def joined_rows (table1 table2 : Table) : List (List Nat × List Nat) → Nat → List Nat
  | [], _ => []
  | p :: rest, n =>
    joined_row_text table1 table2 p.1 p.2 (n + 1) ++ joined_rows table1 table2 rest (n + 1)

/-- The header of the table of `CREATE TABLE a (id int, flag bool)`, for the examples. -/
def example_table_a : Table :=
  { name := cstr "a", filename := table_filename (cstr "a"),
    fields := [{ name := cstr "id", type := .FIELD_INT, size := 4 },
               { name := cstr "flag", type := .FIELD_BOOL, size := 1 }],
    field_count := 2, record_size := 5, indexes := List.replicate MAX_FIELDS .null,
    auto_increment := 1 }

/-- The header of the table of `CREATE TABLE b (id int, word text(10))`, for the
examples. -/
def example_table_b : Table :=
  { name := cstr "b", filename := table_filename (cstr "b"),
    fields := [{ name := cstr "id", type := .FIELD_INT, size := 4 },
               { name := cstr "word", type := .FIELD_TEXT, size := 10 }],
    field_count := 2, record_size := 14, indexes := List.replicate MAX_FIELDS .null,
    auto_increment := 1 }

/-- The directory after the two tables `a` and `b` have been created and the records
`(1, true)` and `(1, 'true')` inserted, one into each. -/
def example_join_fs : FileSystem :=
  (((process_commands { fs := FileSystem.empty, session := Session.initial }
      [cstr "CREATE TABLE a (id int, flag bool)",
       cstr "CREATE TABLE b (id int, word text(10))",
       cstr "USE a", cstr "INSERT INTO a VALUES (1, true)",
       cstr "USE b", cstr "INSERT INTO b VALUES (1, 'true')"]).map Prod.fst).getD
    { fs := FileSystem.empty, session := Session.initial }).fs

/-- The file of the table `a` in `example_join_fs`. -/
def example_file_a : TableFile :=
  { header := some example_table_a, data := [1, 0, 0, 0, 1] }

/-- The file of the table `b` in `example_join_fs`. -/
def example_file_b : TableFile :=
  { header := some example_table_b,
    data := [1, 0, 0, 0] ++ cstr "true" ++ [0, 0, 0, 0, 0, 0] }

/-- The state after the two tables `a` and `b` have been created and filled as in
`example_join_fs`: the table `b` is the active one. -/
def example_join_state : State :=
  ((process_commands { fs := FileSystem.empty, session := Session.initial }
      [cstr "CREATE TABLE a (id int, flag bool)",
       cstr "CREATE TABLE b (id int, word text(10))",
       cstr "USE a", cstr "INSERT INTO a VALUES (1, true)",
       cstr "USE b", cstr "INSERT INTO b VALUES (1, 'true')"]).map Prod.fst).getD
    { fs := FileSystem.empty, session := Session.initial }

/-- The bounds on a schema in the words of the specification: every field size is at
least 1, every Text capacity is at most 255, and `record_size` is at most
`MAX_RECORD_SIZE`. -/
def Table.withinBufferBounds (t : Table) : Bool :=
  (t.fields.take t.field_count).all (fun f =>
    decide (1 ≤ f.size) && (f.type != .FIELD_TEXT || decide (f.size ≤ 255))) &&
    decide (t.record_size ≤ MAX_RECORD_SIZE)

/-! ### Value lists of `INSERT` in the words of the specification -/

/-- A value of a `VALUES` list, as it stands between two commas: a text that is not
empty and holds no comma.  The list `v1,v2,...,vk` is `List.intercalate` of its values
with a comma. -/
def is_value_token (t : List Nat) : Bool := t != [] && t.all fun c => c != 44

/-- The value of a field that is stored as zero bytes: 0, the empty text, `false`. -/
def Field.zero_value (f : Field) : Value :=
  match f.type with
  | .FIELD_INT => .int 0
  | .FIELD_TEXT => .text []
  | .FIELD_BOOL => .bool false

/-- The values of the list `values_text sp vs` as they stand between the commas: the
literal of the first value, and the literal of every later value after `sp` spaces. -/
def value_tokens (sp : Nat) : List Value → List (List Nat)
  | [] => []
  | v :: vs => v.literal :: vs.map fun w => List.replicate sp 32 ++ w.literal

/-- The header of the table of `example_people`. -/
def example_people_table : Table :=
  { name := cstr "t", filename := table_filename (cstr "t"),
    fields := [{ name := cstr "id", type := .FIELD_INT, size := 4 },
               { name := cstr "name", type := .FIELD_TEXT, size := 10 }],
    field_count := 2, record_size := 14, indexes := List.replicate MAX_FIELDS .null,
    auto_increment := 1 }

/-- The file of the table of `example_people`: the records `(1, 'Alice')` and
`(2, 'Bob')`. -/
def example_people_file : TableFile :=
  { header := some example_people_table,
    data := [1, 0, 0, 0] ++ cstr "Alice" ++ [0, 0, 0, 0, 0] ++
      ([2, 0, 0, 0] ++ cstr "Bob" ++ [0, 0, 0, 0, 0, 0, 0]) }

/-! ### Table names in the words of the specification -/

/-- A table name as it is written in a statement: a word that is not empty, has no
white space, and fits the buffer `from_part[200]` with the space after it. -/
def is_table_name (n : List Nat) : Bool :=
  n != [] && n.all (fun c => !isspace c) && decide (n.length + 1 < 200)

/-- A text that holds none of the texts `COUNT(*)`, `JOIN` and `WHERE`, by which
`process_command` tells the forms of `SELECT` and the WHERE clause apart. -/
def keyword_free (n : List Nat) : Bool :=
  !(strstr n (cstr "COUNT(*)")).isSome && !(strstr n (cstr "JOIN")).isSome &&
    !(strstr n (cstr "WHERE")).isSome

/-! ### WHERE clauses in the words of the specification -/

/-- A value as it is written in a WHERE clause: a single token without quotes, or a
text in single quotes made of words with one space between them. -/
inductive ValueText where
  | token (t : List Nat)
  | quoted (words : List (List Nat))
deriving DecidableEq, Repr

/-- The text of a value in the clause. -/
def ValueText.render : ValueText → List Nat
  | .token t => t
  | .quoted words => cstr "'" ++ List.intercalate (cstr " ") words ++ cstr "'"

/-- The value without the enclosing quotes. -/
def ValueText.value : ValueText → List Nat
  | .token t => t
  | .quoted words => List.intercalate (cstr " ") words

/-- A token of a clause: not empty, without a space. -/
def is_word (t : List Nat) : Bool := t != [] && t.all fun c => c != 32

/-- A value within the form of the clause: a token that does not start with a quote,
or a quoted text of words (none for the empty text) without a quote in them. -/
def ValueText.wellFormed : ValueText → Bool
  | .token t => is_word t && t.head? != some 39
  | .quoted words => words.all fun w => is_word w && w.all fun c => c != 39

/-- The value fits the buffer `value[100]`, which for a quoted text holds the closing
quote as well. -/
def ValueText.fits : ValueText → Bool
  | .token t => decide (t.length < 100)
  | .quoted words => decide ((List.intercalate (cstr " ") words).length + 1 < 100)

/-- A condition as it is written in a WHERE clause, with the connector in front of it
(of no use in front of the first condition). -/
structure ConditionText where
  connector : List Nat
  field_name : List Nat
  operator : List Nat
  value : ValueText
deriving DecidableEq, Repr

/-- The text `f o v` of a condition. -/
def ConditionText.render (c : ConditionText) : List Nat :=
  c.field_name ++ cstr " " ++ c.operator ++ cstr " " ++ c.value.render

/-- A condition within the form of the clause. -/
def ConditionText.wellFormed (c : ConditionText) : Bool :=
  is_word c.field_name && is_word c.operator && c.value.wellFormed

/-- The tokens of the condition fit the buffers `field_name[30]`, `operator[10]` and
`value[100]` of a `WhereCondition`. -/
def ConditionText.fits (c : ConditionText) : Bool :=
  decide (c.field_name.length < 30) && decide (c.operator.length < 10) && c.value.fits

/-- The connector is `AND` or `OR` in any letter case. -/
def ConditionText.joined (c : ConditionText) : Bool :=
  decide (strcasecmp c.connector (cstr "AND") = 0) ||
    decide (strcasecmp c.connector (cstr "OR") = 0)

/-- The text ` C f o v` of every condition of the list. -/
def clause_tail : List ConditionText → List Nat
  | [] => []
  | c :: cs => cstr " " ++ c.connector ++ cstr " " ++ c.render ++ clause_tail cs

/-- The clause `f1 o1 v1 C2 f2 o2 v2 ... Cn fn on vn`, the tokens separated by single
spaces. -/
def clause_text : List ConditionText → List Nat
  | [] => []
  | c :: cs => c.render ++ clause_tail cs

/-- The condition that the clause describes; the flag `is_and` of the first condition
is clear, that of a later one says whether its connector is `AND`. -/
def ConditionText.condition (first : Bool) (c : ConditionText) : WhereCondition :=
  { field_name := c.field_name, operator := c.operator, value := c.value.value,
    is_and := !first && decide (strcasecmp c.connector (cstr "AND") = 0) }

/-- The conditions that a clause describes, in the order of the clause. -/
def clause_conditions : List ConditionText → List WhereCondition
  | [] => []
  | c :: cs => c.condition true :: cs.map (ConditionText.condition false)

/-- The loop of `parse_where_conditions` on the text that `strtok` has not yet seen, in
the given state, with the fuel that `parse_where_conditions` starts with on this
text. -/
def parse_where_text (text : List Nat) (state : Nat) (current : WhereCondition)
    (conditions : List WhereCondition) : Option (List WhereCondition) :=
  parse_where_loop (text.length + 1) (strtok text (cstr " ")).1 (strtok text (cstr " ")).2
    state current conditions

/-! ## Theorems -/

/-! ### The C string order -/

theorem strcmp_self (a : List Nat) : strcmp a a = 0 := by
  induction a with
  | nil => rfl
  | cons x xs ih => simp [strcmp, ih]

theorem strcmp_eq_zero {a b : List Nat} (h : strcmp a b = 0) : a = b := by
  induction a generalizing b with
  | nil => cases b with
    | nil => rfl
    | cons y ys => simp [strcmp] at h
  | cons x xs ih => cases b with
    | nil => simp [strcmp] at h
    | cons y ys =>
      simp only [strcmp] at h
      split_ifs at h with h1 h2
      · omega
      · have hxy : x = y := by omega
        rw [hxy, ih h]

theorem strcmp_eq_zero_iff (a b : List Nat) : strcmp a b = 0 ↔ a = b :=
  ⟨strcmp_eq_zero, fun h => h ▸ strcmp_self a⟩

theorem strcmp_swap (a b : List Nat) : strcmp b a = - strcmp a b := by
  induction a generalizing b with
  | nil => cases b <;> simp [strcmp]
  | cons x xs ih => cases b with
    | nil => simp [strcmp]
    | cons y ys =>
      simp only [strcmp]
      split_ifs <;> first | omega | exact ih ys

theorem strcmp_trans {a b c : List Nat} (h1 : strcmp a b < 0) (h2 : strcmp b c < 0) :
    strcmp a c < 0 := by
  induction a generalizing b c with
  | nil => cases c with
    | nil => cases b <;> simp [strcmp] at h1 h2
    | cons z zs => simp [strcmp]
  | cons x xs ih => cases b with
    | nil => simp [strcmp] at h1
    | cons y ys => cases c with
      | nil => simp [strcmp] at h2
      | cons z zs =>
        simp only [strcmp] at h1 h2 ⊢
        split_ifs at h1 h2 ⊢ <;> first | omega | exact ih h1 h2

/-! ### Balance -/

theorem height_null : height .null = 0 := rfl

theorem height_node (k : List Nat) (p : Int) (l r : AVLNode) (h : Int) :
    height (.node k p l r h) = h := rfl

theorem height_nonneg {t : AVLNode} (h : AVLInvariant t) : 0 ≤ height t := by
  induction t with
  | null => simp [height_null]
  | node k p l r ht ihl ihr =>
    obtain ⟨hl, hr, _, hh⟩ := h
    have := ihl hl
    have := ihr hr
    simp only [height_node, height_null]; omega

theorem height_eq_depth {t : AVLNode} (h : AVLInvariant t) : height t = depth t := by
  induction t with
  | null => simp [height_null, depth]
  | node k p l r ht ihl ihr =>
    obtain ⟨hl, hr, _, hh⟩ := h
    have := ihl hl
    have := ihr hr
    simp only [height_node, depth]; omega

theorem node_of_height_pos {t : AVLNode} (h : AVLInvariant t) (hp : 0 < height t) :
    ∃ k p l r ht, t = .node k p l r ht := by
  cases t with
  | null => simp [height_null] at hp
  | node k p l r ht => exact ⟨k, p, l, r, ht, rfl⟩

/-- The fix-up after an insertion into the left subtree. -/
theorem rebalance_left {k : List Nat} {pos : Int} {l l2 r : AVLNode} {h : Int} {key : List Nat}
    (hl2 : AVLInvariant l2) (hr : AVLInvariant r)
    (hbal : |height l - height r| ≤ 1) (hcmp : strcmp key k < 0)
    (hgrow : height l2 = height l ∨ (height l2 = height l + 1 ∧ Grew key l2)) :
    ∃ t, insertAVL_rebalance (.node k pos l2 r h) key = some t ∧ AVLInvariant t ∧
      (height t = 1 + max (height l) (height r) ∨
        (height t = 1 + max (height l) (height r) + 1 ∧ Grew key t)) := by
  have hr0 := height_nonneg hr
  rw [abs_le] at hbal
  unfold insertAVL_rebalance
  simp only [getBalance]
  by_cases hb : 1 < height l2 - height r
  · rw [if_pos hb]
    cases l2 with
    | null => simp only [height_node, height_null] at hb; omega
    | node lk lp a b lh =>
      obtain ⟨ha, hb2, hab, hlh⟩ := hl2
      rw [abs_le] at hab
      have ha0 := height_nonneg ha
      have hb0 := height_nonneg hb2
      simp only [height_node, height_null] at hb hgrow
      have hG : Grew key (.node lk lp a b lh) := by
        rcases hgrow with h1 | ⟨_, h2⟩
        · omega
        · exact h2
      simp only [Grew] at hG
      rcases hG with h1 | ⟨hlt, hh⟩ | ⟨hgt, hh⟩
      · omega
      · simp only [hlt, if_true, rightRotate]
        refine ⟨_, rfl, ⟨ha, ⟨hb2, hr, ?_, by omega⟩, ?_, by omega⟩, ?_⟩
        · rw [abs_le]; omega
        · rw [abs_le]; simp only [height_node, height_null]; omega
        · left; simp only [height_node, height_null]; omega
      · have hnlt : ¬ strcmp key lk < 0 := by omega
        simp only [hnlt, if_false, hgt, if_true]
        obtain ⟨bk, bp, c, d, bh, rfl⟩ := node_of_height_pos hb2 (by omega)
        obtain ⟨hc, hd, hcd, hbh⟩ := hb2
        rw [abs_le] at hcd
        have hc0 := height_nonneg hc
        have hd0 := height_nonneg hd
        simp only [height_node, height_null] at hh hlh hab hb0
        simp only [leftRotate, Option.bind, rightRotate]
        refine ⟨_, rfl, ⟨⟨ha, hc, ?_, by omega⟩, ⟨hd, hr, ?_, by omega⟩, ?_, by omega⟩, ?_⟩
        · rw [abs_le]; omega
        · rw [abs_le]; omega
        · rw [abs_le]; simp only [height_node, height_null]; omega
        · left; simp only [height_node, height_null]; omega
  · rw [if_neg hb]
    have hb3 : ¬ height l2 - height r < -1 := by
      rcases hgrow with h1 | ⟨h1, _⟩ <;> omega
    rw [if_neg hb3]
    refine ⟨_, rfl, ⟨hl2, hr, ?_, rfl⟩, ?_⟩
    · rw [abs_le]; rcases hgrow with h1 | ⟨h1, _⟩ <;> omega
    · simp only [height_node, height_null, Grew]
      rcases hgrow with h1 | ⟨h1, _⟩
      · left; omega
      · by_cases hc : height l < height r
        · left; omega
        · right; exact ⟨by omega, Or.inr (Or.inl ⟨hcmp, by omega⟩)⟩

/-- The fix-up after an insertion into the right subtree. -/
theorem rebalance_right {k : List Nat} {pos : Int} {l r r2 : AVLNode} {h : Int} {key : List Nat}
    (hl : AVLInvariant l) (hr2 : AVLInvariant r2)
    (hbal : |height l - height r| ≤ 1) (hcmp : 0 < strcmp key k)
    (hgrow : height r2 = height r ∨ (height r2 = height r + 1 ∧ Grew key r2)) :
    ∃ t, insertAVL_rebalance (.node k pos l r2 h) key = some t ∧ AVLInvariant t ∧
      (height t = 1 + max (height l) (height r) ∨
        (height t = 1 + max (height l) (height r) + 1 ∧ Grew key t)) := by
  have hl0 := height_nonneg hl
  rw [abs_le] at hbal
  unfold insertAVL_rebalance
  simp only [getBalance]
  have hb1 : ¬ 1 < height l - height r2 := by
    rcases hgrow with h1 | ⟨h1, _⟩ <;> omega
  rw [if_neg hb1]
  by_cases hb : height l - height r2 < -1
  · rw [if_pos hb]
    cases r2 with
    | null => simp only [height_null] at hb; omega
    | node rk rp a b rh =>
      obtain ⟨ha, hb2, hab, hrh⟩ := hr2
      rw [abs_le] at hab
      have ha0 := height_nonneg ha
      have hb0 := height_nonneg hb2
      simp only [height_node] at hb hgrow
      have hG : Grew key (.node rk rp a b rh) := by
        rcases hgrow with h1 | ⟨_, h2⟩
        · omega
        · exact h2
      simp only [Grew] at hG
      rcases hG with h1 | ⟨hlt, hh⟩ | ⟨hgt, hh⟩
      · omega
      · have hngt : ¬ 0 < strcmp key rk := by omega
        simp only [hngt, if_false, hlt, if_true]
        obtain ⟨ak, ap, c, d, ah, rfl⟩ := node_of_height_pos ha (by omega)
        obtain ⟨hc, hd, hcd, hah⟩ := ha
        rw [abs_le] at hcd
        have hc0 := height_nonneg hc
        have hd0 := height_nonneg hd
        simp only [height_node] at hh hrh hab ha0
        simp only [leftRotate, Option.bind, rightRotate]
        refine ⟨_, rfl, ⟨⟨hl, hc, ?_, by omega⟩, ⟨hd, hb2, ?_, by omega⟩, ?_, by omega⟩, ?_⟩
        · rw [abs_le]; omega
        · rw [abs_le]; omega
        · rw [abs_le]; simp only [height_node]; omega
        · left; simp only [height_node]; omega
      · simp only [hgt, if_true, leftRotate]
        refine ⟨_, rfl, ⟨⟨hl, ha, ?_, by omega⟩, hb2, ?_, by omega⟩, ?_⟩
        · rw [abs_le]; omega
        · rw [abs_le]; simp only [height_node]; omega
        · left; simp only [height_node]; omega
  · rw [if_neg hb]
    refine ⟨_, rfl, ⟨hl, hr2, ?_, rfl⟩, ?_⟩
    · rw [abs_le]; rcases hgrow with h1 | ⟨h1, _⟩ <;> omega
    · simp only [height_node, Grew]
      rcases hgrow with h1 | ⟨h1, _⟩
      · left; omega
      · by_cases hc : height r < height l
        · left; omega
        · right; exact ⟨by omega, Or.inr (Or.inr ⟨hcmp, by omega⟩)⟩

/-- One insertion keeps the AVL condition, returns a tree, and changes the height by
at most one. -/
theorem insertAVL_balanced (t : AVLNode) (key : List Nat) (position : Int)
    (ht : AVLInvariant t) :
    ∃ t2, insertAVL t key position = some t2 ∧ AVLInvariant t2 ∧
      (height t2 = height t ∨ (height t2 = height t + 1 ∧ Grew key t2)) := by
  induction t with
  | null =>
    refine ⟨_, rfl, ⟨trivial, trivial, by simp [height_null], by simp [height_null]⟩, ?_⟩
    right; simp [newAVLNode, height_node, height_null, Grew]
  | node k p l r h ihl ihr =>
    obtain ⟨hl, hr, hbal, hh⟩ := ht
    unfold insertAVL
    by_cases h1 : strcmp key k < 0
    · rw [if_pos h1]
      obtain ⟨l2, e, hl2, hg⟩ := ihl hl
      rw [e]
      simp only [Option.bind, height_node, hh]
      exact rebalance_left hl2 hr hbal h1 hg
    · rw [if_neg h1]
      by_cases h2 : 0 < strcmp key k
      · rw [if_pos h2]
        obtain ⟨r2, e, hr2, hg⟩ := ihr hr
        rw [e]
        simp only [Option.bind, height_node, hh]
        exact rebalance_right hl hr2 hbal h2 hg
      · rw [if_neg h2]
        exact ⟨_, rfl, ⟨hl, hr, hbal, hh⟩, Or.inl rfl⟩

theorem insertAll_balanced (ops : List (List Nat × Int)) (t : AVLNode) (ht : AVLInvariant t) :
    ∃ t2, insertAll t ops = some t2 ∧ AVLInvariant t2 := by
  induction ops generalizing t with
  | nil => exact ⟨t, rfl, ht⟩
  | cons kp rest ih =>
    obtain ⟨t1, e, h1, _⟩ := insertAVL_balanced t kp.1 kp.2 ht
    obtain ⟨t2, e2, h2⟩ := ih t1 h1
    exact ⟨t2, by simp [insertAll, e, e2], h2⟩

theorem AVLShape_of_invariant {t : AVLNode} (h : AVLInvariant t) : AVLShape t := by
  induction t with
  | null => trivial
  | node k p l r ht ihl ihr =>
    obtain ⟨hl, hr, hb, hh⟩ := h
    refine ⟨ihl hl, ihr hr, ?_, ?_⟩
    · rw [← height_eq_depth hl, ← height_eq_depth hr]; exact hb
    · rw [← height_eq_depth hl, ← height_eq_depth hr]; exact hh

/-! ### Order -/

theorem inorder_rightRotate {n t : AVLNode} (h : rightRotate n = some t) :
    inorder t = inorder n := by
  unfold rightRotate at h
  split at h
  · simp only [Option.some.injEq] at h
    subst h
    simp [inorder]
  · simp at h

theorem inorder_leftRotate {n t : AVLNode} (h : leftRotate n = some t) :
    inorder t = inorder n := by
  unfold leftRotate at h
  split at h
  · simp only [Option.some.injEq] at h
    subst h
    simp [inorder]
  · simp at h

theorem inorder_rebalance {k : List Nat} {pos : Int} {l r : AVLNode} {h : Int}
    {key : List Nat} {t : AVLNode}
    (e : insertAVL_rebalance (.node k pos l r h) key = some t) :
    inorder t = inorder l ++ (k, pos) :: inorder r := by
  unfold insertAVL_rebalance at e
  simp only at e
  split_ifs at e with h1 h2
  · cases l with
    | null => simp at e
    | node lk lp a b lh =>
      simp only at e
      split_ifs at e with h3 h4
      · rw [inorder_rightRotate e]; simp [inorder]
      · cases e1 : leftRotate (.node lk lp a b lh) with
        | none => simp [e1] at e
        | some l2 =>
          simp only [e1, Option.bind] at e
          rw [inorder_rightRotate e]
          simp only [inorder, inorder_leftRotate e1]
      · simp only [Option.some.injEq] at e
        subst e; simp [inorder]
  · cases r with
    | null => simp at e
    | node rk rp a b rh =>
      simp only at e
      split_ifs at e with h3 h4
      · rw [inorder_leftRotate e]; simp [inorder]
      · cases e1 : rightRotate (.node rk rp a b rh) with
        | none => simp [e1] at e
        | some r2 =>
          simp only [e1, Option.bind] at e
          rw [inorder_leftRotate e]
          simp only [inorder, inorder_rightRotate e1]
      · simp only [Option.some.injEq] at e
        subst e; simp [inorder]
  · simp only [Option.some.injEq] at e
    subst e; simp [inorder]

theorem insertSorted_append_lt (key : List Nat) (pos : Int) (L R : List (List Nat × Int))
    (kp : List Nat × Int) (h : strcmp key kp.1 < 0) :
    insertSorted key pos (L ++ kp :: R) = insertSorted key pos L ++ kp :: R := by
  induction L with
  | nil => simp [insertSorted, h]
  | cons x xs ih =>
    simp only [List.cons_append, insertSorted]
    split_ifs <;> simp [ih]

theorem insertSorted_append_gt (key : List Nat) (pos : Int) (L R : List (List Nat × Int))
    (kp : List Nat × Int) (hL : ∀ x ∈ L, strcmp x.1 key < 0) (h : 0 < strcmp key kp.1) :
    insertSorted key pos (L ++ kp :: R) = L ++ kp :: insertSorted key pos R := by
  induction L with
  | nil =>
    have : ¬ strcmp key kp.1 < 0 := by omega
    simp [insertSorted, h, this]
  | cons x xs ih =>
    have hx := hL x (List.mem_cons_self _ _)
    rw [strcmp_swap] at hx
    have h1 : ¬ strcmp key x.1 < 0 := by omega
    have h2 : 0 < strcmp key x.1 := by omega
    have e := ih (fun y hy => hL y (List.mem_cons_of_mem _ hy))
    rw [List.cons_append, insertSorted, if_neg h1, if_pos h2, e, List.cons_append]

theorem insertSorted_append_eq (key : List Nat) (pos p : Int) (L R : List (List Nat × Int))
    (hL : ∀ x ∈ L, 0 < strcmp key x.1) :
    insertSorted key pos (L ++ (key, p) :: R) = L ++ (key, p) :: R := by
  induction L with
  | nil => simp [insertSorted, strcmp_self]
  | cons x xs ih =>
    have hx := hL x (List.mem_cons_self _ _)
    have hx1 : ¬ strcmp key x.1 < 0 := by omega
    rw [List.cons_append, insertSorted, if_neg hx1, if_pos hx,
      ih (fun y hy => hL y (List.mem_cons_of_mem _ hy))]

theorem mem_insertSorted {key : List Nat} {pos : Int} {L : List (List Nat × Int)}
    {x : List Nat × Int} (h : x ∈ insertSorted key pos L) : x = (key, pos) ∨ x ∈ L := by
  induction L with
  | nil => simp [insertSorted] at h; exact Or.inl h
  | cons y ys ih =>
    simp only [insertSorted] at h
    split_ifs at h
    · simp only [List.mem_cons] at h ⊢; tauto
    · simp only [List.mem_cons] at h ⊢
      rcases h with h | h
      · tauto
      · rcases ih h with h | h <;> tauto
    · exact Or.inr h

theorem pairwise_insertSorted (key : List Nat) (pos : Int) (L : List (List Nat × Int))
    (hL : L.Pairwise fun a b => strcmp a.1 b.1 < 0) :
    (insertSorted key pos L).Pairwise fun a b => strcmp a.1 b.1 < 0 := by
  induction L with
  | nil => simp [insertSorted]
  | cons y ys ih =>
    rw [List.pairwise_cons] at hL
    simp only [insertSorted]
    split_ifs with h1 h2
    · refine List.Pairwise.cons ?_ (List.Pairwise.cons hL.1 hL.2)
      intro z hz
      rcases List.mem_cons.1 hz with rfl | hz
      · exact h1
      · exact strcmp_trans h1 (hL.1 z hz)
    · refine List.Pairwise.cons ?_ (ih hL.2)
      intro z hz
      rcases mem_insertSorted hz with rfl | hz
      · rw [strcmp_swap]; simp only; omega
      · exact hL.1 z hz
    · exact List.Pairwise.cons hL.1 hL.2

/-- In a list in `strcmp` order the pairs of `insertSorted` are those of the list, and
the new pair when its key was absent. -/
theorem mem_insertSorted_iff (key : List Nat) (pos : Int) (L : List (List Nat × Int))
    (hL : L.Pairwise fun a b => strcmp a.1 b.1 < 0) (x : List Nat × Int) :
    x ∈ insertSorted key pos L ↔ x ∈ L ∨ (x = (key, pos) ∧ ∀ y ∈ L, y.1 ≠ key) := by
  induction L with
  | nil => simp [insertSorted]
  | cons y ys ih =>
    rw [List.pairwise_cons] at hL
    simp only [insertSorted]
    split_ifs with h1 h2
    · simp only [List.mem_cons]
      constructor
      · rintro (h | h | h)
        · right
          refine ⟨h, ?_⟩
          intro z hz hzk
          rcases hz with rfl | hz
          · rw [hzk, strcmp_self] at h1; omega
          · have := strcmp_trans h1 (hL.1 z hz)
            rw [hzk, strcmp_self] at this; omega
        · exact Or.inl (Or.inl h)
        · exact Or.inl (Or.inr h)
      · rintro ((h | h) | ⟨h, _⟩)
        · exact Or.inr (Or.inl h)
        · exact Or.inr (Or.inr h)
        · exact Or.inl h
    · simp only [List.mem_cons, ih hL.2]
      constructor
      · rintro (h | h | ⟨h, hk⟩)
        · exact Or.inl (Or.inl h)
        · exact Or.inl (Or.inr h)
        · right
          refine ⟨h, ?_⟩
          intro z hz hzk
          rcases hz with rfl | hz
          · rw [hzk, strcmp_self] at h2; omega
          · exact hk z hz hzk
      · rintro ((h | h) | ⟨h, hk⟩)
        · exact Or.inl h
        · exact Or.inr (Or.inl h)
        · exact Or.inr (Or.inr ⟨h, fun z hz => hk z (Or.inr hz)⟩)
    · have hk : key = y.1 := strcmp_eq_zero (by omega)
      constructor
      · intro h; exact Or.inl h
      · rintro (h | ⟨_, hk2⟩)
        · exact h
        · exact absurd hk.symm (hk2 y (List.mem_cons_self _ _))

theorem BSTOrdered_node {k : List Nat} {p : Int} {l r : AVLNode} {h : Int}
    (ht : BSTOrdered (.node k p l r h)) :
    BSTOrdered l ∧ BSTOrdered r ∧ (∀ x ∈ inorder l, strcmp x.1 k < 0) ∧
      (∀ x ∈ inorder r, strcmp k x.1 < 0) := by
  unfold BSTOrdered at ht ⊢
  simp only [inorder] at ht
  rw [List.pairwise_append, List.pairwise_cons] at ht
  obtain ⟨hl, ⟨hkr, hr⟩, hlr⟩ := ht
  exact ⟨hl, hr, fun x hx => hlr x hx (k, p) (List.mem_cons_self _ _), hkr⟩

/-- One insertion of a key that fits the key buffer acts on the in-order sequence as
the insertion into a sorted list. -/
theorem inorder_insertAVL (t : AVLNode) (key : List Nat) (position : Int) (t2 : AVLNode)
    (hlen : key.length ≤ 256) (ht : BSTOrdered t) (e : insertAVL t key position = some t2) :
    inorder t2 = insertSorted key position (inorder t) := by
  induction t generalizing t2 with
  | null =>
    simp only [insertAVL, newAVLNode, Option.some.injEq] at e
    subst e
    simp [inorder, insertSorted, List.take_of_length_le hlen]
  | node k p l r h ihl ihr =>
    obtain ⟨hl, hr, hlk, hkr⟩ := BSTOrdered_node ht
    unfold insertAVL at e
    split_ifs at e with h1 h2
    · cases e1 : insertAVL l key position with
      | none => simp [e1] at e
      | some l2 =>
        simp only [e1, Option.bind] at e
        rw [inorder_rebalance e, ihl l2 hl e1]
        simp only [inorder]
        rw [insertSorted_append_lt key position (inorder l) (inorder r) (k, p) h1]
    · cases e1 : insertAVL r key position with
      | none => simp [e1] at e
      | some r2 =>
        simp only [e1, Option.bind] at e
        rw [inorder_rebalance e, ihr r2 hr e1]
        simp only [inorder]
        rw [insertSorted_append_gt key position (inorder l) (inorder r) (k, p) ?_ h2]
        intro x hx
        refine strcmp_trans (hlk x hx) ?_
        rw [strcmp_swap]; omega
    · simp only [Option.some.injEq] at e
      subst e
      have hk : key = k := strcmp_eq_zero (by omega)
      subst hk
      simp only [inorder]
      rw [insertSorted_append_eq key position p (inorder l) (inorder r)]
      intro x hx
      have := hlk x hx
      rw [strcmp_swap] at this; omega

theorem BSTOrdered_insertAVL (t : AVLNode) (key : List Nat) (position : Int) (t2 : AVLNode)
    (hlen : key.length ≤ 256) (ht : BSTOrdered t) (e : insertAVL t key position = some t2) :
    BSTOrdered t2 := by
  unfold BSTOrdered
  rw [inorder_insertAVL t key position t2 hlen ht e]
  exact pairwise_insertSorted key position _ ht

/-- The in-order sequence after a sequence of insertions. -/
theorem inorder_insertAll (ops : List (List Nat × Int)) (t t2 : AVLNode)
    (hlen : ∀ kp ∈ ops, kp.1.length ≤ 256) (ht : BSTOrdered t)
    (e : insertAll t ops = some t2) :
    BSTOrdered t2 ∧
      inorder t2 = ops.foldl (fun acc kp => insertSorted kp.1 kp.2 acc) (inorder t) := by
  induction ops generalizing t with
  | nil =>
    simp only [insertAll, Option.some.injEq] at e
    subst e
    exact ⟨ht, rfl⟩
  | cons kp rest ih =>
    simp only [insertAll] at e
    cases e1 : insertAVL t kp.1 kp.2 with
    | none => simp [e1] at e
    | some t1 =>
      simp only [e1, Option.bind] at e
      have hk := hlen kp (List.mem_cons_self _ _)
      have h1 := BSTOrdered_insertAVL t kp.1 kp.2 t1 hk ht e1
      obtain ⟨h2, h3⟩ := ih t1 (fun x hx => hlen x (List.mem_cons_of_mem _ hx)) h1 e
      refine ⟨h2, ?_⟩
      rw [h3, inorder_insertAVL t kp.1 kp.2 t1 hk ht e1]
      rfl

/-- Insertion of a key that the tree holds returns the tree as it is. -/
theorem insertAVL_present (t : AVLNode) (key : List Nat) (position : Int)
    (hb : AVLInvariant t) (ht : BSTOrdered t) (hk : key ∈ (inorder t).map Prod.fst) :
    insertAVL t key position = some t := by
  induction t with
  | null => simp [inorder] at hk
  | node k p l r h ihl ihr =>
    obtain ⟨hl, hr, hlk, hkr⟩ := BSTOrdered_node ht
    obtain ⟨bl, br, hbal, hh⟩ := hb
    rw [abs_le] at hbal
    simp only [inorder, List.map_append, List.map_cons, List.mem_append, List.mem_cons,
      List.mem_map] at hk
    have hre : insertAVL_rebalance (.node k p l r h) key = some (.node k p l r h) := by
      unfold insertAVL_rebalance
      simp only [getBalance]
      rw [if_neg (by omega), if_neg (by omega), hh]
    unfold insertAVL
    split_ifs with h1 h2
    · have hkl : key ∈ (inorder l).map Prod.fst := by
        rcases hk with ⟨x, hx, rfl⟩ | rfl | ⟨x, hx, rfl⟩
        · exact List.mem_map.2 ⟨x, hx, rfl⟩
        · rw [strcmp_self] at h1; omega
        · have := hkr x hx
          rw [strcmp_swap] at this; omega
      rw [ihl bl hl hkl]
      exact hre
    · have hkr2 : key ∈ (inorder r).map Prod.fst := by
        rcases hk with ⟨x, hx, rfl⟩ | rfl | ⟨x, hx, rfl⟩
        · have := hlk x hx
          omega
        · rw [strcmp_self] at h2; omega
        · exact List.mem_map.2 ⟨x, hx, rfl⟩
      rw [ihr br hr hkr2]
      exact hre
    · rfl

/-- The search in an ordered tree finds the pair of the key, if there is one. -/
theorem searchAVL_ordered (t : AVLNode) (key : List Nat) (ht : BSTOrdered t) :
    (∀ pos, (key, pos) ∈ inorder t → ∃ l r h, searchAVL t key = .node key pos l r h) ∧
      (key ∉ (inorder t).map Prod.fst → searchAVL t key = .null) := by
  induction t with
  | null => simp [inorder, searchAVL]
  | node k p l r h ihl ihr =>
    obtain ⟨hl, hr, hlk, hkr⟩ := BSTOrdered_node ht
    simp only [inorder, List.map_append, List.map_cons, List.mem_append, List.mem_cons,
      List.mem_map, not_or]
    unfold searchAVL
    split_ifs with h0 h1
    · have hk : k = key := strcmp_eq_zero h0
      subst hk
      constructor
      · rintro pos (hx | hx | hx)
        · have := hlk _ hx
          rw [strcmp_self] at this; omega
        · simp only [Prod.mk.injEq, true_and] at hx
          subst hx
          exact ⟨l, r, h, rfl⟩
        · have := hkr _ hx
          rw [strcmp_self] at this; omega
      · rintro ⟨_, h2, _⟩
        exact absurd rfl h2
    · constructor
      · rintro pos (hx | hx | hx)
        · exact (ihl hl).1 pos hx
        · simp only [Prod.mk.injEq] at hx
          rw [hx.1, strcmp_self] at h1; omega
        · have := hkr _ hx
          rw [strcmp_swap] at this
          simp only at this; omega
      · rintro ⟨h2, _, _⟩
        exact (ihl hl).2 (by simpa [List.mem_map] using h2)
    · have h2 : 0 < strcmp key k := by
        have : strcmp key k ≠ 0 := fun e => h0 (by rw [strcmp_swap, e]; rfl)
        omega
      constructor
      · rintro pos (hx | hx | hx)
        · have := hlk _ hx
          simp only at this; omega
        · simp only [Prod.mk.injEq] at hx
          rw [hx.1, strcmp_self] at h2; omega
        · exact (ihr hr).1 pos hx
      · rintro ⟨_, _, h3⟩
        exact (ihr hr).2 (by simpa [List.mem_map] using h3)

/-- The pairs of a sorted list after a sequence of insertions: those it had, and for
each new key the pair of its first insertion. -/
theorem mem_foldl_insertSorted (ops : List (List Nat × Int)) (acc : List (List Nat × Int))
    (hacc : acc.Pairwise fun a b => strcmp a.1 b.1 < 0) (x : List Nat × Int) :
    x ∈ ops.foldl (fun acc kp => insertSorted kp.1 kp.2 acc) acc ↔
      x ∈ acc ∨ ((∀ y ∈ acc, y.1 ≠ x.1) ∧ firstInsertion ops x.1 = some x) := by
  induction ops generalizing acc with
  | nil => simp [firstInsertion]
  | cons kp rest ih =>
    rw [List.foldl_cons, ih _ (pairwise_insertSorted kp.1 kp.2 acc hacc)]
    simp only [mem_insertSorted_iff kp.1 kp.2 acc hacc, firstInsertion, List.find?_cons]
    by_cases hk : kp.1 = x.1
    · simp only [hk, decide_True, Option.some.injEq]
      constructor
      · rintro ((h | ⟨h, hn⟩) | ⟨hn, _⟩)
        · exact Or.inl h
        · right
          refine ⟨hn, ?_⟩
          rw [h, ← hk]
        · exact absurd rfl (hn (x.1, kp.2) (Or.inr ⟨rfl, fun y hy e => by
            have := hn y (Or.inl hy); exact this e⟩))
      · rintro (h | ⟨hn, h⟩)
        · exact Or.inl (Or.inl h)
        · left; right
          refine ⟨?_, hn⟩
          rw [← h]
    · simp only [hk, decide_False]
      constructor
      · rintro ((h | ⟨h, hn⟩) | ⟨hn, hf⟩)
        · exact Or.inl h
        · exact absurd (by rw [h]) hk
        · exact Or.inr ⟨fun y hy => hn y (Or.inl hy), hf⟩
      · rintro (h | ⟨hn, hf⟩)
        · exact Or.inl (Or.inl h)
        · right
          refine ⟨?_, hf⟩
          rintro y (hy | ⟨hy, _⟩)
          · exact hn y hy
          · rw [hy]; exact hk

/-- After a sequence of insertions of keys that fit the key buffer the tree is
balanced and ordered, and holds for each key the pair of its first insertion. -/
theorem insertAll_null (ops : List (List Nat × Int)) (hlen : ∀ kp ∈ ops, kp.1.length ≤ 255) :
    ∃ t, insertAll .null ops = some t ∧ AVLInvariant t ∧ BSTOrdered t ∧
      ∀ x, x ∈ inorder t ↔ firstInsertion ops x.1 = some x := by
  obtain ⟨t, e, hb⟩ := insertAll_balanced ops .null trivial
  have hnil : BSTOrdered .null := by simp [BSTOrdered, inorder]
  obtain ⟨ho, hi⟩ := inorder_insertAll ops .null t
    (fun kp hkp => Nat.le_succ_of_le (hlen kp hkp)) hnil e
  refine ⟨t, e, hb, ho, fun x => ?_⟩
  rw [hi, mem_foldl_insertSorted ops _ (by simp [inorder]) x]
  simp [inorder]

theorem firstInsertion_of_mem (ops : List (List Nat × Int)) (k : List Nat)
    (h : k ∈ ops.map Prod.fst) : ∃ pos, firstInsertion ops k = some (k, pos) := by
  induction ops with
  | nil => simp at h
  | cons kp rest ih =>
    simp only [firstInsertion, List.find?_cons]
    by_cases hk : kp.1 = k
    · subst hk
      exact ⟨kp.2, by simp⟩
    · simp only [hk, decide_False]
      simp only [List.map_cons, List.mem_cons] at h
      rcases h with h | h
      · exact absurd h.symm hk
      · exact ih h

theorem mem_of_firstInsertion (ops : List (List Nat × Int)) (k : List Nat) (x : List Nat × Int)
    (h : firstInsertion ops k = some x) : x ∈ ops ∧ x.1 = k := by
  unfold firstInsertion at h
  exact ⟨List.mem_of_find?_eq_some h, by simpa using List.find?_some h⟩

/-! ### Substring search -/

theorem isPrefixAt_iff (needle hay : List Nat) : isPrefixAt needle hay = true ↔ needle <+: hay := by
  induction needle generalizing hay with
  | nil => simp [isPrefixAt]
  | cons n ns ih =>
    cases hay with
    | nil => simp [isPrefixAt]
    | cons h hs => simp [isPrefixAt, ih]

theorem strstr_isSome_iff (hay needle : List Nat) :
    (strstr hay needle).isSome = true ↔ needle <:+: hay := by
  induction hay with
  | nil => by_cases h : needle = [] <;> simp [strstr, h]
  | cons h hs ih =>
    rw [List.infix_cons_iff, ← ih, ← isPrefixAt_iff]
    simp only [strstr]
    split_ifs with h1 <;> simp [h1]

theorem searchTextInAVL_preorder (t : AVLNode) (needle : List Nat) (results : List Int) :
    searchTextInAVL t needle results = results ++ matchingPositions needle (preorder t) := by
  induction t generalizing results with
  | null => simp [searchTextInAVL, matchingPositions, preorder]
  | node k p l r h ihl ihr =>
    simp only [searchTextInAVL, ihr, ihl, preorder, matchingPositions, List.filter_cons,
      List.filter_append, List.map_append]
    by_cases hk : needle <:+: k
    · simp [hk, (strstr_isSome_iff k needle).2 hk]
    · have : (strstr k needle).isSome = false := by
        rw [← Bool.not_eq_true, strstr_isSome_iff]; exact hk
      simp [hk, this]

theorem preorder_perm_inorder (t : AVLNode) : (preorder t).Perm (inorder t) := by
  induction t with
  | null => simp [preorder, inorder]
  | node k p l r h ihl ihr =>
    simp only [preorder, inorder]
    exact (List.Perm.cons _ (ihl.append ihr)).trans List.perm_middle.symm

/-! ### The claims on the index tree -/

/-- C1: after every finite sequence of `insertAVL` calls starting from the empty tree
the calls return a tree in which, at every node, the heights of the two subtrees (an
empty subtree having height 0) differ by at most 1 and the stored height is
1 + max of them; this holds on the stored heights (`AVLInvariant`) and on the real
heights (`AVLShape`). -/
theorem insertAVL_sequence_balanced (ops : List (List Nat × Int)) :
    ∃ t, insertAll .null ops = some t ∧ AVLInvariant t ∧ AVLShape t := by
  obtain ⟨t, e, hb⟩ := insertAll_balanced ops .null trivial
  exact ⟨t, e, hb, AVLShape_of_invariant hb⟩

/-- C2: in a tree built from the empty tree by `insertAVL` calls (keys that fit the
256-byte key buffer), inserting a key that is already present, with any position,
returns the identical tree: same shape, keys, positions and heights. -/
theorem insertAVL_duplicate_key (ops : List (List Nat × Int))
    (hlen : ∀ kp ∈ ops, kp.1.length ≤ 255) :
    ∃ t, insertAll .null ops = some t ∧
      ∀ k, (k ∈ (inorder t).map Prod.fst ∨ k ∈ ops.map Prod.fst) → ∀ p : Int,
        insertAVL t k p = some t := by
  obtain ⟨t, e, hb, ho, hm⟩ := insertAll_null ops hlen
  refine ⟨t, e, fun k hk p => insertAVL_present t k p hb ho ?_⟩
  rcases hk with hk | hk
  · exact hk
  · obtain ⟨pos, hf⟩ := firstInsertion_of_mem ops k hk
    exact List.mem_map.2 ⟨(k, pos), (hm (k, pos)).2 hf, rfl⟩

theorem insertAVL_duplicate_key_witness :
    ∃ t, insertAll .null [(cstr "b", 1136), (cstr "a", 1151), (cstr "b", 1166)] = some t ∧
      ∀ k, (k ∈ (inorder t).map Prod.fst ∨
          k ∈ [(cstr "b", (1136 : Int)), (cstr "a", 1151), (cstr "b", 1166)].map Prod.fst) →
        ∀ p : Int, insertAVL t k p = some t :=
  insertAVL_duplicate_key [(cstr "b", 1136), (cstr "a", 1151), (cstr "b", 1166)] (by decide)

/-- C3: after a sequence of (key, position) insertions into the empty tree (keys that
fit the 256-byte key buffer), `searchAVL` returns `NULL` for a key that was not
inserted, and for a key that was inserted it returns a node with that key and with the
position of the first insertion of the key. -/
theorem searchAVL_first_insertion (ops : List (List Nat × Int))
    (hlen : ∀ kp ∈ ops, kp.1.length ≤ 255) (k : List Nat) :
    ∃ t, insertAll .null ops = some t ∧
      (k ∉ ops.map Prod.fst → searchAVL t k = .null) ∧
      (k ∈ ops.map Prod.fst → ∃ pos l r h,
        firstInsertion ops k = some (k, pos) ∧ searchAVL t k = .node k pos l r h) := by
  obtain ⟨t, e, _, ho, hm⟩ := insertAll_null ops hlen
  refine ⟨t, e, fun hk => ?_, fun hk => ?_⟩
  · refine (searchAVL_ordered t k ho).2 fun hin => hk ?_
    obtain ⟨x, hx, rfl⟩ := List.mem_map.1 hin
    exact List.mem_map.2 ⟨x, (mem_of_firstInsertion ops x.1 x ((hm x).1 hx)).1, rfl⟩
  · obtain ⟨pos, hf⟩ := firstInsertion_of_mem ops k hk
    obtain ⟨l, r, h, hs⟩ := (searchAVL_ordered t k ho).1 pos ((hm (k, pos)).2 hf)
    exact ⟨pos, l, r, h, hf, hs⟩

theorem searchAVL_first_insertion_witness :
    ∃ t, insertAll .null [(cstr "b", 1136), (cstr "a", 1151), (cstr "b", 1166)] = some t ∧
      (cstr "b" ∉ [(cstr "b", (1136 : Int)), (cstr "a", 1151), (cstr "b", 1166)].map Prod.fst →
        searchAVL t (cstr "b") = .null) ∧
      (cstr "b" ∈ [(cstr "b", (1136 : Int)), (cstr "a", 1151), (cstr "b", 1166)].map Prod.fst →
        ∃ pos l r h,
          firstInsertion [(cstr "b", 1136), (cstr "a", 1151), (cstr "b", 1166)] (cstr "b")
            = some (cstr "b", pos) ∧ searchAVL t (cstr "b") = .node (cstr "b") pos l r h) :=
  searchAVL_first_insertion [(cstr "b", 1136), (cstr "a", 1151), (cstr "b", 1166)]
    (by decide) (cstr "b")

/-- C4, as stated, fails: in the tree built by inserting "xb", "xa", "xc" every key
contains the needle "x"; `searchTextInAVL` lists the position of the root "xb" first,
while the in-order (ascending key) listing starts with the position of "xa". -/
theorem searchTextInAVL_not_inorder :
    ∃ t, insertAll .null [(cstr "xb", 1136), (cstr "xa", 1151), (cstr "xc", 1166)] = some t ∧
      searchTextInAVL t (cstr "x") [] = [1136, 1151, 1166] ∧
      matchingPositions (cstr "x") (inorder t) = [1151, 1136, 1166] ∧
      searchTextInAVL t (cstr "x") [] ≠ matchingPositions (cstr "x") (inorder t) :=
  ⟨_, rfl, by decide, by decide, by decide⟩

/-- C4, amended: for every tree and every needle `searchTextInAVL` appends to the
result array the positions of exactly the nodes whose key contains the needle as a
substring, listed in pre-order (a node, then its left subtree, then its right
subtree); these are the positions of the in-order listing in another order. -/
theorem searchTextInAVL_collects_preorder (t : AVLNode) (needle : List Nat)
    (results : List Int) :
    searchTextInAVL t needle results = results ++ matchingPositions needle (preorder t) ∧
      (matchingPositions needle (preorder t)).Perm (matchingPositions needle (inorder t)) :=
  ⟨searchTextInAVL_preorder t needle results,
    ((preorder_perm_inorder t).filter _).map _⟩

/-! ### Decimal numbers -/

theorem utoa_core_spec (fuel n : Nat) (ds : List Nat) (h : n < fuel) :
    ∃ dg, utoa_core fuel n ds = dg ++ ds ∧ dg ≠ [] ∧ (∀ c ∈ dg, isdigit c = true) ∧
      ∀ rest, scan_digits (dg ++ rest) 0 = scan_digits rest n := by
  induction fuel generalizing n ds with
  | zero => omega
  | succ fuel ih =>
    unfold utoa_core
    by_cases h0 : n / 10 = 0
    · rw [if_pos h0]
      refine ⟨[48 + n % 10], rfl, by simp, ?_, ?_⟩
      · intro c hc
        simp only [List.mem_singleton] at hc
        subst hc
        simp only [isdigit, Bool.and_eq_true, decide_eq_true_eq]
        omega
      · intro rest
        have hd : isdigit (48 + n % 10) = true := by
          simp only [isdigit, Bool.and_eq_true, decide_eq_true_eq]; omega
        have hn : 0 * 10 + (48 + n % 10 - 48) = n := by omega
        simp only [List.singleton_append, scan_digits, hd, if_true, hn]
        rfl
    · rw [if_neg h0]
      obtain ⟨dg, e, hne, hdig, hscan⟩ := ih (n / 10) ((48 + n % 10) :: ds) (by omega)
      refine ⟨dg ++ [48 + n % 10], by rw [e]; simp, by simp, ?_, ?_⟩
      · intro c hc
        rcases List.mem_append.1 hc with hc | hc
        · exact hdig c hc
        · simp only [List.mem_singleton] at hc
          subst hc
          simp only [isdigit, Bool.and_eq_true, decide_eq_true_eq]
          omega
      · intro rest
        have hd : isdigit (48 + n % 10) = true := by
          simp only [isdigit, Bool.and_eq_true, decide_eq_true_eq]; omega
        have hn : n / 10 * 10 + (48 + n % 10 - 48) = n := by omega
        rw [List.append_assoc, hscan]
        simp only [List.singleton_append, scan_digits, hd, if_true, hn]
        rfl

theorem utoa_spec (n : Nat) :
    utoa n ≠ [] ∧ (∀ c ∈ utoa n, isdigit c = true) ∧
      ∀ rest, scan_digits (utoa n ++ rest) 0 = scan_digits rest n := by
  obtain ⟨dg, e, hne, hdig, hscan⟩ := utoa_core_spec (n + 1) n [] (by omega)
  have : utoa n = dg := by rw [utoa, e, List.append_nil]
  rw [this]
  exact ⟨hne, hdig, hscan⟩

theorem scan_digits_stop (rest : List Nat) (n : Nat) (h : ∀ c ∈ rest.head?, isdigit c = false) :
    scan_digits rest n = (n, rest) := by
  cases rest with
  | nil => rfl
  | cons c cs =>
    have := h c (by simp)
    simp [scan_digits, this]

theorem isdigit_bounds {c : Nat} (h : isdigit c = true) : 48 ≤ c ∧ c ≤ 57 := by
  simpa only [isdigit, Bool.and_eq_true, decide_eq_true_eq] using h

theorem isspace_of_isdigit {c : Nat} (h : isdigit c = true) : isspace c = false := by
  have := isdigit_bounds h
  simp only [isspace, Bool.or_eq_false_iff, beq_eq_false_iff_ne, Bool.and_eq_false_iff,
    decide_eq_false_iff_not]
  omega

theorem scan_sign_digit {c : Nat} (cs : List Nat) (h : isdigit c = true) :
    scan_sign (c :: cs) = (false, c :: cs) := by
  have := isdigit_bounds h
  unfold scan_sign
  split
  · rename_i h1; simp only [List.cons.injEq] at h1; omega
  · rename_i h1; simp only [List.cons.injEq] at h1; omega
  · rfl

/-- Reading back a printed natural number. -/
theorem scan_int_utoa (n : Nat) (rest : List Nat) (h : ∀ c ∈ rest.head?, isdigit c = false) :
    scan_int (utoa n ++ rest) = some ((n : Int), rest) := by
  obtain ⟨hne, hdig, hscan⟩ := utoa_spec n
  obtain ⟨c, cs, e⟩ := List.exists_cons_of_ne_nil hne
  have hc : isdigit c = true := hdig c (by rw [e]; simp)
  have hs := hscan rest
  rw [scan_digits_stop rest n h, e] at hs
  unfold scan_int
  rw [e]
  rw [List.cons_append] at hs
  simp only [List.cons_append, List.dropWhile_cons, isspace_of_isdigit hc, Bool.false_eq_true,
    if_false]
  rw [scan_sign_digit _ hc]
  simp [hc, hs]

/-! ### `create_table` -/

theorem strtok_none (s delims : List Nat) (h : (strtok s delims).1 = none) :
    (strtok s delims).2 = [] := by
  unfold strtok at h ⊢
  by_cases h1 : List.dropWhile (fun c => decide (c ∈ delims)) s = []
  · simp [h1]
  · simp [h1] at h

theorem strtok_length (s delims tok : List Nat) (h : (strtok s delims).1 = some tok) :
    (strtok s delims).2.length < s.length := by
  unfold strtok at h ⊢
  by_cases h1 : List.dropWhile (fun c => decide (c ∈ delims)) s = []
  · simp [h1] at h
  · have h2 : (List.dropWhile (fun c => decide (c ∈ delims)) s).length ≤ s.length :=
      (List.dropWhile_sublist _).length_le
    have h3 : (List.dropWhile (fun c => !decide (c ∈ delims))
        (List.dropWhile (fun c => decide (c ∈ delims)) s)).length ≤
          (List.dropWhile (fun c => decide (c ∈ delims)) s).length :=
      (List.dropWhile_sublist _).length_le
    have h4 : 0 < (List.dropWhile (fun c => decide (c ∈ delims)) s).length :=
      List.length_pos.2 h1
    simp only [h1, if_false, List.length_drop]
    omega

/-- The fuel that `create_table` gives its loop is enough. -/
theorem create_table_loop_returns (fuel : Nat) (token : Option (List Nat)) (saved : List Nat)
    (table : Table)
    (h : (token = none ∧ 0 < fuel) ∨ (token ≠ none ∧ saved.length + 2 ≤ fuel)) :
    create_table_loop fuel token saved table ≠ none := by
  induction fuel generalizing token saved table with
  | zero => rcases h with ⟨_, h⟩ | ⟨_, h⟩ <;> omega
  | succ fuel ih =>
    cases token with
    | none => simp [create_table_loop]
    | some tok =>
      have hs : saved.length + 2 ≤ fuel + 1 := by
        rcases h with ⟨h, _⟩ | ⟨_, h⟩
        · simp at h
        · exact h
      have hnext : ∀ table2, create_table_loop fuel (strtok saved (cstr ",")).1
          (strtok saved (cstr ",")).2 table2 ≠ none := by
        intro table2
        apply ih
        cases e : (strtok saved (cstr ",")).1 with
        | none => left; exact ⟨rfl, by omega⟩
        | some t2 =>
          right
          have := strtok_length saved (cstr ",") t2 e
          exact ⟨by simp, by omega⟩
      simp only [create_table_loop]
      split_ifs
      · split
        · split
          · exact hnext _
          · simp
        · exact hnext _
      · simp

theorem create_table_returns (fs : FileSystem) (table_name field_definitions : List Nat) :
    create_table fs table_name field_definitions ≠ none := by
  unfold create_table
  simp only
  split
  · simp
  · have h := create_table_loop_returns (field_definitions.length + 1)
      (strtok field_definitions (cstr ",")).1 (strtok field_definitions (cstr ",")).2
      { name := table_name, filename := table_filename table_name, fields := [],
        field_count := 0, record_size := 0, indexes := List.replicate MAX_FIELDS .null,
        auto_increment := 1 }
      (by
        cases e : (strtok field_definitions (cstr ",")).1 with
        | none => left; exact ⟨rfl, by omega⟩
        | some t2 =>
          right
          have := strtok_length field_definitions (cstr ",") t2 e
          exact ⟨by simp, by omega⟩)
    split
    · exact absurd (by assumption) h
    · simp
    · simp

theorem wrap32_of_range (a : Int) (h1 : -2147483648 ≤ a) (h2 : a < 2147483648) :
    wrap32 a = a := by
  unfold wrap32; omega

theorem strchr_append_of_not_mem (a b : List Nat) (x : Nat) (h : ∀ c ∈ a, c ≠ x) :
    strchr (a ++ b) x = strchr b x := by
  induction a with
  | nil => rfl
  | cons c cs ih =>
    have hc := h c (List.mem_cons_self _ _)
    simp only [List.cons_append, strchr, hc, if_false]
    exact ih fun y hy => h y (List.mem_cons_of_mem _ hy)

theorem strchr_none_of_not_mem (a : List Nat) (x : Nat) (h : ∀ c ∈ a, c ≠ x) :
    strchr a x = none := by
  have := strchr_append_of_not_mem a [] x h
  rw [List.append_nil] at this
  rw [this]; rfl

theorem scan_word_word (w rest : List Nat) (hne : w ≠ [])
    (hw : ∀ c ∈ w, isspace c = false) (hr : ∀ c ∈ rest.head?, isspace c = true) :
    scan_word (w ++ rest) = some (w, rest) := by
  obtain ⟨c, cs, rfl⟩ := List.exists_cons_of_ne_nil hne
  have hc := hw c (List.mem_cons_self _ _)
  have hdrop : List.dropWhile isspace (c :: cs ++ rest) = c :: cs ++ rest := by
    rw [List.cons_append, List.dropWhile_cons, hc]; rfl
  have hall : ∀ a ∈ c :: cs, (fun x => !isspace x) a = true := by
    intro a ha; simp [hw a ha]
  have hrest : List.takeWhile (fun x => !isspace x) rest = [] ∧
      List.dropWhile (fun x => !isspace x) rest = rest := by
    cases rest with
    | nil => simp
    | cons r rs =>
      have := hr r (by simp)
      simp [List.takeWhile_cons, List.dropWhile_cons, this]
  unfold scan_word
  simp only [hdrop]
  rw [if_neg (by simp), List.takeWhile_append_of_pos hall, List.dropWhile_append_of_pos hall,
    hrest.1, hrest.2, List.append_nil]

theorem scan_word_space (rest : List Nat) : scan_word (32 :: rest) = scan_word rest := by
  unfold scan_word
  have : isspace 32 = true := by decide
  simp only [List.dropWhile_cons, this, if_true]

/-- The bytes of a well-formed name. -/
theorem wellFormed_name {d : FieldDefinition} (h : d.wellFormed = true) :
    d.name ≠ [] ∧ ∀ c ∈ d.name, isspace c = false ∧ c ≠ 44 ∧ c ≠ 40 := by
  simp only [FieldDefinition.wellFormed, Bool.and_eq_true, bne_iff_ne, ne_eq,
    List.all_eq_true, Bool.not_eq_true', decide_eq_true_eq] at h
  exact ⟨h.1.1.1, fun c hc => by
    have := h.1.2 c hc
    exact ⟨this.1.1, this.1.2, this.2⟩⟩

/-- The bytes of a type keyword. -/
theorem keyword_render (k : TypeKeyword) :
    k.render ≠ [] ∧ ∀ c ∈ k.render, isspace c = false ∧ c ≠ 44 := by
  cases k with
  | int => exact ⟨by decide, by decide⟩
  | text => exact ⟨by decide, by decide⟩
  | bool => exact ⟨by decide, by decide⟩
  | textN n =>
    refine ⟨by simp [TypeKeyword.render, cstr], ?_⟩
    intro c hc
    simp only [TypeKeyword.render, List.mem_append] at hc
    rcases hc with (hc | hc) | hc
    · revert c; decide
    · have hd := (utoa_spec n).2.1 c hc
      exact ⟨isspace_of_isdigit hd, by have := isdigit_bounds hd; omega⟩
    · revert c; decide

theorem sscanf_s_s_render (d : FieldDefinition) (h : d.wellFormed = true) :
    sscanf_s_s d.render = some (d.name, d.keyword.render) := by
  obtain ⟨hne, hname⟩ := wellFormed_name h
  obtain ⟨kne, hk⟩ := keyword_render d.keyword
  have h1 : scan_word (d.name ++ 32 :: d.keyword.render) = some (d.name, 32 :: d.keyword.render) :=
    scan_word_word d.name _ hne (fun c hc => (hname c hc).1) (by simp; decide)
  have h2 : scan_word (32 :: d.keyword.render) = some (d.keyword.render, []) := by
    rw [scan_word_space]
    have := scan_word_word d.keyword.render [] kne (fun c hc => (hk c hc).1) (by simp)
    rwa [List.append_nil] at this
  unfold sscanf_s_s FieldDefinition.render
  simp only [h1, h2]

theorem parse_field_render (d : FieldDefinition) (h : d.wellFormed = true) :
    parse_field d.render d.name d.keyword.render = some d.field := by
  obtain ⟨hne, hname⟩ := wellFormed_name h
  have hnp : ∀ c ∈ d.name, c ≠ 40 := fun c hc => (hname c hc).2.2
  unfold parse_field FieldDefinition.field FieldDefinition.render
  cases hk : d.keyword with
  | int => simp only [TypeKeyword.render, strcmp_self, if_true]
  | bool =>
    have h1 : ¬ strcmp (cstr "bool") (cstr "int") = 0 := by decide
    have h2 : ¬ strncmp (cstr "bool") (cstr "text") 4 = 0 := by decide
    simp only [TypeKeyword.render, strcmp_self, if_true, h1, h2, if_false]
  | text =>
    have h1 : ¬ strcmp (cstr "text") (cstr "int") = 0 := by decide
    have h2 : strncmp (cstr "text") (cstr "text") 4 = 0 := by decide
    have h3 : strchr (d.name ++ 32 :: cstr "text") 40 = none := by
      rw [strchr_append_of_not_mem _ _ _ hnp]; decide
    simp only [TypeKeyword.render, h1, h2, h3, if_true, if_false]
  | textN n =>
    have hn : n < 2147483648 := by
      simp only [FieldDefinition.wellFormed, hk, Bool.and_eq_true, decide_eq_true_eq] at h
      exact h.2
    have e : cstr "text(" ++ utoa n ++ cstr ")" = 116 :: 101 :: 120 :: 116 :: 40 :: (utoa n ++ [41]) := by
      have e1 : cstr "text(" = [116, 101, 120, 116, 40] := by decide
      have e2 : cstr ")" = [41] := by decide
      rw [e1, e2]; simp
    have e3 : cstr "int" = [105, 110, 116] := by decide
    have e4 : cstr "text" = [116, 101, 120, 116] := by decide
    have h1 : ¬ strcmp (116 :: 101 :: 120 :: 116 :: 40 :: (utoa n ++ [41])) (cstr "int") = 0 := by
      rw [e3]; simp [strcmp]
    have h2 : strncmp (116 :: 101 :: 120 :: 116 :: 40 :: (utoa n ++ [41])) (cstr "text") 4 = 0 := by
      rw [e4]; simp [strncmp, strcmp]
    have h3 : strchr (d.name ++ 32 :: 116 :: 101 :: 120 :: 116 :: 40 :: (utoa n ++ [41])) 40
        = some (40 :: (utoa n ++ [41])) := by
      rw [strchr_append_of_not_mem _ _ _ hnp]; simp [strchr]
    have h4 : sscanf_paren_d (40 :: (utoa n ++ [41])) = some (n : Int) := by
      simp only [sscanf_paren_d]
      rw [scan_int_utoa n [41] (by simp; decide)]
      simp only [Option.map_some']
      rw [wrap32_of_range _ (by omega) (by omega)]
    simp only [TypeKeyword.render, e, h1, h2, h3, h4, if_true, if_false]

/-- `strtok` on a token that is followed by the end of the text or by a delimiter. -/
theorem strtok_token (tok rest delims : List Nat) (hne : tok ≠ [])
    (htok : ∀ c ∈ tok, c ∉ delims) (hrest : ∀ c ∈ rest.head?, c ∈ delims) :
    strtok (tok ++ rest) delims = (some tok, rest.drop 1) := by
  obtain ⟨c, cs, rfl⟩ := List.exists_cons_of_ne_nil hne
  have hc := htok c (List.mem_cons_self _ _)
  have hdrop : List.dropWhile (fun x => decide (x ∈ delims)) (c :: cs ++ rest)
      = c :: cs ++ rest := by
    rw [List.cons_append, List.dropWhile_cons]; simp [hc]
  have hall : ∀ a ∈ c :: cs, (fun x => !decide (x ∈ delims)) a = true := by
    intro a ha; simp [htok a ha]
  have hr : List.takeWhile (fun x => !decide (x ∈ delims)) rest = [] ∧
      List.dropWhile (fun x => !decide (x ∈ delims)) rest = rest := by
    cases rest with
    | nil => simp
    | cons r rs =>
      have := hrest r (by simp)
      simp [List.takeWhile_cons, List.dropWhile_cons, this]
  unfold strtok
  simp only [hdrop]
  rw [if_neg (by simp), List.takeWhile_append_of_pos hall, List.dropWhile_append_of_pos hall,
    hr.1, hr.2, List.append_nil]

theorem render_no_comma (d : FieldDefinition) (h : d.wellFormed = true) :
    d.render ≠ [] ∧ (∀ c ∈ d.render, c ∉ cstr ",") ∧ d.render.head? ≠ some 32 := by
  obtain ⟨hne, hname⟩ := wellFormed_name h
  obtain ⟨_, hk⟩ := keyword_render d.keyword
  have e : cstr "," = [44] := by decide
  refine ⟨by simp [FieldDefinition.render], ?_, ?_⟩
  · intro c hc
    rw [e, List.mem_singleton]
    simp only [FieldDefinition.render, List.mem_append, List.mem_cons] at hc
    rcases hc with hc | rfl | hc
    · exact (hname c hc).2.1
    · omega
    · exact (hk c hc).2
  · obtain ⟨c, cs, e2⟩ := List.exists_cons_of_ne_nil hne
    have := (hname c (by rw [e2]; simp)).1
    simp only [FieldDefinition.render, e2, List.cons_append, List.head?_cons, ne_eq,
      Option.some.injEq]
    rintro rfl
    simp [isspace] at this

theorem tail_text_head (sp : Nat) (ds : List FieldDefinition) :
    ∀ c ∈ (tail_text sp ds).head?, c ∈ cstr "," := by
  cases ds with
  | nil => simp [tail_text]
  | cons d ds => simp [tail_text]; decide

theorem strtok_definition (k sp : Nat) (d : FieldDefinition) (ds : List FieldDefinition)
    (h : d.wellFormed = true) :
    strtok (List.replicate k 32 ++ d.render ++ tail_text sp ds) (cstr ",") =
      (some (List.replicate k 32 ++ d.render), (tail_text sp ds).drop 1) := by
  obtain ⟨hne, hnc, _⟩ := render_no_comma d h
  refine strtok_token _ _ _ (by simp [hne]) ?_ (tail_text_head sp ds)
  intro c hc
  rcases List.mem_append.1 hc with hc | hc
  · rw [List.eq_of_mem_replicate hc]; decide
  · exact hnc c hc

theorem dropWhile_spaces_render (k : Nat) (d : FieldDefinition) (h : d.wellFormed = true) :
    List.dropWhile (fun c => c == 32) (List.replicate k 32 ++ d.render) = d.render := by
  obtain ⟨hne, _, hhead⟩ := render_no_comma d h
  rw [List.dropWhile_append_of_pos (by
    intro a ha; rw [List.eq_of_mem_replicate ha]; rfl)]
  obtain ⟨c, cs, e⟩ := List.exists_cons_of_ne_nil hne
  rw [e] at hhead ⊢
  simp only [List.head?_cons, ne_eq, Option.some.injEq] at hhead
  simp [List.dropWhile_cons, hhead]

/-- The loop of `create_table` on a list of well-formed definitions that the table has
room for: every definition adds its field. -/
theorem create_table_loop_definitions (sp : Nat) (ds : List FieldDefinition) :
    ∀ (k fuel : Nat) (d : FieldDefinition) (table : Table),
      (∀ x ∈ d :: ds, x.wellFormed = true) →
      table.field_count + (ds.length + 1) ≤ MAX_FIELDS → ds.length + 2 ≤ fuel →
      ∃ t, create_table_loop fuel (some (List.replicate k 32 ++ d.render))
          ((tail_text sp ds).drop 1) table = some (.ok t) ∧
        t.fields = table.fields ++ (d :: ds).map FieldDefinition.field ∧
        t.field_count = table.field_count + (ds.length + 1) := by
  induction ds with
  | nil =>
    intro k fuel d table hwf hroom hfuel
    obtain ⟨fuel, rfl⟩ : ∃ f, fuel = f + 1 := ⟨fuel - 1, by simp at hfuel; omega⟩
    obtain ⟨fuel, rfl⟩ : ∃ f, fuel = f + 1 := ⟨fuel - 1, by simp at hfuel; omega⟩
    have hd := hwf d (List.mem_cons_self _ _)
    have hlt : table.field_count < MAX_FIELDS := by simp at hroom; omega
    have hst : strtok [] (cstr ",") = (none, []) := by decide
    simp only [create_table_loop, hlt, if_true, dropWhile_spaces_render k d hd,
      sscanf_s_s_render d hd, parse_field_render d hd, tail_text, List.drop_nil, hst]
    exact ⟨_, rfl, by simp, by simp⟩
  | cons d2 ds ih =>
    intro k fuel d table hwf hroom hfuel
    obtain ⟨fuel, rfl⟩ : ∃ f, fuel = f + 1 := ⟨fuel - 1, by simp at hfuel; omega⟩
    have hd := hwf d (List.mem_cons_self _ _)
    have hd2 := hwf d2 (by simp)
    have hlt : table.field_count < MAX_FIELDS := by simp at hroom; omega
    have hsaved : (tail_text sp (d2 :: ds)).drop 1
        = List.replicate sp 32 ++ d2.render ++ tail_text sp ds := by
      simp [tail_text]
    simp only [create_table_loop, hlt, if_true, dropWhile_spaces_render k d hd,
      sscanf_s_s_render d hd, parse_field_render d hd, hsaved, strtok_definition sp sp d2 ds hd2]
    obtain ⟨t, e, hf, hc⟩ := ih sp fuel d2
      { table with
        record_size := wrap32 (table.record_size + d.field.size)
        fields := table.fields ++ [d.field]
        field_count := table.field_count + 1 }
      (fun x hx => hwf x (List.mem_cons_of_mem _ hx))
      (by simp only [List.length_cons] at hroom ⊢; omega)
      (by simp only [List.length_cons] at hfuel ⊢; omega)
    refine ⟨t, e, ?_, ?_⟩
    · rw [hf]; simp
    · rw [hc]; simp only [List.length_cons]; omega

theorem tail_text_length (sp : Nat) (ds : List FieldDefinition) :
    ds.length ≤ (tail_text sp ds).length := by
  induction ds with
  | nil => simp
  | cons d ds ih => simp only [tail_text, List.length_cons, List.length_append]; omega

/-! ### The record codec -/

theorem trim_value_spaces (pre post : List Nat) (hpre : ∀ c ∈ pre, is_space_or_quote c = true)
    (hpost : ∀ c ∈ post, is_space_or_quote c = true) : trim_value (pre ++ post) = [] := by
  have : List.dropWhile is_space_or_quote (pre ++ post) = [] := by
    rw [List.dropWhile_eq_nil_iff]
    intro c hc
    rcases List.mem_append.1 hc with hc | hc
    · exact hpre c hc
    · exact hpost c hc
  simp only [trim_value, this]

theorem trim_value_word (pre w post : List Nat) (hne : w ≠ [])
    (hpre : ∀ c ∈ pre, is_space_or_quote c = true)
    (hpost : ∀ c ∈ post, is_space_or_quote c = true)
    (hhead : ∀ c ∈ w.head?, is_space_or_quote c = false)
    (hlast : ∀ c ∈ w.getLast?, is_space_or_quote c = false) :
    trim_value (pre ++ (w ++ post)) = w := by
  obtain ⟨c, cs, rfl⟩ := List.exists_cons_of_ne_nil hne
  have hc : is_space_or_quote c = false := hhead c (by simp)
  have h1 : List.dropWhile is_space_or_quote (pre ++ (c :: cs ++ post)) = c :: (cs ++ post) := by
    rw [List.dropWhile_append_of_pos hpre, List.cons_append, List.dropWhile_cons, hc]
    rfl
  have h2 : List.dropWhile is_space_or_quote (cs ++ post).reverse = cs.reverse := by
    rw [List.reverse_append, List.dropWhile_append_of_pos (by
      intro a ha; exact hpost a (List.mem_reverse.1 ha))]
    cases hcs : cs.reverse with
    | nil => rfl
    | cons x xs =>
      have hx : is_space_or_quote x = false := by
        apply hlast
        have hne2 : cs ≠ [] := by
          intro h0; rw [h0] at hcs; simp at hcs
        obtain ⟨y, ys, hy⟩ := List.exists_cons_of_ne_nil hne2
        have : (c :: cs).getLast? = cs.getLast? := by rw [hy, List.getLast?_cons_cons]
        rw [this, ← List.head?_reverse, hcs]
        simp
      rw [List.dropWhile_cons, hx]
      rfl
  simp only [trim_value, h1, h2, List.reverse_reverse]

theorem write_at_write_at (buf : List Nat) (o : Nat) (b1 b2 : List Nat) (h : o ≤ buf.length) :
    write_at (write_at buf o b1) (o + b1.length) b2 = write_at buf o (b1 ++ b2) := by
  unfold write_at
  have h1 : (List.take o buf).length = o := by simp [h]
  have e1 : List.take (o + b1.length) (List.take o buf ++ b1 ++ List.drop (o + b1.length) buf)
      = List.take o buf ++ b1 := by
    rw [List.take_append_eq_append_take]
    simp [h1]
  have e2 : List.drop (o + b1.length + b2.length)
      (List.take o buf ++ b1 ++ List.drop (o + b1.length) buf)
      = List.drop (o + (b1 ++ b2).length) buf := by
    rw [List.drop_append_eq_append_drop]
    simp only [List.length_append, h1, List.drop_drop]
    have : o + b1.length + b2.length - (o + b1.length) = b2.length := by omega
    rw [List.drop_eq_nil_of_le (by simp [h1]), this, List.nil_append]
    congr 1; omega
  rw [e1, e2]
  simp

theorem write_at_length (buf : List Nat) (o : Nat) (b : List Nat) (h : o ≤ buf.length) :
    o + b.length ≤ (write_at buf o b).length := by
  unfold write_at
  simp only [List.length_append, List.length_take, List.length_drop]
  omega

theorem write_at_nil (buf : List Nat) (o : Nat) : write_at buf o [] = buf := by
  simp [write_at]

theorem scan_int_minus_utoa (n : Nat) :
    scan_int (45 :: utoa n) = some (-(n : Int), []) := by
  obtain ⟨hne, hdig, hscan⟩ := utoa_spec n
  obtain ⟨c, cs, e⟩ := List.exists_cons_of_ne_nil hne
  have hc : isdigit c = true := hdig c (by rw [e]; simp)
  have hs := hscan []
  rw [scan_digits_stop [] n (by simp), List.append_nil, e] at hs
  have h45 : isspace 45 = false := by decide
  unfold scan_int
  simp only [List.dropWhile_cons, h45, Bool.false_eq_true, if_false, scan_sign, e]
  simp [hc, hs]

/-- `atoi` reads back what `%d` prints. -/
theorem atoi_printf_d (x : Int) (h1 : -2147483648 ≤ x) (h2 : x < 2147483648) :
    atoi (printf_d x) = x := by
  unfold atoi printf_d
  by_cases hx : x < 0
  · rw [if_pos hx, scan_int_minus_utoa]
    simp only
    rw [wrap32_of_range _ (by omega) (by omega)]
    omega
  · rw [if_neg hx]
    have := scan_int_utoa x.toNat [] (by simp)
    rw [List.append_nil] at this
    rw [this]
    simp only
    rw [wrap32_of_range _ (by omega) (by omega)]
    omega

/-- The bytes that `%d` prints: a digit or a minus sign first, a digit last, no
space, quote or comma. -/
theorem printf_d_bytes (x : Int) :
    printf_d x ≠ [] ∧ (∀ c ∈ printf_d x, c ≠ 44 ∧ is_space_or_quote c = false) := by
  obtain ⟨hne, hdig, _⟩ := utoa_spec (-x).toNat
  obtain ⟨hne2, hdig2, _⟩ := utoa_spec x.toNat
  have hd : ∀ c, isdigit c = true → c ≠ 44 ∧ is_space_or_quote c = false := by
    intro c hc
    have := isdigit_bounds hc
    refine ⟨by omega, ?_⟩
    simp only [is_space_or_quote, Bool.or_eq_false_iff, beq_eq_false_iff_ne]
    omega
  unfold printf_d
  split_ifs
  · refine ⟨by simp, ?_⟩
    intro c hc
    rcases List.mem_cons.1 hc with rfl | hc
    · exact ⟨by omega, by decide⟩
    · exact hd c (hdig c hc)
  · exact ⟨hne2, fun c hc => hd c (hdig2 c hc)⟩

theorem bytes_int_int_bytes (x : Int) (rest : List Nat) :
    bytes_int (int_bytes x ++ rest) = wrap32 x := by
  unfold bytes_int int_bytes
  simp only [List.cons_append, List.getD_cons_zero, List.getD_cons_succ]
  unfold wrap32
  omega

theorem c_str_append (a b : List Nat) (ha : ∀ c ∈ a, c ≠ 0) : c_str (a ++ b) = a ++ c_str b := by
  unfold c_str
  rw [List.takeWhile_append_of_pos (by intro c hc; simpa using ha c hc)]

theorem c_str_zero (b : List Nat) : c_str (0 :: b) = [] := by
  simp [c_str, List.takeWhile_cons]

/-- The string that `select_all` copies out of a text field holding `s`. -/
theorem c_str_text_field (s rest : List Nat) (n : Nat) (hs : ∀ c ∈ s, c ≠ 0) :
    c_str (strncpy (c_str ((s.take n ++ List.replicate (n - s.length) 0) ++ rest)) n ++ [0])
      = s.take n := by
  have ht : ∀ c ∈ s.take n, c ≠ 0 := fun c hc => hs c (List.mem_of_mem_take hc)
  by_cases hlen : s.length < n
  · obtain ⟨m, hm⟩ : ∃ m, n - s.length = m + 1 := ⟨n - s.length - 1, by omega⟩
    have e1 : s.take n = s := List.take_of_length_le (by omega)
    rw [hm, List.replicate_succ, List.append_assoc, c_str_append _ _ ht, List.cons_append,
      c_str_zero, List.append_nil, e1]
    unfold strncpy
    rw [e1, List.append_assoc, c_str_append _ _ hs, hm, List.replicate_succ, List.cons_append,
      c_str_zero, List.append_nil]
  · have e0 : n - s.length = 0 := by omega
    have hl : (s.take n).length = n := by simp; omega
    rw [e0, List.replicate_zero, List.append_nil, c_str_append _ _ ht]
    unfold strncpy
    have e2 : List.take n (List.take n s ++ c_str rest) = List.take n s := by
      rw [List.take_append_eq_append_take, hl]; simp
    have e3 : n - (List.take n s ++ c_str rest).length = 0 := by
      simp only [List.length_append, hl]; omega
    rw [e2, e3, List.replicate_zero, List.append_nil, c_str_append _ _ ht, c_str_zero,
      List.append_nil]

theorem encode_field_literal (k : Nat) (v : Value) (f : Field)
    (ht : v.typedFor f = true) (hp : v.plain = true) :
    encode_field f (trim_value (List.replicate k 32 ++ v.literal)) = field_bytes f v ∧
      List.replicate k 32 ++ v.literal ≠ [] ∧
      (∀ c ∈ List.replicate k 32 ++ v.literal, c ∉ cstr ",") ∧
      ((field_bytes f v).length : Int) = f.size := by
  have hsp : ∀ c ∈ List.replicate k 32, is_space_or_quote c = true := by
    intro c hc; rw [List.eq_of_mem_replicate hc]; decide
  have hcomma : cstr "," = [44] := by decide
  have hspc : ∀ c ∈ List.replicate k 32, c ∉ cstr "," := by
    intro c hc; rw [List.eq_of_mem_replicate hc]; decide
  cases v with
  | int x =>
    cases hty : f.type <;> simp only [Value.typedFor, hty, Bool.and_eq_true, beq_iff_eq,
      decide_eq_true_eq, Bool.false_eq_true] at ht
    obtain ⟨⟨hsz, h1⟩, h2⟩ := ht
    obtain ⟨hne, hb⟩ := printf_d_bytes x
    have htrim : trim_value (List.replicate k 32 ++ (printf_d x ++ [])) = printf_d x :=
      trim_value_word _ _ [] hne hsp (by simp)
        (fun c hc => (hb c (List.mem_of_mem_head? hc)).2)
        (fun c hc => (hb c (List.mem_of_mem_getLast? hc)).2)
    rw [List.append_nil] at htrim
    refine ⟨?_, by simp [Value.literal, hne], ?_, ?_⟩
    · simp only [Value.literal, htrim, encode_field, hty, atoi_printf_d x h1 h2, field_bytes]
    · intro c hc
      rcases List.mem_append.1 hc with hc | hc
      · exact hspc c hc
      · rw [hcomma, List.mem_singleton]; exact (hb c hc).1
    · simp [field_bytes, int_bytes, hsz]
  | bool b =>
    cases hty : f.type <;> simp only [Value.typedFor, hty, beq_iff_eq,
      Bool.false_eq_true] at ht
    have htrim : ∀ w : List Nat, w ≠ [] → (∀ c ∈ w.head?, is_space_or_quote c = false) →
        (∀ c ∈ w.getLast?, is_space_or_quote c = false) →
        trim_value (List.replicate k 32 ++ w) = w := by
      intro w h1 h2 h3
      have := trim_value_word _ w [] h1 hsp (by simp) h2 h3
      rwa [List.append_nil] at this
    cases b with
    | true =>
      have h1 := htrim (cstr "true") (by decide) (by decide) (by decide)
      have h0 : cstr "true" ≠ [] := by decide
      have h2 : ∀ c ∈ cstr "true", c ∉ cstr "," := by decide
      refine ⟨?_, by simp [Value.literal, h0], ?_, by simp [field_bytes, ht]⟩
      · simp only [Value.literal, if_true, h1, encode_field, hty, field_bytes]
        decide
      · intro c hc
        rcases List.mem_append.1 hc with hc | hc
        · exact hspc c hc
        · exact h2 c hc
    | false =>
      have h1 := htrim (cstr "false") (by decide) (by decide) (by decide)
      have h0 : cstr "false" ≠ [] := by decide
      have h2 : ∀ c ∈ cstr "false", c ∉ cstr "," := by decide
      refine ⟨?_, by simp [Value.literal, h0], ?_, by simp [field_bytes, ht]⟩
      · simp only [Value.literal, Bool.false_eq_true, if_false, h1, encode_field, hty,
          field_bytes]
        decide
      · intro c hc
        rcases List.mem_append.1 hc with hc | hc
        · exact hspc c hc
        · exact h2 c hc
  | text s =>
    cases hty : f.type <;> simp only [Value.typedFor, hty, Bool.and_eq_true,
      decide_eq_true_eq, Bool.false_eq_true, List.all_eq_true, bne_iff_ne, ne_eq] at ht
    obtain ⟨hsz, hnul⟩ := ht
    simp only [Value.plain, Bool.and_eq_true, List.all_eq_true, bne_iff_ne, ne_eq] at hp
    obtain ⟨⟨hnc, hhead⟩, hlast⟩ := hp
    have hq : ∀ c ∈ [39], is_space_or_quote c = true := by decide
    have htrim : trim_value (List.replicate k 32 ++ Value.literal (.text s)) = s := by
      by_cases hs : s = []
      · subst hs
        have := trim_value_spaces (List.replicate k 32) [39, 39] hsp (by decide)
        simpa [Value.literal] using this
      · have := trim_value_word (List.replicate k 32 ++ [39]) s [39] hs
          (by
            intro c hc
            rcases List.mem_append.1 hc with hc | hc
            · exact hsp c hc
            · exact hq c hc)
          hq
          (by
            intro c hc
            rw [Option.mem_def] at hc
            rw [hc] at hhead
            simpa using hhead)
          (by
            intro c hc
            rw [Option.mem_def] at hc
            rw [hc] at hlast
            simpa using hlast)
        simpa [Value.literal] using this
    refine ⟨?_, by simp [Value.literal], ?_, ?_⟩
    · rw [htrim]
      simp only [encode_field, hty, strncpy, field_bytes]
    · intro c hc
      rw [hcomma, List.mem_singleton]
      simp only [Value.literal, List.mem_append, List.mem_cons, List.mem_singleton,
        List.not_mem_nil, or_false] at hc
      rcases hc with hc | rfl | hc | rfl
      · rw [List.eq_of_mem_replicate hc]; omega
      · omega
      · exact hnc c hc
      · omega
    · simp only [field_bytes, List.length_append, List.length_take, List.length_replicate]
      omega

theorem values_tail_head (sp : Nat) (vs : List Value) :
    ∀ c ∈ (values_tail sp vs).head?, c ∈ cstr "," := by
  cases vs with
  | nil => simp [values_tail]
  | cons d ds => simp [values_tail]; decide

/-- The loop of `insert_into_table` writes the bytes of the values one field after the
other. -/
theorem build_record_loop_values (sp : Nat) (fs : List Field) :
    ∀ (vs : List Value) (k : Nat) (f : Field) (v : Value) (record : List Nat) (off : Int),
      tuple_for Value.encodable (f :: fs) (v :: vs) = true → 0 ≤ off →
      off.toNat ≤ record.length →
      build_record_loop (f :: fs) (some (List.replicate k 32 ++ v.literal))
          ((values_tail sp vs).drop 1) record off
        = write_at record off.toNat (record_bytes (f :: fs) (v :: vs)) := by
  induction fs with
  | nil =>
    intro vs k f v record off ht hoff hlen
    cases vs with
    | cons v2 vs => simp [tuple_for] at ht
    | nil =>
      simp only [tuple_for, Bool.and_true, Value.encodable, Bool.and_eq_true] at ht
      obtain ⟨he, _, _, _⟩ := encode_field_literal k v f ht.1 ht.2
      have hst : strtok [] (cstr ",") = (none, []) := by decide
      simp only [build_record_loop, values_tail, List.drop_nil, hst, he, record_bytes,
        List.append_nil]
  | cons f2 fs ih =>
    intro vs k f v record off ht hoff hlen
    cases vs with
    | nil => simp [tuple_for] at ht
    | cons v2 vs =>
      rw [tuple_for, Bool.and_eq_true] at ht
      obtain ⟨hv, hrest⟩ := ht
      have hrest2 := hrest
      rw [tuple_for, Bool.and_eq_true] at hrest2
      simp only [Value.encodable, Bool.and_eq_true] at hv hrest2
      obtain ⟨he, _, _, hl⟩ := encode_field_literal k v f hv.1 hv.2
      obtain ⟨_, hne2, hnc2, _⟩ := encode_field_literal sp v2 f2 hrest2.1.1 hrest2.1.2
      have hsaved : (values_tail sp (v2 :: vs)).drop 1
          = List.replicate sp 32 ++ v2.literal ++ values_tail sp vs := by
        simp [values_tail]
      have hst := strtok_token (List.replicate sp 32 ++ v2.literal) (values_tail sp vs)
        (cstr ",") hne2 hnc2 (values_tail_head sp vs)
      have hoff2 : (off + f.size).toNat = off.toNat + (field_bytes f v).length := by omega
      rw [build_record_loop]
      simp only [hsaved, hst, he]
      rw [ih vs sp f2 v2 _ (off + f.size) hrest (by omega)
        (by rw [hoff2]; exact write_at_length _ _ _ hlen), hoff2,
        write_at_write_at _ _ _ _ hlen]
      rfl

theorem record_bytes_length (fs : List Field) :
    ∀ vs, tuple_for Value.encodable fs vs = true →
      ((record_bytes fs vs).length : Int) = sum_sizes fs := by
  induction fs with
  | nil => intro vs _; cases vs <;> simp [record_bytes, sum_sizes]
  | cons f fs ih =>
    intro vs ht
    cases vs with
    | nil => simp [tuple_for] at ht
    | cons v vs =>
      rw [tuple_for, Bool.and_eq_true] at ht
      obtain ⟨hv, hrest⟩ := ht
      simp only [Value.encodable, Bool.and_eq_true] at hv
      obtain ⟨_, _, _, hl⟩ := encode_field_literal 0 v f hv.1 hv.2
      have := ih vs hrest
      simp only [record_bytes, List.length_append, sum_sizes, List.map_cons, List.sum_cons,
        Nat.cast_add] at this ⊢
      omega

/-- What `insert_into_table` stores for a list of literals. -/
theorem stored_record_values (sp : Nat) (fs : List Field) (vs : List Value)
    (ht : tuple_for Value.encodable fs vs = true) :
    stored_record fs (values_text sp vs) = record_bytes fs vs := by
  have hlen := record_bytes_length fs vs ht
  unfold stored_record build_record
  cases fs with
  | nil => cases vs <;> simp [record_bytes, sum_sizes]
  | cons f fs =>
    cases vs with
    | nil => simp [tuple_for] at ht
    | cons v vs =>
      have ht2 := ht
      rw [tuple_for, Bool.and_eq_true] at ht2
      simp only [Value.encodable, Bool.and_eq_true] at ht2
      obtain ⟨_, hne, hnc, _⟩ := encode_field_literal 0 v f ht2.1.1 ht2.1.2
      simp only [List.replicate_zero, List.nil_append] at hne hnc
      have hst := strtok_token v.literal (values_tail sp vs) (cstr ",") hne hnc
        (values_tail_head sp vs)
      have hloop := build_record_loop_values sp fs vs 0 f v
        (List.replicate MAX_RECORD_SIZE 0) 0 ht (le_refl _) (by simp)
      simp only [List.replicate_zero, List.nil_append] at hloop
      simp only [values_text, hst, hloop]
      have e : (sum_sizes (f :: fs)).toNat = (record_bytes (f :: fs) (v :: vs)).length := by
        omega
      rw [e]
      simp [write_at]

theorem decode_field_bytes (P rest : List Nat) (off : Int) (f : Field) (v : Value)
    (hoff : off = P.length) (ht : v.typedFor f = true) :
    decode_field (P ++ (field_bytes f v ++ rest)) off f = truncated f v := by
  have hdrop : List.drop off.toNat (P ++ (field_bytes f v ++ rest)) = field_bytes f v ++ rest := by
    have : off.toNat = P.length := by omega
    rw [this, List.drop_left]
  unfold decode_field
  simp only [hdrop]
  cases v with
  | int x =>
    cases hty : f.type <;> simp only [Value.typedFor, hty, Bool.and_eq_true, beq_iff_eq,
      decide_eq_true_eq, Bool.false_eq_true] at ht
    simp only [field_bytes, bytes_int_int_bytes, truncated]
    rw [wrap32_of_range _ ht.1.2 ht.2]
  | bool b =>
    cases hty : f.type <;> simp only [Value.typedFor, hty, beq_iff_eq,
      Bool.false_eq_true] at ht
    cases b <;> simp [field_bytes, truncated]
  | text s =>
    cases hty : f.type <;> simp only [Value.typedFor, hty, Bool.and_eq_true,
      decide_eq_true_eq, Bool.false_eq_true, List.all_eq_true, bne_iff_ne, ne_eq] at ht
    simp only [field_bytes, truncated]
    rw [c_str_text_field s rest f.size.toNat ht.2]

/-- What `select_all` decodes from the bytes of a list of values. -/
theorem decode_record_loop_values (fs : List Field) :
    ∀ (vs : List Value) (P : List Nat) (off : Int), off = P.length →
      tuple_for Value.encodable fs vs = true →
      decode_record_loop fs (P ++ record_bytes fs vs) off = List.zipWith truncated fs vs := by
  induction fs with
  | nil => intro vs P off _ _; simp [decode_record_loop]
  | cons f fs ih =>
    intro vs P off hoff ht
    cases vs with
    | nil => simp [tuple_for] at ht
    | cons v vs =>
      rw [tuple_for, Bool.and_eq_true] at ht
      obtain ⟨hv, hrest⟩ := ht
      simp only [Value.encodable, Bool.and_eq_true] at hv
      obtain ⟨_, _, _, hl⟩ := encode_field_literal 0 v f hv.1 hv.2
      simp only [decode_record_loop, record_bytes, List.zipWith_cons_cons]
      rw [decode_field_bytes P _ off f v hoff hv.1]
      have := ih vs (P ++ field_bytes f v) (off + f.size)
        (by simp only [List.length_append, Nat.cast_add]; omega) hrest
      rw [List.append_assoc] at this
      rw [this]

theorem decode_record_values (fs : List Field) (vs : List Value)
    (ht : tuple_for Value.encodable fs vs = true) :
    decode_record fs (record_bytes fs vs) = List.zipWith truncated fs vs := by
  have := decode_record_loop_values fs vs [] 0 (by simp) ht
  simpa [decode_record] using this

theorem record_bytes_append (fs1 fs2 : List Field) (vs1 vs2 : List Value)
    (h : fs1.length = vs1.length) :
    record_bytes (fs1 ++ fs2) (vs1 ++ vs2) = record_bytes fs1 vs1 ++ record_bytes fs2 vs2 := by
  induction fs1 generalizing vs1 with
  | nil =>
    cases vs1 with
    | nil => cases fs2 <;> cases vs2 <;> simp [record_bytes]
    | cons v vs => simp at h
  | cons f fs ih =>
    cases vs1 with
    | nil => simp at h
    | cons v vs =>
      have e := ih vs (by simpa using h)
      rw [List.cons_append, List.cons_append, record_bytes, e, record_bytes,
        List.append_assoc]

theorem tuple_for_encodable (fs : List Field) :
    ∀ vs, tuple_for Value.validFor fs vs = true → (∀ v ∈ vs, v.plain = true) →
      tuple_for Value.encodable fs vs = true ∧ List.zipWith truncated fs vs = vs := by
  induction fs with
  | nil => intro vs h _; cases vs <;> simp_all [tuple_for]
  | cons f fs ih =>
    intro vs h hp
    cases vs with
    | nil => simp [tuple_for] at h
    | cons v vs =>
      rw [tuple_for, Bool.and_eq_true] at h
      obtain ⟨h1, h2⟩ := ih vs h.2 (fun x hx => hp x (List.mem_cons_of_mem _ hx))
      have hv := hp v (List.mem_cons_self _ _)
      have hval := h.1
      have key : v.typedFor f = true ∧ truncated f v = v := by
        cases v with
        | int x =>
          cases hty : f.type <;> simp_all [Value.validFor, Value.typedFor, truncated]
        | bool b =>
          cases hty : f.type <;> simp_all [Value.validFor, Value.typedFor, truncated]
        | text t =>
          cases hty : f.type <;> simp only [Value.validFor, hty, Bool.and_eq_true,
            decide_eq_true_eq, Bool.false_eq_true, List.all_eq_true, bne_iff_ne, ne_eq] at hval
          refine ⟨?_, ?_⟩
          · simp only [Value.typedFor, hty, Bool.and_eq_true, decide_eq_true_eq,
              List.all_eq_true, bne_iff_ne, ne_eq]
            exact ⟨by omega, hval.2⟩
          · simp only [truncated, Value.text.injEq]
            exact List.take_of_length_le (by omega)
      refine ⟨?_, ?_⟩
      · rw [tuple_for, Bool.and_eq_true]
        exact ⟨by simp [Value.encodable, key.1, hv], h1⟩
      · simp only [List.zipWith_cons_cons, key.2, h2]

/-! ### The claims on the record codec -/

/-- C5, as stated, fails: for the schema `id int, name text(10), active bool` the
valid tuple `(1, 'a,b', true)` is stored and decoded as `(1, 'a', false)`, because the
values are split at every comma. -/
theorem insert_select_comma_in_text :
    tuple_for Value.validFor example_fields
        [.int 1, .text (cstr "a,b"), .bool true] = true ∧
      values_text 1 [.int 1, .text (cstr "a,b"), .bool true] = cstr "1, 'a,b', true" ∧
      decode_record example_fields
          (stored_record example_fields (cstr "1, 'a,b', true"))
        = [.int 1, .text (cstr "a"), .bool false] ∧
      decode_record example_fields
          (stored_record example_fields (cstr "1, 'a,b', true"))
        ≠ [.int 1, .text (cstr "a,b"), .bool true] := by
  decide

/-- C5, amended: for every schema and every valid literal tuple for it (one literal
per field; Int32 literals in 32-bit range, Bool literals true/false, single-quoted
Text literals no longer than the field capacity) in which no Text contains a comma or
begins or ends with a space or a single quote, encoding the tuple as INSERT does and
decoding the record as SELECT does yields the original values exactly. -/
theorem insert_select_round_trip (sp : Nat) (fs : List Field) (vs : List Value)
    (hvalid : tuple_for Value.validFor fs vs = true) (hplain : ∀ v ∈ vs, v.plain = true)
    (_hfit : (values_text sp vs).length < MAX_QUERY_LENGTH)
    (_hrecord : sum_sizes fs ≤ MAX_RECORD_SIZE) :
    decode_record fs (stored_record fs (values_text sp vs)) = vs := by
  obtain ⟨he, ht⟩ := tuple_for_encodable fs vs hvalid hplain
  rw [stored_record_values sp fs vs he, decode_record_values fs vs he, ht]

theorem insert_select_round_trip_witness :
    decode_record example_fields
        (stored_record example_fields
          (values_text 1 [.int (-7), .text (cstr "Alice"), .bool true]))
      = [.int (-7), .text (cstr "Alice"), .bool true] :=
  insert_select_round_trip 1 example_fields [.int (-7), .text (cstr "Alice"), .bool true]
    (by decide) (by decide) (by decide) (by decide)

/-- C6, as stated, fails: with the fields `a text(2), b text(3)` the literal `'x,yz'`
is longer than the capacity 2, but the field `a` decodes to `x`, not to the first two
bytes `x,`, and the neighbouring field `b` gets `yz` instead of its own `abc`. -/
theorem insert_long_text_with_comma :
    values_text 1 [.text (cstr "x,yz"), .text (cstr "abc")] = cstr "'x,yz', 'abc'" ∧
      decode_record example_text_fields
          (stored_record example_text_fields (cstr "'x,yz', 'abc'"))
        = [.text (cstr "x"), .text (cstr "yz")] ∧
      decode_record example_text_fields
          (stored_record example_text_fields (cstr "'x,yz', 'abc'"))
        ≠ [.text ((cstr "x,yz").take 2), .text (cstr "abc")] := by
  decide

/-- C6, amended: for every Text field of capacity N and every Text literal longer
than N bytes that contains no comma and neither begins nor ends with a space or a
single quote (the other values being valid literals of the same kind), INSERT stores
in the field exactly the first N bytes of the literal, the field decodes to them, and
the bytes of the fields before and after it are those of their own values. -/
theorem insert_text_truncated (sp : Nat) (fs1 fs2 : List Field) (f : Field)
    (vs1 vs2 : List Value) (s : List Nat)
    (ht : tuple_for Value.encodable (fs1 ++ f :: fs2) (vs1 ++ .text s :: vs2) = true)
    (hpos : fs1.length = vs1.length) (hlong : f.size < s.length)
    (_hfit : (values_text sp (vs1 ++ .text s :: vs2)).length < MAX_QUERY_LENGTH)
    (_hrecord : sum_sizes (fs1 ++ f :: fs2) ≤ MAX_RECORD_SIZE) :
    stored_record (fs1 ++ f :: fs2) (values_text sp (vs1 ++ .text s :: vs2))
        = record_bytes fs1 vs1 ++ s.take f.size.toNat ++ record_bytes fs2 vs2 ∧
      decode_record (fs1 ++ f :: fs2)
          (stored_record (fs1 ++ f :: fs2) (values_text sp (vs1 ++ .text s :: vs2)))
        = List.zipWith truncated fs1 vs1 ++
            .text (s.take f.size.toNat) :: List.zipWith truncated fs2 vs2 := by
  have hs := stored_record_values sp _ _ ht
  have hd := decode_record_values _ _ ht
  have hz : f.size.toNat - s.length = 0 := by omega
  refine ⟨?_, ?_⟩
  · rw [hs, record_bytes_append _ _ _ _ hpos]
    simp only [record_bytes, field_bytes, hz, List.replicate_zero, List.append_nil,
      List.append_assoc]
  · rw [hs, hd, List.zipWith_append _ _ _ _ _ hpos]
    simp only [List.zipWith_cons_cons, truncated]

theorem insert_text_truncated_witness :
    stored_record ([{ name := cstr "id", type := .FIELD_INT, size := 4 }] ++
          { name := cstr "a", type := .FIELD_TEXT, size := 2 } ::
            [{ name := cstr "ok", type := .FIELD_BOOL, size := 1 }])
        (values_text 1 ([.int 7] ++ .text (cstr "xyzw") :: [.bool true]))
        = record_bytes [{ name := cstr "id", type := .FIELD_INT, size := 4 }] [.int 7] ++
            (cstr "xyzw").take (2 : Int).toNat ++
            record_bytes [{ name := cstr "ok", type := .FIELD_BOOL, size := 1 }] [.bool true] ∧
      decode_record ([{ name := cstr "id", type := .FIELD_INT, size := 4 }] ++
          { name := cstr "a", type := .FIELD_TEXT, size := 2 } ::
            [{ name := cstr "ok", type := .FIELD_BOOL, size := 1 }])
          (stored_record ([{ name := cstr "id", type := .FIELD_INT, size := 4 }] ++
              { name := cstr "a", type := .FIELD_TEXT, size := 2 } ::
                [{ name := cstr "ok", type := .FIELD_BOOL, size := 1 }])
            (values_text 1 ([.int 7] ++ .text (cstr "xyzw") :: [.bool true])))
        = List.zipWith truncated [{ name := cstr "id", type := .FIELD_INT, size := 4 }]
              [.int 7] ++
            .text ((cstr "xyzw").take (2 : Int).toNat) ::
              List.zipWith truncated [{ name := cstr "ok", type := .FIELD_BOOL, size := 1 }]
                [.bool true] :=
  insert_text_truncated 1 [{ name := cstr "id", type := .FIELD_INT, size := 4 }]
    [{ name := cstr "ok", type := .FIELD_BOOL, size := 1 }]
    { name := cstr "a", type := .FIELD_TEXT, size := 2 } [.int 7] [.bool true] (cstr "xyzw")
    (by decide) (by decide) (by decide) (by decide) (by decide)

/-! ### The claims on `create_table` -/

set_option maxRecDepth 100000 in
/-- C8, as stated, fails: of the 21 definitions `a int, b int, ..., u int` the created
schema holds the first 20 only, the field `u` is missing. -/
theorem create_table_ignores_21st_definition :
    ∃ fs2 t, create_table FileSystem.empty (cstr "t")
        (cstr ("a int, b int, c int, d int, e int, f int, g int, h int, i int, j int, " ++
          "k int, l int, m int, n int, o int, p int, q int, r int, s int, t int, u int"))
        = some (fs2, .created t) ∧
      t.field_count = 20 ∧ t.fields.length = 20 ∧
      t.fields.getLast? = some { name := cstr "t", type := .FIELD_INT, size := 4 } ∧
      (∀ f ∈ t.fields, f.name ≠ cstr "u") :=
  ⟨_, _, rfl, by decide, by decide, by decide, by decide⟩

/-- C8, amended: for every list of at most `MAX_FIELDS` = 20 definitions `name type`
(names without white space, comma or bracket that fit the name buffer, `text(N)` with
N below 2^31), separated by a comma and any number of spaces, in a text that fits the
buffers, `create_table` creates a schema with one field per definition in the same
order: `int` an Int32 of 4 bytes, `text` a Text of 255 bytes, `text(N)` a Text of N
bytes, `bool` a Bool of 1 byte. -/
theorem create_table_fields (fs : FileSystem) (table_name : List Nat) (sp : Nat)
    (ds : List FieldDefinition)
    (hopen : fs.denied (table_filename table_name) = false)
    (hwf : ∀ d ∈ ds, d.wellFormed = true) (hlen : ds.length ≤ MAX_FIELDS)
    (_hfit : (definitions_text sp ds).length < MAX_QUERY_LENGTH) :
    ∃ fs2 t, create_table fs table_name (definitions_text sp ds) = some (fs2, .created t) ∧
      t.fields = ds.map FieldDefinition.field ∧ t.field_count = ds.length := by
  unfold create_table
  simp only [fopen_wb, hopen, Bool.false_eq_true, if_false]
  cases ds with
  | nil =>
    have hst : strtok [] (cstr ",") = (none, []) := by decide
    simp only [definitions_text, hst, List.length_nil, Nat.zero_add, create_table_loop]
    exact ⟨_, _, rfl, rfl, rfl⟩
  | cons d ds =>
    have hd := hwf d (List.mem_cons_self _ _)
    have hst := strtok_definition 0 sp d ds hd
    simp only [List.replicate_zero, List.nil_append] at hst
    obtain ⟨t, e, hf, hc⟩ := create_table_loop_definitions sp ds 0
      ((definitions_text sp (d :: ds)).length + 1) d
      { name := table_name, filename := table_filename table_name, fields := [],
        field_count := 0, record_size := 0, indexes := List.replicate MAX_FIELDS .null,
        auto_increment := 1 }
      hwf (by simp only [List.length_cons] at hlen; simp only []; omega)
      (by
        have := tail_text_length sp ds
        have := (render_no_comma d hd).1
        have : 0 < d.render.length := List.length_pos.2 this
        simp only [definitions_text, List.length_append]; omega)
    simp only [List.replicate_zero, List.nil_append] at e
    simp only [definitions_text, hst] at e ⊢
    rw [e]
    exact ⟨_, t, rfl, by simpa using hf, by simpa using hc⟩

theorem create_table_fields_witness :
    ∃ fs2 t, create_table FileSystem.empty (cstr "t")
        (definitions_text 1 [⟨cstr "id", .int⟩, ⟨cstr "name", .textN 10⟩, ⟨cstr "active", .bool⟩])
        = some (fs2, .created t) ∧
      t.fields = [⟨cstr "id", .int⟩, ⟨cstr "name", .textN 10⟩,
        ⟨cstr "active", .bool⟩].map FieldDefinition.field ∧
      t.field_count =
        [(⟨cstr "id", .int⟩ : FieldDefinition), ⟨cstr "name", .textN 10⟩,
          ⟨cstr "active", .bool⟩].length :=
  create_table_fields FileSystem.empty (cstr "t") 1
    [⟨cstr "id", .int⟩, ⟨cstr "name", .textN 10⟩, ⟨cstr "active", .bool⟩]
    (by decide) (by decide) (by decide) (by decide)

/-- C9 fails on the code: for the definitions `id int, name textual` the call does
not end with `Unknown field type`; it creates the table, `name` being a text field
of 255 bytes, because the type word is only compared on its first four bytes. -/
theorem create_table_accepts_textual :
    (create_table FileSystem.empty (cstr "t") (cstr "id int, name textual")).map Prod.snd =
      some (.created
        { name := cstr "t", filename := table_filename (cstr "t"),
          fields := [{ name := cstr "id", type := .FIELD_INT, size := 4 },
                     { name := cstr "name", type := .FIELD_TEXT, size := 255 }],
          field_count := 2, record_size := 259,
          indexes := List.replicate MAX_FIELDS .null, auto_increment := 1 }) := by
  decide

/-- C10 fails on the code: `create_table` on the existing table `t` with the
definitions `id foo` ends with `Unknown field type: foo`, and the file of `t`, which
held a header and a record, is left with length zero. -/
theorem create_table_unknown_type_truncates :
    example_fs.files (table_filename (cstr "t")) =
        some { header := some example_table, data := [7, 0, 0, 0] } ∧
      ∃ fs2, create_table example_fs (cstr "t") (cstr "id foo") =
          some (fs2, .unknownFieldType (cstr "foo")) ∧
        fs2.files (table_filename (cstr "t")) = some { header := none, data := [] } :=
  ⟨by decide, _, rfl, by decide⟩

/-! ### Conditions -/

theorem strcmp_ne_zero_iff (a b : List Nat) : strcmp a b ≠ 0 ↔ a ≠ b :=
  not_congr (strcmp_eq_zero_iff a b)

theorem wrap32_range (x : Int) : -2147483648 ≤ wrap32 x ∧ wrap32 x < 2147483648 := by
  unfold wrap32; omega

/-- The ordering operators on an `int` field compare the integers. -/
theorem compare_values_int (v w : Int) (hv1 : -2147483648 ≤ v) (hv2 : v < 2147483648)
    (hw1 : -2147483648 ≤ w) (hw2 : w < 2147483648) :
    compare_values (printf_d v) (cstr ">") (printf_d w) .FIELD_INT = decide (v > w) ∧
      compare_values (printf_d v) (cstr "<") (printf_d w) .FIELD_INT = decide (v < w) ∧
      compare_values (printf_d v) (cstr ">=") (printf_d w) .FIELD_INT = decide (v ≥ w) ∧
      compare_values (printf_d v) (cstr "<=") (printf_d w) .FIELD_INT = decide (v ≤ w) := by
  have hv := atoi_printf_d v hv1 hv2
  have hw := atoi_printf_d w hw1 hw2
  have n1 : ¬ (strcmp (cstr ">") (cstr "=") = 0 ∨ strcmp (cstr ">") (cstr "==") = 0) := by decide
  have n2 : ¬ strcmp (cstr ">") (cstr "!=") = 0 := by decide
  have n3 : ¬ (strcmp (cstr "<") (cstr "=") = 0 ∨ strcmp (cstr "<") (cstr "==") = 0) := by decide
  have n4 : ¬ strcmp (cstr "<") (cstr "!=") = 0 := by decide
  have n5 : ¬ (strcmp (cstr ">=") (cstr "=") = 0 ∨ strcmp (cstr ">=") (cstr "==") = 0) := by
    decide
  have n6 : ¬ strcmp (cstr ">=") (cstr "!=") = 0 := by decide
  have n7 : ¬ (strcmp (cstr "<=") (cstr "=") = 0 ∨ strcmp (cstr "<=") (cstr "==") = 0) := by
    decide
  have n8 : ¬ strcmp (cstr "<=") (cstr "!=") = 0 := by decide
  have m1 : ¬ strcmp (cstr "<") (cstr ">") = 0 := by decide
  have m2 : ¬ strcmp (cstr ">=") (cstr ">") = 0 := by decide
  have m3 : ¬ strcmp (cstr ">=") (cstr "<") = 0 := by decide
  have m4 : ¬ strcmp (cstr "<=") (cstr ">") = 0 := by decide
  have m5 : ¬ strcmp (cstr "<=") (cstr "<") = 0 := by decide
  have m6 : ¬ strcmp (cstr "<=") (cstr ">=") = 0 := by decide
  refine ⟨?_, ?_, ?_, ?_⟩
  · simp only [compare_values, n1, n2, if_false, true_or, if_true, strcmp_self, hv, hw]
  · simp only [compare_values, n3, n4, m1, if_false, true_or, if_true, strcmp_self, hv, hw]
  · simp only [compare_values, n5, n6, m2, m3, if_false, true_or, if_true, strcmp_self, hv, hw]
  · simp only [compare_values, n7, n8, m4, m5, m6, if_false, true_or, if_true, strcmp_self,
      hv, hw]

/-! ### The claims on conditions -/

/-- C19: for every field type, field value text `v` and literal text `l`,
`compare_values` with `=` and with `==` is true iff `v` and `l` are equal as strings,
and with `!=` iff they differ; the field type does not enter the result. -/
theorem compare_values_equality (v l : List Nat) (field_type : FieldType) :
    (compare_values v (cstr "=") l field_type = true ↔ v = l) ∧
      (compare_values v (cstr "==") l field_type = true ↔ v = l) ∧
      (compare_values v (cstr "!=") l field_type = true ↔ v ≠ l) := by
  have h1 : strcmp (cstr "=") (cstr "=") = 0 := by decide
  have h2 : strcmp (cstr "==") (cstr "==") = 0 := by decide
  have h3 : ¬ (strcmp (cstr "!=") (cstr "=") = 0 ∨ strcmp (cstr "!=") (cstr "==") = 0) := by
    decide
  have h4 : strcmp (cstr "!=") (cstr "!=") = 0 := by decide
  refine ⟨?_, ?_, ?_⟩
  · simp only [compare_values, h1, true_or, if_true, decide_eq_true_eq, strcmp_eq_zero_iff]
  · simp only [compare_values, h2, or_true, if_true, decide_eq_true_eq, strcmp_eq_zero_iff]
  · simp only [compare_values, h3, h4, if_false, if_true, decide_eq_true_eq,
      strcmp_ne_zero_iff]

/-- C20: for 32-bit integers `v` and `w` and each ordering operator, the condition
`f op w` (`w` written in decimal) evaluated by `check_single_condition` against a
record whose Int32 field `f` holds `v` is true iff `v op w` holds as integers.  The
field is the first of the table with the name `f`. -/
theorem check_single_condition_int (table : Table) (record f : List Nat) (i : Nat)
    (field : Field) (v w : Int) (is_and : Bool)
    (hidx : field_index (table.fields.take table.field_count) f 0 = some i)
    (hfield : (table.fields.take table.field_count).get? i = some field)
    (htype : field.type = .FIELD_INT)
    (hv : decode_field record (field_offset (table.fields.take table.field_count) i) field
      = .int v)
    (hw1 : -2147483648 ≤ w) (hw2 : w < 2147483648) :
    check_single_condition table record ⟨f, cstr ">", printf_d w, is_and⟩ = decide (v > w) ∧
      check_single_condition table record ⟨f, cstr "<", printf_d w, is_and⟩ = decide (v < w) ∧
      check_single_condition table record ⟨f, cstr ">=", printf_d w, is_and⟩
        = decide (v ≥ w) ∧
      check_single_condition table record ⟨f, cstr "<=", printf_d w, is_and⟩
        = decide (v ≤ w) := by
  have hr : -2147483648 ≤ v ∧ v < 2147483648 := by
    simp only [decode_field, htype, Value.int.injEq] at hv
    rw [← hv]
    exact wrap32_range _
  obtain ⟨c1, c2, c3, c4⟩ := compare_values_int v w hr.1 hr.2 hw1 hw2
  simp only [check_single_condition, hidx, hfield, field_text, hv, htype]
  exact ⟨c1, c2, c3, c4⟩

theorem check_single_condition_int_witness :
    check_single_condition example_table [249, 255, 255, 255]
        ⟨cstr "id", cstr ">", printf_d (-9), false⟩ = decide ((-7 : Int) > -9) ∧
      check_single_condition example_table [249, 255, 255, 255]
        ⟨cstr "id", cstr "<", printf_d (-9), false⟩ = decide ((-7 : Int) < -9) ∧
      check_single_condition example_table [249, 255, 255, 255]
        ⟨cstr "id", cstr ">=", printf_d (-9), false⟩ = decide ((-7 : Int) ≥ -9) ∧
      check_single_condition example_table [249, 255, 255, 255]
        ⟨cstr "id", cstr "<=", printf_d (-9), false⟩ = decide ((-7 : Int) ≤ -9) :=
  check_single_condition_int example_table [249, 255, 255, 255] (cstr "id") 0
    { name := cstr "id", type := .FIELD_INT, size := 4 } (-7) (-9) false
    (by decide) (by decide) (by decide) (by decide) (by decide) (by decide)

/-! ### The claims on `CREATE` -/

theorem table_filename_short (table_name : List Nat) (h : table_name.length < MAX_TABLE_NAME) :
    table_filename table_name = cstr "ODQ_" ++ table_name ++ cstr ".bin" := by
  have e1 : TABLE_PREFIX ++ cstr "_" = cstr "ODQ_" := by decide
  have e2 : (cstr "ODQ_").length = 4 := by decide
  have e3 : (cstr ".bin").length = 4 := by decide
  unfold table_filename
  rw [e1]
  apply List.take_of_length_le
  simp only [List.length_append, e2, e3]
  simp only [MAX_TABLE_NAME] at h
  omega

/-- The outcome `created` of `create_table`: the file of the table holds the new header
and nothing else, every other file is as before. -/
theorem create_table_created (fs fs2 : FileSystem) (table_name field_definitions : List Nat)
    (t : Table)
    (h : create_table fs table_name field_definitions = some (fs2, .created t)) :
    fs2 = (fs.put (table_filename table_name) { header := none, data := [] }).put
      (table_filename table_name) { header := some t, data := [] } := by
  unfold create_table at h
  simp only [fopen_wb] at h
  split at h
  · simp at h
  · rename_i fs1 hfs
    split at hfs
    · simp at hfs
    · simp only [Option.some.injEq] at hfs
      subst hfs
      split at h
      · simp at h
      · simp at h
      · simp only [Option.some.injEq, Prod.mk.injEq, CreateResult.created.injEq] at h
        obtain ⟨h1, h2⟩ := h
        subst h2
        exact h1.symm

/-- C11 fails on the code: of the statement
`CREATE TABLE t (id int, name text(10), active bool)` the definitions reach
`create_table` only up to the first closing bracket, `id int, name text(10`, and the
schema created has the two fields `id` and `name` and `record_size` 14; `active` is
lost. -/
theorem process_create_stops_at_bracket :
    command_split (cstr "CREATE TABLE t (id int, name text(10), active bool)") =
        some (cstr "CREATE", cstr "TABLE t (id int, name text(10), active bool)") ∧
      sscanf_create (cstr "TABLE t (id int, name text(10), active bool)") =
        some (cstr "t", cstr "id int, name text(10") ∧
      (process_create FileSystem.empty
          (cstr "TABLE t (id int, name text(10), active bool)")).map Prod.snd =
        some (some (.created
          { name := cstr "t", filename := table_filename (cstr "t"),
            fields := [{ name := cstr "id", type := .FIELD_INT, size := 4 },
                       { name := cstr "name", type := .FIELD_TEXT, size := 10 }],
            field_count := 2, record_size := 14,
            indexes := List.replicate MAX_FIELDS .null, auto_increment := 1 })) := by
  refine ⟨by decide, by decide, by decide⟩

/-- C12: the file of a table is `ODQ_<name>.bin`, a function of the name alone that
tells names apart, and a successful `create_table` leaves in it the new header and no
record, whatever the file held before; every other file is as it was.  The name fits
`name[MAX_TABLE_NAME]`. -/
theorem create_table_replaces_file (fs fs2 : FileSystem)
    (table_name field_definitions : List Nat) (t : Table)
    (hname : table_name.length < MAX_TABLE_NAME)
    (h : create_table fs table_name field_definitions = some (fs2, .created t)) :
    table_filename table_name = cstr "ODQ_" ++ table_name ++ cstr ".bin" ∧
      (∀ other : List Nat, other.length < MAX_TABLE_NAME →
        table_filename other = table_filename table_name → other = table_name) ∧
      fs2.files (table_filename table_name) = some { header := some t, data := [] } ∧
      (∀ file, fs2.files (table_filename table_name) = some file →
        file.length = sizeof_Table ∧ file.records = []) ∧
      ∀ filename, filename ≠ table_filename table_name → fs2.files filename = fs.files filename := by
  have hfs := create_table_created fs fs2 table_name field_definitions t h
  have hfile : fs2.files (table_filename table_name) = some { header := some t, data := [] } := by
    rw [hfs]; simp [FileSystem.put]
  refine ⟨table_filename_short table_name hname, ?_, hfile, ?_, ?_⟩
  · intro other ho he
    rw [table_filename_short table_name hname, table_filename_short other ho] at he
    have := List.append_cancel_left (List.append_cancel_right he)
    exact this
  · intro file hf
    rw [hfile] at hf
    simp only [Option.some.injEq] at hf
    subst hf
    simp [TableFile.length, TableFile.records]
  · intro filename hne
    rw [hfs]
    simp [FileSystem.put, hne]

theorem create_table_replaces_file_witness :
    example_fs.files (table_filename (cstr "t")) =
        some { header := some example_table, data := [7, 0, 0, 0] } ∧
      ∃ fs2 t, create_table example_fs (cstr "t") (cstr "name text(10)") =
          some (fs2, .created t) ∧
        (table_filename (cstr "t") = cstr "ODQ_" ++ cstr "t" ++ cstr ".bin" ∧
          (∀ other : List Nat, other.length < MAX_TABLE_NAME →
            table_filename other = table_filename (cstr "t") → other = cstr "t") ∧
          fs2.files (table_filename (cstr "t")) = some { header := some t, data := [] } ∧
          (∀ file, fs2.files (table_filename (cstr "t")) = some file →
            file.length = sizeof_Table ∧ file.records = []) ∧
          ∀ filename, filename ≠ table_filename (cstr "t") →
            fs2.files filename = example_fs.files filename) :=
  ⟨by decide, _, _, rfl, create_table_replaces_file example_fs _ (cstr "t")
    (cstr "name text(10)") _ (by decide) rfl⟩

/-! ### Indexing the records of a file -/

theorem getD_set_same (l : List AVLNode) (i : Nat) (t : AVLNode) (h : i < l.length) :
    (l.set i t).getD i .null = t := by
  simp [List.getD_eq_getElem?_getD, List.getElem?_set, h]

theorem getD_set_other (l : List AVLNode) (i j : Nat) (t : AVLNode) (h : i ≠ j) :
    (l.set i t).getD j .null = l.getD j .null := by
  simp [List.getD_eq_getElem?_getD, List.getElem?_set, h]

theorem AVLInvariant_getD (l : List AVLNode) (i : Nat) (h : ∀ t ∈ l, AVLInvariant t) :
    AVLInvariant (l.getD i .null) := by
  rw [List.getD_eq_getElem?_getD]
  cases e : l[i]? with
  | none => exact trivial
  | some t => exact h t (List.getElem?_mem e)

theorem sum_sizes_cons (f : Field) (fs : List Field) :
    sum_sizes (f :: fs) = f.size + sum_sizes fs := by
  simp [sum_sizes]

/-- The loop over the fields returns, keeps the trees balanced, and inserts into the
tree of each field the key of the field. -/
theorem index_record_spec (fields : List Field) :
    ∀ (i : Nat) (indexes : List AVLNode) (record : List Nat) (offset position : Int),
      (∀ t ∈ indexes, AVLInvariant t) → i + fields.length ≤ indexes.length →
      ∃ ix, index_record fields i indexes record offset position = some ix ∧
        ix.length = indexes.length ∧ (∀ t ∈ ix, AVLInvariant t) ∧
        (∀ j, j < i ∨ i + fields.length ≤ j → ix.getD j .null = indexes.getD j .null) ∧
        ∀ j field, fields.get? j = some field →
          insertAVL (indexes.getD (i + j) .null)
            (field_text record (offset + sum_sizes (fields.take j)) field) position
            = some (ix.getD (i + j) .null) := by
  induction fields with
  | nil =>
    intro i indexes record offset position hb _
    exact ⟨indexes, rfl, rfl, hb, fun _ _ => rfl, fun j field h => by simp at h⟩
  | cons f rest ih =>
    intro i indexes record offset position hb hlen
    simp only [List.length_cons] at hlen
    obtain ⟨tree, e, htree, _⟩ := insertAVL_balanced (indexes.getD i .null)
      (field_text record offset f) position (AVLInvariant_getD indexes i hb)
    have hb2 : ∀ t ∈ indexes.set i tree, AVLInvariant t := by
      intro t ht
      rcases List.mem_or_eq_of_mem_set ht with h | h
      · exact hb t h
      · rw [h]; exact htree
    obtain ⟨ix, e2, hl, hbx, hsame, hins⟩ := ih (i + 1) (indexes.set i tree) record
      (offset + f.size) position hb2 (by simp only [List.length_set]; omega)
    refine ⟨ix, ?_, ?_, hbx, ?_, ?_⟩
    · simp only [index_record, e, e2]
    · rw [hl, List.length_set]
    · intro j hj
      rw [hsame j (by simp only [List.length_cons] at hj; omega), getD_set_other]
      simp only [List.length_cons] at hj
      omega
    · intro j field hj
      cases j with
      | zero =>
        simp only [List.get?_cons_zero, Option.some.injEq] at hj
        subst hj
        rw [Nat.add_zero, hsame i (Or.inl (by omega)), getD_set_same _ _ _ (by omega)]
        simpa [sum_sizes] using e
      | succ j =>
        simp only [List.get?_cons_succ] at hj
        have := hins j field hj
        rw [getD_set_other _ _ _ _ (by omega)] at this
        have e3 : i + (j + 1) = i + 1 + j := by omega
        rw [e3, List.take_succ_cons, sum_sizes_cons, ← this]
        congr 2
        omega

/-- The trees after a list of records has been indexed: the tree of each field has
got the keys of the field, record after record. -/
theorem index_records_spec (fields : List Field) (record_size : Int) (records : List (List Nat)) :
    ∀ (indexes : List AVLNode) (position : Int),
      (∀ t ∈ indexes, AVLInvariant t) → fields.length ≤ indexes.length →
      ∃ ix, index_records fields record_size indexes records position = some ix ∧
        ix.length = indexes.length ∧ (∀ t ∈ ix, AVLInvariant t) ∧
        (∀ j, fields.length ≤ j → ix.getD j .null = indexes.getD j .null) ∧
        ∀ j, j < fields.length →
          insertAll (indexes.getD j .null) (field_keys fields j record_size records position)
            = some (ix.getD j .null) := by
  induction records with
  | nil =>
    intro indexes position hb _
    exact ⟨indexes, rfl, rfl, hb, fun _ _ => rfl, fun j _ => rfl⟩
  | cons record rest ih =>
    intro indexes position hb hlen
    obtain ⟨ix1, e1, hl1, hb1, hsame1, hins1⟩ := index_record_spec fields 0 indexes record 0
      position hb (by omega)
    obtain ⟨ix, e2, hl, hbx, hsame, hins⟩ := ih ix1 (position + record_size) hb1 (by omega)
    refine ⟨ix, ?_, by omega, hbx, ?_, ?_⟩
    · simp only [index_records, e1, e2]
    · intro j hj
      rw [hsame j hj, hsame1 j (Or.inr (by omega))]
    · intro j hj
      obtain ⟨field, hf⟩ : ∃ field, fields.get? j = some field :=
        ⟨fields.get ⟨j, hj⟩, List.get?_eq_get hj⟩
      have h1 := hins1 j field hf
      rw [Nat.zero_add, Int.zero_add] at h1
      simp only [field_keys, insertAll, hf, field_offset, h1, Option.bind]
      exact hins j hj

theorem complete_records_cons (record_size : Int) (data : List Nat)
    (h : 0 < record_size ∧ record_size.toNat ≤ data.length) :
    complete_records record_size data =
      data.take record_size.toNat ::
        complete_records record_size (data.drop record_size.toNat) := by
  have hpos : 0 < record_size.toNat := by omega
  unfold complete_records
  have e : data.length / record_size.toNat
      = (data.drop record_size.toNat).length / record_size.toNat + 1 := by
    rw [List.length_drop, Nat.div_eq data.length, if_pos ⟨hpos, h.2⟩]
  rw [e, records_of]

theorem complete_records_nil (record_size : Int) (data : List Nat)
    (h : ¬ (0 < record_size ∧ record_size.toNat ≤ data.length)) :
    complete_records record_size data = [] := by
  unfold complete_records
  have e : data.length / record_size.toNat = 0 := by
    by_cases h0 : 0 < record_size
    · exact Nat.div_eq_of_lt (by omega)
    · have : record_size.toNat = 0 := by omega
      rw [this, Nat.div_zero]
  rw [e, records_of]

/-- The scan of `load_table` indexes the complete records of the data, one after the
other; the fuel is enough. -/
theorem load_table_loop_eq (fuel : Nat) :
    ∀ (table : Table) (data : List Nat) (position : Int), data.length < fuel →
      load_table_loop fuel table data position =
        (index_records (table.fields.take table.field_count) table.record_size table.indexes
          (complete_records table.record_size data) position).map
          fun ix => { table with indexes := ix } := by
  induction fuel with
  | zero => intro table data position h; omega
  | succ fuel ih =>
    intro table data position hlen
    unfold load_table_loop
    by_cases hc : 0 < table.record_size ∧ table.record_size.toNat ≤ data.length
    · rw [if_pos hc, complete_records_cons _ _ hc]
      simp only [index_records]
      cases e : index_record (List.take table.field_count table.fields) 0 table.indexes
          (List.take table.record_size.toNat data) 0 position with
      | none => rfl
      | some ix =>
        simp only
        rw [ih { table with indexes := ix } (data.drop table.record_size.toNat)
          (position + table.record_size) (by rw [List.length_drop]; omega)]
    · rw [if_neg hc, complete_records_nil _ _ hc]
      rfl

/-- `load_table` on an existing file with a header. -/
theorem load_table_of_file (st : State) (table_name : List Nat) (file : TableFile)
    (header : Table) (ix : List AVLNode)
    (hopen : fopen_rb_plus st.fs (table_filename table_name) = some file)
    (hheader : file.header = some header)
    (hix : index_records (header.fields.take header.field_count) header.record_size
      header.indexes (complete_records header.record_size file.data) sizeof_Table = some ix) :
    load_table st table_name =
      some ({ st with session :=
              { current_table := { header with indexes := ix }, table_loaded := true,
                data_file := some (table_filename table_name) } },
            cstr "Table '" ++ table_name ++ cstr "' loaded with indexes\n", true) := by
  unfold load_table
  simp only [hopen, hheader]
  rw [load_table_loop_eq _ header file.data sizeof_Table (by omega), hix]
  rfl

theorem replicate_null_balanced (n : Nat) : ∀ t ∈ List.replicate n AVLNode.null, AVLInvariant t := by
  intro t ht
  rw [List.eq_of_mem_replicate ht]
  exact trivial

theorem records_of_append (size : Nat) (n : Nat) :
    ∀ (a b : List Nat), n * size ≤ a.length →
      records_of size n (a ++ b) = records_of size n a := by
  induction n with
  | zero => intro a b _; rfl
  | succ n ih =>
    intro a b h
    have h1 : size ≤ a.length := by
      have : (n + 1) * size = n * size + size := by ring
      omega
    have h2 : n * size ≤ (a.drop size).length := by
      have : (n + 1) * size = n * size + size := by ring
      rw [List.length_drop]; omega
    simp only [records_of]
    rw [List.take_append_of_le_length h1, List.drop_append_of_le_length h1, ih _ _ h2]

theorem complete_records_append (record_size : Int) (n : Nat) (complete trailing : List Nat)
    (hn : complete.length = n * record_size.toNat)
    (hr : (trailing.length : Int) < record_size) :
    complete_records record_size (complete ++ trailing) =
        records_of record_size.toNat n complete ∧
      complete_records record_size complete = records_of record_size.toNat n complete := by
  have hpos : 0 < record_size.toNat := by omega
  have e1 : (complete ++ trailing).length / record_size.toNat = n := by
    rw [List.length_append, hn, Nat.add_comm, Nat.add_mul_div_right _ _ hpos,
      Nat.div_eq_of_lt (by omega), Nat.zero_add]
  have e2 : complete.length / record_size.toNat = n := by
    rw [hn, Nat.mul_div_cancel _ hpos]
  unfold complete_records
  rw [e1, e2]
  exact ⟨records_of_append _ n complete trailing (by omega), rfl⟩

theorem Table.bounded_spec {t : Table} (h : t.bounded = true) :
    t.field_count = t.fields.length ∧ t.fields.length ≤ MAX_FIELDS ∧
      (∀ f ∈ t.fields,
        (f.type = .FIELD_INT → f.size = 4) ∧ (f.type = .FIELD_BOOL → f.size = 1) ∧
        (f.type = .FIELD_TEXT → 0 ≤ f.size ∧ f.size ≤ 255)) ∧
      t.record_size = sum_sizes t.fields ∧ t.record_size ≤ MAX_RECORD_SIZE ∧
      t.indexes.length = MAX_FIELDS := by
  simp only [Table.bounded, Bool.and_eq_true, decide_eq_true_eq, List.all_eq_true] at h
  obtain ⟨⟨⟨⟨⟨h1, h2⟩, h3⟩, h4⟩, h5⟩, h6⟩ := h
  refine ⟨h1, h2, ?_, h4, h5, h6⟩
  intro f hf
  have := h3 f hf
  cases hty : f.type <;> simp_all

theorem Table.wellFormed_spec {t : Table} (h : t.wellFormed = true) :
    t.bounded = true ∧ t.indexes = List.replicate MAX_FIELDS .null := by
  simpa [Table.wellFormed] using h

theorem take_field_count {t : Table} (h : t.bounded = true) :
    t.fields.take t.field_count = t.fields := by
  rw [(Table.bounded_spec h).1, List.take_length]

/-! ### The claims on `USE` -/

/-- C15: for a table file whose data are `n` complete records followed by `r` bytes
with 0 < r < record_size, `load_table` succeeds with the message of success only, and
the index trees are those of the `n` complete records: the trailing bytes enter no
key and no position.  The header is within the bounds of the engine. -/
theorem load_table_ignores_partial_record (st : State) (table_name : List Nat) (header : Table)
    (complete trailing : List Nat) (n : Nat)
    (hopen : st.fs.denied (table_filename table_name) = false)
    (hfile : st.fs.files (table_filename table_name) =
      some { header := some header, data := complete ++ trailing })
    (hwf : header.wellFormed = true)
    (hn : complete.length = n * header.record_size.toNat)
    (hr : 0 < trailing.length ∧ (trailing.length : Int) < header.record_size) :
    ∃ ix, index_records header.fields header.record_size (List.replicate MAX_FIELDS .null)
          (records_of header.record_size.toNat n complete) sizeof_Table = some ix ∧
      load_table st table_name =
        some ({ st with session :=
                { current_table := { header with indexes := ix }, table_loaded := true,
                  data_file := some (table_filename table_name) } },
              cstr "Table '" ++ table_name ++ cstr "' loaded with indexes\n", true) := by
  obtain ⟨hb, hnull⟩ := Table.wellFormed_spec hwf
  obtain ⟨_, hcount, _, _, _, _⟩ := Table.bounded_spec hb
  obtain ⟨ix, hix, _⟩ := index_records_spec header.fields header.record_size
    (records_of header.record_size.toNat n complete) (List.replicate MAX_FIELDS .null)
    sizeof_Table (replicate_null_balanced _) (by simpa using hcount)
  refine ⟨ix, hix, ?_⟩
  apply load_table_of_file st table_name
    { header := some header, data := complete ++ trailing } header ix
  · simp [fopen_rb_plus, hopen, hfile]
  · rfl
  · rw [take_field_count hb, hnull]
    simp only
    rw [(complete_records_append header.record_size n complete trailing hn hr.2).1]
    exact hix

theorem load_table_ignores_partial_record_witness :
    ∃ ix, index_records example_table.fields example_table.record_size
          (List.replicate MAX_FIELDS .null)
          (records_of example_table.record_size.toNat 1 [7, 0, 0, 0]) sizeof_Table = some ix ∧
      load_table { fs := example_fs_partial, session := Session.initial } (cstr "t") =
        some ({ ({ fs := example_fs_partial, session := Session.initial } : State) with
                session :=
                { current_table := { example_table with indexes := ix }, table_loaded := true,
                  data_file := some (table_filename (cstr "t")) } },
              cstr "Table '" ++ cstr "t" ++ cstr "' loaded with indexes\n", true) :=
  load_table_ignores_partial_record { fs := example_fs_partial, session := Session.initial }
    (cstr "t") example_table [7, 0, 0, 0] [9, 0] 1 (by decide) (by decide) (by decide)
    (by decide) (by decide)

/-! ### `INSERT` on an attached session -/

theorem write_at_length_ge (buf : List Nat) (o : Nat) (b : List Nat) :
    buf.length ≤ (write_at buf o b).length := by
  unfold write_at
  simp only [List.length_append, List.length_take, List.length_drop]
  omega

theorem build_record_loop_length (fields : List Field) :
    ∀ (token : Option (List Nat)) (saved record : List Nat) (offset : Int),
      record.length ≤ (build_record_loop fields token saved record offset).length := by
  induction fields with
  | nil => intro token saved record offset; simp [build_record_loop]
  | cons f rest ih =>
    intro token saved record offset
    cases token with
    | none => simp [build_record_loop]
    | some tok =>
      simp only [build_record_loop]
      exact le_trans (write_at_length_ge _ _ _) (ih _ _ _ _)

theorem build_record_length (fields : List Field) (values : List Nat) :
    MAX_RECORD_SIZE ≤ (build_record fields values).length := by
  unfold build_record
  exact le_trans (by simp) (build_record_loop_length fields _ _ _ _)

theorem sum_sizes_nonneg (fields : List Field) (h : ∀ f ∈ fields, 0 ≤ f.size) :
    0 ≤ sum_sizes fields := by
  induction fields with
  | nil => simp [sum_sizes]
  | cons f fs ih =>
    rw [sum_sizes_cons]
    have := h f (List.mem_cons_self _ _)
    have := ih fun g hg => h g (List.mem_cons_of_mem _ hg)
    omega

theorem bounded_size_nonneg {t : Table} (h : t.bounded = true) :
    ∀ f ∈ t.fields, 0 ≤ f.size := by
  intro f hf
  obtain ⟨h1, h2, h3⟩ := (Table.bounded_spec h).2.2.1 f hf
  cases hty : f.type
  · have := h1 hty; omega
  · exact (h3 hty).1
  · have := h2 hty; omega

theorem bounded_record_size {t : Table} (h : t.bounded = true) :
    0 ≤ t.record_size ∧ t.record_size.toNat ≤ MAX_RECORD_SIZE := by
  obtain ⟨_, _, _, hs, hm, _⟩ := Table.bounded_spec h
  have := sum_sizes_nonneg t.fields (bounded_size_nonneg h)
  omega

/-- One `INSERT` on an attached session: the record is written at the end of the
file and indexed with the old length of the file as position. -/
theorem insert_into_table_attached (st : State) (filename : List Nat) (file : TableFile)
    (values : List Nat) (h : Attached st filename file) :
    ∃ ix, index_record st.session.current_table.fields 0 st.session.current_table.indexes
          (build_record st.session.current_table.fields values) 0
          ((sizeof_Table : Int) + file.data.length) = some ix ∧
      insert_into_table st values =
        some ({ fs := st.fs.put filename
                  (file.append ((build_record st.session.current_table.fields values).take
                    st.session.current_table.record_size.toNat)),
                session := { st.session with
                  current_table := { st.session.current_table with indexes := ix } } },
              cstr "1 row inserted\n") ∧
      ((build_record st.session.current_table.fields values).take
        st.session.current_table.record_size.toNat).length
        = st.session.current_table.record_size.toNat ∧
      Attached
        { fs := st.fs.put filename
            (file.append ((build_record st.session.current_table.fields values).take
              st.session.current_table.record_size.toNat)),
          session := { st.session with
            current_table := { st.session.current_table with indexes := ix } } }
        filename
        (file.append ((build_record st.session.current_table.fields values).take
          st.session.current_table.record_size.toNat)) := by
  obtain ⟨hl, hd, hf, hh, hb, hbal⟩ := h
  obtain ⟨hcount, hmax, _, _, _, hixl⟩ := Table.bounded_spec hb
  obtain ⟨ix, hix, hlen, hbal2, _, _⟩ := index_record_spec st.session.current_table.fields 0
    st.session.current_table.indexes (build_record st.session.current_table.fields values) 0
    ((sizeof_Table : Int) + file.data.length) hbal (by omega)
  have hflen : ((file.length : Nat) : Int) = (sizeof_Table : Int) + file.data.length := by
    simp [TableFile.length, hh]
  refine ⟨ix, hix, ?_, ?_, ?_⟩
  · unfold insert_into_table
    simp only [hl, Bool.not_true, Bool.false_eq_true, if_false, hd, hf, take_field_count hb,
      hflen, hix]
  · rw [List.length_take]
    have := build_record_length st.session.current_table.fields values
    have := (bounded_record_size hb).2
    omega
  · refine ⟨hl, hd, by simp [FileSystem.put], by simpa [TableFile.append] using hh, ?_, hbal2⟩
    have : ({ st.session.current_table with indexes := ix } : Table).bounded = true := by
      simp only [Table.bounded] at hb ⊢
      simpa [hlen, hixl] using hb
    exact this

/-- A sequence of `INSERT`s on an attached session: the records are appended in order
and indexed with positions that start at the old end of the file and advance by
`record_size`. -/
theorem insert_all_attached (vs : List (List Nat)) :
    ∀ (st : State) (filename : List Nat) (file : TableFile), Attached st filename file →
      ∃ st2, insert_all st vs = some st2 ∧
        Attached st2 filename
          { file with data := file.data ++
              (vs.map fun v => (build_record st.session.current_table.fields v).take
                st.session.current_table.record_size.toNat).flatten } ∧
        (∃ ix, st2.session.current_table = { st.session.current_table with indexes := ix }) ∧
        index_records st.session.current_table.fields st.session.current_table.record_size
          st.session.current_table.indexes
          (vs.map (build_record st.session.current_table.fields))
          ((sizeof_Table : Int) + file.data.length)
          = some st2.session.current_table.indexes := by
  induction vs with
  | nil =>
    intro st filename file h
    refine ⟨st, rfl, by simpa using h, ⟨st.session.current_table.indexes, rfl⟩, rfl⟩
  | cons v vs ih =>
    intro st filename file h
    obtain ⟨ix, hix, hins, hlen, hatt⟩ := insert_into_table_attached st filename file v h
    obtain ⟨st2, h2, hatt2, ⟨ix2, htab⟩, hidx⟩ := ih _ filename _ hatt
    have hrs := (bounded_record_size h.2.2.2.2.1).1
    refine ⟨st2, ?_, ?_, ⟨ix2, ?_⟩, ?_⟩
    · simp only [insert_all, hins, h2]
    · simpa [TableFile.append, List.append_assoc] using hatt2
    · rw [htab]
    · simp only [List.map_cons, index_records, hix]
      simp only [TableFile.append, List.length_append, hlen, Nat.cast_add] at hidx
      rw [← hidx]
      congr 1
      omega

theorem flatten_slice (n : Nat) (chunks : List (List Nat)) (h : ∀ c ∈ chunks, c.length = n) :
    chunks.flatten.length = chunks.length * n ∧
      ∀ k (hk : k < chunks.length), (chunks.flatten.drop (k * n)).take n = chunks[k] := by
  induction chunks with
  | nil => exact ⟨by simp, fun k hk => by simp at hk⟩
  | cons c cs ih =>
    have hc := h c (List.mem_cons_self _ _)
    obtain ⟨h1, h2⟩ := ih fun x hx => h x (List.mem_cons_of_mem _ hx)
    refine ⟨?_, ?_⟩
    · simp only [List.flatten_cons, List.length_append, h1, hc, List.length_cons]
      ring
    · intro k hk
      cases k with
      | zero =>
        simp only [Nat.zero_mul, List.drop_zero, List.flatten_cons, List.getElem_cons_zero]
        rw [List.take_append_of_le_length (by omega), List.take_of_length_le (by omega)]
      | succ k =>
        simp only [List.flatten_cons, List.getElem_cons_succ]
        have e : (k + 1) * n = c.length + k * n := by rw [hc]; ring
        rw [e, List.drop_append]
        exact h2 k (by simpa using hk)

theorem create_table_open (fs fs2 : FileSystem) (table_name field_definitions : List Nat)
    (t : Table)
    (h : create_table fs table_name field_definitions = some (fs2, .created t)) :
    fs2.denied (table_filename table_name) = false := by
  have hfs := create_table_created fs fs2 table_name field_definitions t h
  unfold create_table at h
  simp only [fopen_wb] at h
  by_cases hd : fs.denied (table_filename table_name) = true
  · simp [hd] at h
  · rw [hfs]
    simpa [FileSystem.put] using hd

/-- `load_table` on the file that `create_table` has just written. -/
theorem load_table_created (fs fs2 : FileSystem) (session : Session)
    (table_name field_definitions : List Nat) (t : Table)
    (h : create_table fs table_name field_definitions = some (fs2, .created t))
    (hwf : t.wellFormed = true) :
    load_table { fs := fs2, session := session } table_name =
        some ({ fs := fs2, session :=
                { current_table := t, table_loaded := true,
                  data_file := some (table_filename table_name) } },
              cstr "Table '" ++ table_name ++ cstr "' loaded with indexes\n", true) ∧
      Attached { fs := fs2, session :=
                { current_table := t, table_loaded := true,
                  data_file := some (table_filename table_name) } }
        (table_filename table_name) { header := some t, data := [] } := by
  have hfs := create_table_created fs fs2 table_name field_definitions t h
  have hfile : fs2.files (table_filename table_name) = some { header := some t, data := [] } := by
    rw [hfs]; simp [FileSystem.put]
  obtain ⟨hb, hnull⟩ := Table.wellFormed_spec hwf
  refine ⟨?_, rfl, rfl, hfile, rfl, hb, ?_⟩
  · have := load_table_of_file { fs := fs2, session := session } table_name
      { header := some t, data := [] } t t.indexes
      (by simp [fopen_rb_plus, create_table_open fs fs2 _ _ t h, hfile]) rfl
      (by simp [complete_records, records_of, index_records])
    simpa using this
  · intro x hx
    rw [hnull] at hx
    exact replicate_null_balanced _ x hx

/-! ### The claims on `INSERT` -/

/-- C13: in a table file produced by `create_table` (a schema within the bounds of the
engine) and extended by `INSERT`s only, the data after the header are the records in
the order of insertion, each of `record_size` bytes: the k-th record occupies the
`record_size` bytes at file offset `sizeof(Table) + k * record_size`; and the index
trees of the session are those that result from indexing the k-th record under the
position `sizeof(Table) + k * record_size`, for k = 0, 1, ... -/
theorem insert_record_offsets (fs fs2 : FileSystem) (session : Session)
    (table_name field_definitions : List Nat) (t : Table) (vs : List (List Nat))
    (hcreate : create_table fs table_name field_definitions = some (fs2, .created t))
    (hwf : t.wellFormed = true) :
    ∃ st1 out, load_table { fs := fs2, session := session } table_name = some (st1, out, true) ∧
      ∃ st2 data, insert_all st1 vs = some st2 ∧
        st2.fs.files (table_filename table_name) = some { header := some t, data := data } ∧
        data.length = vs.length * t.record_size.toNat ∧
        (∀ k (hk : k < vs.length),
          (data.drop (k * t.record_size.toNat)).take t.record_size.toNat
            = (build_record t.fields vs[k]).take t.record_size.toNat) ∧
        index_records t.fields t.record_size (List.replicate MAX_FIELDS .null)
          (vs.map (build_record t.fields)) sizeof_Table
          = some st2.session.current_table.indexes := by
  obtain ⟨hload, hatt⟩ := load_table_created fs fs2 session table_name field_definitions t
    hcreate hwf
  obtain ⟨st2, h2, hatt2, _, hidx⟩ := insert_all_attached vs _ _ _ hatt
  obtain ⟨hb, hnull⟩ := Table.wellFormed_spec hwf
  have hchunks : ∀ c ∈ vs.map fun v => (build_record t.fields v).take t.record_size.toNat,
      c.length = t.record_size.toNat := by
    intro c hc
    obtain ⟨v, _, rfl⟩ := List.mem_map.1 hc
    rw [List.length_take]
    have := build_record_length t.fields v
    have := (bounded_record_size hb).2
    omega
  obtain ⟨hl, hs⟩ := flatten_slice _ _ hchunks
  refine ⟨_, _, hload, st2,
    (vs.map fun v => (build_record t.fields v).take t.record_size.toNat).flatten,
    h2, ?_, ?_, ?_, ?_⟩
  · simpa using hatt2.2.2.1
  · simpa using hl
  · intro k hk
    have := hs k (by simpa using hk)
    simpa using this
  · simp only [List.length_nil, Nat.cast_zero, add_zero, hnull] at hidx
    exact hidx

theorem insert_record_offsets_witness :
    ∃ fs2 t, create_table FileSystem.empty (cstr "t") (cstr "id int, name text(10)") =
        some (fs2, .created t) ∧ t.wellFormed = true ∧
      ∃ st1 out, load_table { fs := fs2, session := Session.initial } (cstr "t") =
          some (st1, out, true) ∧
        ∃ st2 data, insert_all st1 [cstr "7, 'ab'", cstr "8, 'cd'"] = some st2 ∧
          st2.fs.files (table_filename (cstr "t")) = some { header := some t, data := data } ∧
          data.length = [cstr "7, 'ab'", cstr "8, 'cd'"].length * t.record_size.toNat ∧
          (∀ k (hk : k < [cstr "7, 'ab'", cstr "8, 'cd'"].length),
            (data.drop (k * t.record_size.toNat)).take t.record_size.toNat
              = (build_record t.fields ([cstr "7, 'ab'", cstr "8, 'cd'"].get ⟨k, hk⟩)).take
                  t.record_size.toNat) ∧
          index_records t.fields t.record_size (List.replicate MAX_FIELDS .null)
            ([cstr "7, 'ab'", cstr "8, 'cd'"].map (build_record t.fields)) sizeof_Table
            = some st2.session.current_table.indexes :=
  ⟨_, _, rfl, by decide, insert_record_offsets FileSystem.empty _ Session.initial (cstr "t")
    (cstr "id int, name text(10)") _ [cstr "7, 'ab'", cstr "8, 'cd'"] rfl (by decide)⟩

/-! ### Statements without a loaded table -/

/-- The flag `table_loaded` is set by a successful `load_table` only: a statement that
leaves it set on a state where it was clear is a `USE` that returned `true`. -/
theorem run_statement_table_loaded (st st2 : State) (s : Statement)
    (h : st.session.table_loaded = false) (hrun : run_statement st s = some st2)
    (h2 : st2.session.table_loaded = true) :
    ∃ table_name out, s = .use table_name ∧ load_table st table_name = some (st2, out, true) := by
  cases s with
  | create table_name field_definitions =>
    simp only [run_statement, Option.map_eq_some'] at hrun
    obtain ⟨r, _, rfl⟩ := hrun
    simp [h] at h2
  | use table_name =>
    simp only [run_statement, Option.map_eq_some'] at hrun
    obtain ⟨⟨st3, out, ok⟩, hr, rfl⟩ := hrun
    refine ⟨table_name, out, rfl, ?_⟩
    cases ok with
    | true => exact hr
    | false =>
      exfalso
      unfold load_table at hr
      simp only at hr
      split at hr
      · simp only [Option.some.injEq, Prod.mk.injEq] at hr
        rw [← hr.1, h] at h2
        exact Bool.noConfusion h2
      · split at hr
        · split at hr
          · simp only [Option.some.injEq, Prod.mk.injEq] at hr
            rw [← hr.1, h] at h2
            exact Bool.noConfusion h2
          · exact Option.noConfusion hr
        · split at hr
          · exact Option.noConfusion hr
          · simp at hr
  | insert values =>
    simp only [run_statement, insert_into_table, h, Bool.not_false, if_true, Option.map_some',
      Option.some.injEq] at hrun
    rw [← hrun, h] at h2
    exact Bool.noConfusion h2
  | select _ _ =>
    simp only [run_statement, Option.some.injEq] at hrun
    rw [← hrun, h] at h2
    exact Bool.noConfusion h2
  | count _ =>
    simp only [run_statement, Option.some.injEq] at hrun
    rw [← hrun, h] at h2
    exact Bool.noConfusion h2
  | find _ =>
    simp only [run_statement, Option.some.injEq] at hrun
    rw [← hrun, h] at h2
    exact Bool.noConfusion h2
  | join _ =>
    simp only [run_statement, Option.some.injEq] at hrun
    rw [← hrun, h] at h2
    exact Bool.noConfusion h2

/-- C18: while `table_loaded` is clear (no `load_table` has returned `true`),
`insert_into_table`, `select_columns`, `select_count` and `find_text` print
`No table selected` and nothing else, whatever their arguments, and the statements
that call them leave the files and the session as they were. -/
theorem no_table_selected (st : State) (values columns where_clause search_text : List Nat)
    (h : st.session.table_loaded = false) :
    insert_into_table st values = some (st, cstr "No table selected\n") ∧
      select_columns st columns where_clause = some (cstr "No table selected\n") ∧
      select_count st where_clause = some (cstr "No table selected\n") ∧
      find_text st search_text = cstr "No table selected\n" ∧
      run_statement st (.insert values) = some st ∧
      run_statement st (.select columns where_clause) = some st ∧
      run_statement st (.count where_clause) = some st ∧
      run_statement st (.find search_text) = some st := by
  refine ⟨?_, ?_, ?_, ?_, ?_, rfl, rfl, rfl⟩
  · simp [insert_into_table, h]
  · simp [select_columns, h]
  · simp [select_count, h]
  · simp [find_text, h]
  · simp [run_statement, insert_into_table, h]

theorem no_table_selected_witness :
    (State.mk example_fs Session.initial).session.table_loaded = false ∧
      (insert_into_table (State.mk example_fs Session.initial) (cstr "8") =
          some (State.mk example_fs Session.initial, cstr "No table selected\n") ∧
        select_columns (State.mk example_fs Session.initial) (cstr "*") (cstr "id = 7") =
          some (cstr "No table selected\n") ∧
        select_count (State.mk example_fs Session.initial) (cstr "id = 7") =
          some (cstr "No table selected\n") ∧
        find_text (State.mk example_fs Session.initial) (cstr "7") =
          cstr "No table selected\n" ∧
        run_statement (State.mk example_fs Session.initial) (.insert (cstr "8")) =
          some (State.mk example_fs Session.initial) ∧
        run_statement (State.mk example_fs Session.initial) (.select (cstr "*") (cstr "id = 7")) =
          some (State.mk example_fs Session.initial) ∧
        run_statement (State.mk example_fs Session.initial) (.count (cstr "id = 7")) =
          some (State.mk example_fs Session.initial) ∧
        run_statement (State.mk example_fs Session.initial) (.find (cstr "7")) =
          some (State.mk example_fs Session.initial)) :=
  ⟨rfl, no_table_selected (State.mk example_fs Session.initial) (cstr "8") (cstr "*")
    (cstr "id = 7") (cstr "7") rfl⟩

/-! ### Incremental indexing and a fresh scan -/

theorem takeWhile_take (p : Nat → Bool) (m : Nat) (s : List Nat) :
    (s.take m).takeWhile p = (s.takeWhile p).take m := by
  induction s generalizing m with
  | nil => simp
  | cons x xs ih =>
    cases m with
    | zero => simp
    | succ m =>
      simp only [List.take_succ_cons, List.takeWhile_cons]
      split
      · simp [ih]
      · simp

theorem c_str_strncpy (s : List Nat) (k : Nat) :
    c_str (strncpy (c_str s) k ++ [0]) = (c_str s).take k := by
  have h : ∀ c ∈ (c_str s).take k, (c != 0) = true := by
    intro c hc
    have := List.mem_of_mem_take hc
    simpa [c_str] using (List.mem_takeWhile_imp this)
  simp only [strncpy, List.append_assoc]
  unfold c_str at h ⊢
  rw [List.takeWhile_append_of_pos h]
  cases hr : List.replicate (k - (List.takeWhile (fun c => c != 0) s).length) 0 with
  | nil => simp
  | cons x xs =>
    have : x = 0 := by
      have : x ∈ List.replicate (k - (List.takeWhile (fun c => c != 0) s).length) 0 := by
        rw [hr]; exact List.mem_cons_self _ _
      exact (List.mem_replicate.1 this).2
    subst this
    simp

theorem field_text_take (record : List Nat) (offset : Int) (field : Field) (n : Nat)
    (ho : 0 ≤ offset) (hn : offset + field.size ≤ n)
    (hint : field.type = .FIELD_INT → field.size = 4)
    (hbool : field.type = .FIELD_BOOL → field.size = 1) :
    field_text (record.take n) offset field = field_text record offset field := by
  have hd : (record.take n).drop offset.toNat = (record.drop offset.toNat).take (n - offset.toNat) := by
    rw [List.drop_take]
  unfold field_text decode_field
  simp only [hd]
  cases ht : field.type with
  | FIELD_INT =>
    have h4 := hint ht
    have : 4 ≤ n - offset.toNat := by omega
    simp only [bytes_int, List.getD_eq_getElem?_getD]
    rw [List.getElem?_take_of_lt (by omega), List.getElem?_take_of_lt (by omega),
      List.getElem?_take_of_lt (by omega), List.getElem?_take_of_lt (by omega)]
  | FIELD_TEXT =>
    simp only [c_str_strncpy]
    unfold c_str
    rw [takeWhile_take, List.take_take]
    congr 1
    omega
  | FIELD_BOOL =>
    have h1 := hbool ht
    have : 1 ≤ n - offset.toNat := by omega
    cases hr : record.drop offset.toNat with
    | nil => simp
    | cons x xs =>
      obtain ⟨m, hm⟩ : ∃ m, n - offset.toNat = m + 1 := ⟨n - offset.toNat - 1, by omega⟩
      simp [hm]
theorem index_record_take (n : Nat) (record : List Nat) (position : Int) (fields : List Field) :
    ∀ (i : Nat) (indexes : List AVLNode) (offset : Int), 0 ≤ offset →
      offset + sum_sizes fields ≤ n →
      (∀ f ∈ fields, 0 ≤ f.size ∧ (f.type = .FIELD_INT → f.size = 4) ∧
        (f.type = .FIELD_BOOL → f.size = 1)) →
      index_record fields i indexes (record.take n) offset position =
        index_record fields i indexes record offset position := by
  induction fields with
  | nil => intro i indexes offset _ _ _; rfl
  | cons f fs ih =>
    intro i indexes offset ho hn hf
    obtain ⟨h0, hint, hbool⟩ := hf f (List.mem_cons_self _ _)
    have hrest := sum_sizes_nonneg fs fun g hg => (hf g (List.mem_cons_of_mem _ hg)).1
    rw [sum_sizes_cons] at hn
    simp only [index_record]
    rw [field_text_take record offset f n ho (by omega) hint hbool]
    cases insertAVL (indexes.getD i .null) (field_text record offset f) position with
    | none => rfl
    | some tree =>
      exact ih (i + 1) (indexes.set i tree) (offset + f.size) (by omega) (by omega)
        fun g hg => hf g (List.mem_cons_of_mem _ hg)

theorem records_of_length (size : Nat) (n : Nat) :
    ∀ data : List Nat, (records_of size n data).length = n := by
  induction n with
  | zero => intro data; rfl
  | succ n ih => intro data; simp [records_of, ih]

theorem records_of_snoc (size : Nat) (n : Nat) :
    ∀ (a b : List Nat), a.length = n * size → b.length = size →
      records_of size (n + 1) (a ++ b) = records_of size n a ++ [b] := by
  induction n with
  | zero =>
    intro a b ha hb
    have : a = [] := List.length_eq_zero.1 (by simpa using ha)
    subst this
    simp [records_of, ← hb]
  | succ n ih =>
    intro a b ha hb
    have hle : size ≤ a.length := by rw [ha]; nlinarith
    rw [records_of, List.take_append_of_le_length hle, List.drop_append_of_le_length hle,
      ih (a.drop size) b (by rw [List.length_drop, ha]; simp [Nat.succ_mul]) hb]
    rfl

theorem complete_records_snoc (record_size : Int) (n : Nat) (data stored : List Nat)
    (hpos : 0 < record_size) (hn : data.length = n * record_size.toNat)
    (hs : stored.length = record_size.toNat) :
    complete_records record_size (data ++ stored) = complete_records record_size data ++ [stored] := by
  have hp : 0 < record_size.toNat := by omega
  have e1 : (data ++ stored).length / record_size.toNat = n + 1 := by
    rw [List.length_append, hn, hs]
    rw [show n * record_size.toNat + record_size.toNat = (n + 1) * record_size.toNat by ring]
    exact Nat.mul_div_cancel _ hp
  have e2 : data.length / record_size.toNat = n := by
    rw [hn]; exact Nat.mul_div_cancel _ hp
  unfold complete_records
  rw [e1, e2]
  exact records_of_snoc _ n data stored hn hs

theorem index_records_append (fields : List Field) (record_size : Int) (a b : List (List Nat)) :
    ∀ (indexes : List AVLNode) (position : Int),
      index_records fields record_size indexes (a ++ b) position =
        (index_records fields record_size indexes a position).bind fun ix =>
          index_records fields record_size ix b (position + a.length * record_size) := by
  induction a with
  | nil => intro indexes position; simp [index_records]
  | cons r rs ih =>
    intro indexes position
    simp only [List.cons_append, index_records]
    cases index_record fields 0 indexes r 0 position with
    | none => rfl
    | some ix =>
      have e : position + ((rs.length : Int) + 1) * record_size =
          position + record_size + rs.length * record_size := by ring
      simp only [List.length_cons, Nat.cast_add, Nat.cast_one, e]
      exact ih ix (position + record_size)

theorem load_table_opened (st st2 : State) (table_name out : List Nat)
    (h : load_table st table_name = some (st2, out, true)) :
    st.fs.denied (table_filename table_name) = false := by
  by_cases hd : st.fs.denied (table_filename table_name) = true
  · simp [load_table, fopen_rb_plus, hd] at h
  · simpa using hd

/-- One `INSERT` on a session that is the result of loading its table file (a header
within the bounds of the engine, a positive record size, no trailing partial record):
`insert_into_table` appends the record at the old end of the file and leaves the other
files alone, and `load_table` on the resulting file, from any session, gives the
session that the `INSERT` left. -/
theorem insert_agrees_with_load_step (st : State) (table_name out : List Nat) (header : Table)
    (data values : List Nat) (n : Nat)
    (hfile : st.fs.files (table_filename table_name) = some { header := some header, data := data })
    (hwf : header.wellFormed = true)
    (hpos : 0 < header.record_size)
    (hn : data.length = n * header.record_size.toNat)
    (hsession : load_table st table_name = some (st, out, true)) :
    ∃ st2, insert_into_table st values = some (st2, cstr "1 row inserted\n") ∧
      st2.fs.files (table_filename table_name) =
        some { header := some header,
               data := data ++ (build_record header.fields values).take
                 header.record_size.toNat } ∧
      ((build_record header.fields values).take header.record_size.toNat).length =
        header.record_size.toNat ∧
      (∀ filename, filename ≠ table_filename table_name →
        st2.fs.files filename = st.fs.files filename) ∧
      ∀ session, load_table { fs := st2.fs, session := session } table_name =
        some (st2, out, true) := by
  have hden := load_table_opened st st table_name out hsession
  obtain ⟨hb, hnull⟩ := Table.wellFormed_spec hwf
  obtain ⟨hcount, hmax, hsizes, hrs, hrmax, hixl⟩ := Table.bounded_spec hb
  have hbal : ∀ t ∈ header.indexes, AVLInvariant t := by
    rw [hnull]; exact replicate_null_balanced _
  obtain ⟨ix0, hix0, hlen0, hbal0, _, _⟩ := index_records_spec header.fields header.record_size
    (complete_records header.record_size data) header.indexes sizeof_Table hbal (by omega)
  have hload := load_table_of_file st table_name { header := some header, data := data }
    header ix0 (by simp [fopen_rb_plus, hden, hfile]) rfl
    (by rw [take_field_count hb]; exact hix0)
  rw [hsession] at hload
  obtain ⟨fs, session⟩ := st
  simp only [Option.some.injEq, Prod.mk.injEq, State.mk.injEq, true_and, and_true] at hload
  obtain ⟨hsess, hout⟩ := hload
  subst hsess
  simp only at hden hfile
  have hb0 : ({ header with indexes := ix0 } : Table).bounded = true := by
    simp only [Table.bounded] at hb ⊢
    simpa [hlen0, hixl] using hb
  have hatt : Attached
      { fs := fs, session := { current_table := { header with indexes := ix0 },
                               table_loaded := true,
                               data_file := some (table_filename table_name) } }
      (table_filename table_name) { header := some header, data := data } :=
    ⟨rfl, rfl, hfile, rfl, hb0, hbal0⟩
  obtain ⟨ix, hix, hins, hlen, _⟩ := insert_into_table_attached _ _ _ values hatt
  simp only at hix hins hlen
  refine ⟨_, hins, by simp [FileSystem.put, TableFile.append], hlen, ?_, ?_⟩
  · intro filename hne
    simp [FileSystem.put, hne]
  · intro session
    have hsf : ∀ f ∈ header.fields, 0 ≤ f.size ∧ (f.type = .FIELD_INT → f.size = 4) ∧
        (f.type = .FIELD_BOOL → f.size = 1) := by
      intro f hf
      exact ⟨bounded_size_nonneg hb f hf, (hsizes f hf).1, (hsizes f hf).2.1⟩
    have hcr := complete_records_append header.record_size n data [] hn (by simpa using hpos)
    have hrl : (complete_records header.record_size data).length = n := by
      rw [hcr.2]; exact records_of_length _ _ _
    have hpos2 : (sizeof_Table : Int) + (n : Int) * header.record_size =
        (sizeof_Table : Int) + data.length := by
      rw [hn]; push_cast; rw [Int.toNat_of_nonneg (by omega)]
    have hix2 : index_records (header.fields.take header.field_count) header.record_size
        header.indexes
        (complete_records header.record_size
          (data ++ (build_record header.fields values).take header.record_size.toNat))
        sizeof_Table = some ix := by
      rw [take_field_count hb, complete_records_snoc header.record_size n data _ hpos hn hlen,
        index_records_append, hix0, Option.some_bind, hrl, hpos2]
      simp only [index_records]
      rw [index_record_take _ _ _ header.fields 0 ix0 0 (le_refl 0)
        (by rw [← hrs]; omega) hsf, hix]
    have := load_table_of_file
      { fs := fs.put (table_filename table_name)
          (TableFile.append { header := some header, data := data }
            ((build_record header.fields values).take header.record_size.toNat)),
        session := session } table_name
      (TableFile.append { header := some header, data := data }
            ((build_record header.fields values).take header.record_size.toNat))
      header ix (by simp [fopen_rb_plus, FileSystem.put, hden]) rfl hix2
    rw [this, ← hout]

/-- C16: on the table of `CREATE TABLE t (a text(0))`, whose records have no bytes,
`INSERT` after `USE t` puts the key of the empty text at position `sizeof(Table)` into
the tree of the field, and `load_table` on the resulting file reads no record
(`fread` of 0 bytes returns 0) and leaves the tree empty: the trees of the session and
of a fresh load differ, although the file has no trailing partial record and the text
capacity is below 255. -/
theorem insert_disagrees_with_load_empty_record :
    ∃ st header, run_statements { fs := FileSystem.empty, session := Session.initial }
        [.create (cstr "t") (cstr "a text(0)"), .use (cstr "t")] = some st ∧
      st.fs.files (table_filename (cstr "t")) = some { header := some header, data := [] } ∧
      header.fields = [{ name := cstr "a", type := .FIELD_TEXT, size := 0 }] ∧
      header.record_size = 0 ∧
      ∃ st2 st3 out, insert_into_table st (cstr "x") = some (st2, cstr "1 row inserted\n") ∧
        load_table st2 (cstr "t") = some (st3, out, true) ∧
        st2.session.current_table.indexes.getD 0 .null = .node [] 1136 .null .null 1 ∧
        st3.session.current_table.indexes.getD 0 .null = .null :=
  ⟨_, _, rfl, rfl, rfl, rfl, _, _, _, rfl, rfl, rfl, rfl⟩

/-! ### The keys of a fresh scan -/

theorem utoa_core_length (fuel : Nat) :
    ∀ (k n : Nat) (ds : List Nat), 1 ≤ k → n < 10 ^ k →
      (utoa_core fuel n ds).length ≤ ds.length + k := by
  induction fuel with
  | zero => intro k n ds _ _; simp [utoa_core]
  | succ fuel ih =>
    intro k n ds hk hn
    unfold utoa_core
    by_cases h0 : n / 10 = 0
    · rw [if_pos h0]
      simp only [List.length_cons]
      omega
    · rw [if_neg h0]
      obtain ⟨j, rfl⟩ : ∃ j, k = j + 1 := ⟨k - 1, by omega⟩
      have hj : 1 ≤ j := by
        rcases Nat.eq_zero_or_pos j with hj | hj
        · subst hj
          exfalso
          apply h0
          simp only [zero_add, pow_one] at hn
          omega
        · exact hj
      have hn2 : n / 10 < 10 ^ j := by
        rw [Nat.div_lt_iff_lt_mul (by norm_num)]
        rw [pow_succ] at hn
        exact hn
      have := ih j (n / 10) ((48 + n % 10) :: ds) hj hn2
      simp only [List.length_cons] at this
      omega

theorem printf_d_length (v : Int) (h1 : -2147483648 ≤ v) (h2 : v < 2147483648) :
    (printf_d v).length ≤ 11 := by
  unfold printf_d utoa
  split_ifs
  · have := utoa_core_length ((-v).toNat + 1) 10 (-v).toNat [] (by norm_num)
      (by norm_num; omega)
    simp only [List.length_cons, List.length_nil] at this ⊢
    omega
  · have := utoa_core_length (v.toNat + 1) 10 v.toNat [] (by norm_num) (by norm_num; omega)
    simp only [List.length_nil] at this
    omega

theorem field_text_length (record : List Nat) (offset : Int) (field : Field)
    (h : field.type = .FIELD_TEXT → field.size ≤ 255) :
    (field_text record offset field).length ≤ 255 := by
  unfold field_text decode_field
  cases ht : field.type with
  | FIELD_INT =>
    have := wrap32_range ((((record.drop offset.toNat).getD 0 0 : Nat)
      + 256 * ((record.drop offset.toNat).getD 1 0 : Nat)
      + 65536 * ((record.drop offset.toNat).getD 2 0 : Nat)
      + 16777216 * ((record.drop offset.toNat).getD 3 0 : Nat) : Nat) : Int)
    have := printf_d_length _ this.1 this.2
    simp only [bytes_int]
    omega
  | FIELD_TEXT =>
    have := h ht
    simp only [c_str_strncpy, List.length_take]
    omega
  | FIELD_BOOL =>
    simp only
    split_ifs <;> decide

theorem field_keys_length (fields : List Field) (i : Nat) (record_size : Int)
    (h : ∀ f ∈ fields, f.type = .FIELD_TEXT → f.size ≤ 255) (records : List (List Nat)) :
    ∀ (position : Int), ∀ kp ∈ field_keys fields i record_size records position,
      kp.1.length ≤ 255 := by
  induction records with
  | nil => intro position kp hkp; simp [field_keys] at hkp
  | cons r rs ih =>
    intro position kp hkp
    simp only [field_keys, List.mem_cons] at hkp
    rcases hkp with hkp | hkp
    · subst hkp
      cases hf : fields.get? i with
      | none => simp
      | some f =>
        simp only
        exact field_text_length r _ f (h f (List.get?_mem hf))
    · exact ih _ kp hkp

/-- C14: `load_table` prints `Table '<name>' not found` and returns `false` when there
is no file of the name.  On a file whose header is as `create_table` writes it (no
index trees, at most `MAX_FIELDS` fields) with text capacities of at most 255, it
returns `true`, the session holds the header of the file, and for every field `i` the
pairs of the tree of field `i` are exactly the pairs (rendered value, position) of the
first record that carries the rendered value, over the complete records of the file;
the trees beyond the fields are empty.  The bound on the capacity is the buffer
`char key[256]`, into which `load_table` copies `field.size` bytes of a text field and
writes the terminator at `key[field.size]`: with a capacity above 255 the copy runs
past the buffer, and the claim fails on the code there. -/
theorem load_table_indexes (st : State) (table_name : List Nat) :
    (st.fs.files (table_filename table_name) = none →
      load_table st table_name =
        some (st, cstr "Table '" ++ table_name ++ cstr "' not found\n", false)) ∧
    ∀ (file : TableFile) (header : Table),
      st.fs.denied (table_filename table_name) = false →
      st.fs.files (table_filename table_name) = some file →
      file.header = some header →
      header.indexes = List.replicate MAX_FIELDS .null →
      header.field_count ≤ MAX_FIELDS →
      (∀ f ∈ header.fields.take header.field_count, f.type = .FIELD_TEXT → f.size ≤ 255) →
      ∃ ix, load_table st table_name =
          some ({ st with session :=
                  { current_table := { header with indexes := ix }, table_loaded := true,
                    data_file := some (table_filename table_name) } },
                cstr "Table '" ++ table_name ++ cstr "' loaded with indexes\n", true) ∧
        (∀ i, i < (header.fields.take header.field_count).length →
          ∀ x, x ∈ inorder (ix.getD i .null) ↔
            firstInsertion
              (field_keys (header.fields.take header.field_count) i header.record_size
                (complete_records header.record_size file.data) sizeof_Table) x.1 = some x) ∧
        ∀ i, (header.fields.take header.field_count).length ≤ i → ix.getD i .null = .null := by
  refine ⟨?_, ?_⟩
  · intro hnone
    have : fopen_rb_plus st.fs (table_filename table_name) = none := by
      unfold fopen_rb_plus
      split
      · rfl
      · exact hnone
    simp [load_table, this]
  · intro file header hden hfile hheader hnull hcount htext
    have hlen : (header.fields.take header.field_count).length ≤ header.indexes.length := by
      rw [hnull, List.length_replicate, List.length_take]
      omega
    have hbal : ∀ t ∈ header.indexes, AVLInvariant t := by
      rw [hnull]; exact replicate_null_balanced _
    obtain ⟨ix, hix, _, _, hrest, hkeys⟩ := index_records_spec
      (header.fields.take header.field_count) header.record_size
      (complete_records header.record_size file.data) header.indexes sizeof_Table hbal hlen
    have hget : ∀ j, header.indexes.getD j .null = .null := by
      intro j
      rw [hnull, List.getD_eq_getElem?_getD]
      by_cases hj : j < MAX_FIELDS
      · simp [List.getElem?_replicate, hj]
      · simp [List.getElem?_replicate, hj]
    refine ⟨ix, load_table_of_file st table_name file header ix
      (by simp [fopen_rb_plus, hden, hfile]) hheader hix, ?_, ?_⟩
    · intro i hi x
      have hk := hkeys i hi
      rw [hget] at hk
      obtain ⟨t, ht, _, _, hmem⟩ := insertAll_null
        (field_keys (header.fields.take header.field_count) i header.record_size
          (complete_records header.record_size file.data) sizeof_Table)
        (field_keys_length _ i _ htext _ _)
      rw [ht] at hk
      rw [← Option.some.inj hk]
      exact hmem x
    · intro i hi
      rw [hrest i hi, hget]

theorem load_table_indexes_witness :
    (FileSystem.empty.files (table_filename (cstr "t")) = none ∧
      load_table { fs := FileSystem.empty, session := Session.initial } (cstr "t") =
        some ({ fs := FileSystem.empty, session := Session.initial },
          cstr "Table '" ++ cstr "t" ++ cstr "' not found\n", false)) ∧
    ∃ ix, load_table { fs := example_fs, session := Session.initial } (cstr "t") =
        some ({ ({ fs := example_fs, session := Session.initial } : State) with session :=
                { current_table := { example_table with indexes := ix }, table_loaded := true,
                  data_file := some (table_filename (cstr "t")) } },
              cstr "Table '" ++ cstr "t" ++ cstr "' loaded with indexes\n", true) ∧
      (∀ i, i < (example_table.fields.take example_table.field_count).length →
        ∀ x, x ∈ inorder (ix.getD i .null) ↔
          firstInsertion
            (field_keys (example_table.fields.take example_table.field_count) i
              example_table.record_size
              (complete_records example_table.record_size [7, 0, 0, 0]) sizeof_Table) x.1
            = some x) ∧
      ∀ i, (example_table.fields.take example_table.field_count).length ≤ i →
        ix.getD i .null = .null :=
  ⟨⟨rfl, (load_table_indexes { fs := FileSystem.empty, session := Session.initial }
      (cstr "t")).1 rfl⟩,
   (load_table_indexes { fs := example_fs, session := Session.initial } (cstr "t")).2
      { header := some example_table, data := [7, 0, 0, 0] } example_table
      (by decide) (by decide) rfl (by decide) (by decide) (by decide)⟩

/-! ### The invariant of the session -/

theorem FileSystem.sound_put (fs : FileSystem) (filename : List Nat) (file : TableFile)
    (h : fs.sound)
    (hfile : match file.header with
      | none => file.data = []
      | some header =>
        header.wellFormed = true ∧ ∃ n : Nat, file.data.length = n * header.record_size.toNat) :
    (fs.put filename file).sound := by
  intro name f hf
  simp only [FileSystem.put] at hf
  split at hf
  · rw [← Option.some.inj hf]; exact hfile
  · exact h name f hf

theorem create_table_cases (fs : FileSystem) (table_name field_definitions : List Nat) :
    create_table fs table_name field_definitions = some (fs, .errorCreating) ∨
      (∃ field_type, create_table fs table_name field_definitions =
        some (fs.put (table_filename table_name) { header := none, data := [] },
          .unknownFieldType field_type)) ∨
      ∃ t, create_table fs table_name field_definitions =
        some ((fs.put (table_filename table_name) { header := none, data := [] }).put
          (table_filename table_name) { header := some t, data := [] }, .created t) := by
  have hr := create_table_returns fs table_name field_definitions
  unfold create_table fopen_wb at hr ⊢
  simp only at hr ⊢
  by_cases hd : fs.denied (table_filename table_name) = true
  · left; simp [hd]
  · simp only [hd, Bool.false_eq_true, if_false] at hr ⊢
    split
    · rename_i e; simp [e] at hr
    · right; left; exact ⟨_, rfl⟩
    · right; right; exact ⟨_, rfl⟩

theorem consistent_of_files (st st2 : State) (h : st.consistent) (hfs : st2.fs.sound)
    (hsession : st2.session = st.session)
    (hsame : ∀ filename, st.session.data_file = some filename →
      st2.fs.files filename = st.fs.files filename) :
    st2.consistent := by
  obtain ⟨_, h0, h1⟩ := h
  refine ⟨hfs, ?_, ?_⟩
  · rw [hsession]; exact h0
  · rw [hsession]
    intro hl
    obtain ⟨filename, file, header, hd, hf, rest⟩ := h1 hl
    exact ⟨filename, file, header, hd, by rw [hsame filename hd]; exact hf, rest⟩

theorem consistent_create (st : State) (table_name field_definitions : List Nat)
    (h : st.consistent)
    (ha : (Statement.create table_name field_definitions).admissible st = true) :
    ∃ st2, run_statement st (.create table_name field_definitions) = some st2 ∧
      st2.consistent := by
  simp only [Statement.admissible, Bool.and_eq_true, bne_iff_ne, ne_eq] at ha
  obtain ⟨hne, hwf⟩ := ha
  have hsame : ∀ (file file2 : TableFile) filename, st.session.data_file = some filename →
      ((st.fs.put (table_filename table_name) file).put (table_filename table_name)
        file2).files filename = st.fs.files filename ∧
      (st.fs.put (table_filename table_name) file).files filename = st.fs.files filename := by
    intro file file2 filename hd
    have : filename ≠ table_filename table_name := by
      intro e; apply hne; rw [hd, e]
    simp [FileSystem.put, this]
  rcases create_table_cases st.fs table_name field_definitions with e | ⟨ft, e⟩ | ⟨t, e⟩
  · refine ⟨st, by simp [run_statement, e], h⟩
  · refine ⟨_, by rw [run_statement, e]; rfl, ?_⟩
    exact consistent_of_files st _ h (FileSystem.sound_put _ _ _ h.1 rfl) rfl
      fun filename hd => (hsame { header := none, data := [] } { header := none, data := [] }
        filename hd).2
  · rw [e] at hwf
    simp only at hwf
    refine ⟨_, by rw [run_statement, e]; rfl, ?_⟩
    exact consistent_of_files st _ h
      (FileSystem.sound_put _ _ _ (FileSystem.sound_put _ _ _ h.1 rfl) ⟨hwf, 0, by simp⟩) rfl
      fun filename hd => (hsame _ _ filename hd).1

theorem field_keys_records_of (fields : List Field) (i : Nat) (field : Field)
    (record_size : Int) (size : Nat) (x : List Nat × Int)
    (hfield : fields.get? i = some field) (n : Nat) :
    ∀ (data : List Nat) (position : Int),
      x ∈ field_keys fields i record_size (records_of size n data) position →
      ∃ k : Nat, k < n ∧ x.2 = position + k * record_size ∧
        x.1 = field_text ((data.drop (k * size)).take size) (field_offset fields i) field := by
  induction n with
  | zero => intro data position hx; simp [records_of, field_keys] at hx
  | succ n ih =>
    intro data position hx
    simp only [records_of, field_keys, hfield, List.mem_cons] at hx
    rcases hx with hx | hx
    · refine ⟨0, by omega, by simp [hx], by simp [hx]⟩
    · obtain ⟨k, hk, h2, h1⟩ := ih (data.drop size) (position + record_size) hx
      refine ⟨k + 1, by omega, ?_, ?_⟩
      · rw [h2]; push_cast; ring
      · rw [h1, List.drop_drop]
        congr 3
        ring

theorem field_keys_complete (fields : List Field) (i : Nat) (field : Field)
    (record_size : Int) (data : List Nat) (position : Int) (x : List Nat × Int)
    (hfield : fields.get? i = some field)
    (hx : x ∈ field_keys fields i record_size (complete_records record_size data) position) :
    ∃ k : Nat, x.2 = position + k * record_size ∧
      (k + 1) * record_size.toNat ≤ data.length ∧
      x.1 = field_text ((data.drop (k * record_size.toNat)).take record_size.toNat)
        (field_offset fields i) field := by
  obtain ⟨k, hk, h2, h1⟩ := field_keys_records_of fields i field record_size
    record_size.toNat x hfield _ data position hx
  refine ⟨k, h2, ?_, h1⟩
  have h3 := Nat.div_mul_le_self data.length record_size.toNat
  have h4 : (k + 1) * record_size.toNat ≤ data.length / record_size.toNat * record_size.toNat :=
    Nat.mul_le_mul_right _ hk
  omega

theorem mem_getD (l : List AVLNode) (t : AVLNode) (h : t ∈ l) :
    ∃ j, j < l.length ∧ l.getD j .null = t := by
  obtain ⟨j, hj, e⟩ := List.getElem_of_mem h
  exact ⟨j, hj, by simp [List.getD_eq_getElem?_getD, List.getElem?_eq_getElem hj, e]⟩

theorem getD_replicate_null (n j : Nat) :
    (List.replicate n AVLNode.null).getD j .null = .null := by
  rw [List.getD_eq_getElem?_getD]
  by_cases hj : j < n
  · simp [List.getElem?_replicate, hj]
  · simp [List.getElem?_replicate, hj]

theorem BSTOrdered_null : BSTOrdered .null := by
  simp [BSTOrdered, inorder]

theorem bounded_with_indexes {t : Table} (ix : List AVLNode) (h : t.bounded = true)
    (hlen : ix.length = t.indexes.length) :
    ({ t with indexes := ix } : Table).bounded = true := by
  have hixl := (Table.bounded_spec h).2.2.2.2.2
  simp only [Table.bounded] at h ⊢
  simpa [hlen, hixl] using h

theorem bounded_text_size {t : Table} (h : t.bounded = true) :
    ∀ f ∈ t.fields, f.type = .FIELD_TEXT → f.size ≤ 255 := by
  intro f hf ht
  exact (((Table.bounded_spec h).2.2.1 f hf).2.2 ht).2

theorem consistent_use (st : State) (table_name : List Nat) (h : st.consistent) :
    ∃ st2, run_statement st (.use table_name) = some st2 ∧ st2.consistent := by
  cases hopen : fopen_rb_plus st.fs (table_filename table_name) with
  | none => exact ⟨st, by simp [run_statement, load_table, hopen], h⟩
  | some file =>
    have hfile : st.fs.files (table_filename table_name) = some file := by
      unfold fopen_rb_plus at hopen
      split at hopen
      · exact Option.noConfusion hopen
      · exact hopen
    have hs := h.1 _ file hfile
    cases hheader : file.header with
    | none =>
      rw [hheader] at hs
      exact ⟨st, by simp [run_statement, load_table, hopen, hheader, hs], h⟩
    | some header =>
      rw [hheader] at hs
      obtain ⟨hwf, n, hn⟩ := hs
      obtain ⟨hb, hnull⟩ := Table.wellFormed_spec hwf
      obtain ⟨hcount, hmax, hsizes, hrs, hrmax, hixl⟩ := Table.bounded_spec hb
      obtain ⟨ix, hix, hlen, hbal, hrest, hkeys⟩ := index_records_spec header.fields
        header.record_size (complete_records header.record_size file.data) header.indexes
        sizeof_Table (by rw [hnull]; exact replicate_null_balanced _) (by omega)
      have hload := load_table_of_file st table_name file header ix hopen hheader
        (by rw [take_field_count hb]; exact hix)
      have htree : ∀ j, j < header.fields.length →
          BSTOrdered (ix.getD j .null) ∧ ∀ x, x ∈ inorder (ix.getD j .null) →
            x ∈ field_keys header.fields j header.record_size
              (complete_records header.record_size file.data) sizeof_Table := by
        intro j hj
        have hk := hkeys j hj
        rw [hnull, getD_replicate_null] at hk
        obtain ⟨t, ht, _, hord, hmem⟩ := insertAll_null
          (field_keys header.fields j header.record_size
            (complete_records header.record_size file.data) sizeof_Table)
          (field_keys_length _ j _ (bounded_text_size hb) _ _)
        rw [ht] at hk
        rw [← Option.some.inj hk]
        refine ⟨hord, fun x hx => ?_⟩
        exact List.mem_of_find?_eq_some ((hmem x).1 hx)
      have hbeyond : ∀ j, header.fields.length ≤ j → ix.getD j .null = .null := by
        intro j hj
        rw [hrest j hj, hnull, getD_replicate_null]
      refine ⟨{ st with session :=
          { current_table := { header with indexes := ix }, table_loaded := true,
            data_file := some (table_filename table_name) } },
        by rw [run_statement, hload]; rfl, ?_⟩
      refine ⟨h.1, ?_, ?_⟩
      · intro hl; exact Bool.noConfusion hl
      · intro _
        refine ⟨table_filename table_name, file, header, rfl, hfile, hheader, rfl, rfl,
          bounded_with_indexes ix hb hlen, ?_, ?_, hbeyond⟩
        · intro t ht
          refine ⟨hbal t ht, ?_⟩
          obtain ⟨j, _, e⟩ := mem_getD ix t ht
          rw [← e]
          by_cases hj : j < header.fields.length
          · exact (htree j hj).1
          · rw [hbeyond j (by omega)]; exact BSTOrdered_null
        · intro i field hfield x hx
          have hi : i < header.fields.length := by
            rw [List.get?_eq_some] at hfield
            exact hfield.1
          exact field_keys_complete header.fields i field header.record_size file.data
            sizeof_Table x hfield ((htree i hi).2 x hx)

theorem sum_sizes_take (fields : List Field) (h : ∀ f ∈ fields, 0 ≤ f.size) :
    ∀ (i : Nat) (field : Field), fields.get? i = some field →
      0 ≤ sum_sizes (fields.take i) ∧
        sum_sizes (fields.take i) + field.size ≤ sum_sizes fields := by
  induction fields with
  | nil => intro i field hf; simp at hf
  | cons f fs ih =>
    intro i field hf
    have hrest := sum_sizes_nonneg fs fun g hg => h g (List.mem_cons_of_mem _ hg)
    have h0 := h f (List.mem_cons_self _ _)
    cases i with
    | zero =>
      simp only [List.get?_cons_zero, Option.some.injEq] at hf
      subst hf
      rw [sum_sizes_cons]
      simp only [List.take_zero, sum_sizes, List.map_nil, List.sum_nil]
      constructor
      · exact le_refl 0
      · have : 0 ≤ (fs.map fun f => f.size).sum := hrest
        omega
    | succ i =>
      simp only [List.get?_cons_succ] at hf
      obtain ⟨h1, h2⟩ := ih (fun g hg => h g (List.mem_cons_of_mem _ hg)) i field hf
      rw [List.take_succ_cons, sum_sizes_cons, sum_sizes_cons]
      constructor <;> omega

theorem slice_append (data stored : List Nat) (k size : Nat) (h : (k + 1) * size ≤ data.length) :
    ((data ++ stored).drop (k * size)).take size = (data.drop (k * size)).take size := by
  have h1 : k * size ≤ data.length := by nlinarith
  rw [List.drop_append_of_le_length h1, List.take_append_of_le_length]
  rw [List.length_drop]
  have : (k + 1) * size = k * size + size := by ring
  omega

theorem slice_last (data stored : List Nat) (n size : Nat) (hn : data.length = n * size)
    (hs : stored.length = size) :
    ((data ++ stored).drop (n * size)).take size = stored := by
  rw [← hn, List.drop_left, ← hs, List.take_length]

theorem consistent_insert (st : State) (values : List Nat) (h : st.consistent) :
    ∃ st2, run_statement st (.insert values) = some st2 ∧ st2.consistent := by
  cases hl : st.session.table_loaded with
  | false => exact ⟨st, by simp [run_statement, insert_into_table, hl], h⟩
  | true =>
    obtain ⟨hsound, _, h1⟩ := h
    obtain ⟨filename, file, header, hd, hf, hheader, hfields, hrsz, hb, htrees, hidx,
      hbeyond⟩ := h1 hl
    have hatt : Attached st filename file :=
      ⟨hl, hd, hf, by simp [hheader], hb, fun t ht => (htrees t ht).1⟩
    obtain ⟨ix, hix, hins, hlen, hatt2⟩ := insert_into_table_attached st filename file values hatt
    obtain ⟨hcount, hmax, hsizes, hrs, hrmax, hixl⟩ := Table.bounded_spec hb
    obtain ⟨ix2, hix2, hlen2, _, hrest2, hkeys2⟩ := index_record_spec
      st.session.current_table.fields 0 st.session.current_table.indexes
      (build_record st.session.current_table.fields values) 0
      ((sizeof_Table : Int) + file.data.length) (fun t ht => (htrees t ht).1) (by omega)
    have hixe : ix2 = ix := by
      rw [hix] at hix2; exact (Option.some.inj hix2).symm
    subst hixe
    have hs := hsound filename file hf
    rw [hheader] at hs
    obtain ⟨hwf, n, hn⟩ := hs
    rw [hrsz] at hn
    have hnn := (bounded_record_size hb).1
    have hold : ∀ j, BSTOrdered (st.session.current_table.indexes.getD j .null) := by
      intro j
      by_cases hj : j < st.session.current_table.indexes.length
      · refine (htrees _ ?_).2
        rw [List.getD_eq_getElem?_getD, List.getElem?_eq_getElem hj]
        exact List.getElem_mem _
      · rw [List.getD_eq_getElem?_getD, List.getElem?_eq_none (by omega)]
        exact BSTOrdered_null
    have hkey : ∀ j field, st.session.current_table.fields.get? j = some field →
        insertAVL (st.session.current_table.indexes.getD j .null)
          (field_text (build_record st.session.current_table.fields values)
            (field_offset st.session.current_table.fields j) field)
          ((sizeof_Table : Int) + file.data.length) = some (ix2.getD j .null) ∧
        (field_text (build_record st.session.current_table.fields values)
            (field_offset st.session.current_table.fields j) field).length ≤ 256 := by
      intro j field hfield
      have := hkeys2 j field hfield
      simp only [zero_add] at this
      refine ⟨this, ?_⟩
      have := field_text_length (build_record st.session.current_table.fields values)
        (field_offset st.session.current_table.fields j) field
        (bounded_text_size hb field (List.get?_mem hfield))
      omega
    refine ⟨_, by rw [run_statement, hins]; rfl, ?_⟩
    refine ⟨?_, ?_, ?_⟩
    · apply FileSystem.sound_put _ _ _ hsound
      simp only [TableFile.append, hheader]
      refine ⟨hwf, n + 1, ?_⟩
      rw [List.length_append, hn, hlen, hrsz]
      ring
    · intro hl2
      rw [hl] at hl2
      exact Bool.noConfusion hl2
    · intro _
      refine ⟨filename,
        file.append ((build_record st.session.current_table.fields values).take
          st.session.current_table.record_size.toNat),
        header, hd, by simp [FileSystem.put], by simp [TableFile.append, hheader],
        hfields, hrsz, hatt2.2.2.2.2.1, ?_, ?_, ?_⟩
      · intro t ht
        refine ⟨hatt2.2.2.2.2.2 t ht, ?_⟩
        obtain ⟨j, _, e⟩ := mem_getD ix2 t ht
        rw [← e]
        cases hfield : st.session.current_table.fields.get? j with
        | none =>
          rw [hrest2 j (Or.inr (by
            rw [List.get?_eq_none] at hfield
            omega))]
          exact hold j
        | some field =>
          obtain ⟨hk, hkl⟩ := hkey j field hfield
          exact BSTOrdered_insertAVL _ _ _ _ hkl (hold j) hk
      · intro i field hfield x hx
        simp only at hfield hx ⊢
        obtain ⟨hk, hkl⟩ := hkey i field hfield
        rw [inorder_insertAVL _ _ _ _ hkl (hold i) hk] at hx
        simp only [TableFile.append]
        rcases mem_insertSorted hx with hx | hx
        · refine ⟨n, ?_, ?_, ?_⟩
          · rw [hx, hn]
            simp only
            push_cast
            rw [Int.toNat_of_nonneg hnn]
          · rw [List.length_append, hn, hlen]
            ring_nf
            exact le_refl _
          · rw [slice_last _ _ n _ hn hlen, hx]
            simp only
            have hsz := sum_sizes_take st.session.current_table.fields (bounded_size_nonneg hb)
              i field hfield
            have hty := hsizes field (List.get?_mem hfield)
            exact (field_text_take _ _ field _ hsz.1
              (by rw [Int.toNat_of_nonneg hnn, hrs]; exact hsz.2) hty.1 hty.2.1).symm
        · obtain ⟨k, hk1, hk2, hk3⟩ := hidx i field hfield x hx
          refine ⟨k, hk1, ?_, ?_⟩
          · rw [List.length_append]; omega
          · rw [slice_append _ _ k _ hk2]; exact hk3
      · intro i hi
        simp only at hi ⊢
        rw [hrest2 i (Or.inr (by omega))]
        exact hbeyond i hi

theorem consistent_run_statement (st : State) (s : Statement) (h : st.consistent)
    (ha : s.admissible st = true) :
    ∃ st2, run_statement st s = some st2 ∧ st2.consistent := by
  cases s with
  | create table_name field_definitions =>
    exact consistent_create st table_name field_definitions h ha
  | use table_name => exact consistent_use st table_name h
  | insert values => exact consistent_insert st values h
  | select _ _ => exact ⟨st, rfl, h⟩
  | count _ => exact ⟨st, rfl, h⟩
  | find _ => exact ⟨st, rfl, h⟩
  | join _ => exact ⟨st, rfl, h⟩

theorem consistent_run_statements (statements : List Statement) :
    ∀ st : State, st.consistent → admissible st statements = true →
      ∃ st2, run_statements st statements = some st2 ∧ st2.consistent := by
  induction statements with
  | nil => intro st h _; exact ⟨st, rfl, h⟩
  | cons s rest ih =>
    intro st h ha
    simp only [admissible, Bool.and_eq_true] at ha
    obtain ⟨st1, h1, hc1⟩ := consistent_run_statement st s h ha.1
    have ha2 := ha.2
    rw [h1] at ha2
    obtain ⟨st2, h2, hc2⟩ := ih st1 hc1 ha2
    exact ⟨st2, by simp only [run_statements, h1, h2], hc2⟩

theorem consistent_initial (fs : FileSystem) (h : fs.sound) :
    State.consistent { fs := fs, session := Session.initial } :=
  ⟨h, fun _ => rfl, fun hl => Bool.noConfusion hl⟩

/-- C17 (amended): from the initial session on a directory as the engine leaves it,
after any sequence of statements in which no `CREATE` names the file of the active
table and every `CREATE` writes a schema within the bounds of the engine (text
capacities of 0 to 255, a record of at most `MAX_RECORD_SIZE` bytes), every statement
returns, and: without a loaded table the session is the initial one, with empty trees;
with a loaded table the handle is open on a file with the schema of `current_table`,
every pair (key, position) of the tree of a field has the position
`sizeof(Table) + k * record_size` of a record that the file holds completely and as key
the rendered value of the field in that record, and the trees beyond the fields are
empty. -/
theorem index_positions_sound (fs : FileSystem) (statements : List Statement)
    (hfs : fs.sound)
    (hadmissible : admissible { fs := fs, session := Session.initial } statements = true) :
    ∃ st, run_statements { fs := fs, session := Session.initial } statements = some st ∧
      (st.session.table_loaded = false → st.session = Session.initial) ∧
      (st.session.table_loaded = true →
        ∃ filename file header, st.session.data_file = some filename ∧
          st.fs.files filename = some file ∧ file.header = some header ∧
          header.fields = st.session.current_table.fields ∧
          header.record_size = st.session.current_table.record_size ∧
          IndexSound st.session.current_table file.data ∧
          ∀ i, st.session.current_table.fields.length ≤ i →
            st.session.current_table.indexes.getD i .null = .null) := by
  obtain ⟨st, hrun, _, h0, h1⟩ := consistent_run_statements statements _
    (consistent_initial fs hfs) hadmissible
  refine ⟨st, hrun, h0, fun hl => ?_⟩
  obtain ⟨filename, file, header, hd, hf, hh, hfields, hrs, _, _, hidx, hbeyond⟩ := h1 hl
  exact ⟨filename, file, header, hd, hf, hh, hfields, hrs, hidx, hbeyond⟩

set_option maxRecDepth 100000 in
theorem index_positions_sound_witness :
    FileSystem.empty.sound ∧
      admissible { fs := FileSystem.empty, session := Session.initial }
        [.create (cstr "t") (cstr "id int, name text(10)"), .use (cstr "t"),
         .insert (cstr "7, 'ab'"), .create (cstr "u") (cstr "id int"),
         .insert (cstr "8, 'cd'"), .select (cstr "*") [], .find (cstr "ab")] = true ∧
      ∃ st, run_statements { fs := FileSystem.empty, session := Session.initial }
          [.create (cstr "t") (cstr "id int, name text(10)"), .use (cstr "t"),
           .insert (cstr "7, 'ab'"), .create (cstr "u") (cstr "id int"),
           .insert (cstr "8, 'cd'"), .select (cstr "*") [], .find (cstr "ab")] = some st ∧
        (st.session.table_loaded = false → st.session = Session.initial) ∧
        (st.session.table_loaded = true →
          ∃ filename file header, st.session.data_file = some filename ∧
            st.fs.files filename = some file ∧ file.header = some header ∧
            header.fields = st.session.current_table.fields ∧
            header.record_size = st.session.current_table.record_size ∧
            IndexSound st.session.current_table file.data ∧
            ∀ i, st.session.current_table.fields.length ≤ i →
              st.session.current_table.indexes.getD i .null = .null) :=
  ⟨fun _ _ h => Option.noConfusion h, by decide,
    index_positions_sound FileSystem.empty _ (fun _ _ h => Option.noConfusion h) (by decide)⟩

set_option maxRecDepth 100000 in
/-- C17: after `CREATE TABLE t (id int)`, `USE t`, an `INSERT` of `7` and a second
`CREATE TABLE t (id int)`, the file of the active table is a header without records
(`fopen(.., "wb")` truncated it), and the tree of `id` still holds the key `7` at
position `sizeof(Table)`: a position at which the file holds no record.  The second `CREATE`
names the file of the active table, so the sequence is not `admissible`. -/
theorem create_invalidates_index :
    ∃ st file, run_statements { fs := FileSystem.empty, session := Session.initial }
        [.create (cstr "t") (cstr "id int"), .use (cstr "t"), .insert (cstr "7"),
         .create (cstr "t") (cstr "id int")] = some st ∧
      st.session.table_loaded = true ∧
      st.session.data_file = some (table_filename (cstr "t")) ∧
      st.fs.files (table_filename (cstr "t")) = some file ∧
      file.length = sizeof_Table ∧ file.data = [] ∧
      st.session.current_table.record_size = 4 ∧
      inorder (st.session.current_table.indexes.getD 0 .null) = [(cstr "7", 1136)] ∧
      ¬ IndexSound st.session.current_table file.data ∧
      admissible { fs := FileSystem.empty, session := Session.initial }
        [.create (cstr "t") (cstr "id int"), .use (cstr "t"), .insert (cstr "7"),
         .create (cstr "t") (cstr "id int")] = false := by
  refine ⟨_, _, rfl, rfl, rfl, rfl, rfl, rfl, rfl, by decide, ?_, by decide⟩
  intro h
  obtain ⟨k, _, hk, _⟩ := h 0 { name := cstr "id", type := .FIELD_INT, size := 4 } rfl
    (cstr "7", 1136) (by decide)
  have hk2 : (k + 1) * 4 ≤ 0 := hk
  omega

/-! ### The claims on ordering operators and chains of conditions -/

theorem check_complex_loop_foldl (table : Table) (record : List Nat)
    (cs : List WhereCondition) :
    ∀ result : Bool, check_complex_loop table record cs result =
      cs.foldl (fun acc d =>
        if d.is_and then acc && check_single_condition table record d
        else acc || check_single_condition table record d) result := by
  induction cs with
  | nil => intro result; rfl
  | cons c cs ih => intro result; simp only [check_complex_loop, List.foldl_cons, ih]

theorem check_complex_conditions_chain (table : Table) (record : List Nat)
    (cs : List WhereCondition) :
    check_complex_conditions table record cs =
      evaluate_chain (check_single_condition table record) cs := by
  cases cs with
  | nil => rfl
  | cons c cs => exact check_complex_loop_foldl table record cs _

/-- C22: for every field value text, every literal text and each of the ordering
operators `>`, `<`, `>=`, `<=`, `compare_values` on a Text field returns `false`; the
function is total, there is no error to raise. -/
theorem compare_values_text_ordering (v l : List Nat) :
    compare_values v (cstr ">") l .FIELD_TEXT = false ∧
      compare_values v (cstr "<") l .FIELD_TEXT = false ∧
      compare_values v (cstr ">=") l .FIELD_TEXT = false ∧
      compare_values v (cstr "<=") l .FIELD_TEXT = false := by
  have n1 : ¬ (strcmp (cstr ">") (cstr "=") = 0 ∨ strcmp (cstr ">") (cstr "==") = 0) := by decide
  have n2 : ¬ (strcmp (cstr "<") (cstr "=") = 0 ∨ strcmp (cstr "<") (cstr "==") = 0) := by decide
  have n3 : ¬ (strcmp (cstr ">=") (cstr "=") = 0 ∨ strcmp (cstr ">=") (cstr "==") = 0) := by
    decide
  have n4 : ¬ (strcmp (cstr "<=") (cstr "=") = 0 ∨ strcmp (cstr "<=") (cstr "==") = 0) := by
    decide
  have m1 : ¬ strcmp (cstr ">") (cstr "!=") = 0 := by decide
  have m2 : ¬ strcmp (cstr "<") (cstr "!=") = 0 := by decide
  have m3 : ¬ strcmp (cstr ">=") (cstr "!=") = 0 := by decide
  have m4 : ¬ strcmp (cstr "<=") (cstr "!=") = 0 := by decide
  have t : ¬ (FieldType.FIELD_TEXT = .FIELD_INT ∨ FieldType.FIELD_TEXT = .FIELD_BOOL) := by
    decide
  refine ⟨?_, ?_, ?_, ?_⟩
  · simp only [compare_values, n1, m1, t, if_false]
  · simp only [compare_values, n2, m2, t, if_false]
  · simp only [compare_values, n3, m3, t, if_false]
  · simp only [compare_values, n4, m4, t, if_false]

/-- C23: for every record and every sequence of conditions, `check_complex_conditions`
is the left-to-right fold of the specification (`evaluate_chain`): the first condition
on its own, each later one combined by AND when its flag `is_and` is set and by OR
otherwise, the empty sequence true.  AND has no precedence over OR: the chain
`a OR b AND c` is `(a OR b) AND c`. -/
theorem check_complex_conditions_left_fold (table : Table) (record : List Nat) :
    (∀ cs : List WhereCondition, check_complex_conditions table record cs =
      evaluate_chain (check_single_condition table record) cs) ∧
    check_complex_conditions table record [] = true ∧
    (∀ c : WhereCondition, check_complex_conditions table record [c] =
      check_single_condition table record c) ∧
    (∀ (cs : List WhereCondition) (c d : WhereCondition),
      check_complex_conditions table record ((c :: cs) ++ [d]) =
        if d.is_and then
          check_complex_conditions table record (c :: cs) &&
            check_single_condition table record d
        else
          check_complex_conditions table record (c :: cs) ||
            check_single_condition table record d) ∧
    ∀ a b c : WhereCondition,
      check_complex_conditions table record
          [a, { b with is_and := false }, { c with is_and := true }] =
        ((check_single_condition table record a ||
            check_single_condition table record { b with is_and := false }) &&
          check_single_condition table record { c with is_and := true }) := by
  refine ⟨check_complex_conditions_chain table record, rfl, fun c => rfl, ?_, ?_⟩
  · intro cs c d
    simp only [check_complex_conditions, List.cons_append, check_complex_loop_foldl,
      List.foldl_append, List.foldl_cons, List.foldl_nil]
  · intro a b c
    simp [check_complex_conditions, check_complex_loop]
theorem compare_values_ordering (v l : List Nat) (field_type : FieldType)
    (h : field_type = .FIELD_INT ∨ field_type = .FIELD_BOOL) :
    compare_values v (cstr ">") l field_type = decide (atoi v > atoi l) ∧
      compare_values v (cstr "<") l field_type = decide (atoi v < atoi l) ∧
      compare_values v (cstr ">=") l field_type = decide (atoi v ≥ atoi l) ∧
      compare_values v (cstr "<=") l field_type = decide (atoi v ≤ atoi l) := by
  have n1 : ¬ (strcmp (cstr ">") (cstr "=") = 0 ∨ strcmp (cstr ">") (cstr "==") = 0) := by decide
  have n2 : ¬ (strcmp (cstr "<") (cstr "=") = 0 ∨ strcmp (cstr "<") (cstr "==") = 0) := by decide
  have n3 : ¬ (strcmp (cstr ">=") (cstr "=") = 0 ∨ strcmp (cstr ">=") (cstr "==") = 0) := by
    decide
  have n4 : ¬ (strcmp (cstr "<=") (cstr "=") = 0 ∨ strcmp (cstr "<=") (cstr "==") = 0) := by
    decide
  have m1 : ¬ strcmp (cstr ">") (cstr "!=") = 0 := by decide
  have m2 : ¬ strcmp (cstr "<") (cstr "!=") = 0 := by decide
  have m3 : ¬ strcmp (cstr ">=") (cstr "!=") = 0 := by decide
  have m4 : ¬ strcmp (cstr "<=") (cstr "!=") = 0 := by decide
  have p1 : strcmp (cstr ">") (cstr ">") = 0 := by decide
  have p2 : strcmp (cstr "<") (cstr "<") = 0 := by decide
  have p3 : strcmp (cstr ">=") (cstr ">=") = 0 := by decide
  have p4 : strcmp (cstr "<=") (cstr "<=") = 0 := by decide
  have q2 : ¬ strcmp (cstr "<") (cstr ">") = 0 := by decide
  have q3 : ¬ strcmp (cstr ">=") (cstr ">") = 0 := by decide
  have q3b : ¬ strcmp (cstr ">=") (cstr "<") = 0 := by decide
  have q4 : ¬ strcmp (cstr "<=") (cstr ">") = 0 := by decide
  have q4b : ¬ strcmp (cstr "<=") (cstr "<") = 0 := by decide
  have q4c : ¬ strcmp (cstr "<=") (cstr ">=") = 0 := by decide
  refine ⟨?_, ?_, ?_, ?_⟩
  · simp only [compare_values, n1, m1, h, p1, if_false, if_true]
  · simp only [compare_values, n2, m2, h, p2, q2, if_false, if_true]
  · simp only [compare_values, n3, m3, h, p3, q3, q3b, if_false, if_true]
  · simp only [compare_values, n4, m4, h, p4, q4, q4b, q4c, if_false, if_true]

theorem atoi_field_text_bool (record : List Nat) (offset : Int) (field : Field)
    (h : field.type = .FIELD_BOOL) : atoi (field_text record offset field) = 0 := by
  simp only [field_text, decode_field, h]
  split_ifs <;> decide

/-- C21 fails on the code: `check_single_condition` renders a Bool field as `true` or
`false`, and `compare_values` parses that text with `atoi`, which gives 0 for both.
So an ordering operator on a Bool field `f` compares 0 with the parsed literal, whatever
the field holds: `f > 0` and `f >= 1` are false (also on a record whose `f` is true),
and `f < 1` is true. -/
theorem bool_ordering_compares_zero (table : Table) (record f : List Nat) (i : Nat)
    (field : Field) (is_and : Bool)
    (hidx : field_index (table.fields.take table.field_count) f 0 = some i)
    (hfield : (table.fields.take table.field_count).get? i = some field)
    (htype : field.type = .FIELD_BOOL) :
    (∀ l : List Nat,
      check_single_condition table record ⟨f, cstr ">", l, is_and⟩ = decide (0 > atoi l) ∧
      check_single_condition table record ⟨f, cstr "<", l, is_and⟩ = decide (0 < atoi l) ∧
      check_single_condition table record ⟨f, cstr ">=", l, is_and⟩ = decide (0 ≥ atoi l) ∧
      check_single_condition table record ⟨f, cstr "<=", l, is_and⟩ = decide (0 ≤ atoi l)) ∧
    check_single_condition table record ⟨f, cstr ">", cstr "0", is_and⟩ = false ∧
    check_single_condition table record ⟨f, cstr ">=", cstr "1", is_and⟩ = false ∧
    check_single_condition table record ⟨f, cstr "<", cstr "1", is_and⟩ = true := by
  have h0 := atoi_field_text_bool record
    (field_offset (table.fields.take table.field_count) i) field htype
  have hc := fun l => compare_values_ordering
    (field_text record (field_offset (table.fields.take table.field_count) i) field) l
    field.type (Or.inr htype)
  have hall : ∀ l : List Nat,
      check_single_condition table record ⟨f, cstr ">", l, is_and⟩ = decide (0 > atoi l) ∧
      check_single_condition table record ⟨f, cstr "<", l, is_and⟩ = decide (0 < atoi l) ∧
      check_single_condition table record ⟨f, cstr ">=", l, is_and⟩ = decide (0 ≥ atoi l) ∧
      check_single_condition table record ⟨f, cstr "<=", l, is_and⟩ = decide (0 ≤ atoi l) := by
    intro l
    obtain ⟨c1, c2, c3, c4⟩ := hc l
    rw [h0] at c1 c2 c3 c4
    simp only [check_single_condition, hidx, hfield]
    exact ⟨c1, c2, c3, c4⟩
  refine ⟨hall, ?_, ?_, ?_⟩
  · rw [(hall (cstr "0")).1]; decide
  · rw [(hall (cstr "1")).2.2.1]; decide
  · rw [(hall (cstr "1")).2.1]; decide

theorem bool_ordering_compares_zero_witness :
    decode_field [1, 0, 0, 0, 1] 4 { name := cstr "active", type := .FIELD_BOOL, size := 1 } =
        .bool true ∧
      check_single_condition
        { example_table with
          fields := [{ name := cstr "id", type := .FIELD_INT, size := 4 },
                     { name := cstr "active", type := .FIELD_BOOL, size := 1 }],
          field_count := 2, record_size := 5 }
        [1, 0, 0, 0, 1] ⟨cstr "active", cstr ">", cstr "0", false⟩ = false ∧
      check_single_condition
        { example_table with
          fields := [{ name := cstr "id", type := .FIELD_INT, size := 4 },
                     { name := cstr "active", type := .FIELD_BOOL, size := 1 }],
          field_count := 2, record_size := 5 }
        [1, 0, 0, 0, 1] ⟨cstr "active", cstr ">=", cstr "1", false⟩ = false :=
  ⟨by decide,
   (bool_ordering_compares_zero
      { example_table with
        fields := [{ name := cstr "id", type := .FIELD_INT, size := 4 },
                   { name := cstr "active", type := .FIELD_BOOL, size := 1 }],
        field_count := 2, record_size := 5 }
      [1, 0, 0, 0, 1] (cstr "active") 1
      { name := cstr "active", type := .FIELD_BOOL, size := 1 } false
      (by decide) (by decide) rfl).2.1,
   (bool_ordering_compares_zero
      { example_table with
        fields := [{ name := cstr "id", type := .FIELD_INT, size := 4 },
                   { name := cstr "active", type := .FIELD_BOOL, size := 1 }],
        field_count := 2, record_size := 5 }
      [1, 0, 0, 0, 1] (cstr "active") 1
      { name := cstr "active", type := .FIELD_BOOL, size := 1 } false
      (by decide) (by decide) rfl).2.2.1⟩

/-! ### The claims on whole statements -/

set_option maxRecDepth 100000 in
/-- C26 fails on the code.  The statements of the claim, run from a fresh process,
print `No table selected` for the `INSERT` and for both `SELECT`s: `CREATE` does not
load the table.  With `USE t` after the `CREATE` the `SELECT` prints one row, but
without the field `active`: `id: 1 | name: 'Alice'`; the `CREATE` statement lost the
definition after `text(10)`.  `COUNT(*)` then reports 1. -/
theorem create_insert_select_loses_field :
    (process_commands { fs := FileSystem.empty, session := Session.initial }
        [cstr "CREATE TABLE t (id int, name text(10), active bool)",
         cstr "INSERT INTO t VALUES (1, 'Alice', true)",
         cstr "SELECT * FROM t",
         cstr "SELECT COUNT(*) FROM t"]).map Prod.snd =
      some [cstr "Table 't' created\n", cstr "No table selected\n",
            cstr "No table selected\n", cstr "No table selected\n"] ∧
    (process_commands { fs := FileSystem.empty, session := Session.initial }
        [cstr "CREATE TABLE t (id int, name text(10), active bool)",
         cstr "USE t",
         cstr "INSERT INTO t VALUES (1, 'Alice', true)",
         cstr "SELECT * FROM t",
         cstr "SELECT COUNT(*) FROM t"]).map Prod.snd =
      some [cstr "Table 't' created\n", cstr "Table 't' loaded with indexes\n",
            cstr "1 row inserted\n", cstr "id: 1 | name: 'Alice'\n1 rows returned\n",
            cstr "COUNT: 1\n"] := by
  constructor <;> decide

set_option maxRecDepth 100000 in
/-- C28 fails on the code: on the table `t (id int, active bool)` with the records
`(1, true)` and `(2, false)`, a column list that names no field prints an empty row per
record and the count, a condition on a name that is no field counts as false without a
message, and in a chain with OR the rows of the other condition are printed.  No
message `Field ... not found` is printed by any of the three statements. -/
theorem select_unknown_field_is_silent :
    (process_commands { fs := FileSystem.empty, session := Session.initial }
        [cstr "CREATE TABLE t (id int, active bool)",
         cstr "USE t",
         cstr "INSERT INTO t VALUES (1, true)",
         cstr "INSERT INTO t VALUES (2, false)",
         cstr "SELECT nosuch FROM t",
         cstr "SELECT * FROM t WHERE nosuch = 1",
         cstr "SELECT * FROM t WHERE nosuch = 1 OR id > 0"]).map Prod.snd =
      some [cstr "Table 't' created\n", cstr "Table 't' loaded with indexes\n",
            cstr "1 row inserted\n", cstr "1 row inserted\n",
            cstr "\n\n2 rows returned\n",
            cstr "0 rows returned\n",
            cstr "id: 1 | active: true\nid: 2 | active: false\n2 rows returned\n"] := by
  decide

/-- The two scans agree: `select_columns` with the column list `*` and `select_count`
filter the same records with the same conditions, and each reports their number. -/
theorem select_count_rows (st : State) (w : List Nat) :
    ∃ rows : Option (List (List Nat)),
      select_columns st (cstr "*") w =
        (if st.session.table_loaded = true then
          rows.map fun rows =>
            (rows.map fun record =>
              print_columns
                (st.session.current_table.fields.take st.session.current_table.field_count)
                record (List.range st.session.current_table.field_count)).flatten ++
              count_line rows.length (cstr " rows returned\n")
        else some (cstr "No table selected\n")) ∧
      select_count st w =
        (if st.session.table_loaded = true then
          rows.map fun rows => cstr "COUNT: " ++ count_line rows.length (cstr "\n")
        else some (cstr "No table selected\n")) := by
  have hstar : strcmp (cstr "*") (cstr "*") = 0 := by decide
  cases hl : st.session.table_loaded with
  | false => exact ⟨none, by simp [select_columns, hl], by simp [select_count, hl]⟩
  | true =>
    by_cases hw : w = []
    · exact ⟨some (scan_records st), by simp [select_columns, hl, hw, hstar],
        by simp [select_count, hl, hw]⟩
    · cases hp : parse_where_conditions w with
      | none => exact ⟨none, by simp [select_columns, hl, hw, hstar, hp],
          by simp [select_count, hl, hw, hp]⟩
      | some cs =>
        exact ⟨some ((scan_records st).filter fun record =>
            check_complex_conditions st.session.current_table record cs),
          by simp [select_columns, hl, hw, hstar, hp], by simp [select_count, hl, hw, hp]⟩

set_option maxRecDepth 100000 in
/-- C27 fails on the code at the level of statements.  `select_count` and
`select_columns` agree on every WHERE clause (first part), but `process_command` takes
a `SELECT` whose text contains `JOIN` for a join: on the table `t (id int, name
text(10))` with the record `(1, 'JOIN')`, `SELECT COUNT(*) FROM t WHERE name = 'JOIN'`
reports 1 and `SELECT * FROM t WHERE name = 'JOIN'` prints nothing at all, although
`select_columns` on that clause prints the row. -/
theorem select_join_literal_prints_nothing :
    (∀ (st : State) (w : List Nat), ∃ rows : Option (List (List Nat)),
      select_columns st (cstr "*") w =
        (if st.session.table_loaded = true then
          rows.map fun rows =>
            (rows.map fun record =>
              print_columns
                (st.session.current_table.fields.take st.session.current_table.field_count)
                record (List.range st.session.current_table.field_count)).flatten ++
              count_line rows.length (cstr " rows returned\n")
        else some (cstr "No table selected\n")) ∧
      select_count st w =
        (if st.session.table_loaded = true then
          rows.map fun rows => cstr "COUNT: " ++ count_line rows.length (cstr "\n")
        else some (cstr "No table selected\n"))) ∧
    ∃ st, (process_commands { fs := FileSystem.empty, session := Session.initial }
        [cstr "CREATE TABLE t (id int, name text(10))",
         cstr "USE t",
         cstr "INSERT INTO t VALUES (1, 'JOIN')"]).map Prod.fst = some st ∧
      (process_command st (cstr "SELECT COUNT(*) FROM t WHERE name = 'JOIN'")).map Prod.snd =
        some (cstr "COUNT: 1\n") ∧
      (process_command st (cstr "SELECT * FROM t WHERE name = 'JOIN'")).map Prod.snd =
        some [] ∧
      select_columns st (cstr "*") (cstr "name = 'JOIN'") =
        some (cstr "id: 1 | name: 'JOIN'\n1 rows returned\n") := by
  refine ⟨select_count_rows, _, rfl, ?_, ?_, ?_⟩ <;> decide

/-! ### Scans of the active table -/

theorem fread_records_complete (fuel : Nat) :
    ∀ (record_size : Int) (data : List Nat), data.length < fuel →
      fread_records fuel record_size data = complete_records record_size data := by
  induction fuel with
  | zero => intro record_size data h; omega
  | succ fuel ih =>
    intro record_size data hlen
    unfold fread_records
    by_cases hc : 0 < record_size ∧ record_size.toNat ≤ data.length
    · rw [if_pos hc, complete_records_cons _ _ hc,
        ih record_size (data.drop record_size.toNat) (by rw [List.length_drop]; omega)]
    · rw [if_neg hc, complete_records_nil _ _ hc]

theorem scan_records_stored (st : State) : scan_records st = stored_records st := by
  unfold scan_records stored_records
  cases st.session.data_file with
  | none => rfl
  | some filename =>
    simp only
    cases st.fs.files filename with
    | none => rfl
    | some file => exact fread_records_complete _ _ _ (Nat.lt_succ_self _)

theorem print_field_literal (record : List Nat) (offset : Int) (field : Field) :
    print_field record offset field =
      field.name ++ cstr ": " ++ (decode_field record offset field).literal := by
  unfold print_field
  cases decode_field record offset field <;> rfl

theorem intercalate_cons_cons (sep x y : List Nat) (rest : List (List Nat)) :
    List.intercalate sep (x :: y :: rest) = x ++ sep ++ List.intercalate sep (y :: rest) := by
  simp [List.intercalate, List.intersperse, List.append_assoc]

theorem print_columns_row_text (fields : List Field) (record : List Nat)
    (selected : List Nat) :
    print_columns fields record selected = row_text fields record selected := by
  have hcol : ∀ i, (match fields.get? i with
      | some field => print_field record (field_offset fields i) field
      | none => []) = column_text fields record i := by
    intro i
    unfold column_text
    cases fields.get? i with
    | none => rfl
    | some field => exact print_field_literal _ _ _
  induction selected with
  | nil => simp [print_columns, row_text, List.intercalate]
  | cons i rest ih =>
    cases rest with
    | nil =>
      simp only [print_columns, hcol, row_text, List.map_cons, List.map_nil]
      simp [List.intercalate, List.intersperse]
    | cons j rest =>
      rw [print_columns, hcol, ih]
      simp only [row_text, List.map_cons, intercalate_cons_cons, reduceCtorEq, if_false,
        List.append_assoc]

theorem field_offset_append (pre : List Field) (field : Field) (suf : List Field) :
    (pre ++ field :: suf).get? pre.length = some field ∧
      field_offset (pre ++ field :: suf) pre.length = sum_sizes pre ∧
      sum_sizes (pre ++ [field]) = sum_sizes pre + field.size := by
  refine ⟨?_, by simp [field_offset], by simp [sum_sizes]⟩
  rw [List.get?_eq_getElem?, List.getElem?_append_right (le_refl _)]
  simp

theorem print_record_row_text (record : List Nat) (fields suf : List Field) :
    ∀ pre : List Field, fields = pre ++ suf →
      print_record record suf (sum_sizes pre) =
        row_text fields record (List.range' pre.length suf.length) := by
  induction suf with
  | nil => intro pre _; simp [print_record, row_text, List.intercalate]
  | cons f rest ih =>
    intro pre hf
    obtain ⟨hget, hoff, hsum⟩ := field_offset_append pre f rest
    rw [← hf] at hget hoff
    have hcol : column_text fields record pre.length =
        print_field record (sum_sizes pre) f := by
      rw [print_field_literal]
      simp only [column_text, hget, hoff]
    have hih := ih (pre ++ [f]) (by rw [hf]; simp)
    rw [hsum] at hih
    rw [print_record, hih]
    cases rest with
    | nil =>
      simp only [row_text, List.length_nil, List.range'_zero, List.map_nil, List.length_cons,
        List.range'_one, List.map_cons, hcol, if_true]
      simp [List.intercalate, List.intersperse, print_record, hcol]
    | cons g rest =>
      simp only [row_text, List.length_cons, List.range'_succ, List.map_cons,
        intercalate_cons_cons, hcol, reduceCtorEq, if_false, List.append_assoc,
        List.length_append, List.length_nil, zero_add]

theorem find_in_record_contains (record needle : List Nat) (fields suf : List Field) :
    ∀ pre : List Field, fields = pre ++ suf →
      find_in_record record needle suf (sum_sizes pre) =
        (List.range' pre.length suf.length).any fun i =>
          match fields.get? i with
          | some field =>
            (match decode_field record (field_offset fields i) field with
              | .text s => decide (needle <:+: s)
              | _ => false)
          | none => false := by
  induction suf with
  | nil => intro pre _; simp [find_in_record]
  | cons f rest ih =>
    intro pre hf
    obtain ⟨hget, hoff, hsum⟩ := field_offset_append pre f rest
    rw [← hf] at hget hoff
    have hih := ih (pre ++ [f]) (by rw [hf]; simp)
    rw [hsum] at hih
    simp only [List.length_append, List.length_cons, List.length_nil, zero_add] at hih
    rw [find_in_record, hih]
    simp only [List.length_cons, List.range'_succ, List.any_cons, hget, hoff]
    cases ht : f.type with
    | FIELD_INT => simp [decode_field, ht]
    | FIELD_BOOL => simp [decode_field, ht]
    | FIELD_TEXT =>
      simp only [decode_field, ht, true_and]
      by_cases hs : (strstr (c_str (strncpy (c_str (List.drop (sum_sizes pre).toNat record))
          f.size.toNat ++ [0])) needle).isSome = true
      · have := (strstr_isSome_iff _ _).1 hs
        simp [hs, this]
      · have : ¬ needle <:+: c_str (strncpy (c_str (List.drop (sum_sizes pre).toNat record))
            f.size.toNat ++ [0]) := fun h => hs ((strstr_isSome_iff _ _).2 h)
        simp [hs, this]

theorem text_fields_contain_iff (fields : List Field) (record needle : List Nat) :
    text_fields_contain fields record needle = true ↔
      ∃ i field, fields.get? i = some field ∧ field.type = .FIELD_TEXT ∧
        needle <:+: c_str (strncpy (c_str (record.drop (field_offset fields i).toNat))
          field.size.toNat ++ [0]) := by
  unfold text_fields_contain
  rw [List.any_eq_true]
  constructor
  · rintro ⟨i, _, h⟩
    cases hf : fields.get? i with
    | none => rw [hf] at h; exact Bool.noConfusion h
    | some field =>
      rw [hf] at h
      cases ht : field.type with
      | FIELD_INT => simp [decode_field, ht] at h
      | FIELD_BOOL => simp [decode_field, ht] at h
      | FIELD_TEXT =>
        simp only [decode_field, ht, decide_eq_true_eq] at h
        exact ⟨i, field, hf, ht, h⟩
  · rintro ⟨i, field, hf, ht, h⟩
    refine ⟨i, ?_, ?_⟩
    · rw [List.mem_range]
      rw [List.get?_eq_some] at hf
      exact hf.1
    · simp only [hf, decode_field, ht, decide_eq_true_eq]
      exact h

/-- C29: for every active table and every needle, `find_text` prints the line
`Searching for text`, then, in the order of the file and each once, the rows of exactly
those complete records in which a Text field has a decoded value that contains the
needle as a substring (fields of the other types are not looked at), every row with
all the fields as `name: value` joined by ` | `, and then the number of these records
with `records found`, or the message `No records found` when there is none. -/
theorem find_text_rows (st : State) (needle : List Nat)
    (hloaded : st.session.table_loaded = true) :
    find_text st needle =
        cstr "Searching for text: '" ++ needle ++ cstr "'\n" ++
        (((stored_records st).filter fun record =>
            text_fields_contain
              (st.session.current_table.fields.take st.session.current_table.field_count)
              record needle).map fun record =>
          row_text
            (st.session.current_table.fields.take st.session.current_table.field_count)
            record
            (List.range (st.session.current_table.fields.take
              st.session.current_table.field_count).length)).flatten ++
        (if ((stored_records st).filter fun record =>
            text_fields_contain
              (st.session.current_table.fields.take st.session.current_table.field_count)
              record needle) = [] then
          cstr "No records found with text: '" ++ needle ++ cstr "'\n"
        else
          printf_d (((stored_records st).filter fun record =>
            text_fields_contain
              (st.session.current_table.fields.take st.session.current_table.field_count)
              record needle).length : Nat) ++ cstr " records found\n") ∧
      ∀ record, text_fields_contain
          (st.session.current_table.fields.take st.session.current_table.field_count)
          record needle = true ↔
        ∃ i field,
          (st.session.current_table.fields.take st.session.current_table.field_count).get? i =
            some field ∧
          field.type = .FIELD_TEXT ∧
          decode_field record
            (field_offset
              (st.session.current_table.fields.take st.session.current_table.field_count) i)
            field =
            .text (c_str (strncpy (c_str (record.drop (field_offset
              (st.session.current_table.fields.take st.session.current_table.field_count)
              i).toNat)) field.size.toNat ++ [0])) ∧
          needle <:+: c_str (strncpy (c_str (record.drop (field_offset
              (st.session.current_table.fields.take st.session.current_table.field_count)
              i).toNat)) field.size.toNat ++ [0]) := by
  constructor
  · have hfind : ∀ record, find_in_record record needle
        (st.session.current_table.fields.take st.session.current_table.field_count) 0 =
        text_fields_contain
          (st.session.current_table.fields.take st.session.current_table.field_count)
          record needle := by
      intro record
      have := find_in_record_contains record needle
        (st.session.current_table.fields.take st.session.current_table.field_count)
        (st.session.current_table.fields.take st.session.current_table.field_count) [] rfl
      simpa [text_fields_contain, List.range_eq_range', sum_sizes] using this
    have hrow : ∀ record, print_record record
        (st.session.current_table.fields.take st.session.current_table.field_count) 0 =
        row_text (st.session.current_table.fields.take st.session.current_table.field_count)
          record (List.range (st.session.current_table.fields.take
            st.session.current_table.field_count).length) := by
      intro record
      have := print_record_row_text record
        (st.session.current_table.fields.take st.session.current_table.field_count)
        (st.session.current_table.fields.take st.session.current_table.field_count) [] rfl
      simpa [List.range_eq_range', sum_sizes] using this
    unfold find_text
    simp only [hloaded, Bool.not_true, Bool.false_eq_true, if_false, scan_records_stored,
      hfind, hrow, count_line, List.length_eq_zero]
  · intro record
    rw [text_fields_contain_iff]
    constructor
    · rintro ⟨i, field, hf, ht, h⟩
      exact ⟨i, field, hf, ht, by simp [decode_field, ht], h⟩
    · rintro ⟨i, field, hf, ht, _, h⟩
      exact ⟨i, field, hf, ht, h⟩

set_option maxRecDepth 100000 in
theorem find_text_rows_witness :
    example_people.session.table_loaded = true ∧
      stored_records example_people =
        [[1, 0, 0, 0] ++ cstr "Alice" ++ [0, 0, 0, 0, 0],
         [2, 0, 0, 0] ++ cstr "Bob" ++ [0, 0, 0, 0, 0, 0, 0]] ∧
      find_text example_people (cstr "Ali") =
        cstr "Searching for text: 'Ali'\nid: 1 | name: 'Alice'\n1 records found\n" ∧
      find_text example_people (cstr "1") =
        cstr "Searching for text: '1'\nNo records found with text: '1'\n" ∧
      find_text example_people (cstr "Ali") =
        cstr "Searching for text: '" ++ cstr "Ali" ++ cstr "'\n" ++
        (((stored_records example_people).filter fun record =>
            text_fields_contain
              (example_people.session.current_table.fields.take
                example_people.session.current_table.field_count)
              record (cstr "Ali")).map fun record =>
          row_text
            (example_people.session.current_table.fields.take
              example_people.session.current_table.field_count)
            record
            (List.range (example_people.session.current_table.fields.take
              example_people.session.current_table.field_count).length)).flatten ++
        (if ((stored_records example_people).filter fun record =>
            text_fields_contain
              (example_people.session.current_table.fields.take
                example_people.session.current_table.field_count)
              record (cstr "Ali")) = [] then
          cstr "No records found with text: '" ++ cstr "Ali" ++ cstr "'\n"
        else
          printf_d (((stored_records example_people).filter fun record =>
            text_fields_contain
              (example_people.session.current_table.fields.take
                example_people.session.current_table.field_count)
              record (cstr "Ali")).length : Nat) ++ cstr " records found\n") :=
  ⟨by decide, by decide, by decide, by decide,
    (find_text_rows example_people (cstr "Ali") (by decide)).1⟩

/-! ### The column list and the WHERE clause of `select_columns` -/

theorem field_index_bound (fields : List Field) (name : List Nat) :
    ∀ (k i : Nat), field_index fields name k = some i → k ≤ i ∧ i < k + fields.length := by
  induction fields with
  | nil => intro k i h; simp [field_index] at h
  | cons f fs ih =>
    intro k i h
    simp only [field_index] at h
    split_ifs at h
    · simp only [Option.some.injEq] at h
      simp only [List.length_cons]
      omega
    · have := ih (k + 1) i h
      simp only [List.length_cons]
      omega

theorem select_columns_loop_returns (fields : List Field) (fuel : Nat) :
    ∀ (token : Option (List Nat)) (saved selected : List Nat),
      (token = none ∧ 0 < fuel) ∨ (token ≠ none ∧ saved.length + 2 ≤ fuel) →
      (∀ i ∈ selected, i < fields.length) →
      ∃ result, select_columns_loop fuel fields token saved selected = some result ∧
        ∀ i ∈ result, i < fields.length := by
  induction fuel with
  | zero => intro token saved selected h _; rcases h with ⟨_, h⟩ | ⟨_, h⟩ <;> omega
  | succ fuel ih =>
    intro token saved selected h hsel
    cases token with
    | none => exact ⟨selected, by simp [select_columns_loop], hsel⟩
    | some tok =>
      have hs : saved.length + 2 ≤ fuel + 1 := by
        rcases h with ⟨h, _⟩ | ⟨_, h⟩
        · simp at h
        · exact h
      have hnext : (strtok saved (cstr ",")).1 = none ∧ 0 < fuel ∨
          (strtok saved (cstr ",")).1 ≠ none ∧ (strtok saved (cstr ",")).2.length + 2 ≤ fuel := by
        cases e : (strtok saved (cstr ",")).1 with
        | none => left; exact ⟨rfl, by omega⟩
        | some t2 =>
          right
          have := strtok_length saved (cstr ",") t2 e
          exact ⟨by simp, by omega⟩
      simp only [select_columns_loop]
      split_ifs
      · split
        · rename_i i hi
          apply ih _ _ _ hnext
          intro j hj
          rcases List.mem_append.1 hj with hj | hj
          · exact hsel j hj
          · simp only [List.mem_singleton] at hj
            subst hj
            have := field_index_bound _ _ 0 j hi
            omega
        · exact ih _ _ _ hnext hsel
      · exact ⟨selected, rfl, hsel⟩
theorem strtok_token_length (s delims tok : List Nat) (h : (strtok s delims).1 = some tok) :
    tok ≠ [] ∧ tok.length + (strtok s delims).2.length ≤ s.length := by
  unfold strtok at h ⊢
  by_cases h1 : List.dropWhile (fun c => decide (c ∈ delims)) s = []
  · simp [h1] at h
  · simp only [h1, if_false, Option.some.injEq] at h ⊢
    have h2 : (List.dropWhile (fun c => decide (c ∈ delims)) s).length ≤ s.length :=
      (List.dropWhile_sublist _).length_le
    have h3 := List.takeWhile_append_dropWhile (fun c => !decide (c ∈ delims))
      (List.dropWhile (fun c => decide (c ∈ delims)) s)
    have h4 := congrArg List.length h3
    rw [List.length_append] at h4
    subst h
    refine ⟨?_, ?_⟩
    · obtain ⟨c, cs, e⟩ := List.exists_cons_of_ne_nil h1
      have hc : ¬ (decide (c ∈ delims) = true) := by
        have := List.head_dropWhile_not (fun c => decide (c ∈ delims)) s h1
        simp only [e, List.head_cons] at this
        simpa using this
      rw [e, List.takeWhile_cons]
      simp [hc]
    · simp only [List.length_drop]
      omega

theorem collect_quoted_fuel (fuel : Nat) :
    ∀ (value : List Nat) (tok : Option (List Nat)) (saved : List Nat),
      (tok = none → 1 ≤ fuel) → (tok ≠ none → saved.length + 2 ≤ fuel) →
      collect_quoted (fuel + 1) value tok saved = collect_quoted fuel value tok saved := by
  induction fuel with
  | zero =>
    intro value tok saved h1 h2
    cases tok with
    | none => have := h1 rfl; omega
    | some t => have := h2 (by simp); omega
  | succ fuel ih =>
    intro value tok saved h1 h2
    cases tok with
    | none => simp [collect_quoted]
    | some token =>
      have hs := h2 (by simp)
      have hnext : ∀ v, collect_quoted (fuel + 1) v (strtok saved (cstr " ")).1
          (strtok saved (cstr " ")).2 =
          collect_quoted fuel v (strtok saved (cstr " ")).1 (strtok saved (cstr " ")).2 := by
        intro v
        apply ih
        · intro _; omega
        · intro hne
          obtain ⟨t2, e⟩ := Option.ne_none_iff_exists'.1 hne
          have := strtok_length saved (cstr " ") t2 e
          omega
      rw [collect_quoted, collect_quoted]
      cases value.getLast? with
      | none => rfl
      | some c =>
        simp only
        split_ifs
        · exact hnext _
        · rfl

theorem collect_quoted_empty (fuel : Nat) (tok : List Nat) (saved : List Nat) :
    collect_quoted fuel [] (some tok) saved = none := by
  cases fuel with
  | zero => rfl
  | succ fuel => simp [collect_quoted]

theorem collect_quoted_saved (fuel : Nat) :
    ∀ (value : List Nat) (tok : Option (List Nat)) (saved : List Nat)
      (r : List Nat × Option (List Nat) × List Nat),
      collect_quoted fuel value tok saved = some r → r.2.2.length ≤ saved.length := by
  induction fuel with
  | zero => intro value tok saved r h; simp [collect_quoted] at h
  | succ fuel ih =>
    intro value tok saved r h
    cases tok with
    | none =>
      simp only [collect_quoted, Option.some.injEq] at h
      rw [← h]
    | some token =>
      rw [collect_quoted] at h
      cases hv : value.getLast? with
      | none => rw [hv] at h; exact Option.noConfusion h
      | some c =>
        rw [hv] at h
        simp only at h
        split_ifs at h
        · have := ih _ _ _ r h
          cases e : (strtok saved (cstr " ")).1 with
          | none =>
            have h0 : (strtok saved (cstr " ")).2.length = 0 := by
              rw [strtok_none saved (cstr " ") e]; rfl
            omega
          | some t2 =>
            have := strtok_length saved (cstr " ") t2 e
            omega
        · simp only [Option.some.injEq] at h
          rw [← h]

/-- More fuel does not change the result of the loop of `parse_where_conditions`: its
`none` is the read in front of the buffer `value`, not the end of the fuel. -/
theorem parse_where_loop_fuel (fuel : Nat) :
    ∀ (tok : Option (List Nat)) (saved : List Nat) (state : Nat) (current : WhereCondition)
      (conditions : List WhereCondition),
      (tok = none → 1 ≤ fuel) →
      (∀ t, tok = some t → t ≠ [] ∧ t.length + saved.length + 1 ≤ fuel) →
      parse_where_loop (fuel + 1) tok saved state current conditions =
        parse_where_loop fuel tok saved state current conditions := by
  induction fuel with
  | zero =>
    intro tok saved state current conditions h1 h2
    cases tok with
    | none => have := h1 rfl; omega
    | some t => have := (h2 t rfl).2; omega
  | succ fuel ih =>
    intro tok saved state current conditions h1 h2
    cases tok with
    | none => simp [parse_where_loop]
    | some token =>
      obtain ⟨hne, hlen⟩ := h2 token rfl
      have hpos : 1 ≤ token.length := by
        cases token with
        | nil => exact absurd rfl hne
        | cons c cs => simp
      have hnext : ∀ (s : List Nat), s.length ≤ saved.length →
          ∀ (state : Nat) (current : WhereCondition) (conditions : List WhereCondition),
          parse_where_loop (fuel + 1) (strtok s (cstr " ")).1 (strtok s (cstr " ")).2 state
              current conditions =
            parse_where_loop fuel (strtok s (cstr " ")).1 (strtok s (cstr " ")).2 state
              current conditions := by
        intro s hs state current conditions
        apply ih
        · intro _; omega
        · intro t2 e
          have := strtok_token_length s (cstr " ") t2 e
          exact ⟨this.1, by omega⟩
      rw [parse_where_loop, parse_where_loop]
      have hcq : collect_quoted (fuel + 1) (token.drop 1) (some token) saved =
          collect_quoted fuel (token.drop 1) (some token) saved := by
        by_cases h2 : 2 ≤ token.length
        · exact collect_quoted_fuel fuel _ _ _ (by intro h; simp at h) (by intro _; omega)
        · have : token.drop 1 = [] := by
            apply List.drop_eq_nil_of_le
            omega
          rw [this, collect_quoted_empty, collect_quoted_empty]
      split_ifs
      all_goals first
        | exact hnext saved (le_refl _) _ _ _
        | rfl
        | (rw [hcq]
           cases hr : collect_quoted fuel (token.drop 1) (some token) saved with
           | none => rfl
           | some r =>
             obtain ⟨value, t2, s⟩ := r
             have := collect_quoted_saved fuel _ _ _ _ hr
             exact hnext s this _ _ _)

/-- The fuel of `parse_where_conditions` is enough: more fuel gives the same result. -/
theorem parse_where_conditions_fuel (where_clause : List Nat) (k : Nat) :
    parse_where_loop (where_clause.length + 1 + k) (strtok where_clause (cstr " ")).1
        (strtok where_clause (cstr " ")).2 0
        { field_name := [], operator := [], value := [], is_and := false } [] =
      parse_where_conditions where_clause := by
  induction k with
  | zero => rfl
  | succ k ih =>
    rw [← ih, ← Nat.add_assoc]
    apply parse_where_loop_fuel
    · intro _; omega
    · intro t e
      have := strtok_token_length where_clause (cstr " ") t e
      exact ⟨this.1, by omega⟩

set_option maxRecDepth 100000 in
/-- C25: for every active table, column list and WHERE clause, `select_columns` prints
the result of the specification (`select_output`): in the order of the file, one row
for exactly those complete records for which the chain of conditions is true (every
record without a WHERE clause), each row with the selected columns as `name: value`
joined by ` | `, a Text in single quotes, and then the count line with the number of
rows.  The selected columns are all the fields for `*`, and else the fields that the
column list names (the loop over the list returns; every index is a field).  The
conditions are those that `parse_where_conditions` returns; where the parser reads in
front of its buffer the result is undefined (`none`).  In particular, after the
`INSERT`s of `(1,'A',true)` and `(2,'B',false)` into a table `id int, name text, active
bool`, `SELECT * FROM t WHERE id > 0 AND active = true` prints the first row only. -/
theorem select_columns_rows (st : State) (columns where_clause : List Nat)
    (hloaded : st.session.table_loaded = true) :
    (∃ selected : List Nat,
      (if strcmp columns (cstr "*") = 0 then
        selected = List.range st.session.current_table.field_count
      else
        select_columns_loop (columns.length + 1)
            (st.session.current_table.fields.take st.session.current_table.field_count)
            (strtok columns (cstr ",")).1 (strtok columns (cstr ",")).2 [] = some selected ∧
          ∀ i ∈ selected, i < (st.session.current_table.fields.take
            st.session.current_table.field_count).length) ∧
      select_columns st columns where_clause =
        (if where_clause = [] then some none
          else (parse_where_conditions where_clause).map some).map
          (select_output st.session.current_table (stored_records st) selected)) ∧
    (process_commands { fs := FileSystem.empty, session := Session.initial }
        [cstr "CREATE TABLE t (id int, name text, active bool)",
         cstr "USE t",
         cstr "INSERT INTO t VALUES (1,'A',true)",
         cstr "INSERT INTO t VALUES (2,'B',false)",
         cstr "SELECT * FROM t WHERE id > 0 AND active = true"]).map Prod.snd =
      some [cstr "Table 't' created\n", cstr "Table 't' loaded with indexes\n",
            cstr "1 row inserted\n", cstr "1 row inserted\n",
            cstr "id: 1 | name: 'A' | active: true\n1 rows returned\n"] := by
  refine ⟨?_, by decide⟩
  have hout : ∀ (selected : List Nat) (conditions : Option (List WhereCondition)),
      (((scan_records st).filter fun record =>
          match conditions with
          | none => true
          | some cs => check_complex_conditions st.session.current_table record cs).map
        fun record => print_columns
          (st.session.current_table.fields.take st.session.current_table.field_count)
          record selected).flatten ++
        count_line ((scan_records st).filter fun record =>
          match conditions with
          | none => true
          | some cs => check_complex_conditions st.session.current_table record cs).length
          (cstr " rows returned\n") =
      select_output st.session.current_table (stored_records st) selected conditions := by
    intro selected conditions
    simp only [select_output, scan_records_stored, print_columns_row_text, count_line,
      check_complex_conditions_chain, List.append_assoc]
  by_cases hstar : strcmp columns (cstr "*") = 0
  · refine ⟨List.range st.session.current_table.field_count, by simp [hstar], ?_⟩
    unfold select_columns
    simp only [hloaded, Bool.not_true, Bool.false_eq_true, if_false, hstar, if_true]
    by_cases hw : where_clause = []
    · simp only [hw, if_true, Option.map_some']
      exact congrArg some (hout _ none)
    · simp only [hw, if_false]
      cases parse_where_conditions where_clause with
      | none => rfl
      | some cs =>
        simp only [Option.map_some']
        exact congrArg some (hout _ (some cs))
  · obtain ⟨selected, hsel, hidx⟩ := select_columns_loop_returns
      (st.session.current_table.fields.take st.session.current_table.field_count)
      (columns.length + 1) (strtok columns (cstr ",")).1 (strtok columns (cstr ",")).2 []
      (by
        cases e : (strtok columns (cstr ",")).1 with
        | none => left; exact ⟨rfl, by omega⟩
        | some t =>
          right
          have := strtok_length columns (cstr ",") t e
          exact ⟨by simp, by omega⟩)
      (by intro i hi; simp at hi)
    refine ⟨selected, by simp only [hstar, if_false]; exact ⟨hsel, hidx⟩, ?_⟩
    unfold select_columns
    simp only [hloaded, Bool.not_true, Bool.false_eq_true, if_false, hstar, hsel]
    by_cases hw : where_clause = []
    · simp only [hw, if_true, Option.map_some']
      exact congrArg some (hout _ none)
    · simp only [hw, if_false]
      cases parse_where_conditions where_clause with
      | none => rfl
      | some cs =>
        simp only [Option.map_some']
        exact congrArg some (hout _ (some cs))
set_option maxRecDepth 100000 in
theorem select_columns_rows_witness :
    example_people.session.table_loaded = true ∧
      select_columns example_people (cstr "name, id") (cstr "id > 1") =
        some (cstr "name: 'Bob' | id: 2\n1 rows returned\n") ∧
      ∃ selected : List Nat,
        (if strcmp (cstr "name, id") (cstr "*") = 0 then
          selected = List.range example_people.session.current_table.field_count
        else
          select_columns_loop ((cstr "name, id").length + 1)
              (example_people.session.current_table.fields.take
                example_people.session.current_table.field_count)
              (strtok (cstr "name, id") (cstr ",")).1 (strtok (cstr "name, id") (cstr ",")).2
              [] = some selected ∧
            ∀ i ∈ selected, i < (example_people.session.current_table.fields.take
              example_people.session.current_table.field_count).length) ∧
        select_columns example_people (cstr "name, id") (cstr "id > 1") =
          (if cstr "id > 1" = [] then some none
            else (parse_where_conditions (cstr "id > 1")).map some).map
            (select_output example_people.session.current_table
              (stored_records example_people) selected) :=
  ⟨by decide, by decide,
    (select_columns_rows example_people (cstr "name, id") (cstr "id > 1") (by decide)).1⟩

/-! ### The nested-loop join -/

theorem print_join_value_literal (record : List Nat) (offset : Int) (field : Field) :
    print_join_value record offset field = (decode_field record offset field).literal := by
  unfold print_join_value
  cases decode_field record offset field <;> rfl

theorem print_join_fields_trailing (table_name record : List Nat) (fields suf : List Field) :
    ∀ pre : List Field, fields = pre ++ suf →
      print_join_fields table_name record true suf (sum_sizes pre) =
        ((List.range' pre.length suf.length).map fun i =>
          join_column table_name fields record i ++ cstr " | ").flatten := by
  induction suf with
  | nil => intro pre _; simp [print_join_fields]
  | cons f rest ih =>
    intro pre hf
    obtain ⟨hget, hoff, hsum⟩ := field_offset_append pre f rest
    rw [← hf] at hget hoff
    have hih := ih (pre ++ [f]) (by rw [hf]; simp)
    rw [hsum] at hih
    simp only [List.length_append, List.length_cons, List.length_nil, zero_add] at hih
    rw [print_join_fields, hih, print_join_value_literal]
    simp only [List.length_cons, List.range'_succ, List.map_cons, List.flatten_cons,
      join_column, hget, hoff, true_or, if_true, List.append_assoc]

theorem print_join_fields_between (table_name record : List Nat) (fields suf : List Field) :
    ∀ pre : List Field, fields = pre ++ suf →
      print_join_fields table_name record false suf (sum_sizes pre) =
        List.intercalate (cstr " | ")
          ((List.range' pre.length suf.length).map (join_column table_name fields record)) := by
  induction suf with
  | nil => intro pre _; simp [print_join_fields, List.intercalate]
  | cons f rest ih =>
    intro pre hf
    obtain ⟨hget, hoff, hsum⟩ := field_offset_append pre f rest
    rw [← hf] at hget hoff
    have hih := ih (pre ++ [f]) (by rw [hf]; simp)
    rw [hsum] at hih
    simp only [List.length_append, List.length_cons, List.length_nil, zero_add] at hih
    rw [print_join_fields, hih, print_join_value_literal]
    cases rest with
    | nil =>
      rw [List.get?_eq_getElem?] at hget
      simp [List.intercalate, List.intersperse, join_column, hget, hoff, print_join_fields]
    | cons g rest =>
      simp only [List.length_cons, List.range'_succ, List.map_cons, intercalate_cons_cons,
        join_column, hget, hoff, Bool.false_eq_true, false_or, ne_eq, reduceCtorEq,
        not_false_eq_true, if_true, List.append_assoc]

theorem inner_join_row_text (table1 table2 : Table) (l r : List Nat) (n : Nat) :
    inner_join_row table1 table2 l r n = joined_row_text table1 table2 l r n := by
  have h1 := print_join_fields_trailing table1.name l
    (table1.fields.take table1.field_count) (table1.fields.take table1.field_count) [] rfl
  have h2 := print_join_fields_between table2.name r
    (table2.fields.take table2.field_count) (table2.fields.take table2.field_count) [] rfl
  simp only [List.length_nil, sum_sizes, List.map_nil, List.sum_nil,
    ← List.range_eq_range'] at h1 h2
  simp only [inner_join_row, joined_row_text, h1, h2]

theorem joined_rows_append (table1 table2 : Table) (a : List (List Nat × List Nat)) :
    ∀ (b : List (List Nat × List Nat)) (n : Nat),
      joined_rows table1 table2 (a ++ b) n =
        joined_rows table1 table2 a n ++ joined_rows table1 table2 b (n + a.length) := by
  induction a with
  | nil => intro b n; simp [joined_rows]
  | cons p rest ih =>
    intro b n
    have e : n + 1 + rest.length = n + (rest.length + 1) := by omega
    rw [List.cons_append, joined_rows, ih, joined_rows, List.length_cons, e,
      List.append_assoc]

theorem inner_join_scan2_pairs (table1 table2 : Table) (field1 field2 : Field)
    (offset1 offset2 : Int) (record1 : List Nat) (records2 : List (List Nat)) :
    ∀ n : Nat,
      inner_join_scan2 table1 table2 field1 field2 offset1 offset2 record1 records2 n =
        (joined_rows table1 table2
            ((records2.filter fun r => decide (join_value record1 offset1 field1 =
              join_value r offset2 field2)).map fun r => (record1, r)) n,
          n + (records2.filter fun r => decide (join_value record1 offset1 field1 =
              join_value r offset2 field2)).length) := by
  induction records2 with
  | nil => intro n; simp [inner_join_scan2, joined_rows]
  | cons r rest ih =>
    intro n
    rw [inner_join_scan2]
    by_cases h : join_value record1 offset1 field1 = join_value r offset2 field2
    · have h0 : strcmp (join_value record1 offset1 field1) (join_value r offset2 field2) = 0 :=
        (strcmp_eq_zero_iff _ _).2 h
      have e : ∀ x : Nat, n + 1 + x = n + (x + 1) := by intro x; omega
      have hd : decide (join_value record1 offset1 field1 = join_value r offset2 field2) =
          true := decide_eq_true h
      simp only [h0, if_true, ih, List.filter_cons, hd, List.map_cons, joined_rows,
        inner_join_row_text, List.length_cons, e]
    · have h0 : ¬ strcmp (join_value record1 offset1 field1) (join_value r offset2 field2) = 0 :=
        fun e => h ((strcmp_eq_zero_iff _ _).1 e)
      have hd : decide (join_value record1 offset1 field1 = join_value r offset2 field2) =
          false := decide_eq_false h
      simp only [h0, if_false, ih, List.filter_cons, hd, Bool.false_eq_true]

theorem inner_join_scan1_pairs (table1 table2 : Table) (field1 field2 : Field)
    (offset1 offset2 : Int) (records2 records1 : List (List Nat)) :
    ∀ n : Nat,
      inner_join_scan1 table1 table2 field1 field2 offset1 offset2 records2 records1 n =
        (joined_rows table1 table2
            (join_pairs (fun l r => decide (join_value l offset1 field1 =
              join_value r offset2 field2)) records1 records2) n,
          n + (join_pairs (fun l r => decide (join_value l offset1 field1 =
              join_value r offset2 field2)) records1 records2).length) := by
  induction records1 with
  | nil => intro n; simp [inner_join_scan1, join_pairs, joined_rows]
  | cons l rest ih =>
    intro n
    rw [inner_join_scan1]
    simp only [inner_join_scan2_pairs, ih, join_pairs, List.map_cons, List.flatten_cons,
      joined_rows_append, List.length_append, List.length_map, Nat.add_assoc]

theorem field_index_get (fields : List Field) (name : List Nat) :
    ∀ (k i : Nat), field_index fields name k = some i →
      ∃ f, fields.get? (i - k) = some f ∧ f.name = name := by
  induction fields with
  | nil => intro k i h; simp [field_index] at h
  | cons f fs ih =>
    intro k i h
    simp only [field_index] at h
    split_ifs at h with hn
    · simp only [Option.some.injEq] at h
      subst h
      exact ⟨f, by simp, strcmp_eq_zero hn⟩
    · obtain ⟨g, hg, hname⟩ := ih (k + 1) i h
      have hb := field_index_bound fs name (k + 1) i h
      refine ⟨g, ?_, hname⟩
      have e : i - k = (i - (k + 1)) + 1 := by omega
      rw [e, List.get?_cons_succ]
      exact hg

theorem join_value_text (record : List Nat) (offset : Int) (field : Field) :
    (field.type ≠ .FIELD_BOOL → join_value record offset field = field_text record offset field) ∧
      (field.type ≠ .FIELD_INT → join_value record offset field =
        (c_str (record.drop offset.toNat)).take field.size.toNat) := by
  constructor
  · intro h
    cases ht : field.type with
    | FIELD_INT => simp [join_value, field_text, decode_field, ht]
    | FIELD_TEXT => simp [join_value, field_text, decode_field, ht]
    | FIELD_BOOL => exact absurd ht h
  · intro h
    simp only [join_value, h, if_false, c_str_strncpy]

/-- What `inner_join` prints: for two tables whose files exist and join fields that the
tables have, `inner_join` prints its headline, then the joined rows of exactly the pairs
`(l, r)` of a complete record `l` of the first file and a complete record `r` of the
second whose join texts are equal, in left-major order and numbered from 1, each row
with every field of the first table and then every field of the second as
`table.field: value`, and then the number of these pairs.  The join text of a field
is its rendered value for an Int32 (decimal) and for a Text (the stored string); for
every type but Int32 it is the bytes of the field up to the first NUL, so for a Bool
it is the stored byte, empty for `false`, and not `true` or `false`. -/
theorem inner_join_pairs (fs : FileSystem) (table1 table2 : Table) (field1 field2 : List Nat)
    (file1 file2 : TableFile) (i1 i2 : Nat)
    (hfile1 : fs.files table1.filename = some file1)
    (hfile2 : fs.files table2.filename = some file2)
    (hidx1 : field_index (table1.fields.take table1.field_count) field1 0 = some i1)
    (hidx2 : field_index (table2.fields.take table2.field_count) field2 0 = some i2) :
    ∃ f1 f2,
      (table1.fields.take table1.field_count).get? i1 = some f1 ∧ f1.name = field1 ∧
      (table2.fields.take table2.field_count).get? i2 = some f2 ∧ f2.name = field2 ∧
      inner_join fs table1 table2 field1 field2 =
        cstr "Performing INNER JOIN on " ++ table1.name ++ cstr "." ++ field1 ++
          cstr " = " ++ table2.name ++ cstr "." ++ field2 ++ cstr "\n" ++
        joined_rows table1 table2
          (join_pairs
            (fun l r => decide
              (join_value l (field_offset (table1.fields.take table1.field_count) i1) f1 =
                join_value r (field_offset (table2.fields.take table2.field_count) i2) f2))
            (complete_records table1.record_size file1.records)
            (complete_records table2.record_size file2.records)) 0 ++
        cstr "INNER JOIN completed. " ++
        printf_d ((join_pairs
            (fun l r => decide
              (join_value l (field_offset (table1.fields.take table1.field_count) i1) f1 =
                join_value r (field_offset (table2.fields.take table2.field_count) i2) f2))
            (complete_records table1.record_size file1.records)
            (complete_records table2.record_size file2.records)).length : Nat) ++
        cstr " records joined.\n" ∧
      ∀ (record : List Nat) (offset : Int) (field : Field),
        (field.type ≠ .FIELD_BOOL →
          join_value record offset field = field_text record offset field) ∧
        (field.type ≠ .FIELD_INT →
          join_value record offset field =
            (c_str (record.drop offset.toNat)).take field.size.toNat) := by
  obtain ⟨f1, hf1, hn1⟩ := field_index_get _ _ 0 i1 hidx1
  obtain ⟨f2, hf2, hn2⟩ := field_index_get _ _ 0 i2 hidx2
  simp only [Nat.sub_zero] at hf1 hf2
  refine ⟨f1, f2, hf1, hn1, hf2, hn2, ?_, join_value_text⟩
  unfold inner_join
  simp only [hidx1, hidx2, hfile1, hfile2, hf1, hf2, inner_join_scan1_pairs, file_records,
    fread_records_complete _ _ _ (Nat.lt_succ_self _), Nat.zero_add, List.append_assoc]
set_option maxRecDepth 100000 in
theorem inner_join_pairs_witness :
    example_join_fs.files example_table_a.filename =
        some example_file_a ∧
      example_join_fs.files example_table_b.filename =
        some example_file_b ∧
      inner_join example_join_fs example_table_a example_table_b (cstr "id") (cstr "id") =
        cstr "Performing INNER JOIN on a.id = b.id\nJoined record 1:\n" ++
        cstr "a.id: 1 | a.flag: true | b.id: 1 | b.word: 'true'\n---\n" ++
        cstr "INNER JOIN completed. 1 records joined.\n" ∧
      ∃ f1 f2,
        (example_table_a.fields.take example_table_a.field_count).get? 0 = some f1 ∧
        f1.name = cstr "id" ∧
        (example_table_b.fields.take example_table_b.field_count).get? 0 = some f2 ∧
        f2.name = cstr "id" ∧
        inner_join example_join_fs example_table_a example_table_b (cstr "id") (cstr "id") =
          cstr "Performing INNER JOIN on " ++ example_table_a.name ++ cstr "." ++ cstr "id" ++
            cstr " = " ++ example_table_b.name ++ cstr "." ++ cstr "id" ++ cstr "\n" ++
          joined_rows example_table_a example_table_b
            (join_pairs
              (fun l r => decide
                (join_value l (field_offset
                    (example_table_a.fields.take example_table_a.field_count) 0) f1 =
                  join_value r (field_offset
                    (example_table_b.fields.take example_table_b.field_count) 0) f2))
              (complete_records example_table_a.record_size
                example_file_a.records)
              (complete_records example_table_b.record_size
                example_file_b.records)) 0 ++
          cstr "INNER JOIN completed. " ++
          printf_d ((join_pairs
              (fun l r => decide
                (join_value l (field_offset
                    (example_table_a.fields.take example_table_a.field_count) 0) f1 =
                  join_value r (field_offset
                    (example_table_b.fields.take example_table_b.field_count) 0) f2))
              (complete_records example_table_a.record_size
                example_file_a.records)
              (complete_records example_table_b.record_size
                example_file_b.records)).length : Nat) ++
          cstr " records joined.\n" ∧
        ∀ (record : List Nat) (offset : Int) (field : Field),
          (field.type ≠ .FIELD_BOOL →
            join_value record offset field = field_text record offset field) ∧
          (field.type ≠ .FIELD_INT →
            join_value record offset field =
              (c_str (record.drop offset.toNat)).take field.size.toNat) :=
  ⟨by decide, by decide, by decide,
    inner_join_pairs example_join_fs example_table_a example_table_b (cstr "id") (cstr "id")
      example_file_a example_file_b 0 0
      (by decide) (by decide) (by decide) (by decide)⟩

set_option maxRecDepth 100000 in
/-- C30 fails on the code: the table `a (id int, flag bool)` holds the record
`(1, true)` and the table `b (id int, word text(10))` the record `(1, 'true')`.  The
rendered value of `flag` in the one and of `word` in the other is `true` both times,
and `inner_join` on `a.flag = b.word` joins no record: its join text has no case for a
Bool and is the stored byte, the text of one byte of value 1, which it compares with
the text `true`. -/
theorem inner_join_bool_is_not_rendered :
    load_table_from_file example_join_fs (table_filename (cstr "a")) =
        some (some example_table_a) ∧
      load_table_from_file example_join_fs (table_filename (cstr "b")) =
        some (some example_table_b) ∧
      example_join_fs.files example_table_a.filename = some example_file_a ∧
      example_join_fs.files example_table_b.filename = some example_file_b ∧
      field_text [1, 0, 0, 0, 1] 4 { name := cstr "flag", type := .FIELD_BOOL, size := 1 } =
        cstr "true" ∧
      field_text ([1, 0, 0, 0] ++ cstr "true" ++ [0, 0, 0, 0, 0, 0]) 4
        { name := cstr "word", type := .FIELD_TEXT, size := 10 } = cstr "true" ∧
      join_value [1, 0, 0, 0, 1] 4 { name := cstr "flag", type := .FIELD_BOOL, size := 1 } =
        [1] ∧
      inner_join example_join_fs example_table_a example_table_b (cstr "flag") (cstr "word") =
        cstr "Performing INNER JOIN on a.flag = b.word\n" ++
        cstr "INNER JOIN completed. 0 records joined.\n" := by
  refine ⟨?_, ?_, ?_, ?_, ?_, ?_, ?_, ?_⟩ <;> decide

/-! ### The parser of WHERE clauses on clauses of the specified form -/

theorem parse_where_loop_fuel_le (fuel : Nat) (tok : Option (List Nat)) (saved : List Nat)
    (state : Nat) (current : WhereCondition) (conditions : List WhereCondition)
    (h1 : tok = none → 1 ≤ fuel)
    (h2 : ∀ t, tok = some t → t ≠ [] ∧ t.length + saved.length + 1 ≤ fuel) (k : Nat) :
    parse_where_loop (fuel + k) tok saved state current conditions =
      parse_where_loop fuel tok saved state current conditions := by
  induction k with
  | zero => rfl
  | succ k ih =>
    rw [← ih, ← Nat.add_assoc]
    apply parse_where_loop_fuel
    · intro h; have := h1 h; omega
    · intro t e
      have := h2 t e
      exact ⟨this.1, by omega⟩

theorem parse_where_loop_text (fuel : Nat) (text : List Nat) (state : Nat)
    (current : WhereCondition) (conditions : List WhereCondition)
    (h : text.length + 1 ≤ fuel) :
    parse_where_loop fuel (strtok text (cstr " ")).1 (strtok text (cstr " ")).2 state current
        conditions =
      parse_where_text text state current conditions := by
  obtain ⟨k, rfl⟩ : ∃ k, fuel = text.length + 1 + k := ⟨fuel - (text.length + 1), by omega⟩
  unfold parse_where_text
  apply parse_where_loop_fuel_le
  · intro _; omega
  · intro t e
    have := strtok_token_length text (cstr " ") t e
    exact ⟨this.1, by omega⟩

theorem is_word_spec {t : List Nat} (h : is_word t = true) :
    t ≠ [] ∧ ∀ c ∈ t, c ∉ cstr " " := by
  simp only [is_word, Bool.and_eq_true, bne_iff_ne, ne_eq, List.all_eq_true] at h
  refine ⟨h.1, fun c hc => ?_⟩
  have := h.2 c hc
  simp only [cstr] at *
  intro hm
  simp at hm
  exact this hm

theorem parse_where_text_nil (state : Nat) (current : WhereCondition)
    (conditions : List WhereCondition) :
    parse_where_text [] state current conditions = some conditions := by
  simp [parse_where_text, strtok, parse_where_loop]

/-- One round of the loop on a text that starts with a token. -/
theorem parse_where_text_token (t rest : List Nat) (state : Nat) (current : WhereCondition)
    (conditions : List WhereCondition) (ht : is_word t = true)
    (hrest : ∀ c ∈ rest.head?, c ∈ cstr " ") :
    parse_where_text (t ++ rest) state current conditions =
      parse_where_loop ((t ++ rest).length + 1) (some t) (rest.drop 1) state current
        conditions := by
  obtain ⟨hne, hw⟩ := is_word_spec ht
  unfold parse_where_text
  rw [strtok_token t rest (cstr " ") hne hw hrest]

theorem parse_where_text_state0 (t rest : List Nat) (current : WhereCondition)
    (conditions : List WhereCondition) (ht : is_word t = true)
    (hrest : ∀ c ∈ rest.head?, c ∈ cstr " ") (hc : conditions.length < 10) :
    parse_where_text (t ++ rest) 0 current conditions =
      parse_where_text (rest.drop 1) 1 { current with field_name := t } conditions := by
  have hpos : 1 ≤ t.length := List.length_pos.2 (is_word_spec ht).1
  rw [parse_where_text_token t rest _ _ _ ht hrest, parse_where_loop]
  simp only [hc, if_true]
  exact parse_where_loop_text _ _ _ _ _
    (by simp only [List.length_drop, List.length_append]; omega)

theorem parse_where_text_state1 (t rest : List Nat) (current : WhereCondition)
    (conditions : List WhereCondition) (ht : is_word t = true)
    (hrest : ∀ c ∈ rest.head?, c ∈ cstr " ") (hc : conditions.length < 10) :
    parse_where_text (t ++ rest) 1 current conditions =
      parse_where_text (rest.drop 1) 2 { current with operator := t } conditions := by
  have hpos : 1 ≤ t.length := List.length_pos.2 (is_word_spec ht).1
  rw [parse_where_text_token t rest _ _ _ ht hrest, parse_where_loop]
  simp only [hc, if_true, Nat.one_ne_zero, if_false]
  exact parse_where_loop_text _ _ _ _ _
    (by simp only [List.length_drop, List.length_append]; omega)

theorem parse_where_text_state2 (t rest : List Nat) (current : WhereCondition)
    (conditions : List WhereCondition) (ht : is_word t = true)
    (hrest : ∀ c ∈ rest.head?, c ∈ cstr " ") (hc : conditions.length < 10)
    (hq : t.head? ≠ some 39) :
    parse_where_text (t ++ rest) 2 current conditions =
      parse_where_text (rest.drop 1) 3
        { field_name := [], operator := [], value := [], is_and := false }
        (conditions ++ [{ current with value := t }]) := by
  have hpos : 1 ≤ t.length := List.length_pos.2 (is_word_spec ht).1
  rw [parse_where_text_token t rest _ _ _ ht hrest, parse_where_loop]
  simp only [hc, if_true, OfNat.ofNat_ne_zero, OfNat.ofNat_ne_one, if_false, hq]
  exact parse_where_loop_text _ _ _ _ _
    (by simp only [List.length_drop, List.length_append]; omega)

theorem parse_where_text_state3 (t rest : List Nat) (current : WhereCondition)
    (conditions : List WhereCondition) (ht : is_word t = true)
    (hrest : ∀ c ∈ rest.head?, c ∈ cstr " ") (hc : conditions.length < 10) :
    parse_where_text (t ++ rest) 3 current conditions =
      parse_where_text (rest.drop 1) 0
        (if strcasecmp t (cstr "AND") = 0 then { current with is_and := true }
          else if strcasecmp t (cstr "OR") = 0 then { current with is_and := false }
          else current) conditions := by
  have hpos : 1 ≤ t.length := List.length_pos.2 (is_word_spec ht).1
  rw [parse_where_text_token t rest _ _ _ ht hrest, parse_where_loop]
  simp only [hc, if_true, OfNat.ofNat_ne_zero, OfNat.ofNat_ne_one, if_false,
    show ¬ (3 : Nat) = 2 by decide]
  exact parse_where_loop_text _ _ _ _ _
    (by simp only [List.length_drop, List.length_append]; omega)

theorem quote_free_last {w : List Nat} (hne : w ≠ []) (hq : ∀ c ∈ w, c ≠ 39)
    (value : List Nat) : ∃ c, (value ++ w).getLast? = some c ∧ c ≠ 39 := by
  obtain ⟨c, hc⟩ : ∃ c, w.getLast? = some c := by
    cases h : w.getLast? with
    | none => exact absurd (List.getLast?_eq_none_iff.1 h) hne
    | some c => exact ⟨c, rfl⟩
  refine ⟨c, ?_, hq c (List.mem_of_getLast?_eq_some hc)⟩
  rw [List.getLast?_append, hc]
  rfl

theorem word_quote_is_word {w : List Nat} (h : is_word w = true) :
    is_word (w ++ cstr "'") = true := by
  have h1 : is_word w = true := h
  simp only [is_word, Bool.and_eq_true, bne_iff_ne, ne_eq, List.all_eq_true] at h ⊢
  refine ⟨by simp [cstr], ?_⟩
  intro c hc
  rcases List.mem_append.1 hc with hc | hc
  · exact h.2 c hc
  · have : c = 39 := by simpa [cstr] using hc
    subst this
    decide

/-- The loop that joins the tokens of a quoted value, on the words that follow the
first: the words are appended with a space in front of each, up to the closing quote. -/
theorem collect_quoted_words (ws : List (List Nat)) :
    ∀ (fuel : Nat) (value tok rest : List Nat), ws ≠ [] →
      (∀ w ∈ ws, is_word w = true ∧ ∀ c ∈ w, c ≠ 39) →
      (∃ c, value.getLast? = some c ∧ c ≠ 39) →
      (∀ c ∈ rest.head?, c ∈ cstr " ") →
      (List.intercalate (cstr " ") ws ++ cstr "'" ++ rest).length + 2 ≤ fuel →
      ∃ tok2, collect_quoted fuel value (some tok)
          (List.intercalate (cstr " ") ws ++ cstr "'" ++ rest) =
        some (value ++ cstr " " ++ List.intercalate (cstr " ") ws ++ cstr "'", some tok2,
          rest.drop 1) := by
  induction ws with
  | nil => intro fuel value tok rest h; exact absurd rfl h
  | cons w ws ih =>
    intro fuel value tok rest _ hws hval hrest hfuel
    obtain ⟨hw, hwq⟩ := hws w (List.mem_cons_self _ _)
    obtain ⟨c, hc, hc39⟩ := hval
    obtain ⟨fuel, rfl⟩ : ∃ f, fuel = f + 1 := ⟨fuel - 1, by omega⟩
    have e1 : (cstr " ").length = 1 := rfl
    have e2 : (cstr "'").length = 1 := rfl
    cases ws with
    | nil =>
      have hint : List.intercalate (cstr " ") [w] = w := by
        simp [List.intercalate, List.intersperse]
      rw [hint] at hfuel ⊢
      have hst := strtok_token (w ++ cstr "'") rest (cstr " ")
        (by simp [cstr]) (is_word_spec (word_quote_is_word hw)).2 hrest
      obtain ⟨fuel, rfl⟩ : ∃ f, fuel = f + 1 := ⟨fuel - 1, by
        simp only [List.length_append] at hfuel; omega⟩
      refine ⟨w ++ cstr "'", ?_⟩
      rw [collect_quoted, hc]
      simp only [hc39, ne_eq, not_false_eq_true, if_true]
      rw [hst]
      simp only []
      rw [collect_quoted]
      have hl : (value ++ cstr " " ++ (w ++ cstr "'")).getLast? = some 39 := by
        rw [← List.append_assoc, List.getLast?_append]
        rfl
      rw [hl]
      simp only [ne_eq, not_true_eq_false, if_false, List.append_assoc]
    | cons w2 ws =>
      have hint : List.intercalate (cstr " ") (w :: w2 :: ws) =
          w ++ (cstr " " ++ List.intercalate (cstr " ") (w2 :: ws)) := by
        rw [intercalate_cons_cons, List.append_assoc]
      rw [hint] at hfuel ⊢
      have hst := strtok_token w
        (cstr " " ++ List.intercalate (cstr " ") (w2 :: ws) ++ cstr "'" ++ rest) (cstr " ")
        (is_word_spec hw).1 (is_word_spec hw).2 (by simp [cstr])
      have hdrop : (cstr " " ++ List.intercalate (cstr " ") (w2 :: ws) ++ cstr "'" ++ rest).drop 1
          = List.intercalate (cstr " ") (w2 :: ws) ++ cstr "'" ++ rest := by
        simp [cstr]
      rw [hdrop] at hst
      have hassoc : w ++ (cstr " " ++ List.intercalate (cstr " ") (w2 :: ws)) ++ cstr "'" ++ rest
          = w ++ (cstr " " ++ List.intercalate (cstr " ") (w2 :: ws) ++ cstr "'" ++ rest) := by
        simp only [List.append_assoc]
      rw [hassoc] at hfuel ⊢
      obtain ⟨tok2, h2⟩ := ih fuel (value ++ cstr " " ++ w) w rest (by simp)
        (fun x hx => hws x (List.mem_cons_of_mem _ hx))
        (quote_free_last (is_word_spec hw).1 hwq _) hrest
        (by simp only [List.length_append] at hfuel ⊢; omega)
      refine ⟨tok2, ?_⟩
      rw [collect_quoted, hc]
      simp only [hc39, ne_eq, not_false_eq_true, if_true]
      rw [hst]
      simp only []
      rw [h2]
      simp only [List.append_assoc]

theorem quote_word_is_word {w : List Nat} (h : is_word w = true) :
    is_word (cstr "'" ++ w) = true := by
  simp only [is_word, Bool.and_eq_true, bne_iff_ne, ne_eq, List.all_eq_true] at h ⊢
  refine ⟨by simp [cstr], ?_⟩
  intro c hc
  rcases List.mem_append.1 hc with hc | hc
  · have : c = 39 := by simpa [cstr] using hc
    subst this
    decide
  · exact h.2 c hc

theorem parse_where_text_quoted (ws : List (List Nat)) (rest : List Nat)
    (current : WhereCondition) (conditions : List WhereCondition) (hne : ws ≠ [])
    (hws : ∀ w ∈ ws, is_word w = true ∧ ∀ c ∈ w, c ≠ 39)
    (hrest : ∀ c ∈ rest.head?, c ∈ cstr " ") (hc : conditions.length < 10) :
    parse_where_text (cstr "'" ++ List.intercalate (cstr " ") ws ++ cstr "'" ++ rest) 2 current
        conditions =
      parse_where_text (rest.drop 1) 3
        { field_name := [], operator := [], value := [], is_and := false }
        (conditions ++ [{ current with value := List.intercalate (cstr " ") ws }]) := by
  have e1 : (cstr " ").length = 1 := rfl
  have e2 : (cstr "'").length = 1 := rfl
  cases ws with
  | nil => exact absurd rfl hne
  | cons w ws =>
    obtain ⟨hw, hwq⟩ := hws w (List.mem_cons_self _ _)
    have hwpos : 1 ≤ w.length := List.length_pos.2 (is_word_spec hw).1
    cases ws with
    | nil =>
      have hint : List.intercalate (cstr " ") [w] = w := by
        simp [List.intercalate, List.intersperse]
      rw [hint]
      have ht : is_word (cstr "'" ++ w ++ cstr "'") = true :=
        word_quote_is_word (quote_word_is_word hw)
      rw [parse_where_text_token _ rest _ _ _ ht hrest, parse_where_loop]
      have hhead : (cstr "'" ++ w ++ cstr "'").head? = some 39 := by simp [cstr]
      have hdrop : (cstr "'" ++ w ++ cstr "'").drop 1 = w ++ cstr "'" := by simp [cstr]
      have hlast : (w ++ cstr "'").getLast? = some 39 := by
        rw [List.getLast?_append]; rfl
      obtain ⟨f, hf⟩ : ∃ f, (cstr "'" ++ w ++ cstr "'" ++ rest).length = f + 1 :=
        ⟨(cstr "'" ++ w ++ cstr "'" ++ rest).length - 1, by
          simp only [List.length_append]; omega⟩
      simp only [hc, if_true, OfNat.ofNat_ne_zero, OfNat.ofNat_ne_one, if_false, hhead, hdrop]
      rw [hf, collect_quoted, hlast]
      simp only [ne_eq, not_true_eq_false, if_false, hlast, if_true]
      have hdl : (w ++ cstr "'").dropLast = w := List.dropLast_concat
      rw [hdl, ← hf]
      exact parse_where_loop_text _ _ _ _ _
        (by simp only [List.length_drop, List.length_append]; omega)
    | cons w2 ws =>
      have hint : List.intercalate (cstr " ") (w :: w2 :: ws) =
          w ++ (cstr " " ++ List.intercalate (cstr " ") (w2 :: ws)) := by
        rw [intercalate_cons_cons, List.append_assoc]
      have htext : cstr "'" ++ List.intercalate (cstr " ") (w :: w2 :: ws) ++ cstr "'" ++ rest =
          (cstr "'" ++ w) ++
            (cstr " " ++ (List.intercalate (cstr " ") (w2 :: ws) ++ cstr "'" ++ rest)) := by
        rw [hint]; simp only [List.append_assoc]
      rw [htext, parse_where_text_token _ _ _ _ _ (quote_word_is_word hw) (by simp [cstr]),
        parse_where_loop]
      have hhead : (cstr "'" ++ w).head? = some 39 := by simp [cstr]
      have hdrop : (cstr "'" ++ w).drop 1 = w := by simp [cstr]
      have hdrop2 : (cstr " " ++ (List.intercalate (cstr " ") (w2 :: ws) ++ cstr "'" ++
          rest)).drop 1 = List.intercalate (cstr " ") (w2 :: ws) ++ cstr "'" ++ rest := by
        simp [cstr]
      simp only [hc, if_true, OfNat.ofNat_ne_zero, OfNat.ofNat_ne_one, if_false, hhead, hdrop,
        hdrop2]
      obtain ⟨tok2, h2⟩ := collect_quoted_words (w2 :: ws)
        (cstr "'" ++ w ++
          (cstr " " ++ (List.intercalate (cstr " ") (w2 :: ws) ++ cstr "'" ++ rest))).length
        w (cstr "'" ++ w) rest (by simp)
        (fun x hx => hws x (List.mem_cons_of_mem _ hx))
        (by simpa using quote_free_last (is_word_spec hw).1 hwq [])
        hrest (by simp only [List.length_append]; omega)
      rw [h2]
      have hlast : (w ++ cstr " " ++ List.intercalate (cstr " ") (w2 :: ws) ++
          cstr "'").getLast? = some 39 := by
        rw [List.getLast?_append]; rfl
      have hdl : (w ++ cstr " " ++ List.intercalate (cstr " ") (w2 :: ws) ++
          cstr "'").dropLast = w ++ cstr " " ++ List.intercalate (cstr " ") (w2 :: ws) :=
        List.dropLast_concat
      dsimp only
      rw [if_pos hlast, hdl]
      have hint2 : List.intercalate (cstr " ") (w :: w2 :: ws) =
          w ++ cstr " " ++ List.intercalate (cstr " ") (w2 :: ws) := by
        rw [hint, List.append_assoc]
      rw [hint2]
      refine parse_where_loop_text _ _ _ _ _ ?_
      simp only [List.length_drop, List.length_append]; omega

theorem word_of_strcasecmp {a b : List Nat} (h : strcasecmp a b = 0)
    (hb : is_word (b.map tolower) = true) : is_word a = true := by
  have e : a.map tolower = b.map tolower := strcmp_eq_zero h
  simp only [is_word, Bool.and_eq_true, bne_iff_ne, ne_eq, List.all_eq_true] at hb ⊢
  refine ⟨?_, ?_⟩
  · intro ha
    rw [ha] at e
    exact hb.1 e.symm
  · intro x hx hx32
    have hm : tolower x ∈ b.map tolower := e ▸ List.mem_map_of_mem tolower hx
    have := hb.2 _ hm
    rw [hx32] at this
    exact this (by decide)

theorem connector_is_word {c : ConditionText} (h : c.joined = true) :
    is_word c.connector = true := by
  simp only [ConditionText.joined, Bool.or_eq_true, decide_eq_true_eq] at h
  rcases h with h | h
  · exact word_of_strcasecmp h (by decide)
  · exact word_of_strcasecmp h (by decide)

theorem head_space_append (rest : List Nat) :
    ∀ c ∈ (cstr " " ++ rest).head?, c ∈ cstr " " := by
  intro c hc
  have : c = 32 := by simpa [cstr] using hc.symm
  subst this
  decide

theorem drop_space_append (a : List Nat) : (cstr " " ++ a).drop 1 = a := by
  simp [cstr]

theorem clause_tail_head (cs : List ConditionText) :
    ∀ c ∈ (clause_tail cs).head?, c ∈ cstr " " := by
  cases cs with
  | nil => intro c hc; simp [clause_tail] at hc
  | cons d ds =>
    intro c hc
    have : c = 32 := by simpa [clause_tail, cstr] using hc.symm
    subst this
    decide

theorem parse_where_text_quoted_nil (rest : List Nat) (current : WhereCondition)
    (conditions : List WhereCondition) (hrest : ∀ c ∈ rest.head?, c ∈ cstr " ")
    (hc : conditions.length < 10) :
    parse_where_text (cstr "''" ++ rest) 2 current conditions =
      parse_where_text (rest.drop 1) 3
        { field_name := [], operator := [], value := [], is_and := false }
        (conditions ++ [{ current with value := [] }]) := by
  rw [parse_where_text_token _ rest _ _ _ (by decide) hrest, parse_where_loop]
  have hhead : (cstr "''").head? = some 39 := rfl
  have hdrop : (cstr "''").drop 1 = cstr "'" := rfl
  have hlast : (cstr "'").getLast? = some 39 := rfl
  have hdl : (cstr "'").dropLast = [] := rfl
  obtain ⟨f, hf⟩ : ∃ f, (cstr "''" ++ rest).length = f + 1 :=
    ⟨(cstr "''" ++ rest).length - 1, by
      simp only [List.length_append, show (cstr "''").length = 2 from rfl]; omega⟩
  simp only [hc, if_true, OfNat.ofNat_ne_zero, OfNat.ofNat_ne_one, if_false, hhead, hdrop]
  rw [hf, collect_quoted, hlast]
  simp only [ne_eq, not_true_eq_false, if_false, hlast, if_true]
  rw [hdl, ← hf]
  refine parse_where_loop_text _ _ _ _ _ ?_
  simp only [List.length_drop, List.length_append, show (cstr "''").length = 2 from rfl]
  omega

/-- The loop reads the three tokens of one condition and stores the condition. -/
theorem parse_where_text_condition (c : ConditionText) (rest : List Nat)
    (current : WhereCondition) (conditions : List WhereCondition)
    (hwf : c.wellFormed = true) (hrest : ∀ x ∈ rest.head?, x ∈ cstr " ")
    (hc : conditions.length < 10) :
    parse_where_text (c.render ++ rest) 0 current conditions =
      parse_where_text (rest.drop 1) 3
        { field_name := [], operator := [], value := [], is_and := false }
        (conditions ++
          [{ field_name := c.field_name, operator := c.operator, value := c.value.value,
             is_and := current.is_and }]) := by
  simp only [ConditionText.wellFormed, Bool.and_eq_true] at hwf
  obtain ⟨⟨hf, ho⟩, hv⟩ := hwf
  have e : c.render ++ rest =
      c.field_name ++ (cstr " " ++ (c.operator ++ (cstr " " ++ (c.value.render ++ rest)))) := by
    simp only [ConditionText.render, List.append_assoc]
  rw [e, parse_where_text_state0 _ _ _ _ hf (head_space_append _)  hc,
    drop_space_append,
    parse_where_text_state1 _ _ _ _ ho (head_space_append _) hc,
    drop_space_append]
  cases hval : c.value with
  | token t =>
    rw [hval] at hv
    simp only [ValueText.wellFormed, Bool.and_eq_true, bne_iff_ne, ne_eq] at hv
    simp only [ValueText.render, ValueText.value]
    rw [parse_where_text_state2 _ _ _ _ hv.1 hrest hc hv.2]
  | quoted ws =>
    rw [hval] at hv
    simp only [ValueText.wellFormed, Bool.and_eq_true, bne_iff_ne, ne_eq,
      List.all_eq_true] at hv
    simp only [ValueText.render, ValueText.value]
    by_cases hne : ws = []
    · subst hne
      exact parse_where_text_quoted_nil rest _ _ hrest hc
    · rw [parse_where_text_quoted ws rest _ _ hne
        (fun w hw => ⟨(hv w hw).1, fun x hx => (hv w hw).2 x hx⟩) hrest hc]

/-- The loop, after a value, reads the conditions that follow with their connectors. -/
theorem parse_where_text_tail (cs : List ConditionText) :
    ∀ conditions : List WhereCondition,
      (∀ c ∈ cs, c.wellFormed = true ∧ c.joined = true) →
      conditions.length + cs.length ≤ 10 →
      parse_where_text ((clause_tail cs).drop 1) 3
          { field_name := [], operator := [], value := [], is_and := false } conditions =
        some (conditions ++ cs.map (ConditionText.condition false)) := by
  induction cs with
  | nil =>
    intro conditions _ _
    simp only [clause_tail, List.drop_nil, List.map_nil, List.append_nil]
    exact parse_where_text_nil _ _ _
  | cons c cs ih =>
    intro conditions hcs hlen
    obtain ⟨hwf, hj⟩ := hcs c (List.mem_cons_self _ _)
    have hc : conditions.length < 10 := by
      simp only [List.length_cons] at hlen; omega
    have e : (clause_tail (c :: cs)).drop 1 =
        c.connector ++ (cstr " " ++ (c.render ++ clause_tail cs)) := by
      simp only [clause_tail, List.append_assoc]
      exact drop_space_append _
    rw [e, parse_where_text_state3 _ _ _ _ (connector_is_word hj)
      (head_space_append _) hc, drop_space_append,
      parse_where_text_condition c _ _ _ hwf (clause_tail_head cs) hc,
      ih _ (fun d hd => hcs d (List.mem_cons_of_mem _ hd))
        (by simp only [List.length_append, List.length_cons, List.length_nil] at hlen ⊢; omega)]
    simp only [List.map_cons, List.append_assoc, List.singleton_append, ConditionText.condition,
      Bool.not_false, Bool.true_and]
    simp only [ConditionText.joined, Bool.or_eq_true, decide_eq_true_eq] at hj
    by_cases h1 : strcasecmp c.connector (cstr "AND") = 0
    · simp [h1]
    · have h2 : strcasecmp c.connector (cstr "OR") = 0 := hj.resolve_left h1
      simp [h1, h2]

set_option maxRecDepth 100000 in
/-- C24: a quoted text with two spaces in a row is not returned as written: the clause
`name = 'a  b' AND id > 0` gives the value `a b` for the first condition, with one
space, because the tokens of the text are joined again with single spaces. -/
theorem parse_where_conditions_joins_spaces :
    parse_where_conditions (cstr "name = 'a  b' AND id > 0") =
        some [{ field_name := cstr "name", operator := cstr "=", value := cstr "a b",
                is_and := false },
              { field_name := cstr "id", operator := cstr ">", value := cstr "0",
                is_and := true }] ∧
      cstr "a b" ≠ cstr "a  b" := by
  decide

/-- C24 (amended): for every clause `f1 o1 v1 C2 f2 o2 v2 ... Cn fn on vn` of at most 10
conditions whose tokens are separated by single spaces and fit the buffers of the
source, each connector being AND or OR in any letter case and each value either one
token that does not start with a quote or a quoted text of quote-free words with
exactly one space between them and none at its ends, `parse_where_conditions` returns
exactly the conditions of the clause in order, with the fields, the operators and the
values without their quotes, the flag `is_and` of a later condition being set exactly
when its connector is AND (that of the first condition is clear). -/
theorem parse_where_conditions_clause (cs : List ConditionText) (hlen : cs.length ≤ 10)
    (hsize : (clause_text cs).length < MAX_QUERY_LENGTH)
    (hwf : ∀ c ∈ cs, c.wellFormed = true ∧ c.fits = true)
    (hj : ∀ c ∈ cs.tail, c.joined = true) :
    parse_where_conditions (clause_text cs) = some (clause_conditions cs) ∧
      (clause_conditions cs).length = cs.length ∧
      ∀ i (h : i < cs.length) (h2 : i < (clause_conditions cs).length),
        ((clause_conditions cs).get ⟨i, h2⟩).field_name = (cs.get ⟨i, h⟩).field_name ∧
        ((clause_conditions cs).get ⟨i, h2⟩).operator = (cs.get ⟨i, h⟩).operator ∧
        ((clause_conditions cs).get ⟨i, h2⟩).value = (cs.get ⟨i, h⟩).value.value ∧
        (((clause_conditions cs).get ⟨i, h2⟩).is_and = true ↔
          1 ≤ i ∧ strcasecmp (cs.get ⟨i, h⟩).connector (cstr "AND") = 0) := by
  cases cs with
  | nil =>
    refine ⟨by simp [clause_text, clause_conditions, parse_where_conditions, strtok,
      parse_where_loop], rfl, ?_⟩
    intro i h
    exact absurd h (by simp)
  | cons c cs =>
    refine ⟨?_, by simp [clause_conditions], ?_⟩
    · have h0 : parse_where_conditions (clause_text (c :: cs)) =
          parse_where_text (c.render ++ clause_tail cs) 0
            { field_name := [], operator := [], value := [], is_and := false } [] := rfl
      rw [h0, parse_where_text_condition c _ _ _ (hwf c (List.mem_cons_self _ _)).1
        (clause_tail_head cs) (by simp),
        parse_where_text_tail cs _
          (fun d hd => ⟨(hwf d (List.mem_cons_of_mem _ hd)).1, hj d hd⟩)
          (by simp only [List.length_cons, List.nil_append, List.length_nil] at hlen ⊢; omega)]
      rfl
    · intro i h h2
      cases i with
      | zero => simp [clause_conditions, ConditionText.condition]
      | succ i =>
        simp [clause_conditions, ConditionText.condition]

set_option maxRecDepth 100000 in
theorem parse_where_conditions_clause_witness :
    parse_where_conditions (cstr "name = 'Ann Lee' and id >= 2 OR city != ''") =
      some [{ field_name := cstr "name", operator := cstr "=", value := cstr "Ann Lee",
              is_and := false },
            { field_name := cstr "id", operator := cstr ">=", value := cstr "2",
              is_and := true },
            { field_name := cstr "city", operator := cstr "!=", value := [],
              is_and := false }] :=
  (parse_where_conditions_clause
    [{ connector := [], field_name := cstr "name", operator := cstr "=",
       value := .quoted [cstr "Ann", cstr "Lee"] },
     { connector := cstr "and", field_name := cstr "id", operator := cstr ">=",
       value := .token (cstr "2") },
     { connector := cstr "OR", field_name := cstr "city", operator := cstr "!=",
       value := .quoted [] }]
    (by decide) (by decide) (by decide) (by decide)).1

/-! ### The claims on joins of the other kinds and on the session -/

theorem mem_join_pairs (accept : List Nat → List Nat → Bool) (left right : List (List Nat))
    (p : List Nat × List Nat) :
    p ∈ join_pairs accept left right ↔ p.1 ∈ left ∧ p.2 ∈ right ∧ accept p.1 p.2 = true := by
  obtain ⟨l, r⟩ := p
  simp only [join_pairs, List.mem_flatten, List.mem_map, List.mem_filter]
  constructor
  · rintro ⟨_, ⟨l2, hl, rfl⟩, h⟩
    obtain ⟨r2, hr2, h⟩ := List.mem_map.1 h
    simp only [Prod.mk.injEq] at h
    obtain ⟨rfl, rfl⟩ := h
    exact ⟨hl, (List.mem_filter.1 hr2).1, (List.mem_filter.1 hr2).2⟩
  · rintro ⟨hl, hr, hacc⟩
    exact ⟨_, ⟨l, hl, rfl⟩, List.mem_map.2 ⟨r, List.mem_filter.2 ⟨hr, hacc⟩, rfl⟩⟩

/-- C31: `left_join`, `right_join` and `full_join` print their notice (`LEFT`, `RIGHT`,
`FULL JOIN not fully implemented yet`) and then exactly what `inner_join` prints on the
same arguments, and `perform_join` with the kind `LEFT`, `RIGHT` or `FULL` prints the
notice and then what it prints with the kind `INNER`.  With the two files and the join
fields in place the rows after the notice are those of the pairs of `inner_join` and
the count is their number; every pair is a record of the first file and a record of
the second with equal join texts, so no row stands for a record without a partner. -/
theorem outer_joins_print_inner_join (fs : FileSystem) (table1 table2 : Table)
    (name1 name2 field1 field2 : List Nat) (file1 file2 : TableFile) (i1 i2 : Nat)
    (hload1 : load_table_from_file fs (table_filename name1) = some (some table1))
    (hload2 : load_table_from_file fs (table_filename name2) = some (some table2))
    (hfile1 : fs.files table1.filename = some file1)
    (hfile2 : fs.files table2.filename = some file2)
    (hidx1 : field_index (table1.fields.take table1.field_count) field1 0 = some i1)
    (hidx2 : field_index (table2.fields.take table2.field_count) field2 0 = some i2) :
    left_join fs table1 table2 field1 field2 =
        cstr "LEFT JOIN not fully implemented yet\n" ++
          inner_join fs table1 table2 field1 field2 ∧
      right_join fs table1 table2 field1 field2 =
        cstr "RIGHT JOIN not fully implemented yet\n" ++
          inner_join fs table1 table2 field1 field2 ∧
      full_join fs table1 table2 field1 field2 =
        cstr "FULL JOIN not fully implemented yet\n" ++
          inner_join fs table1 table2 field1 field2 ∧
      perform_join fs { table1 := name1, table2 := name2, field1 := field1, field2 := field2,
                        join_type := cstr "INNER" } =
        some (inner_join fs table1 table2 field1 field2) ∧
      (∀ kind ∈ [cstr "LEFT", cstr "RIGHT", cstr "FULL"],
        perform_join fs { table1 := name1, table2 := name2, field1 := field1,
                          field2 := field2, join_type := kind } =
          some (kind ++ cstr " JOIN not fully implemented yet\n" ++
            inner_join fs table1 table2 field1 field2)) ∧
      ∃ pairs : List (List Nat × List Nat),
        inner_join fs table1 table2 field1 field2 =
          cstr "Performing INNER JOIN on " ++ table1.name ++ cstr "." ++ field1 ++
            cstr " = " ++ table2.name ++ cstr "." ++ field2 ++ cstr "\n" ++
          joined_rows table1 table2 pairs 0 ++
          cstr "INNER JOIN completed. " ++ printf_d (pairs.length : Nat) ++
          cstr " records joined.\n" ∧
        ∀ p ∈ pairs, ∃ f1 f2,
          (table1.fields.take table1.field_count).get? i1 = some f1 ∧
          (table2.fields.take table2.field_count).get? i2 = some f2 ∧
          p.1 ∈ complete_records table1.record_size file1.records ∧
          p.2 ∈ complete_records table2.record_size file2.records ∧
          join_value p.1 (field_offset (table1.fields.take table1.field_count) i1) f1 =
            join_value p.2 (field_offset (table2.fields.take table2.field_count) i2) f2 := by
  refine ⟨rfl, rfl, rfl, ?_, ?_, ?_⟩
  · simp only [perform_join, hload1, hload2]
    rfl
  · intro kind hk
    simp only [List.mem_cons, List.mem_singleton, List.not_mem_nil, or_false] at hk
    rcases hk with rfl | rfl | rfl
    · simp only [perform_join, hload1, hload2]
      rfl
    · simp only [perform_join, hload1, hload2]
      rfl
    · simp only [perform_join, hload1, hload2]
      rfl
  · obtain ⟨f1, hf1, _⟩ := field_index_get _ _ 0 i1 hidx1
    obtain ⟨f2, hf2, _⟩ := field_index_get _ _ 0 i2 hidx2
    simp only [Nat.sub_zero] at hf1 hf2
    refine ⟨join_pairs
      (fun l r => decide
        (join_value l (field_offset (table1.fields.take table1.field_count) i1) f1 =
          join_value r (field_offset (table2.fields.take table2.field_count) i2) f2))
      (complete_records table1.record_size file1.records)
      (complete_records table2.record_size file2.records), ?_, ?_⟩
    · unfold inner_join
      simp only [hidx1, hidx2, hfile1, hfile2, hf1, hf2, inner_join_scan1_pairs, file_records,
        fread_records_complete _ _ _ (Nat.lt_succ_self _), Nat.zero_add, List.append_assoc]
    · intro p hp
      obtain ⟨hl, hr, hacc⟩ := (mem_join_pairs _ _ _ p).1 hp
      exact ⟨f1, f2, hf1, hf2, hl, hr, of_decide_eq_true hacc⟩

set_option maxRecDepth 100000 in
theorem outer_joins_print_inner_join_witness :
    perform_join example_join_fs
        { table1 := cstr "a", table2 := cstr "b", field1 := cstr "id", field2 := cstr "id",
          join_type := cstr "LEFT" } =
      some (cstr "LEFT JOIN not fully implemented yet\n" ++
        inner_join example_join_fs example_table_a example_table_b (cstr "id") (cstr "id")) :=
  (outer_joins_print_inner_join example_join_fs example_table_a example_table_b
    (cstr "a") (cstr "b") (cstr "id") (cstr "id") example_file_a example_file_b 0 0
    (by decide) (by decide) (by decide) (by decide) (by decide) (by decide)).2.2.2.2.1
    (cstr "LEFT") (by decide)

set_option maxRecDepth 100000 in
/-- C32 fails on the code.  For `SELECT * FROM t1 JOIN t2 ON t1.f1 = t2.f2` the join
that `process_command` hands to `perform_join` has `table1 = t2`, `table2 = t2`,
`field1 = t1` and `field2 = f2`: the text in front of the first dot is stored as the
first field and the text in front of the second dot as the first table.  A kind word
at the end is not looked at (the statement is cut at `ON` before the search) and
becomes a part of the second field, `f2 LEFT`; the kind stays `INNER`.  On the tables
`a` and `b` the statement `SELECT * FROM a JOIN b ON a.id = b.id` so looks for a field
`a` in the table `b` and prints `Join fields not found`, where the join of the
statement has one row. -/
theorem parse_join_mixes_names :
    parse_join (cstr "* FROM t1 JOIN t2 ON t1.f1 = t2.f2") =
        some { table1 := cstr "t2", table2 := cstr "t2", field1 := cstr "t1",
               field2 := cstr "f2", join_type := cstr "INNER" } ∧
      parse_join (cstr "* FROM t1 JOIN t2 ON t1.f1 = t2.f2 LEFT") =
        some { table1 := cstr "t2", table2 := cstr "t2", field1 := cstr "t1",
               field2 := cstr "f2 LEFT", join_type := cstr "INNER" } ∧
      (process_command example_join_state (cstr "SELECT * FROM a JOIN b ON a.id = b.id")).map
          Prod.snd =
        some (cstr "Performing INNER JOIN on b.a = b.id\nJoin fields not found\n") ∧
      perform_join example_join_state.fs
          { table1 := cstr "a", table2 := cstr "b", field1 := cstr "id", field2 := cstr "id",
            join_type := cstr "INNER" } =
        some (cstr "Performing INNER JOIN on a.id = b.id\nJoined record 1:\n" ++
          cstr "a.id: 1 | a.flag: true | b.id: 1 | b.word: 'true'\n---\n" ++
          cstr "INNER JOIN completed. 1 records joined.\n") := by
  refine ⟨?_, ?_, ?_, ?_⟩ <;> decide

theorem process_command_select (st : State) (command rest : List Nat)
    (hsplit : command_split command = some (cstr "SELECT", rest)) :
    process_command st command = (process_select st rest).map fun out => (st, out) := by
  simp only [process_command, hsplit]
  rfl

/-- C33: a `SELECT` with `JOIN` leaves the state as it is, the schema, the index trees
and the flag `table_loaded` of the session included, whether the statement cannot be
taken apart (nothing is printed), a table is not found, the join fields are not found
or rows are joined; what it prints depends on the files only and is the same under
any session, that of a process without a loaded table included.  The statement
returns when the headers of the two files named are whole or the files absent. -/
theorem join_keeps_session (st : State) (command rest : List Nat)
    (hsplit : command_split command = some (cstr "SELECT", rest))
    (hcount : strstr rest (cstr "COUNT(*)") = none)
    (hjoin : (strstr rest (cstr "JOIN")).isSome = true)
    (hfiles : ∀ join_info, parse_join rest = some join_info →
      load_table_from_file st.fs (table_filename join_info.table1) ≠ none ∧
        load_table_from_file st.fs (table_filename join_info.table2) ≠ none) :
    ∃ out,
      process_command st command = some (st, out) ∧
      out = (match parse_join rest with
        | some join_info => (perform_join st.fs join_info).getD []
        | none => []) ∧
      (∀ session : Session,
        process_command { fs := st.fs, session := session } command =
          some ({ fs := st.fs, session := session }, out)) ∧
      (process_command { fs := st.fs, session := Session.initial } command).map Prod.snd =
        some out ∧
      ∀ join_info, run_statement st (.join join_info) = some st := by
  have hsel : ∀ st2 : State, st2.fs = st.fs →
      process_select st2 rest =
        match parse_join rest with
        | some join_info => perform_join st.fs join_info
        | none => some [] := by
    intro st2 h2
    simp only [process_select, hcount, hjoin, Option.isSome_none, Bool.false_eq_true, if_false,
      if_true, h2]
  cases hp : parse_join rest with
  | none =>
    refine ⟨[], ?_, rfl, ?_, ?_, fun _ => rfl⟩
    · rw [process_command_select st command rest hsplit, hsel st rfl, hp]; rfl
    · intro session
      rw [process_command_select _ command rest hsplit,
        hsel { fs := st.fs, session := session } rfl, hp]; rfl
    · rw [process_command_select _ command rest hsplit,
        hsel { fs := st.fs, session := Session.initial } rfl, hp]; rfl
  | some join_info =>
    obtain ⟨h1, h2⟩ := hfiles join_info hp
    obtain ⟨out, hout⟩ : ∃ out, perform_join st.fs join_info = some out := by
      unfold perform_join
      cases e1 : load_table_from_file st.fs (table_filename join_info.table1) with
      | none => exact absurd e1 h1
      | some r1 =>
        cases r1 with
        | none => exact ⟨_, rfl⟩
        | some table1 =>
          cases e2 : load_table_from_file st.fs (table_filename join_info.table2) with
          | none => exact absurd e2 h2
          | some r2 =>
            cases r2 with
            | none => exact ⟨_, rfl⟩
            | some table2 =>
              simp only []
              split_ifs <;> exact ⟨_, rfl⟩
    refine ⟨out, ?_, by simp only [hout, Option.getD_some], ?_, ?_, fun _ => rfl⟩
    · rw [process_command_select st command rest hsplit, hsel st rfl, hp]
      simp only [hout, Option.map_some']
    · intro session
      rw [process_command_select _ command rest hsplit,
        hsel { fs := st.fs, session := session } rfl, hp]
      simp only [hout, Option.map_some']
    · rw [process_command_select _ command rest hsplit,
        hsel { fs := st.fs, session := Session.initial } rfl, hp]
      simp only [hout, Option.map_some']

set_option maxRecDepth 100000 in
theorem join_keeps_session_witness :
    ∃ out,
      process_command example_join_state (cstr "SELECT * FROM b JOIN b ON id.id = b.id") =
        some (example_join_state, out) ∧
      out = cstr "Performing INNER JOIN on b.id = b.id\nJoined record 1:\n" ++
        cstr "b.id: 1 | b.word: 'true' | b.id: 1 | b.word: 'true'\n---\n" ++
        cstr "INNER JOIN completed. 1 records joined.\n" ∧
      (process_command { fs := example_join_state.fs, session := Session.initial }
          (cstr "SELECT * FROM b JOIN b ON id.id = b.id")).map Prod.snd = some out :=
  have h := join_keeps_session example_join_state
    (cstr "SELECT * FROM b JOIN b ON id.id = b.id") (cstr "* FROM b JOIN b ON id.id = b.id")
    (by decide) (by decide) (by decide)
    (fun join_info hj => by
      have e : parse_join (cstr "* FROM b JOIN b ON id.id = b.id") =
          some { table1 := cstr "b", table2 := cstr "b", field1 := cstr "id",
                 field2 := cstr "id", join_type := cstr "INNER" } := by decide
      rw [e] at hj
      cases hj
      exact ⟨by decide, by decide⟩)
  h.elim fun out ho => ⟨out, ho.1, ho.2.1.trans (by decide), ho.2.2.2.1⟩

/-- C34: in every state, and so in a session that a `USE` has established, a `USE` that
names a table whose file does not exist prints `Table '...' not found`, returns
`false` and leaves the state as it is: the schema, the index trees, the flag and the
file handle of the session are the same, and every statement after it runs as it
would have run without the failed `USE`. -/
theorem use_missing_table_keeps_session (st : State) (command rest table_name : List Nat)
    (commands : List (List Nat))
    (hsplit : command_split command = some (cstr "USE", rest))
    (hname : sscanf_use rest = some table_name)
    (hmissing : st.fs.files (table_filename table_name) = none) :
    load_table st table_name =
        some (st, cstr "Table '" ++ table_name ++ cstr "' not found\n", false) ∧
      process_command st command =
        some (st, cstr "Table '" ++ table_name ++ cstr "' not found\n") ∧
      process_commands st (command :: commands) =
        (process_commands st commands).map fun r =>
          (r.1, (cstr "Table '" ++ table_name ++ cstr "' not found\n") :: r.2) := by
  have h1 : load_table st table_name =
      some (st, cstr "Table '" ++ table_name ++ cstr "' not found\n", false) := by
    simp only [load_table, fopen_rb_plus, hmissing]
    split_ifs <;> rfl
  have h2 : process_command st command =
      some (st, cstr "Table '" ++ table_name ++ cstr "' not found\n") := by
    simp only [process_command, hsplit]
    rw [if_neg (by decide), if_pos (by decide)]
    simp only [hname, h1, Option.map_some']
  refine ⟨h1, h2, ?_⟩
  rw [process_commands]
  simp only [h2]

set_option maxRecDepth 100000 in
theorem use_missing_table_keeps_session_witness :
    process_commands example_people
        [cstr "USE nosuch", cstr "INSERT INTO t VALUES (3, 'Carol')", cstr "SELECT * FROM t"] =
      (process_commands example_people
        [cstr "INSERT INTO t VALUES (3, 'Carol')", cstr "SELECT * FROM t"]).map fun r =>
          (r.1, (cstr "Table '" ++ cstr "nosuch" ++ cstr "' not found\n") :: r.2) :=
  (use_missing_table_keeps_session example_people (cstr "USE nosuch") (cstr "nosuch")
    (cstr "nosuch") [cstr "INSERT INTO t VALUES (3, 'Carol')", cstr "SELECT * FROM t"]
    (by decide) (by decide) (by decide)).2.2

set_option maxRecDepth 100000 in
/-- C36 fails on the code: a WHERE clause that is short of its grammar is not reported,
and rows are printed.  On the table `t (id int, name text(10))` with the records
`(1, 'Alice')` and `(2, 'Bob')` the clauses `id`, `id>5` (no spaces, one token) and
`id >` store no condition at all, so every row is printed and counted, also for
`COUNT(*)`; the clause `id > 1 AND`, cut after the connector, prints the rows of
`id > 1`.  No message of a syntax error is printed by any of the statements. -/
theorem select_malformed_where_prints_rows :
    parse_where_conditions (cstr "id") = some [] ∧
      parse_where_conditions (cstr "id>5") = some [] ∧
      parse_where_conditions (cstr "id >") = some [] ∧
      (process_commands example_people
          [cstr "SELECT * FROM t WHERE id",
           cstr "SELECT * FROM t WHERE id>5",
           cstr "SELECT * FROM t WHERE id >",
           cstr "SELECT COUNT(*) FROM t WHERE id>5",
           cstr "SELECT * FROM t WHERE id > 5",
           cstr "SELECT * FROM t WHERE id > 1 AND"]).map Prod.snd =
        some [cstr "id: 1 | name: 'Alice'\nid: 2 | name: 'Bob'\n2 rows returned\n",
              cstr "id: 1 | name: 'Alice'\nid: 2 | name: 'Bob'\n2 rows returned\n",
              cstr "id: 1 | name: 'Alice'\nid: 2 | name: 'Bob'\n2 rows returned\n",
              cstr "COUNT: 2\n",
              cstr "0 rows returned\n",
              cstr "id: 2 | name: 'Bob'\n1 rows returned\n"] := by
  refine ⟨?_, ?_, ?_, ?_⟩ <;> decide

/-! ### The order of the index tree -/

/-- C37: for every sequence of `insertAVL` calls from the empty tree, with keys that
fit the key buffer, the calls return a tree whose keys, read in in-order traversal,
increase strictly under `strcmp` (the byte-wise lexicographic comparison), so that no
key occurs twice; and every rotation, `rightRotate`, `leftRotate` and the rotations
of the rebalancing step of `insertAVL`, leaves the in-order sequence as it is. -/
theorem insertAVL_sequence_ordered (ops : List (List Nat × Int))
    (hlen : ∀ kp ∈ ops, kp.1.length ≤ 255) :
    (∃ t, insertAll .null ops = some t ∧ BSTOrdered t ∧
      ((inorder t).map Prod.fst).Pairwise (fun a b => strcmp a b < 0) ∧
      ((inorder t).map Prod.fst).Nodup) ∧
    (∀ n t, rightRotate n = some t → inorder t = inorder n) ∧
    (∀ n t, leftRotate n = some t → inorder t = inorder n) ∧
    ∀ k pos l r h key t, insertAVL_rebalance (.node k pos l r h) key = some t →
      inorder t = inorder (.node k pos l r h) := by
  refine ⟨?_, fun _ _ h => inorder_rightRotate h, fun _ _ h => inorder_leftRotate h,
    fun _ _ _ _ _ _ _ h => inorder_rebalance h⟩
  obtain ⟨t, ht, _, hord, _⟩ := insertAll_null ops hlen
  have hkeys : ((inorder t).map Prod.fst).Pairwise (fun a b => strcmp a b < 0) :=
    List.pairwise_map.2 hord
  refine ⟨t, ht, hord, hkeys, ?_⟩
  refine hkeys.imp ?_
  intro a b hab e
  rw [e, strcmp_self] at hab
  exact absurd hab (by decide)

theorem insertAVL_sequence_ordered_witness :
    ∃ t, insertAll .null [(cstr "b", 1), (cstr "a", 2), (cstr "c", 3), (cstr "a", 4)] = some t ∧
      BSTOrdered t ∧
      ((inorder t).map Prod.fst).Pairwise (fun a b => strcmp a b < 0) ∧
      ((inorder t).map Prod.fst).Nodup :=
  (insertAVL_sequence_ordered [(cstr "b", 1), (cstr "a", 2), (cstr "c", 3), (cstr "a", 4)]
    (by decide)).1

set_option maxRecDepth 100000 in
/-- C38 fails on the code: `create_table` takes the `N` of `text(N)` as it is written
and checks neither it nor the sum of the sizes.  It creates `a text(0)` with a size
of 0, below 1; `a text(-5)` with a size of -5; `a text(300)` with a capacity of 300,
above the 255 bytes that fit the index key; and `id int, a text(5000)` with a
`record_size` of 5004, above `MAX_RECORD_SIZE = 4096`.  None of the four schemas is
within the bounds of the specification (`Table.withinBufferBounds`), and the statement
`CREATE` reports each of them as created. -/
theorem create_table_accepts_out_of_bounds :
    (create_table FileSystem.empty (cstr "t") (cstr "a text(0)")).map Prod.snd =
        some (.created
          { name := cstr "t", filename := table_filename (cstr "t"),
            fields := [{ name := cstr "a", type := .FIELD_TEXT, size := 0 }],
            field_count := 1, record_size := 0,
            indexes := List.replicate MAX_FIELDS .null, auto_increment := 1 }) ∧
      (create_table FileSystem.empty (cstr "t") (cstr "a text(-5)")).map Prod.snd =
        some (.created
          { name := cstr "t", filename := table_filename (cstr "t"),
            fields := [{ name := cstr "a", type := .FIELD_TEXT, size := -5 }],
            field_count := 1, record_size := -5,
            indexes := List.replicate MAX_FIELDS .null, auto_increment := 1 }) ∧
      (create_table FileSystem.empty (cstr "t") (cstr "a text(300)")).map Prod.snd =
        some (.created
          { name := cstr "t", filename := table_filename (cstr "t"),
            fields := [{ name := cstr "a", type := .FIELD_TEXT, size := 300 }],
            field_count := 1, record_size := 300,
            indexes := List.replicate MAX_FIELDS .null, auto_increment := 1 }) ∧
      (create_table FileSystem.empty (cstr "t") (cstr "id int, a text(5000)")).map Prod.snd =
        some (.created
          { name := cstr "t", filename := table_filename (cstr "t"),
            fields := [{ name := cstr "id", type := .FIELD_INT, size := 4 },
                       { name := cstr "a", type := .FIELD_TEXT, size := 5000 }],
            field_count := 2, record_size := 5004,
            indexes := List.replicate MAX_FIELDS .null, auto_increment := 1 }) ∧
      (∀ definitions ∈ [cstr "a text(0)", cstr "a text(-5)", cstr "a text(300)",
          cstr "id int, a text(5000)"],
        ∃ fs t, create_table FileSystem.empty (cstr "t") definitions = some (fs, .created t) ∧
          t.withinBufferBounds = false ∧
          (process_command { fs := FileSystem.empty, session := Session.initial }
              (cstr "CREATE TABLE t (" ++ definitions ++ cstr ")")).map Prod.snd =
            some (cstr "Table 't' created\n")) := by
  refine ⟨by decide, by decide, by decide, by decide, ?_⟩
  intro definitions h
  simp only [List.mem_cons, List.mem_singleton, List.not_mem_nil, or_false] at h
  rcases h with rfl | rfl | rfl | rfl
  · exact ⟨_, _, rfl, by decide, by decide⟩
  · exact ⟨_, _, rfl, by decide, by decide⟩
  · exact ⟨_, _, rfl, by decide, by decide⟩
  · exact ⟨_, _, rfl, by decide, by decide⟩

/-! ### Connectors that are neither `AND` nor `OR` -/

/-- The loop, after a value, reads the conditions that follow with their connectors and
goes on with the text after them. -/
theorem parse_where_text_tail_rest (cs : List ConditionText) (rest : List Nat)
    (hrest : ∀ x ∈ rest.head?, x ∈ cstr " ") :
    ∀ conditions : List WhereCondition,
      (∀ c ∈ cs, c.wellFormed = true ∧ c.joined = true) →
      conditions.length + cs.length ≤ 10 →
      parse_where_text ((clause_tail cs ++ rest).drop 1) 3
          { field_name := [], operator := [], value := [], is_and := false } conditions =
        parse_where_text (rest.drop 1) 3
          { field_name := [], operator := [], value := [], is_and := false }
          (conditions ++ cs.map (ConditionText.condition false)) := by
  induction cs with
  | nil =>
    intro conditions _ _
    simp only [clause_tail, List.nil_append, List.map_nil, List.append_nil]
  | cons c cs ih =>
    intro conditions hcs hlen
    obtain ⟨hwf, hj⟩ := hcs c (List.mem_cons_self _ _)
    have hc : conditions.length < 10 := by
      simp only [List.length_cons] at hlen; omega
    have e : (clause_tail (c :: cs) ++ rest).drop 1 =
        c.connector ++ (cstr " " ++ (c.render ++ (clause_tail cs ++ rest))) := by
      simp only [clause_tail, List.append_assoc]
      exact drop_space_append _
    have hhead : ∀ x ∈ (clause_tail cs ++ rest).head?, x ∈ cstr " " := by
      cases cs with
      | nil => simpa only [clause_tail, List.nil_append] using hrest
      | cons d ds =>
        intro x hx
        have : x = 32 := by simpa [clause_tail, cstr] using hx.symm
        subst this
        decide
    rw [e, parse_where_text_state3 _ _ _ _ (connector_is_word hj) (head_space_append _) hc,
      drop_space_append, parse_where_text_condition c _ _ _ hwf hhead hc,
      ih _ (fun d hd => hcs d (List.mem_cons_of_mem _ hd))
        (by simp only [List.length_append, List.length_cons, List.length_nil] at hlen ⊢; omega)]
    simp only [List.map_cons, List.append_assoc, List.singleton_append, ConditionText.condition,
      Bool.not_false, Bool.true_and]
    simp only [ConditionText.joined, Bool.or_eq_true, decide_eq_true_eq] at hj
    by_cases h1 : strcasecmp c.connector (cstr "AND") = 0
    · simp [h1]
    · have h2 : strcasecmp c.connector (cstr "OR") = 0 := hj.resolve_left h1
      simp [h1, h2]

/-- The parser on a clause `c1 ... cn X b`: after the conditions and the token `X`,
which is not `AND`, it goes on with the text `b` as after `OR`. -/
theorem parse_where_conditions_connector (a : ConditionText) (cs : List ConditionText)
    (x b : List Nat) (hlen : (a :: cs).length < 10)
    (hwf : ∀ c ∈ a :: cs, c.wellFormed = true) (hj : ∀ c ∈ cs, c.joined = true)
    (hx : is_word x = true) (hand : strcasecmp x (cstr "AND") ≠ 0) :
    parse_where_conditions (clause_text (a :: cs) ++ cstr " " ++ x ++ cstr " " ++ b) =
      parse_where_text b 0 { field_name := [], operator := [], value := [], is_and := false }
        (clause_conditions (a :: cs)) := by
  have h0 : parse_where_conditions (clause_text (a :: cs) ++ cstr " " ++ x ++ cstr " " ++ b) =
      parse_where_text (a.render ++ (clause_tail cs ++ (cstr " " ++ (x ++ (cstr " " ++ b))))) 0
        { field_name := [], operator := [], value := [], is_and := false } [] := by
    simp only [clause_text, List.append_assoc]
    rfl
  have hhead : ∀ y ∈ (clause_tail cs ++ (cstr " " ++ (x ++ (cstr " " ++ b)))).head?,
      y ∈ cstr " " := by
    cases cs with
    | nil => simpa only [clause_tail, List.nil_append] using head_space_append _
    | cons d ds =>
      intro y hy
      have : y = 32 := by simpa [clause_tail, cstr] using hy.symm
      subst this
      decide
  have hlen2 : cs.length + 1 < 10 := by simpa only [List.length_cons] using hlen
  rw [h0, parse_where_text_condition a _ _ _ (hwf a (List.mem_cons_self _ _)) hhead (by simp),
    parse_where_text_tail_rest cs _ (head_space_append _) _
      (fun d hd => ⟨hwf d (List.mem_cons_of_mem _ hd), hj d hd⟩)
      (by simp only [List.length_append, List.length_cons, List.length_nil]; omega),
    drop_space_append,
    parse_where_text_state3 _ _ _ _ hx (head_space_append _)
      (by simp only [List.length_append, List.length_cons, List.length_nil, List.length_map];
          omega),
    drop_space_append]
  simp only [hand, if_false]
  have e : (if strcasecmp x (cstr "OR") = 0 then
      ({ field_name := [], operator := [], value := [], is_and := false } : WhereCondition)
      else { field_name := [], operator := [], value := [], is_and := false }) =
      { field_name := [], operator := [], value := [], is_and := false } := by
    split_ifs <;> rfl
  rw [e]
  rfl

theorem select_where_congr (st : State) (columns w1 w2 : List Nat) (h1 : w1 ≠ []) (h2 : w2 ≠ [])
    (h : parse_where_conditions w1 = parse_where_conditions w2) :
    select_columns st columns w1 = select_columns st columns w2 ∧
      select_count st w1 = select_count st w2 := by
  simp only [select_columns, select_count, h1, h2, h, if_false]
  exact ⟨trivial, trivial⟩

/-- C39: in a clause `c1 ... cn X b`, where `c1 ... cn` are conditions of the form of
the grammar with their connectors, `X` is a token that is not `AND` in any letter case
(so any token that is neither `AND` nor `OR`) and `b` is the text that follows, the
parser takes `X` without a message and reads on as after `OR`: the conditions parsed
are those of the clause with `OR` in the place of `X`, so `select_columns` and
`select_count` print the same for both clauses.  When `b` is a condition, it is
stored with the flag `is_and` clear, and the chain is the chain of `c1 ... cn` combined
with `b` by OR. -/
theorem unknown_connector_is_or (st : State) (columns : List Nat) (a : ConditionText)
    (cs : List ConditionText) (x b : List Nat) (hlen : (a :: cs).length < 10)
    (hwf : ∀ c ∈ a :: cs, c.wellFormed = true) (hj : ∀ c ∈ cs, c.joined = true)
    (hx : is_word x = true) (hand : strcasecmp x (cstr "AND") ≠ 0) :
    parse_where_conditions (clause_text (a :: cs) ++ cstr " " ++ x ++ cstr " " ++ b) =
        parse_where_conditions (clause_text (a :: cs) ++ cstr " OR " ++ b) ∧
      select_columns st columns (clause_text (a :: cs) ++ cstr " " ++ x ++ cstr " " ++ b) =
        select_columns st columns (clause_text (a :: cs) ++ cstr " OR " ++ b) ∧
      select_count st (clause_text (a :: cs) ++ cstr " " ++ x ++ cstr " " ++ b) =
        select_count st (clause_text (a :: cs) ++ cstr " OR " ++ b) ∧
      ∀ d : ConditionText, d.wellFormed = true →
        parse_where_conditions
            (clause_text (a :: cs) ++ cstr " " ++ x ++ cstr " " ++ d.render) =
          some (clause_conditions (a :: cs) ++ [d.condition true]) ∧
        (d.condition true).is_and = false ∧
        ∀ (table : Table) (record : List Nat),
          check_complex_conditions table record
              (clause_conditions (a :: cs) ++ [d.condition true]) =
            (check_complex_conditions table record (clause_conditions (a :: cs)) ||
              check_single_condition table record (d.condition true)) := by
  have hor : clause_text (a :: cs) ++ cstr " OR " ++ b =
      clause_text (a :: cs) ++ cstr " " ++ cstr "OR" ++ cstr " " ++ b := by
    simp only [List.append_assoc]
    rfl
  have hparse : parse_where_conditions
      (clause_text (a :: cs) ++ cstr " " ++ x ++ cstr " " ++ b) =
      parse_where_conditions (clause_text (a :: cs) ++ cstr " OR " ++ b) := by
    rw [hor, parse_where_conditions_connector a cs x b hlen hwf hj hx hand,
      parse_where_conditions_connector a cs (cstr "OR") b hlen hwf hj (by decide) (by decide)]
  have hne : ∀ y : List Nat, clause_text (a :: cs) ++ cstr " " ++ y ≠ [] := by
    intro y h
    have := congrArg List.length h
    simp only [List.length_append, show (cstr " ").length = 1 from rfl, List.length_nil] at this
    omega
  have hsel := select_where_congr st columns _ _
    (by simpa only [List.append_assoc] using hne (x ++ (cstr " " ++ b)))
    (by simpa only [List.append_assoc, hor] using hne (cstr "OR" ++ (cstr " " ++ b))) hparse
  refine ⟨hparse, hsel.1, hsel.2, ?_⟩
  intro d hd
  refine ⟨?_, rfl, ?_⟩
  · have hlen2 : cs.length + 1 < 10 := by simpa only [List.length_cons] using hlen
    have e := parse_where_text_condition d []
      { field_name := [], operator := [], value := [], is_and := false }
      (clause_conditions (a :: cs)) hd (by simp)
      (by simp only [clause_conditions, List.length_cons, List.length_map]; omega)
    rw [List.append_nil] at e
    rw [parse_where_conditions_connector a cs x d.render hlen hwf hj hx hand, e]
    exact parse_where_text_nil _ _ _
  · intro table record
    rw [check_complex_conditions_chain, check_complex_conditions_chain]
    simp only [clause_conditions, List.cons_append, evaluate_chain, List.foldl_append,
      List.foldl_cons, List.foldl_nil, ConditionText.condition, Bool.not_true, Bool.false_and,
      Bool.false_eq_true, if_false]

set_option maxRecDepth 100000 in
theorem unknown_connector_is_or_witness :
    select_columns example_people (cstr "*") (cstr "id > 5 XOR name = 'Bob'") =
      select_columns example_people (cstr "*") (cstr "id > 5 OR name = 'Bob'") :=
  (unknown_connector_is_or example_people (cstr "*")
    { connector := [], field_name := cstr "id", operator := cstr ">",
      value := .token (cstr "5") } [] (cstr "XOR") (cstr "name = 'Bob'")
    (by decide) (by decide) (by decide) (by decide) (by decide)).2.1

/-! ### `INSERT` with fewer or more values than fields -/

theorem is_value_token_spec {t : List Nat} (h : is_value_token t = true) :
    t ≠ [] ∧ ∀ c ∈ t, c ∉ cstr "," := by
  simp only [is_value_token, Bool.and_eq_true, bne_iff_ne, ne_eq, List.all_eq_true] at h
  refine ⟨h.1, fun c hc hm => ?_⟩
  have : c = 44 := by simpa [cstr] using hm
  exact h.2 c hc this

theorem strtok_intercalate (t : List Nat) (ts : List (List Nat))
    (ht : is_value_token t = true) :
    strtok (List.intercalate (cstr ",") (t :: ts)) (cstr ",") =
      (some t, List.intercalate (cstr ",") ts) := by
  obtain ⟨hne, hc⟩ := is_value_token_spec ht
  cases ts with
  | nil =>
    have e : List.intercalate (cstr ",") [t] = t ++ [] := by
      simp [List.intercalate, List.intersperse]
    rw [e, strtok_token t [] (cstr ",") hne hc (by simp)]
    rfl
  | cons u us =>
    rw [intercalate_cons_cons, List.append_assoc,
      strtok_token t _ (cstr ",") hne hc (by simp [cstr])]
    simp [cstr]

/-- The loop of `insert_into_table` stops at the end of the fields or of the values,
whichever comes first: fields beyond the values and values beyond the fields do not
change the record. -/
theorem build_record_loop_tokens (fs1 : List Field) :
    ∀ (t : List Nat) (ts extra : List (List Nat)) (fs2 : List Field) (record : List Nat)
      (off : Int),
      fs1.length = ts.length + 1 → (fs2 = [] ∨ extra = []) →
      (∀ u ∈ ts ++ extra, is_value_token u = true) →
      build_record_loop (fs1 ++ fs2) (some t) (List.intercalate (cstr ",") (ts ++ extra))
          record off =
        build_record_loop fs1 (some t) (List.intercalate (cstr ",") ts) record off := by
  induction fs1 with
  | nil => intro t ts extra fs2 record off h; simp at h
  | cons f fs1 ih =>
    intro t ts extra fs2 record off hlen hcase htok
    cases ts with
    | nil =>
      have hfs1 : fs1 = [] := by
        simp only [List.length_cons, List.length_nil] at hlen
        exact List.length_eq_zero.1 (by omega)
      subst hfs1
      simp only [List.nil_append, List.cons_append, build_record_loop]
      rcases hcase with h | h
      · subst h
        simp only [build_record_loop]
      · subst h
        cases fs2 with
        | nil => simp only [build_record_loop]
        | cons g gs =>
          have e : strtok (List.intercalate (cstr ",") ([] : List (List Nat))) (cstr ",") =
              (none, []) := by
            simp [List.intercalate, strtok]
          simp only [e, build_record_loop]
    | cons u us =>
      cases fs1 with
      | nil => simp at hlen
      | cons g gs =>
        have hu : is_value_token u = true := htok u (by simp)
        simp only [List.cons_append, build_record_loop]
        rw [strtok_intercalate u (us ++ extra) hu, strtok_intercalate u us hu]
        have := ih u us extra fs2
          (write_at record off.toNat (encode_field f (trim_value t))) (off + f.size)
          (by simp only [List.length_cons] at hlen ⊢; omega) hcase
          (fun v hv => htok v (by simp only [List.cons_append, List.mem_cons]; exact Or.inr hv))
        simpa only [List.cons_append] using this

theorem build_record_tokens (fs1 fs2 : List Field) (ts extra : List (List Nat))
    (hlen : fs1.length = ts.length) (hcase : fs2 = [] ∨ extra = [])
    (htok : ∀ u ∈ ts ++ extra, is_value_token u = true) :
    build_record (fs1 ++ fs2) (List.intercalate (cstr ",") (ts ++ extra)) =
      build_record fs1 (List.intercalate (cstr ",") ts) := by
  cases ts with
  | nil =>
    have hfs1 : fs1 = [] := List.length_eq_zero.1 (by simpa using hlen)
    subst hfs1
    have e : strtok (List.intercalate (cstr ",") ([] : List (List Nat))) (cstr ",") =
        (none, []) := by
      simp [List.intercalate, strtok]
    rcases hcase with h | h
    · subst h
      simp only [build_record, List.nil_append, build_record_loop]
    · subst h
      simp only [build_record, List.nil_append, e]
      cases fs2 <;> simp only [build_record_loop]
  | cons t ts =>
    have ht : is_value_token t = true := htok t (by simp)
    simp only [build_record, List.cons_append]
    rw [strtok_intercalate t (ts ++ extra) ht, strtok_intercalate t ts ht]
    exact build_record_loop_tokens fs1 t ts extra fs2 _ 0 (by simpa using hlen) hcase
      (fun v hv => htok v (by simp only [List.cons_append, List.mem_cons]; exact Or.inr hv))

theorem encode_field_length (f : Field) (token : List Nat)
    (hf : (f.type = .FIELD_INT → f.size = 4) ∧ (f.type = .FIELD_BOOL → f.size = 1) ∧
      (f.type = .FIELD_TEXT → 0 ≤ f.size)) :
    (encode_field f token).length = f.size.toNat := by
  cases ht : f.type with
  | FIELD_INT =>
    simp only [encode_field, ht, int_bytes, List.length_cons, List.length_nil, hf.1 ht]
    rfl
  | FIELD_TEXT =>
    simp only [encode_field, ht, strncpy, List.length_append, List.length_take,
      List.length_replicate]
    omega
  | FIELD_BOOL =>
    simp only [encode_field, ht, List.length_cons, List.length_nil, hf.2.1 ht]
    rfl

theorem write_at_frame (buf : List Nat) (o : Nat) (b : List Nat) (h : o + b.length ≤ buf.length) :
    (write_at buf o b).length = buf.length ∧
      (∀ n, n ≤ o → (write_at buf o b).take n = buf.take n) ∧
      ∀ n, o + b.length ≤ n → (write_at buf o b).drop n = buf.drop n := by
  refine ⟨?_, ?_, ?_⟩
  · simp only [write_at, List.length_append, List.length_take, List.length_drop]
    omega
  · intro n hn
    have h1 : (buf.take o).length = o := by rw [List.length_take]; omega
    simp only [write_at, List.append_assoc]
    rw [List.take_append_of_le_length (by omega), List.take_take]
    congr 1
    omega
  · intro n hn
    have h1 : (buf.take o ++ b).length = o + b.length := by
      rw [List.length_append, List.length_take]; omega
    simp only [write_at]
    rw [List.drop_append_eq_append_drop, h1, List.drop_of_length_le (by omega), List.nil_append,
      List.drop_drop]
    congr 1
    omega

/-- The loop of `insert_into_table` writes within the bytes of its fields: the buffer
keeps its length, and the bytes in front of `offset` and after the last field are as
they were. -/
theorem build_record_loop_frame (fields : List Field) :
    ∀ (token : Option (List Nat)) (saved record : List Nat) (off : Int),
      (∀ f ∈ fields, (f.type = .FIELD_INT → f.size = 4) ∧ (f.type = .FIELD_BOOL → f.size = 1) ∧
        (f.type = .FIELD_TEXT → 0 ≤ f.size)) →
      0 ≤ off → (off + sum_sizes fields).toNat ≤ record.length →
      (build_record_loop fields token saved record off).length = record.length ∧
        (∀ n, n ≤ off.toNat →
          (build_record_loop fields token saved record off).take n = record.take n) ∧
        ∀ n, (off + sum_sizes fields).toNat ≤ n →
          (build_record_loop fields token saved record off).drop n = record.drop n := by
  induction fields with
  | nil => intro token saved record off _ _ _; simp [build_record_loop]
  | cons f fs ih =>
    intro token saved record off hf hoff hfit
    have hsize : 0 ≤ f.size := by
      obtain ⟨h1, h2, h3⟩ := hf f (List.mem_cons_self _ _)
      cases ht : f.type with
      | FIELD_INT => rw [h1 ht]; decide
      | FIELD_TEXT => exact h3 ht
      | FIELD_BOOL => rw [h2 ht]; decide
    have hrest : 0 ≤ sum_sizes fs :=
      sum_sizes_nonneg fs fun g hg => by
        obtain ⟨h1, h2, h3⟩ := hf g (List.mem_cons_of_mem _ hg)
        cases ht : g.type with
        | FIELD_INT => rw [h1 ht]; decide
        | FIELD_TEXT => exact h3 ht
        | FIELD_BOOL => rw [h2 ht]; decide
    rw [sum_sizes_cons] at hfit
    cases token with
    | none => simp [build_record_loop]
    | some t =>
      simp only [build_record_loop]
      have hlen := encode_field_length f (trim_value t) (hf f (List.mem_cons_self _ _))
      have hw := write_at_frame record off.toNat (encode_field f (trim_value t))
        (by rw [hlen]; omega)
      obtain ⟨i1, i2, i3⟩ := ih (strtok saved (cstr ",")).1 (strtok saved (cstr ",")).2
        (write_at record off.toNat (encode_field f (trim_value t))) (off + f.size)
        (fun g hg => hf g (List.mem_cons_of_mem _ hg)) (by omega)
        (by rw [hw.1]; have : off + f.size + sum_sizes fs = off + (f.size + sum_sizes fs) := by
              omega
            rw [this]; exact hfit)
      refine ⟨by rw [i1, hw.1], ?_, ?_⟩
      · intro n hn
        rw [i2 n (by omega), hw.2.1 n hn]
      · intro n hn
        rw [sum_sizes_cons] at hn
        rw [i3 n (by
          have : off + f.size + sum_sizes fs = off + (f.size + sum_sizes fs) := by omega
          rw [this]; exact hn), hw.2.2 n (by rw [hlen]; omega)]

/-- The record of a table with the fields `fs1 ++ fs2` for values that the loop stores
in `fs1` only: the record of `fs1`, then zero bytes for `fs2`. -/
theorem stored_record_zero_tail (fs1 fs2 : List Field) (values : List Nat)
    (hf : ∀ f ∈ fs1 ++ fs2, (f.type = .FIELD_INT → f.size = 4) ∧
      (f.type = .FIELD_BOOL → f.size = 1) ∧ (f.type = .FIELD_TEXT → 0 ≤ f.size))
    (hsize : sum_sizes (fs1 ++ fs2) ≤ MAX_RECORD_SIZE) :
    (build_record fs1 values).take (sum_sizes (fs1 ++ fs2)).toNat =
        stored_record fs1 values ++ List.replicate (sum_sizes fs2).toNat 0 ∧
      (stored_record fs1 values).length = (sum_sizes fs1).toNat := by
  have hnn : ∀ f ∈ fs1 ++ fs2, 0 ≤ f.size := by
    intro f hfm
    obtain ⟨h1, h2, h3⟩ := hf f hfm
    cases ht : f.type with
    | FIELD_INT => rw [h1 ht]; decide
    | FIELD_TEXT => exact h3 ht
    | FIELD_BOOL => rw [h2 ht]; decide
  have h1 : 0 ≤ sum_sizes fs1 := sum_sizes_nonneg fs1 fun f hfm => hnn f (by simp [hfm])
  have h2 : 0 ≤ sum_sizes fs2 := sum_sizes_nonneg fs2 fun f hfm => hnn f (by simp [hfm])
  have hsum : sum_sizes (fs1 ++ fs2) = sum_sizes fs1 + sum_sizes fs2 := by
    simp [sum_sizes]
  have hmax : (MAX_RECORD_SIZE : Int) = 4096 := rfl
  obtain ⟨i1, _, i3⟩ := build_record_loop_frame fs1 (strtok values (cstr ",")).1
    (strtok values (cstr ",")).2 (List.replicate MAX_RECORD_SIZE 0) 0
    (fun f hfm => hf f (by simp [hfm])) (le_refl _)
    (by simp only [List.length_replicate, zero_add]; rw [hsum, hmax] at hsize
        have : MAX_RECORD_SIZE = 4096 := rfl
        omega)
  have hb : build_record fs1 values = build_record_loop fs1 (strtok values (cstr ",")).1
      (strtok values (cstr ",")).2 (List.replicate MAX_RECORD_SIZE 0) 0 := rfl
  rw [← hb] at i1 i3
  have hlen : (build_record fs1 values).length = 4096 := by
    rw [i1, List.length_replicate]; rfl
  rw [hsum] at hsize ⊢
  rw [hmax] at hsize
  refine ⟨?_, ?_⟩
  · have e : (sum_sizes fs1 + sum_sizes fs2).toNat =
        (sum_sizes fs1).toNat + (sum_sizes fs2).toNat := by omega
    rw [e, List.take_add, stored_record,
      i3 (sum_sizes fs1).toNat (by simp only [zero_add]; exact le_refl _),
      List.drop_replicate, List.take_replicate]
    congr 2
    have : MAX_RECORD_SIZE = 4096 := rfl
    omega
  · rw [stored_record, List.length_take, hlen]
    omega

theorem getD_zero_of_all_zero (src : List Nat) (i : Nat) (hz : ∀ c ∈ src, c = 0) :
    src.getD i 0 = 0 := by
  rw [List.getD_eq_getElem?_getD]
  cases h : src[i]? with
  | none => rfl
  | some x =>
    obtain ⟨hi, hx⟩ := List.getElem?_eq_some_iff.1 h
    exact hz x (hx ▸ List.getElem_mem hi)

theorem decode_field_zero (record : List Nat) (off : Int) (f : Field)
    (hz : ∀ c ∈ record.drop off.toNat, c = 0) :
    decode_field record off f = f.zero_value := by
  have hc : c_str (record.drop off.toNat) = [] := by
    cases h : record.drop off.toNat with
    | nil => rfl
    | cons x xs =>
      have : x = 0 := hz x (by rw [h]; exact List.mem_cons_self _ _)
      subst this
      simp [c_str]
  cases ht : f.type with
  | FIELD_INT =>
    simp only [decode_field, ht, Field.zero_value, bytes_int, getD_zero_of_all_zero _ _ hz]
    rfl
  | FIELD_TEXT =>
    simp only [decode_field, ht, Field.zero_value, hc, strncpy, List.take_nil, List.nil_append,
      List.length_nil, Nat.sub_zero]
    congr 1
    cases h : f.size.toNat with
    | zero => simp [c_str]
    | succ n => simp [c_str, List.replicate_succ]
  | FIELD_BOOL =>
    simp only [decode_field, ht, Field.zero_value]
    cases h : record.drop off.toNat with
    | nil => rfl
    | cons x xs =>
      have : x = 0 := hz x (by rw [h]; exact List.mem_cons_self _ _)
      subst this
      rfl

theorem decode_record_loop_zero (fields : List Field) :
    ∀ (record : List Nat) (off : Int), 0 ≤ off → (∀ f ∈ fields, 0 ≤ f.size) →
      (∀ c ∈ record.drop off.toNat, c = 0) →
      decode_record_loop fields record off = fields.map Field.zero_value := by
  induction fields with
  | nil => intro _ _ _ _ _; rfl
  | cons f fs ih =>
    intro record off hoff hsize hz
    have hf : 0 ≤ f.size := hsize f (List.mem_cons_self _ _)
    rw [decode_record_loop, decode_field_zero record off f hz,
      ih record (off + f.size) (by omega) (fun g hg => hsize g (List.mem_cons_of_mem _ hg))
        (by
          intro c hc
          have e : (off + f.size).toNat = off.toNat + f.size.toNat := by omega
          rw [e, ← List.drop_drop] at hc
          exact hz c (List.mem_of_mem_drop hc))]
    rfl

theorem intercalate_value_tail (sp : Nat) (ws : List Value) :
    ∀ t : List Nat,
      List.intercalate (cstr ",") (t :: ws.map fun w => List.replicate sp 32 ++ w.literal) =
        t ++ values_tail sp ws := by
  induction ws with
  | nil => intro t; simp [List.intercalate, List.intersperse, values_tail]
  | cons w ws ih =>
    intro t
    rw [List.map_cons, intercalate_cons_cons, ih, values_tail]
    simp [cstr]

theorem intercalate_value_tokens (sp : Nat) (vs : List Value) :
    List.intercalate (cstr ",") (value_tokens sp vs) = values_text sp vs := by
  cases vs with
  | nil => rfl
  | cons v vs => rw [value_tokens, intercalate_value_tail, values_text]

theorem literal_tokens (fs : List Field) :
    ∀ (vs : List Value) (k : Nat), tuple_for Value.encodable fs vs = true →
      ∀ u ∈ vs.map (fun w => List.replicate k 32 ++ w.literal), is_value_token u = true := by
  induction fs with
  | nil =>
    intro vs k ht u hu
    cases vs with
    | nil => simp at hu
    | cons v vs => simp [tuple_for] at ht
  | cons f fs ih =>
    intro vs k ht u hu
    cases vs with
    | nil => simp at hu
    | cons v vs =>
      rw [tuple_for, Bool.and_eq_true] at ht
      obtain ⟨hv, hrest⟩ := ht
      simp only [Value.encodable, Bool.and_eq_true] at hv
      obtain ⟨_, hne, hc, _⟩ := encode_field_literal k v f hv.1 hv.2
      rw [List.map_cons, List.mem_cons] at hu
      rcases hu with rfl | hu
      · simp only [is_value_token, Bool.and_eq_true, bne_iff_ne, ne_eq, List.all_eq_true]
        refine ⟨hne, fun c hcm h44 => hc c hcm ?_⟩
        rw [h44]; decide
      · exact ih vs k hrest u hu

theorem value_tokens_valid (sp : Nat) (fs : List Field) (vs : List Value)
    (ht : tuple_for Value.encodable fs vs = true) :
    (value_tokens sp vs).length = vs.length ∧
      ∀ u ∈ value_tokens sp vs, is_value_token u = true := by
  cases vs with
  | nil => exact ⟨rfl, fun u hu => by simp [value_tokens] at hu⟩
  | cons v vs =>
    refine ⟨by simp [value_tokens], ?_⟩
    intro u hu
    cases fs with
    | nil => simp [tuple_for] at ht
    | cons f fs =>
      simp only [value_tokens, List.mem_cons] at hu
      rcases hu with rfl | hu
      · have := literal_tokens (f :: fs) (v :: vs) 0 ht
          (List.replicate 0 32 ++ v.literal) (by simp)
        simpa using this
      · rw [tuple_for, Bool.and_eq_true] at ht
        exact literal_tokens fs vs sp ht.2 u hu

theorem tuple_for_length (ok : Value → Field → Bool) (fs : List Field) :
    ∀ vs, tuple_for ok fs vs = true → fs.length = vs.length := by
  induction fs with
  | nil => intro vs h; cases vs with
    | nil => rfl
    | cons v vs => simp [tuple_for] at h
  | cons f fs ih => intro vs h; cases vs with
    | nil => simp [tuple_for] at h
    | cons v vs =>
      rw [tuple_for, Bool.and_eq_true] at h
      simp [ih vs h.2]

/-- The fields of a record that holds the values `vs` in its first fields decode to
these values, whatever bytes follow; the decoding goes on behind them. -/
theorem decode_record_loop_prefix (fs1 fs2 : List Field) (R : List Nat) :
    ∀ (vs : List Value) (P : List Nat) (off : Int), off = P.length →
      tuple_for Value.encodable fs1 vs = true →
      decode_record_loop (fs1 ++ fs2) (P ++ (record_bytes fs1 vs ++ R)) off =
        List.zipWith truncated fs1 vs ++
          decode_record_loop fs2 (P ++ (record_bytes fs1 vs ++ R)) (off + sum_sizes fs1) := by
  induction fs1 with
  | nil =>
    intro vs P off _ ht
    cases vs with
    | nil => simp [sum_sizes]
    | cons v vs => simp [tuple_for] at ht
  | cons f fs ih =>
    intro vs P off hoff ht
    cases vs with
    | nil => simp [tuple_for] at ht
    | cons v vs =>
      rw [tuple_for, Bool.and_eq_true] at ht
      obtain ⟨hv, hrest⟩ := ht
      simp only [Value.encodable, Bool.and_eq_true] at hv
      obtain ⟨_, _, _, hl⟩ := encode_field_literal 0 v f hv.1 hv.2
      simp only [List.cons_append, decode_record_loop, record_bytes, List.zipWith_cons_cons,
        List.append_assoc]
      rw [decode_field_bytes P _ off f v hoff hv.1]
      have := ih vs (P ++ field_bytes f v) (off + f.size)
        (by simp only [List.length_append, Nat.cast_add]; omega) hrest
      rw [List.append_assoc] at this
      rw [sum_sizes_cons, ← Int.add_assoc]
      exact congrArg (List.cons (truncated f v)) this

/-- A session that `load_table` leaves unchanged is attached to the file of its
table. -/
theorem load_table_attached (st : State) (table_name out : List Nat) (header : Table)
    (data : List Nat)
    (hfile : st.fs.files (table_filename table_name) = some { header := some header, data := data })
    (hwf : header.wellFormed = true)
    (hsession : load_table st table_name = some (st, out, true)) :
    Attached st (table_filename table_name) { header := some header, data := data } ∧
      st.session.current_table.fields = header.fields := by
  have hden := load_table_opened st st table_name out hsession
  obtain ⟨hb, hnull⟩ := Table.wellFormed_spec hwf
  obtain ⟨hcount, hmax, hsizes, hrs, hrmax, hixl⟩ := Table.bounded_spec hb
  have hbal : ∀ t ∈ header.indexes, AVLInvariant t := by
    rw [hnull]; exact replicate_null_balanced _
  obtain ⟨ix0, hix0, hlen0, hbal0, _, _⟩ := index_records_spec header.fields header.record_size
    (complete_records header.record_size data) header.indexes sizeof_Table hbal (by omega)
  have hload := load_table_of_file st table_name { header := some header, data := data }
    header ix0 (by simp [fopen_rb_plus, hden, hfile]) rfl
    (by rw [take_field_count hb]; exact hix0)
  rw [hsession] at hload
  obtain ⟨fs, session⟩ := st
  simp only [Option.some.injEq, Prod.mk.injEq, State.mk.injEq, true_and, and_true] at hload
  obtain ⟨hsess, hout⟩ := hload
  subst hsess
  simp only at hden hfile
  have hb0 : ({ header with indexes := ix0 } : Table).bounded = true := by
    simp only [Table.bounded] at hb ⊢
    simpa [hlen0, hixl] using hb
  exact ⟨⟨rfl, rfl, hfile, rfl, hb0, hbal0⟩, rfl⟩

/-- C35: for an active table with the fields `fs1 ++ fs2` and an `INSERT` with the
values `ts ++ extra`, as many values `ts` as there are fields `fs1`, where no field is
left over (`fs2 = []`, more values than fields or as many) or no value is (`extra =
[]`, fewer values than fields or as many): exactly one record of `record_size` bytes
is appended to the file of the table, and no other file changes.  The record is the
record that the values `ts` alone give in a table of the fields `fs1` alone, followed
by zero bytes for the fields `fs2`; the values `extra` are ignored.  The fields `fs2`
decode to 0, the empty text and `false`; and when the values `ts` are literals of the
types of their fields, the fields `fs1` decode to them (a text cut to the capacity of
its field). -/
theorem insert_value_count (st : State) (filename : List Nat) (file : TableFile)
    (fs1 fs2 : List Field) (ts extra : List (List Nat))
    (hatt : Attached st filename file)
    (hfields : st.session.current_table.fields = fs1 ++ fs2)
    (hlen : fs1.length = ts.length) (hcase : fs2 = [] ∨ extra = [])
    (htok : ∀ u ∈ ts ++ extra, is_value_token u = true) :
    ∃ st2,
      insert_into_table st (List.intercalate (cstr ",") (ts ++ extra)) =
        some (st2, cstr "1 row inserted\n") ∧
      st2.fs.files filename =
        some (file.append (stored_record fs1 (List.intercalate (cstr ",") ts) ++
          List.replicate (sum_sizes fs2).toNat 0)) ∧
      (∀ other, other ≠ filename → st2.fs.files other = st.fs.files other) ∧
      (stored_record fs1 (List.intercalate (cstr ",") ts)).length = (sum_sizes fs1).toNat ∧
      (stored_record fs1 (List.intercalate (cstr ",") ts) ++
        List.replicate (sum_sizes fs2).toNat 0).length =
          st.session.current_table.record_size.toNat ∧
      decode_record_loop fs2
          (stored_record fs1 (List.intercalate (cstr ",") ts) ++
            List.replicate (sum_sizes fs2).toNat 0) (sum_sizes fs1) =
        fs2.map Field.zero_value ∧
      ∀ (sp : Nat) (vs : List Value), ts = value_tokens sp vs →
        tuple_for Value.encodable fs1 vs = true →
        List.intercalate (cstr ",") ts = values_text sp vs ∧
        decode_record (fs1 ++ fs2)
            (stored_record fs1 (List.intercalate (cstr ",") ts) ++
              List.replicate (sum_sizes fs2).toNat 0) =
          List.zipWith truncated fs1 vs ++ fs2.map Field.zero_value := by
  obtain ⟨hl, hd, hf, hh, hb, hbal⟩ := hatt
  obtain ⟨hcount, hmax, hsizes, hrs, hrmax, hixl⟩ := Table.bounded_spec hb
  have hvalid : ∀ f ∈ fs1 ++ fs2, (f.type = .FIELD_INT → f.size = 4) ∧
      (f.type = .FIELD_BOOL → f.size = 1) ∧ (f.type = .FIELD_TEXT → 0 ≤ f.size) := by
    intro f hfm
    rw [← hfields] at hfm
    exact ⟨(hsizes f hfm).1, (hsizes f hfm).2.1, fun h => ((hsizes f hfm).2.2 h).1⟩
  have hnn : ∀ f ∈ fs1 ++ fs2, 0 ≤ f.size := by
    intro f hfm
    rw [← hfields] at hfm
    exact bounded_size_nonneg hb f hfm
  have h1 : 0 ≤ sum_sizes fs1 := sum_sizes_nonneg fs1 fun f hfm => hnn f (by simp [hfm])
  have h2 : 0 ≤ sum_sizes fs2 := sum_sizes_nonneg fs2 fun f hfm => hnn f (by simp [hfm])
  have hsum : sum_sizes (fs1 ++ fs2) = sum_sizes fs1 + sum_sizes fs2 := by simp [sum_sizes]
  have hsize : sum_sizes (fs1 ++ fs2) ≤ MAX_RECORD_SIZE := by
    rw [← hfields, ← hrs]; exact hrmax
  obtain ⟨htail, hstored⟩ :=
    stored_record_zero_tail fs1 fs2 (List.intercalate (cstr ",") ts) hvalid hsize
  obtain ⟨ix, _, hins, _, _⟩ :=
    insert_into_table_attached st filename file (List.intercalate (cstr ",") (ts ++ extra))
      ⟨hl, hd, hf, hh, hb, hbal⟩
  have hrecord : (build_record st.session.current_table.fields
      (List.intercalate (cstr ",") (ts ++ extra))).take
        st.session.current_table.record_size.toNat =
      stored_record fs1 (List.intercalate (cstr ",") ts) ++
        List.replicate (sum_sizes fs2).toNat 0 := by
    rw [hrs, hfields, build_record_tokens fs1 fs2 ts extra hlen hcase htok, htail]
  rw [hrecord] at hins
  have hzero : ∀ c ∈ (stored_record fs1 (List.intercalate (cstr ",") ts) ++
      List.replicate (sum_sizes fs2).toNat 0).drop (sum_sizes fs1).toNat, c = 0 := by
    intro c hc
    rw [List.drop_append_eq_append_drop, List.drop_of_length_le (by omega), hstored,
      Nat.sub_self, List.drop_zero, List.nil_append] at hc
    exact (List.mem_replicate.1 hc).2
  refine ⟨_, hins, by simp [FileSystem.put], ?_, hstored, ?_, ?_, ?_⟩
  · intro other hne
    simp [FileSystem.put, hne]
  · rw [List.length_append, hstored, List.length_replicate, hrs, hfields, hsum]
    omega
  · exact decode_record_loop_zero fs2 _ _ h1 (fun f hfm => hnn f (by simp [hfm])) hzero
  · intro sp vs hts hvs
    have htext : List.intercalate (cstr ",") ts = values_text sp vs := by
      rw [hts, intercalate_value_tokens]
    refine ⟨htext, ?_⟩
    have hbytes : stored_record fs1 (List.intercalate (cstr ",") ts) = record_bytes fs1 vs := by
      rw [htext, stored_record_values sp fs1 vs hvs]
    have hz2 := hzero
    rw [hbytes] at hz2 ⊢
    have := decode_record_loop_prefix fs1 fs2 (List.replicate (sum_sizes fs2).toNat 0) vs [] 0
      (by simp) hvs
    simp only [List.nil_append, zero_add] at this
    rw [decode_record, this,
      decode_record_loop_zero fs2 _ _ h1 (fun f hfm => hnn f (by simp [hfm])) hz2]

set_option maxRecDepth 100000 in
theorem insert_value_count_witness :
    ∃ st2,
      insert_into_table example_people (cstr "3") = some (st2, cstr "1 row inserted\n") ∧
      st2.fs.files (table_filename (cstr "t")) =
        some (example_people_file.append ([3, 0, 0, 0] ++ List.replicate 10 0)) ∧
      decode_record_loop [{ name := cstr "name", type := .FIELD_TEXT, size := 10 }]
          ([3, 0, 0, 0] ++ List.replicate 10 0) 4 = [.text []] :=
  (insert_value_count example_people (table_filename (cstr "t")) example_people_file
    [{ name := cstr "id", type := .FIELD_INT, size := 4 }]
    [{ name := cstr "name", type := .FIELD_TEXT, size := 10 }] [cstr "3"] []
    (load_table_attached example_people (cstr "t") _ example_people_table
      example_people_file.data (by decide) (by decide) rfl).1
    (by decide) (by decide) (by decide) (by decide)).imp
    fun _ h => ⟨h.1, h.2.1, h.2.2.2.2.2.1⟩

/-! ### The table name in `INSERT` and `SELECT` -/

theorem isPrefixAt_append_sep (c : Nat) (X : List Nat) :
    ∀ (p L : List Nat), c ∉ p → isPrefixAt p (L ++ c :: X) = isPrefixAt p L := by
  intro p
  induction p with
  | nil => intro L _; cases L <;> rfl
  | cons q qs ih =>
    intro L hc
    have hq : q ≠ c := fun h => hc (h ▸ List.mem_cons_self _ _)
    cases L with
    | nil => simp [isPrefixAt, hq]
    | cons l ls =>
      show (q == l && isPrefixAt qs (ls ++ c :: X)) = (q == l && isPrefixAt qs ls)
      rw [ih ls (fun h => hc (List.mem_cons_of_mem _ h))]

/-- The first occurrence of a text in a string with a byte that the text does not
hold: the occurrence is in front of the byte, or it is the first one after it. -/
theorem strstr_append_sep (p : List Nat) (c : Nat) (X : List Nat) (hne : p ≠ []) (hc : c ∉ p) :
    ∀ A : List Nat, strstr (A ++ c :: X) p =
      match strstr A p with
      | some s => some (s ++ c :: X)
      | none => strstr X p := by
  intro A
  induction A with
  | nil =>
    have h1 : isPrefixAt p (c :: X) = false := by
      have := isPrefixAt_append_sep c X p [] hc
      rw [List.nil_append] at this
      rw [this]
      cases p with
      | nil => exact absurd rfl hne
      | cons q qs => rfl
    simp only [List.nil_append, strstr, h1, hne, if_false, Bool.false_eq_true]
  | cons a as ih =>
    have h1 : isPrefixAt p (a :: as ++ c :: X) = isPrefixAt p (a :: as) :=
      isPrefixAt_append_sep c X p (a :: as) hc
    have e1 : strstr (a :: as ++ c :: X) p =
        if isPrefixAt p (a :: as ++ c :: X) = true then some (a :: as ++ c :: X)
        else strstr (as ++ c :: X) p := rfl
    have e2 : strstr (a :: as) p =
        if isPrefixAt p (a :: as) = true then some (a :: as) else strstr as p := rfl
    rw [e1, e2, h1]
    by_cases h : isPrefixAt p (a :: as) = true
    · simp only [h, if_true]
    · simp only [h, if_false, ih, Bool.false_eq_true]

theorem strstr_suffix (p : List Nat) :
    ∀ (hay s : List Nat), strstr hay p = some s → ∃ A0, hay = A0 ++ s := by
  intro hay
  induction hay with
  | nil =>
    intro s h
    simp only [strstr] at h
    split_ifs at h
    simp only [Option.some.injEq] at h
    exact ⟨[], by simp [← h]⟩
  | cons a as ih =>
    intro s h
    simp only [strstr] at h
    split_ifs at h
    · simp only [Option.some.injEq] at h
      exact ⟨[], by simp [← h]⟩
    · obtain ⟨A0, hA⟩ := ih s h
      exact ⟨a :: A0, by simp [hA]⟩

theorem strstr_none_suffix (p A0 s : List Nat) (h : strstr (A0 ++ s) p = none) :
    strstr s p = none := by
  cases hs : strstr s p with
  | none => rfl
  | some x =>
    have h1 : p <:+: s := (strstr_isSome_iff s p).1 (by simp [hs])
    have h2 : p <:+: A0 ++ s := List.IsInfix.trans h1 (List.suffix_append A0 s).isInfix
    have := (strstr_isSome_iff (A0 ++ s) p).2 h2
    simp [h] at this

/-- A text that is not in the name is looked for behind the name. -/
theorem strstr_name (p n post : List Nat) (hne : p ≠ []) (hp : ∀ c ∈ p, isspace c = false)
    (hn : strstr n p = none) (hpost : ∀ c ∈ post.head?, isspace c = true) :
    strstr (n ++ post) p = strstr post p := by
  cases post with
  | nil =>
    rw [List.append_nil, hn]
    simp [strstr, hne]
  | cons c X =>
    have hc : c ∉ p := by
      intro hm
      have h1 := hp c hm
      have h2 := hpost c (by simp)
      rw [h1] at h2
      exact absurd h2 (by decide)
    rw [strstr_append_sep p c X hne hc n, hn]
    have := strstr_append_sep p c X hne hc []
    simp only [List.nil_append] at this
    rw [this]
    simp [strstr, hne]

/-- A text that is not in the name is found in a statement in front of the name, or as
it is found behind the name. -/
theorem strstr_around_name (p A n post : List Nat) (hne : p ≠ [])
    (hp : ∀ c ∈ p, isspace c = false) (hn : strstr n p = none)
    (hpost : ∀ c ∈ post.head?, isspace c = true) :
    strstr (A ++ 32 :: (n ++ post)) p =
      match strstr A p with
      | some s => some (s ++ 32 :: (n ++ post))
      | none => strstr post p := by
  have hc : (32 : Nat) ∉ p := by
    intro hm
    have := hp 32 hm
    exact absurd this (by decide)
  rw [strstr_append_sep p 32 _ hne hc A, strstr_name p n post hne hp hn hpost]

theorem keyword_free_spec {n : List Nat} (h : keyword_free n = true) :
    strstr n (cstr "COUNT(*)") = none ∧ strstr n (cstr "JOIN") = none ∧
      strstr n (cstr "WHERE") = none := by
  simp only [keyword_free, Bool.and_eq_true, Bool.not_eq_true'] at h
  have e : ∀ o : Option (List Nat), o.isSome = false → o = none := by
    intro o ho
    cases o with
    | none => rfl
    | some x => simp at ho
  exact ⟨e _ h.1.1, e _ h.1.2, e _ h.2⟩

theorem where_part_around_name (A n post : List Nat) (hn : strstr n (cstr "WHERE") = none)
    (hA : strstr A (cstr "WHERE") = none) (hpost : ∀ c ∈ post.head?, isspace c = true) :
    where_part (A ++ 32 :: (n ++ post)) = where_part post := by
  unfold where_part
  rw [strstr_around_name (cstr "WHERE") A n post (by decide) (by decide) hn hpost, hA]

/-- What a `SELECT` without `JOIN` prints does not depend on a name behind `FROM` that
holds none of the texts `COUNT(*)`, `JOIN` and `WHERE`. -/
theorem process_select_name (st : State) (cols post : List Nat)
    (hpost : ∀ c ∈ post.head?, isspace c = true)
    (hW : strstr (cols ++ cstr "FROM") (cstr "WHERE") = none)
    (hJ : strstr (cols ++ cstr "FROM") (cstr "JOIN") = none)
    (hpostJ : strstr post (cstr "JOIN") = none) :
    ∃ out, ∀ n : List Nat, keyword_free n = true →
      process_select st (cols ++ cstr "FROM " ++ n ++ post) = out := by
  obtain ⟨s, hs⟩ : ∃ s, strstr (cols ++ cstr "FROM") (cstr "FROM") = some s := by
    have : (strstr (cols ++ cstr "FROM") (cstr "FROM")).isSome = true :=
      (strstr_isSome_iff _ _).2 (List.suffix_append cols (cstr "FROM")).isInfix
    exact Option.isSome_iff_exists.1 this
  obtain ⟨A0, hA0⟩ := strstr_suffix _ _ _ hs
  refine ⟨if (match strstr (cols ++ cstr "FROM") (cstr "COUNT(*)") with
        | some s => some (s ++ 32 :: ([] ++ post))
        | none => strstr post (cstr "COUNT(*)")).isSome = true then
      select_count st (where_part post)
    else select_columns st (trim_columns A0) (where_part post), ?_⟩
  intro n hn
  obtain ⟨hnC, hnJ, hnW⟩ := keyword_free_spec hn
  have hrest : cols ++ cstr "FROM " ++ n ++ post = (cols ++ cstr "FROM") ++ 32 :: (n ++ post) := by
    simp only [List.append_assoc]
    rfl
  have hC : (strstr (cols ++ cstr "FROM " ++ n ++ post) (cstr "COUNT(*)")).isSome =
      (match strstr (cols ++ cstr "FROM") (cstr "COUNT(*)") with
        | some s => some (s ++ 32 :: ([] ++ post))
        | none => strstr post (cstr "COUNT(*)")).isSome := by
    rw [hrest, strstr_around_name (cstr "COUNT(*)") _ n post (by decide) (by decide) hnC hpost]
    cases strstr (cols ++ cstr "FROM") (cstr "COUNT(*)") <;> rfl
  have hJoin : strstr (cols ++ cstr "FROM " ++ n ++ post) (cstr "JOIN") = none := by
    rw [hrest, strstr_around_name (cstr "JOIN") _ n post (by decide) (by decide) hnJ hpost, hJ]
    exact hpostJ
  have hFrom : strstr (cols ++ cstr "FROM " ++ n ++ post) (cstr "FROM") =
      some (s ++ 32 :: (n ++ post)) := by
    rw [hrest, strstr_append_sep (cstr "FROM") 32 _ (by decide) (by decide), hs]
  have hw1 : where_part (cols ++ cstr "FROM " ++ n ++ post) = where_part post := by
    rw [hrest]
    exact where_part_around_name _ n post hnW hW hpost
  have hw2 : where_part (s ++ 32 :: (n ++ post)) = where_part post :=
    where_part_around_name s n post hnW
      (strstr_none_suffix _ A0 s (by rw [← hA0]; exact hW)) hpost
  have htake : (cols ++ cstr "FROM " ++ n ++ post).take
      ((cols ++ cstr "FROM " ++ n ++ post).length - (s ++ 32 :: (n ++ post)).length) = A0 := by
    rw [hrest, hA0, List.append_assoc]
    have : (A0 ++ (s ++ 32 :: (n ++ post))).length - (s ++ 32 :: (n ++ post)).length =
        A0.length := by
      rw [List.length_append]; omega
    rw [this, List.take_left']
    rfl
  unfold process_select
  rw [hC]
  by_cases hcount : (match strstr (cols ++ cstr "FROM") (cstr "COUNT(*)") with
        | some s => some (s ++ 32 :: ([] ++ post))
        | none => strstr post (cstr "COUNT(*)")).isSome = true
  · simp only [hcount, if_true, hw1]
  · simp only [hcount, if_false, hJoin, Option.isSome_none, Bool.false_eq_true, hFrom, htake, hw2]

/-- The value list that `INSERT` takes from a statement does not depend on the name
behind `INTO`. -/
theorem sscanf_insert_name (post : List Nat) (hpost : ∀ c ∈ post.head?, isspace c = true) :
    ∃ r, ∀ n : List Nat, is_table_name n = true →
      sscanf_insert (cstr "INTO " ++ n ++ post) = r := by
  refine ⟨match match_literal (cstr "VALUES") (post.dropWhile isspace) with
      | none => none
      | some r3 =>
        match match_literal (cstr "(") (r3.dropWhile isspace) with
        | none => none
        | some r4 =>
          if (r4.takeWhile fun c => c != 41) = [] then none
          else some (r4.takeWhile fun c => c != 41), ?_⟩
  intro n hn
  simp only [is_table_name, Bool.and_eq_true, bne_iff_ne, ne_eq, List.all_eq_true,
    Bool.not_eq_true', decide_eq_true_eq] at hn
  have h1 : match_literal (cstr "INTO") (cstr "INTO " ++ n ++ post) = some (32 :: (n ++ post)) := by
    simp [cstr, match_literal]
  have h2 : scan_word (32 :: (n ++ post)) = some (n, post) := by
    rw [scan_word_space]
    exact scan_word_word n post hn.1.1 hn.1.2 hpost
  unfold sscanf_insert
  simp only [h1, h2]

set_option maxRecDepth 100000 in
/-- C40: the name behind `FROM` has an effect when it holds one of the texts by which
`process_command` takes a `SELECT` apart.  On the table of `example_people`, with two
records, `SELECT * FROM t` prints the two rows, `SELECT * FROM JOINS` prints nothing
(the statement is taken for a join) and `SELECT * FROM COUNT(*)` prints the count;
`SELECT * FROM tWHERE id > 1` prints the row of `id > 1` only, `SELECT * FROM xyzzy id
> 1` both rows. -/
theorem select_name_with_keyword_has_effect :
    (process_commands example_people
        [cstr "SELECT * FROM t", cstr "SELECT * FROM JOINS", cstr "SELECT * FROM COUNT(*)",
         cstr "SELECT * FROM tWHERE id > 1", cstr "SELECT * FROM xyzzy id > 1"]).map Prod.snd =
      some [cstr "id: 1 | name: 'Alice'\nid: 2 | name: 'Bob'\n2 rows returned\n",
            [],
            cstr "COUNT: 2\n",
            cstr "id: 2 | name: 'Bob'\n1 rows returned\n",
            cstr "id: 1 | name: 'Alice'\nid: 2 | name: 'Bob'\n2 rows returned\n"] ∧
      is_table_name (cstr "JOINS") = true ∧ is_table_name (cstr "COUNT(*)") = true ∧
      is_table_name (cstr "tWHERE") = true := by
  refine ⟨?_, ?_, ?_, ?_⟩ <;> decide

/-- C40 (amended): for every state and any two table names (words without white
space that fit the buffer of the engine), the statements `INSERT INTO n1 ...` and
`INSERT INTO n2 ...` with the same text behind the name give the same state, files and
index trees included, and print the same; and the statements `SELECT cols FROM n1 ...`
and `SELECT cols FROM n2 ...` with the same texts around the name give the same state
and print the same, when neither name holds one of the texts `COUNT(*)`, `JOIN` and
`WHERE`, the text in front of the name holds neither `WHERE` nor `JOIN`, and the text
behind the name holds no `JOIN` and is empty or starts with white space.  The names
need neither exist nor be the name of the active table. -/
theorem table_name_has_no_effect (st : State) (n1 n2 : List Nat)
    (insert1 insert2 select1 select2 values_part cols post : List Nat)
    (hn1 : is_table_name n1 = true) (hn2 : is_table_name n2 = true)
    (hi1 : command_split insert1 = some (cstr "INSERT", cstr "INTO " ++ n1 ++ values_part))
    (hi2 : command_split insert2 = some (cstr "INSERT", cstr "INTO " ++ n2 ++ values_part))
    (hvalues : ∀ c ∈ values_part.head?, isspace c = true)
    (hs1 : command_split select1 = some (cstr "SELECT", cols ++ cstr "FROM " ++ n1 ++ post))
    (hs2 : command_split select2 = some (cstr "SELECT", cols ++ cstr "FROM " ++ n2 ++ post))
    (hpost : ∀ c ∈ post.head?, isspace c = true)
    (hk1 : keyword_free n1 = true) (hk2 : keyword_free n2 = true)
    (hcolsW : strstr (cols ++ cstr "FROM") (cstr "WHERE") = none)
    (hcolsJ : strstr (cols ++ cstr "FROM") (cstr "JOIN") = none)
    (hpostJ : strstr post (cstr "JOIN") = none)
    (_hfit : ∀ c ∈ [insert1, insert2, select1, select2], c.length < MAX_QUERY_LENGTH) :
    process_command st insert1 = process_command st insert2 ∧
      process_command st select1 = process_command st select2 := by
  constructor
  · obtain ⟨r, hr⟩ := sscanf_insert_name values_part hvalues
    simp only [process_command, hi1, hi2, hr n1 hn1, hr n2 hn2]
    rw [if_neg (by decide), if_neg (by decide), if_pos (by decide), if_neg (by decide),
      if_neg (by decide), if_pos (by decide)]
  · obtain ⟨out, hout⟩ := process_select_name st cols post hpost hcolsW hcolsJ hpostJ
    rw [process_command_select st select1 _ hs1, process_command_select st select2 _ hs2,
      hout n1 hk1, hout n2 hk2]

set_option maxRecDepth 100000 in
theorem table_name_has_no_effect_witness :
    process_command example_people (cstr "INSERT INTO t VALUES (3, 'Carol')") =
        process_command example_people (cstr "INSERT INTO nosuch VALUES (3, 'Carol')") ∧
      process_command example_people (cstr "SELECT id, name FROM t WHERE id > 1") =
        process_command example_people (cstr "SELECT id, name FROM nosuch WHERE id > 1") :=
  table_name_has_no_effect example_people (cstr "t") (cstr "nosuch")
    (cstr "INSERT INTO t VALUES (3, 'Carol')") (cstr "INSERT INTO nosuch VALUES (3, 'Carol')")
    (cstr "SELECT id, name FROM t WHERE id > 1")
    (cstr "SELECT id, name FROM nosuch WHERE id > 1")
    (cstr " VALUES (3, 'Carol')") (cstr "id, name ") (cstr " WHERE id > 1")
    (by decide) (by decide) (by decide) (by decide) (by decide) (by decide) (by decide)
    (by decide) (by decide) (by decide) (by decide) (by decide) (by decide) (by decide)

/-! ### `INSERT`s after `USE` and a fresh load -/

/-- What `load_table` gives depends on the files only: a successful `USE` keeps the
files, and from any session over the same files it gives the same state. -/
theorem load_table_same_files (st0 st : State) (table_name out : List Nat)
    (h : load_table st0 table_name = some (st, out, true)) :
    st.fs = st0.fs ∧
      ∀ session, load_table { fs := st0.fs, session := session } table_name =
        some (st, out, true) := by
  obtain ⟨fs, session0⟩ := st0
  unfold load_table at h ⊢
  simp only at h ⊢
  cases hopen : fopen_rb_plus fs (table_filename table_name) with
  | none => simp [hopen] at h
  | some file =>
    simp only [hopen] at h ⊢
    cases hheader : file.header with
    | none =>
      simp only [hheader] at h
      split_ifs at h
      simp at h
    | some header =>
      simp only [hheader] at h ⊢
      cases hloop : load_table_loop (file.data.length + 1) header file.data sizeof_Table with
      | none => simp [hloop] at h
      | some table =>
        simp only [hloop, Option.some.injEq, Prod.mk.injEq, and_true] at h ⊢
        obtain ⟨hst, hout⟩ := h
        subst hst
        exact ⟨rfl, fun _ => ⟨rfl, hout⟩⟩

/-- C16 (amended): for a table file with a header within the bounds of the engine, a
positive record size and no trailing partial record, and the session that a successful
`USE` of the table gives: every sequence of `INSERT`s on the session returns, each
`INSERT` appends its record at the end of the file as it is then and leaves the other
files alone, and `load_table` on the resulting file, from any session, gives exactly
the session that the `INSERT`s left, the index trees included. -/
theorem insert_agrees_with_load (st0 st : State) (table_name out : List Nat) (header : Table)
    (data : List Nat) (n : Nat) (vs : List (List Nat))
    (hfile : st0.fs.files (table_filename table_name) =
      some { header := some header, data := data })
    (hwf : header.wellFormed = true)
    (hpos : 0 < header.record_size)
    (hn : data.length = n * header.record_size.toNat)
    (huse : load_table st0 table_name = some (st, out, true)) :
    ∃ st2, insert_all st vs = some st2 ∧
      st2.fs.files (table_filename table_name) =
        some { header := some header,
               data := data ++ (vs.map fun values =>
                 (build_record header.fields values).take header.record_size.toNat).flatten } ∧
      (∀ filename, filename ≠ table_filename table_name →
        st2.fs.files filename = st0.fs.files filename) ∧
      ∀ session, load_table { fs := st2.fs, session := session } table_name =
        some (st2, out, true) := by
  obtain ⟨hfs, hload⟩ := load_table_same_files st0 st table_name out huse
  have hsession : load_table st table_name = some (st, out, true) := by
    have := hload st.session
    rw [← hfs] at this
    exact this
  rw [← hfs] at hfile
  have key : ∀ (vs : List (List Nat)) (st : State) (data : List Nat) (n : Nat),
      st.fs.files (table_filename table_name) = some { header := some header, data := data } →
      data.length = n * header.record_size.toNat →
      load_table st table_name = some (st, out, true) →
      ∃ st2, insert_all st vs = some st2 ∧
        st2.fs.files (table_filename table_name) =
          some { header := some header,
                 data := data ++ (vs.map fun values =>
                   (build_record header.fields values).take
                     header.record_size.toNat).flatten } ∧
        (∀ filename, filename ≠ table_filename table_name →
          st2.fs.files filename = st.fs.files filename) ∧
        ∀ session, load_table { fs := st2.fs, session := session } table_name =
          some (st2, out, true) := by
    intro vs
    induction vs with
    | nil =>
      intro st data n hfile _ hsession
      refine ⟨st, rfl, by simpa using hfile, fun _ _ => rfl, ?_⟩
      exact (load_table_same_files st st table_name out hsession).2
    | cons values rest ih =>
      intro st data n hfile hn hsession
      obtain ⟨st1, hins, hfile1, hlen1, hother1, hload1⟩ :=
        insert_agrees_with_load_step st table_name out header data values n hfile hwf hpos hn
          hsession
      obtain ⟨st2, hall, hfile2, hother2, hload2⟩ := ih st1 _ (n + 1) hfile1
        (by rw [List.length_append, hlen1, hn]; ring) (hload1 st1.session)
      refine ⟨st2, ?_, ?_, ?_, hload2⟩
      · simp only [insert_all, hins]
        exact hall
      · rw [hfile2]
        simp only [List.map_cons, List.flatten_cons, List.append_assoc]
      · intro filename hne
        rw [hother2 filename hne, hother1 filename hne]
  obtain ⟨st2, h1, h2, h3, h4⟩ := key vs st data n hfile hn hsession
  exact ⟨st2, h1, h2, fun filename hne => by rw [h3 filename hne, hfs], h4⟩

set_option maxRecDepth 100000 in
theorem insert_agrees_with_load_witness :
    ∃ st2, insert_all example_state [cstr "8", cstr "9"] = some st2 ∧
      st2.fs.files (table_filename (cstr "t")) =
        some { header := some example_table,
               data := [7, 0, 0, 0] ++ ([cstr "8", cstr "9"].map fun values =>
                 (build_record example_table.fields values).take
                   example_table.record_size.toNat).flatten } ∧
      (∀ filename, filename ≠ table_filename (cstr "t") →
        st2.fs.files filename = example_fs.files filename) ∧
      ∀ session, load_table { fs := st2.fs, session := session } (cstr "t") =
        some (st2, cstr "Table 't' loaded with indexes\n", true) :=
  insert_agrees_with_load { fs := example_fs, session := Session.initial } example_state
    (cstr "t") _ example_table [7, 0, 0, 0] 1 [cstr "8", cstr "9"]
    (by decide) (by decide) (by decide) (by decide) rfl

end ODQ
